import Mathlib

/-!
Ant colony router: path enumeration, selection, assignment and simulation.

Shallow embedding of the Go packages `models` and `antfarm`.

Conventions of the embedding.

* A `*models.Room` is an index into the room arena `rooms : List Room`; an index beyond the
  arena reads as a room without connections. Room references stored in `Connected`, in a
  path and in `Ant.Path` are never nil.
* A `*models.Ant` is `Option Nat`: `none` is the nil pointer, `some a` the address `a` of
  the ant store `Nat → Ant`.
* `AntFarm.Start` and `AntFarm.End` are `Option Nat`, `none` being nil. The routing core is
  embedded for farms whose `Start` and `End` are both set (`validate` rejects the others
  before the core runs); on the other farms `findAllPaths` and its callers yield `none`.
* Go maps that are only read by key (`visited`, `occupiedRooms`) are total functions that
  return the zero value on absent keys; the map returned by `assignAntsToPath` is an
  association list with one entry per key, because its length and its key set are observed.
* Go `int` is `Int`; the only machine constant involved is the largest `int`, `maxInt`.
* Recursion and the turn loop take a fuel argument; `none` means the fuel ran out.
* The turns of the simulator are observed through `passes`, the list of the store each turn
  began with and the turn state it ended with; `LoadedFarm` states what `ParseInput` and
  `initializeAnts` guarantee of a farm (flags that agree with `Start` and `End`, distinct
  non-nil ants).
* The loader works on a `Loader`, the farm together with the arena of the rooms allocated
  so far. The library routines it calls (`strconv.Atoi`, `strings.Fields`, `strings.Split`,
  `strings.Contains`, `strings.HasPrefix`) are the fields of a parameter `TextLib`;
  `fixtureText` is their reading on decimal numbers, white space and one-character
  patterns, used to evaluate inputs and where a statement is about the text of a line.
* The scanner `bufio.Scanner` of the loader is the structure `Scanner`: the lines the reader
  still supplies, the error with which the reader ends, and the error the scanner has
  stored. `Scan` delivers a line without its carriage return and refuses a line of
  `maxScanTokenSize` bytes or more.
* The statements about the routing core hold for every sort routine that meets the contract
  `SliceSorter`. The routine `sort.Slice` of the Go library (package `sort` since Go 1.19,
  pattern-defeating quicksort) is embedded as `Slice`, with the numbers its generator draws
  as a parameter; it meets the contract for all of them.
-/

namespace Antfarm

/-- Room of `models.Room`. -/
structure Room where
  Name : String
  X : Int
  Y : Int
  IsStart : Bool
  IsEnd : Bool
  Connected : List Nat

instance : Inhabited Room := ⟨⟨"", 0, 0, false, false, []⟩⟩

/-- Path of `models.Path`. -/
structure Path where
  Rooms : List Nat
  Length : Int
  InUse : Bool
deriving DecidableEq

instance : Inhabited Path := ⟨⟨[], 0, false⟩⟩

/-- Ant of `models.Ant`. -/
structure Ant where
  Id : Int
  CurrentRoom : Option Nat
  Path : List Nat
  PathIndex : Int
  HasReached : Bool

/-- AntFarm of `antFarnModel.go`; `Rooms` is the name-to-room map. -/
structure AntFarm where
  NumAnts : Int
  Ants : List (Option Nat)
  Rooms : List (String × Nat)
  Start : Option Nat
  End : Option Nat

/-- Dereference of a room pointer. -/
def roomAt (rooms : List Room) (p : Nat) : Room := rooms.getD p default

/-- Assignment `visited[r] = b` on the visited map. -/
def setVisited (visited : Nat → Bool) (r : Nat) (b : Bool) : Nat → Bool :=
  fun k => if k = r then b else visited k

/-- The recursive search `dfs` of `deepSearch.go`. The visited map and the slice of found
paths are shared mutable state in Go, so both are threaded through and returned; the path
buffer is passed down (every `append` result is a fresh local slice header). -/
def dfs (rooms : List Room) :
    Nat → Nat → Nat → (Nat → Bool) → List Nat → List Path → Option ((Nat → Bool) × List Path)
  | 0, _, _, _, _, _ => none
  | fuel + 1, current, finish, visited, path, paths =>
    let visited := setVisited visited current true
    let path := path ++ [current]
    if current = finish then
      some (setVisited visited current false,
        paths ++ [{ Rooms := path, Length := (path.length : Int) - 1, InUse := false }])
    else
      match (roomAt rooms current).Connected.foldlM
          (fun (st : (Nat → Bool) × List Path) next =>
            if !st.1 next then dfs rooms fuel next finish st.1 path st.2 else some st)
          (visited, paths) with
      | none => none
      | some (visited, paths) => some (setVisited visited current false, paths)

/-- The record `dfs` appends for a room sequence. -/
def recordPath (rs : List Nat) : Path :=
  { Rooms := rs, Length := (rs.length : Int) - 1, InUse := false }

/-- Room sequences from `current` to `finish` in the order `dfs` records them; the proof
device that `dfs_eq_walks` ties to `dfs`. -/
def walks (rooms : List Room) : Nat → Nat → Nat → (Nat → Bool) → List (List Nat)
  | 0, _, _, _ => []
  | fuel + 1, current, finish, visited =>
    if current = finish then [[current]]
    else
      ((roomAt rooms current).Connected.filter
          (fun next => !(setVisited visited current true) next)).flatMap
        (fun next => (walks rooms fuel next finish (setVisited visited current true)).map
          (fun q => current :: q))

/-- Number of arena rooms not marked visited: the quantity that bounds the recursion. -/
def unvisited (rooms : List Room) (visited : Nat → Bool) : Nat :=
  ((List.range rooms.length).filter (fun r => !visited r)).length

/-- Room `b` is in the `Connected` list of room `a`. -/
def adjacent (rooms : List Room) (a b : Nat) : Prop := b ∈ (roomAt rooms a).Connected

instance (rooms : List Room) : DecidableRel (adjacent rooms) :=
  fun a b => inferInstanceAs (Decidable (b ∈ (roomAt rooms a).Connected))

/-- A simple path from `start` to `finish`: distinct rooms, each in the `Connected` list of
its predecessor, last room `finish`. -/
def IsSimplePath (rooms : List Room) (start finish : Nat) (q : List Nat) : Prop :=
  q.head? = some start ∧ q.getLast? = some finish ∧ q.Chain' (adjacent rooms) ∧ q.Nodup

instance (rooms : List Room) (start finish : Nat) (q : List Nat) :
    Decidable (IsSimplePath rooms start finish q) :=
  inferInstanceAs (Decidable
    (q.head? = some start ∧ q.getLast? = some finish ∧ q.Chain' (adjacent rooms) ∧ q.Nodup))

/-- Names of the rooms at positions `1 .. len-2` of a path, the loop
`for i := 1; i < len(path.Rooms)-1; i++` of `pathsOverlap`. -/
def middleNames (rooms : List Room) (p : Path) : List String :=
  (List.range' 1 (p.Rooms.length - 2)).map (fun i => (roomAt rooms (p.Rooms.getD i 0)).Name)

/-- The closure `pathsOverlap` of `filterNonOverlappingPaths`. -/
def pathsOverlap (rooms : List Room) (path1 path2 : Path) : Bool :=
  (middleNames rooms path2).any (fun nm => decide (nm ∈ middleNames rooms path1))

/-- The closure `isCompatible` of `findBestCombination`. -/
def isCompatible (rooms : List Room) (path : Path) (combination : List Path) : Bool :=
  combination.all (fun existingPath => !pathsOverlap rooms path existingPath)

/-- Inner loop of `findBestCombination`: the combination grown from the seed
`paths[startIdx]`. -/
def growCombination (rooms : List Room) (paths : List Path) (startIdx : Nat) (seed : Path) :
    List Path :=
  paths.enum.foldl
    (fun currentCombination (ip : Nat × Path) =>
      if ip.1 = startIdx then currentCombination
      else if isCompatible rooms ip.2 currentCombination then currentCombination ++ [ip.2]
      else currentCombination)
    [seed]

/-- The closure `findBestCombination`; the loop state is `(bestCombination, maxPaths)`. -/
def findBestCombination (rooms : List Room) (paths : List Path) : List Path :=
  match paths with
  | [] => []
  | first :: _ =>
    (paths.enum.foldl
      (fun (best : List Path × Nat) (sp : Nat × Path) =>
        let currentCombination := growCombination rooms paths sp.1 sp.2
        if currentCombination.length > best.2 then
          (currentCombination, currentCombination.length)
        else best)
      ([first], 1)).1

/-- The method `filterNonOverlappingPaths` of `path.go`. -/
def filterNonOverlappingPaths (rooms : List Room) (paths : List Path) : List Path :=
  findBestCombination rooms paths

/-- Interior rooms of a path in the words of the specification: the names of the rooms
that are neither its first nor its last room. -/
def interiorNames (rooms : List Room) (p : Path) : List String :=
  (p.Rooms.tail.dropLast).map (fun r => (roomAt rooms r).Name)

/-- Scan of the seed-greedy reference: walk the given indices in order and append each path
whose interior rooms meet the interior rooms of no path already taken. -/
def candScan (rooms : List Room) (paths : List Path) : List Nat → List Path → List Path
  | [], acc => acc
  | i :: rest, acc =>
    if ∀ q ∈ acc, ∀ nm ∈ interiorNames rooms (paths.getD i default),
        nm ∉ interiorNames rooms q then
      candScan rooms paths rest (acc ++ [paths.getD i default])
    else candScan rooms paths rest acc

/-- The candidate `cand(s)` of the seed-greedy reference: seed `paths[s]`, then every other
index in ascending order. -/
def cand (rooms : List Room) (paths : List Path) (s : Nat) : List Path :=
  candScan rooms paths ((List.range paths.length).filter (fun i => i ≠ s))
    [paths.getD s default]

/-- Contract of the library routine `sort.Slice` as `findAllPaths` calls it, with the
comparison `paths[i].Length < paths[j].Length`: the slice is rearranged into ascending
order. The library leaves the order of equal elements open, so the routine is a parameter
of the embedding of the core; the routine of the Go library itself is `Slice`. -/
structure SliceSorter where
  sort : List Path → List Path
  perm : ∀ l, (sort l).Perm l
  sorted : ∀ l, (sort l).Pairwise (fun a b => a.Length ≤ b.Length)

/-- The method `findAllPaths` of `path.go`; `dfs` gets one unit of fuel more than the arena
has rooms, which `dfs_eq_walks` shows to be enough. -/
def findAllPaths (S : SliceSorter) (rooms : List Room) (af : AntFarm) : Option (List Path) :=
  match af.Start, af.End with
  | some start, some finish =>
    match dfs rooms (rooms.length + 1) start finish (fun _ => false) [] [] with
    | some (_, paths) => some (filterNonOverlappingPaths rooms (S.sort paths))
    | none => none
  | _, _ => none

/-- Largest `int`, the value of `int(^uint(0) >> 1)` on a 64-bit platform. -/
def maxInt : Int := 2 ^ 63 - 1

/-- Assignment `m[k] = v` on the ant-to-path map. -/
def mapStore : List (Option Nat × Path) → Option Nat → Path → List (Option Nat × Path)
  | [], k, v => [(k, v)]
  | e :: m, k, v => if e.1 = k then (k, v) :: m else e :: mapStore m k v

/-- Lookup `m[k]` on the ant-to-path map, `none` when the key is absent. -/
def mapLookup : List (Option Nat × Path) → Option Nat → Option Path
  | [], _ => none
  | e :: m, k => if e.1 = k then some e.2 else mapLookup m k

/-- Inner loop of `assignAntsToPath` over the paths; the loop state is
`(bestTurns, bestPathIndex)`. -/
def pickPath (paths : List Path) (pathAnts : List Int) : Int × Nat :=
  paths.enum.foldl
    (fun (best : Int × Nat) (jp : Nat × Path) =>
      let antsOnPath := pathAnts.getD jp.1 0
      let totalTurns := jp.2.Length + antsOnPath
      if totalTurns < best.1 then (totalTurns, jp.1) else best)
    (maxInt, 0)

/-- Loop state of `assignAntsToPath`. -/
structure AssignState where
  antPaths : List (Option Nat × Path)
  pathAnts : List Int
  totalMoves : Int

/-- State of `assignAntsToPath` before the first ant. -/
def assignInit (paths : List Path) : AssignState :=
  { antPaths := [], pathAnts := List.replicate paths.length 0, totalMoves := 0 }

/-- One iteration of the outer loop of `assignAntsToPath`. -/
def assignOne (paths : List Path) (st : AssignState) (ant : Option Nat) : AssignState :=
  let best := pickPath paths st.pathAnts
  { antPaths := mapStore st.antPaths ant (paths.getD best.2 default)
    pathAnts := st.pathAnts.set best.2 (st.pathAnts.getD best.2 0 + 1)
    totalMoves := st.totalMoves + best.1 }

/-- The method `assignAntsToPath` of `path.go`; the inner `none` is the nil map. -/
def assignAntsToPath (S : SliceSorter) (rooms : List Room) (af : AntFarm) :
    Option (Option (List (Option Nat × Path))) :=
  match findAllPaths S rooms af with
  | none => none
  | some paths =>
    if paths.length = 0 then some none
    else some (some (af.Ants.foldl (assignOne paths) (assignInit paths)).antPaths)

/-- Index `bestPathIndex` that `assignAntsToPath` computes for the ant at position `i`. -/
def choice (paths : List Path) (ants : List (Option Nat)) (i : Nat) : Nat :=
  (pickPath paths ((ants.take i).foldl (assignOne paths) (assignInit paths)).pathAnts).2

/-- Number of ants at positions before `i` that were given the path of index `k`. -/
def earlierOn (paths : List Path) (ants : List (Option Nat)) (i k : Nat) : Nat :=
  ((List.range i).filter (fun t => choice paths ants t = k)).length

/-- Assignment `heap[a] = v` on the ant store. -/
def setAnt (ants : Nat → Ant) (a : Nat) (v : Ant) : Nat → Ant :=
  fun k => if k = a then v else ants k

/-- Assignment `occupiedRooms[r] = v`. -/
def setOccupied (occupied : Nat → Option Nat) (r : Nat) (v : Option Nat) : Nat → Option Nat :=
  fun k => if k = r then v else occupied k

/-- The room is neither flagged start nor flagged end. -/
def isInterior (rooms : List Room) (r : Nat) : Bool :=
  !(roomAt rooms r).IsStart && !(roomAt rooms r).IsEnd

/-- How a run of the simulator stops short of a normal return. -/
inductive Fault where
  | err (msg : String)
  | crash

/-- Result of `SimulateMovement`: `ok` is the return `(transcript, nil)` together with the
ant store it leaves, `error` the return `(transcript, err)`, `crash` a run-time panic. -/
inductive SimResult where
  | ok (ants : Nat → Ant) (transcript : String)
  | error (transcript : String) (msg : String)
  | crash

/-- The loop `for ant := range antPaths` that initialises ant positions. It walks the
entries in list order; the entries have distinct keys and each iteration writes one ant,
so the order Go picks does not matter. A nil key or an empty path is a panic. -/
def initAnts (antPaths : List (Option Nat × Path)) (ants : Nat → Ant) : Option (Nat → Ant) :=
  antPaths.foldlM
    (fun (h : Nat → Ant) (e : Option Nat × Path) =>
      match e.1 with
      | none => none
      | some a =>
        match e.2.Rooms with
        | [] => none
        | first :: _ =>
          some (setAnt h a
            { h a with Path := e.2.Rooms, PathIndex := 0, CurrentRoom := some first,
                       HasReached := false }))
    ants

/-- State of one turn of `SimulateMovement`. -/
structure TurnState where
  ants : Nat → Ant
  occupied : Nat → Option Nat
  moves : List String
  allReached : Bool
  move : Int

/-- Element `l[i]` of a slice for an `int` index, `none` where Go panics. -/
def indexInt (l : List Nat) (i : Int) : Option Nat :=
  if 0 ≤ i then l.get? i.toNat else none

/-- Body of the loop `for _, ant := range af.Ants` of `SimulateMovement`. -/
def moveAnt (rooms : List Room) (st : TurnState) (antPtr : Option Nat) :
    Except Fault TurnState :=
  let st := { st with move := st.move + 1 }
  match antPtr with
  | none => .error (.err "ant is nil")
  | some a =>
    let ant := st.ants a
    if ant.Path.length = 0 then
      .error (.err ("ant " ++ toString ant.Id ++ " has no valid path"))
    else
      match ant.CurrentRoom with
      | none => .error (.err ("ant " ++ toString ant.Id ++ " has no current room set"))
      | some currentRoom =>
        if ant.HasReached then .ok { st with move := 0 }
        else if ant.Path.length = 2 ∧ st.move ≥ 2 then .ok st
        else
          let st := { st with allReached := false }
          if ant.PathIndex < (ant.Path.length : Int) - 1 then
            match indexInt ant.Path (ant.PathIndex + 1) with
            | none => .error .crash
            | some nextRoom =>
              if st.occupied nextRoom = none ∨ (roomAt rooms nextRoom).IsEnd then
                let occupied :=
                  if isInterior rooms currentRoom then setOccupied st.occupied currentRoom none
                  else st.occupied
                let occupied :=
                  if isInterior rooms nextRoom then setOccupied occupied nextRoom (some a)
                  else occupied
                let moved : Ant :=
                  { ant with CurrentRoom := some nextRoom, PathIndex := ant.PathIndex + 1,
                             HasReached := if (roomAt rooms nextRoom).IsEnd then true
                                           else ant.HasReached }
                .ok { st with ants := setAnt st.ants a moved, occupied := occupied,
                              moves := st.moves ++
                                ["L" ++ toString ant.Id ++ "-" ++ (roomAt rooms nextRoom).Name] }
              else .ok st
          else .ok st

/-- One pass of the outer `for` of `SimulateMovement`: the interior rooms are cleared, then
every ant is tried in slice order. Clearing the interior keys of the occupancy map is the
same, for every later lookup, as clearing all interior rooms. -/
def runTurn (rooms : List Room) (antList : List (Option Nat)) (ants : Nat → Ant)
    (occupied : Nat → Option Nat) : Except Fault TurnState :=
  antList.foldlM (moveAnt rooms)
    { ants := ants
      occupied := fun r => if isInterior rooms r then none else occupied r
      moves := []
      allReached := true
      move := 0 }

/-- The outer `for` of `SimulateMovement`, one unit of fuel per turn. -/
def turnLoop (rooms : List Room) (antList : List (Option Nat)) :
    Nat → (Nat → Ant) → (Nat → Option Nat) → String → Option SimResult
  | 0, _, _, _ => none
  | fuel + 1, ants, occupied, allMoves =>
    match runTurn rooms antList ants occupied with
    | .error (.err msg) => some (.error "" msg)
    | .error .crash => some .crash
    | .ok st =>
      let allMoves :=
        if st.moves.length > 0 then allMoves ++ (" ".intercalate st.moves ++ "\n") else allMoves
      if st.allReached then some (.ok st.ants allMoves)
      else turnLoop rooms antList fuel st.ants st.occupied allMoves

/-- The method `SimulateMovement` of `simulateMovement.go`; `fuel` bounds the number of
turns and is not consumed by the two checks made before the loop. -/
def SimulateMovement (S : SliceSorter) (fuel : Nat) (rooms : List Room) (ants : Nat → Ant)
    (af : AntFarm) : Option SimResult :=
  match assignAntsToPath S rooms af with
  | none => none
  | some none => some (.error "" "ERROR: no valid path found between start and end")
  | some (some antPaths) =>
    if af.Ants.length = 0 then some (.error "" "no ants available")
    else
      match initAnts antPaths ants with
      | none => some .crash
      | some ants => turnLoop rooms af.Ants fuel ants (fun _ => none) ""

/-- Room without flags, as the helper `createRooms` of `deepSearch_test.go` builds it. -/
def plainRoom (name : String) (connected : List Nat) : Room :=
  ⟨name, 0, 0, false, false, connected⟩

/-- Fixture "Single path" of `TestAntFarm_dfs`: start 0, middle 1, end 2. -/
def fixtureSingle : List Room :=
  [plainRoom "start" [1], plainRoom "middle" [2], plainRoom "end" []]

/-- Fixture "Multiple paths" of `TestAntFarm_dfs`: start 0, a 1, b 2, end 3. -/
def fixtureMultiple : List Room :=
  [plainRoom "start" [1, 2], plainRoom "a" [3], plainRoom "b" [3], plainRoom "end" []]

/-- Fixture "Cycle in graph" of `TestAntFarm_dfs`: start 0, a 1, b 2, end 3. -/
def fixtureCycle : List Room :=
  [plainRoom "start" [1], plainRoom "a" [2, 3], plainRoom "b" [1, 3], plainRoom "end" []]

/-- Fixture "No path" of `TestAntFarm_dfs`: start 0, a 1, b 2, end 3. -/
def fixtureNoPath : List Room :=
  [plainRoom "start" [1], plainRoom "a" [], plainRoom "b" [3], plainRoom "end" []]

/-- Fixture "Complex graph" of `TestAntFarm_dfs`: start 0, a 1, b 2, c 3, d 4, end 5. -/
def fixtureComplex : List Room :=
  [plainRoom "start" [1, 2], plainRoom "a" [3, 4], plainRoom "b" [3, 4], plainRoom "c" [5],
   plainRoom "d" [5], plainRoom "end" []]

/-- Number of paths `dfs` collects from `start` to `finish` with an empty visited map, an
empty path buffer and an empty result slice. -/
def dfsCount (rooms : List Room) (fuel start finish : Nat) : Option Nat :=
  (dfs rooms fuel start finish (fun _ => false) [] []).map (fun r => r.2.length)

/-- Room with flags, as the helper `createRoom` of `simulateMovement_test.go` builds it. -/
def flaggedRoom (name : String) (isStart isEnd : Bool) (connected : List Nat) : Room :=
  ⟨name, 0, 0, isStart, isEnd, connected⟩

/-- Insertion sort by `Length`: a sorter that meets the contract and keeps equal elements in
their order, used to evaluate the fixtures. -/
def insertionSorter : SliceSorter where
  sort := fun l => l.insertionSort (fun a b => a.Length ≤ b.Length)
  perm := fun l => List.perm_insertionSort _ l
  sorted := fun l =>
    @List.sorted_insertionSort Path (fun a b => a.Length ≤ b.Length) _
      ⟨fun a b => le_total a.Length b.Length⟩ ⟨fun _ _ _ h1 h2 => le_trans h1 h2⟩ l

/-- Ant store of the tests: the ant at address `k` has id `k + 1` and no room or path. -/
def freshAnts : Nat → Ant := fun k => ⟨(k : Int) + 1, none, [], 0, false⟩

/-- Rooms of the test "Multiple ants with one path": start 0, mid 1, end 2. -/
def roomsOnePath : List Room :=
  [flaggedRoom "start" true false [1], flaggedRoom "mid" false false [0, 2],
   flaggedRoom "end" false true [1]]

/-- Farm of the test "Multiple ants with one path": three ants. -/
def farmOnePath : AntFarm := ⟨3, [some 0, some 1, some 2], [], some 0, some 2⟩

/-- Rooms of the test "Complex path with multiple routes": start 0, mid1 1, mid2 2, end 3. -/
def roomsTwoRoutes : List Room :=
  [flaggedRoom "start" true false [1, 2], flaggedRoom "mid1" false false [0, 3],
   flaggedRoom "mid2" false false [0, 3], flaggedRoom "end" false true [1, 2]]

/-- Farm of the test "Complex path with multiple routes": two ants. -/
def farmTwoRoutes : AntFarm := ⟨2, [some 0, some 1], [], some 0, some 3⟩

/-- The two routes of `roomsTwoRoutes` as `dfs` records them. -/
def twoRoutePaths : List Path := [recordPath [0, 1, 3], recordPath [0, 2, 3]]

/-- The quantity `totalTurns` that `assignAntsToPath` computes for the path of index `k`
when it places the ant at position `i`: the path's `Length` plus the number of earlier
ants given that path. -/
def turnsOn (paths : List Path) (ants : List (Option Nat)) (i k : Nat) : Int :=
  (paths.getD k default).Length + (earlierOn paths ants i k : Int)

/-- The ant at address `a` has a non-empty path and a current room: the two facts the
turn loop checks before it moves an ant. -/
def antReady (ants : Nat → Ant) (a : Nat) : Prop :=
  (ants a).Path.length ≠ 0 ∧ (ants a).CurrentRoom ≠ none

instance (ants : Nat → Ant) (a : Nat) : Decidable (antReady ants a) :=
  inferInstanceAs (Decidable ((ants a).Path.length ≠ 0 ∧ (ants a).CurrentRoom ≠ none))

/-- The record a move appends to the line of its turn,
`fmt.Sprintf("L%d-%s", ant.Id, nextRoom.Name)`. -/
def moveRecord (id : Int) (roomName : String) : String :=
  "L" ++ toString id ++ "-" ++ roomName

/-- The transcript of a run that returned `(transcript, nil)`; `none` for every other
outcome. -/
def okTranscript : Option SimResult → Option String
  | some (.ok _ t) => some t
  | _ => none

/-- The ant store with which the turn loop of `SimulateMovement` starts: the store the
initialisation loop leaves, when both checks before it pass. -/
def simStart (S : SliceSorter) (rooms : List Room) (ants : Nat → Ant) (af : AntFarm) :
    Option (Nat → Ant) :=
  match assignAntsToPath S rooms af with
  | some (some antPaths) => if af.Ants.length = 0 then none else initAnts antPaths ants
  | _ => none

/-- Rooms of the test "Single ant with direct path": start 0, end 1. -/
def roomsDirect : List Room :=
  [flaggedRoom "start" true false [1], flaggedRoom "end" false true [0]]

/-- Farm of the test "Single ant with direct path": one ant. -/
def farmDirect : AntFarm := ⟨1, [some 0], [], some 0, some 1⟩

/-- The rooms of `roomsDirect` with two ants. -/
def farmDirectTwo : AntFarm := ⟨2, [some 0, some 1], [], some 0, some 1⟩

/-- Rooms of the test "No path between start and end": start 0, end 1, not connected. -/
def roomsApart : List Room :=
  [flaggedRoom "start" true false [], flaggedRoom "end" false true []]

/-- Farm of the test "No path between start and end": two ants. -/
def farmApart : AntFarm := ⟨2, [some 0, some 1], [], some 0, some 1⟩

/-- Farm of the test "Edge case: No ants", over `roomsDirect`: the slice of ants is
empty. -/
def farmNoAnts : AntFarm := ⟨0, [], [], some 0, some 1⟩

/-- State in which the first turn on `roomsDirect` begins: every ant stands in the start
room with the path start-end, no room is marked and no record is written. -/
def directTurnStart : TurnState :=
  { ants := fun k => ⟨(k : Int) + 1, some 0, [0, 1], 0, false⟩
    occupied := fun _ => none
    moves := []
    allReached := true
    move := 0 }

/-- The passes the outer `for` of `SimulateMovement` makes, each as the pair of the ant
store it began with and the turn state it ended with. The recursion is that of
`turnLoop`: a pass that ends with `allReached` is the last one. -/
def passes (rooms : List Room) (antList : List (Option Nat)) :
    Nat → (Nat → Ant) → (Nat → Option Nat) → List ((Nat → Ant) × TurnState)
  | 0, _, _ => []
  | fuel + 1, ants, occupied =>
    match runTurn rooms antList ants occupied with
    | .ok st =>
      (ants, st) ::
        (if st.allReached then [] else passes rooms antList fuel st.ants st.occupied)
    | .error _ => []

/-- What a pass appends to `allMoves`: its records joined by spaces and a newline when it
wrote a record, nothing otherwise. -/
def passLine (st : TurnState) : String :=
  if st.moves.length > 0 then " ".intercalate st.moves ++ "\n" else ""

/-- The lines of a sequence of passes, one after the other. -/
def transcriptOf : List ((Nat → Ant) × TurnState) → String
  | [] => ""
  | p :: ps => passLine p.2 ++ transcriptOf ps

/-- The state `moveAnt` returns when the ant at address `a`, standing in `cur`, moves
into `nr`. -/
def advanceState (rooms : List Room) (st : TurnState) (a cur nr : Nat) : TurnState :=
  { ants := setAnt st.ants a
      { st.ants a with
        CurrentRoom := some nr, PathIndex := (st.ants a).PathIndex + 1,
        HasReached := if (roomAt rooms nr).IsEnd then true else (st.ants a).HasReached }
    occupied :=
      if isInterior rooms nr then
        setOccupied (if isInterior rooms cur then setOccupied st.occupied cur none
          else st.occupied) nr (some a)
      else (if isInterior rooms cur then setOccupied st.occupied cur none
          else st.occupied)
    moves := st.moves ++ [moveRecord (st.ants a).Id (roomAt rooms nr).Name]
    allReached := false
    move := st.move + 1 }

/-- Ant record `y` is ant record `x` after one move: `x` had not arrived, and `y` stands
in the next room of the path with `PathIndex` one higher, arrived when that room is
flagged end. -/
def Advanced (rooms : List Room) (x y : Ant) : Prop :=
  ∃ nr, indexInt x.Path (x.PathIndex + 1) = some nr ∧ x.HasReached = false ∧
    x.PathIndex < (x.Path.length : Int) - 1 ∧
    y = { x with
          CurrentRoom := some nr, PathIndex := x.PathIndex + 1,
          HasReached := if (roomAt rooms nr).IsEnd then true else x.HasReached }

/-- The per-ant state machine invariant: `PathIndex` is an index of `Path`, `CurrentRoom`
is the room at that index, the ant has arrived exactly at the last index, and among the
rooms after the first the flag `IsEnd` marks the last room only. -/
def OnTrack (rooms : List Room) (x : Ant) : Prop :=
  0 ≤ x.PathIndex ∧ x.PathIndex ≤ (x.Path.length : Int) - 1 ∧
  x.CurrentRoom = indexInt x.Path x.PathIndex ∧
  (x.HasReached = true ↔ x.PathIndex = (x.Path.length : Int) - 1) ∧
  (∀ (j r : Nat), 1 ≤ j → x.Path[j]? = some r →
    ((roomAt rooms r).IsEnd = true ↔ j + 1 = x.Path.length))

/-- Addresses of the ants whose `PathIndex` differs between two stores, in slice order. -/
def movers (antList : List (Option Nat)) (before after : Nat → Ant) : List Nat :=
  (antList.filterMap id).filter
    (fun a => decide ((after a).PathIndex ≠ (before a).PathIndex))

/-- The move record of the ant at address `a` for the room it stands in. -/
def recordFor (rooms : List Room) (after : Nat → Ant) (a : Nat) : String :=
  moveRecord (after a).Id
    (match (after a).CurrentRoom with
      | some r => (roomAt rooms r).Name
      | none => "")

/-- Number of moves an ant still has to make to reach the last room of its path. -/
def remaining (x : Ant) : Nat := ((x.Path.length : Int) - 1 - x.PathIndex).toNat

/-- State of a pass after the ants of `pre`, a prefix of the slice, have been visited,
when the pass began with the store `ants0`. -/
structure MidTurn (rooms : List Room) (ants0 : Nat → Ant) (pre : List (Option Nat))
    (st : TurnState) : Prop where
  untouched : ∀ x, some x ∉ pre → st.ants x = ants0 x
  stepped : ∀ x, some x ∈ pre → st.ants x = ants0 x ∨ Advanced rooms (ants0 x) (st.ants x)
  records : st.moves = (movers pre ants0 st.ants).map (recordFor rooms st.ants)
  quiet : st.allReached = true →
    st.move = 0 ∧ st.occupied = (fun _ => none) ∧
      ∀ x, some x ∈ pre → (ants0 x).HasReached = true
  first : st.allReached = false →
    ∃ p1 x p2, pre = p1 ++ some x :: p2 ∧ (∀ y, some y ∈ p1 → (ants0 y).HasReached = true) ∧
      (ants0 x).HasReached = false ∧ Advanced rooms (ants0 x) (st.ants x)
  marks : ∀ r, st.occupied r ≠ none → isInterior rooms r = true

/-- The ant at address `a` changed its `PathIndex` in the pass. -/
def movedIn (a : Nat) (pass : (Nat → Ant) × TurnState) : Bool :=
  decide ((pass.2.ants a).PathIndex ≠ (pass.1 a).PathIndex)

/-- Moves the ants of the slice still have to make, all ants together. -/
def remainingAll (antList : List (Option Nat)) (ants : Nat → Ant) : Nat :=
  ((antList.filterMap id).map (fun a => remaining (ants a))).sum

/-- The data model of a farm as the loader leaves it: `Start` and `End` are set and are
the rooms flagged `IsStart` and `IsEnd`, and `Ants` holds non-nil ants, each once. -/
structure LoadedFarm (rooms : List Room) (af : AntFarm) (start finish : Nat) : Prop where
  start_set : af.Start = some start
  end_set : af.End = some finish
  start_flag : ∀ r, (roomAt rooms r).IsStart = true ↔ r = start
  end_flag : ∀ r, (roomAt rooms r).IsEnd = true ↔ r = finish
  ants_set : ∀ p ∈ af.Ants, p ≠ none
  ants_once : af.Ants.Nodup

/-- The `Length` of the path the map of `assignAntsToPath` holds for the ant at address
`a`. -/
def assignedLength (m : List (Option Nat × Path)) (a : Nat) : Int :=
  match mapLookup m (some a) with
  | some p => p.Length
  | none => 0

/-- Sum over the ants of the slice of the `Length` of the assigned path. -/
def totalLength (m : List (Option Nat × Path)) (antList : List (Option Nat)) : Int :=
  ((antList.filterMap id).map (assignedLength m)).sum

/-- The state-machine facts of one ant record: `PathIndex` is an index of `Path`,
`CurrentRoom` is `Path[PathIndex]`, and `HasReached` holds exactly at the last index. -/
def InStateMachine (x : Ant) : Prop :=
  0 ≤ x.PathIndex ∧ x.PathIndex ≤ (x.Path.length : Int) - 1 ∧
  x.CurrentRoom = indexInt x.Path x.PathIndex ∧
  (x.HasReached = true ↔ x.PathIndex = (x.Path.length : Int) - 1)

/-- The record lists of the passes that wrote a record: the lines of the transcript, each
as its list of tokens. -/
def linesOf (ps : List ((Nat → Ant) × TurnState)) : List (List String) :=
  (ps.map (fun p => p.2.moves)).filter (fun l => decide (l.length > 0))

/-- The text of a list of lines: the tokens of a line joined by single spaces, a newline
after every line. -/
def renderLines : List (List String) → String
  | [] => ""
  | l :: ls => (" ".intercalate l ++ "\n") ++ renderLines ls

/-- Number of passes in which the ant at address `a` is among the movers, which is the
number of lines holding a record of that ant. -/
def recordCount (antList : List (Option Nat)) (a : Nat)
    (ps : List ((Nat → Ant) × TurnState)) : Nat :=
  (ps.filter (fun p => decide (a ∈ movers antList p.1 p.2.ants))).length

/-- What holds of a pass after the ants of `pre` have been visited, whatever the ants
were at its start: the other ants are as they were, a visited ant is as it was or one move
further, and the records are those of the ants that moved. -/
structure Stepping (rooms : List Room) (ants0 : Nat → Ant) (pre : List (Option Nat))
    (st : TurnState) : Prop where
  untouched : ∀ x, some x ∉ pre → st.ants x = ants0 x
  stepped : ∀ x, some x ∈ pre → st.ants x = ants0 x ∨ Advanced rooms (ants0 x) (st.ants x)
  records : st.moves = (movers pre ants0 st.ants).map (recordFor rooms st.ants)
  present : ∀ p ∈ pre, p ≠ none

/-- The paths the ants of the slice carry in a loaded farm whose start and end rooms
differ: each runs from the start room to the end room without repeating a room, and two
different paths share no room other than their first and last. -/
structure Routed (rooms : List Room) (start finish : Nat) (antList : List (Option Nat))
    (ants : Nat → Ant) : Prop where
  start_flag : ∀ r, (roomAt rooms r).IsStart = true ↔ r = start
  end_flag : ∀ r, (roomAt rooms r).IsEnd = true ↔ r = finish
  ends_differ : start ≠ finish
  head : ∀ a, some a ∈ antList → (ants a).Path.head? = some start
  last : ∀ a, some a ∈ antList → (ants a).Path.getLast? = some finish
  simple : ∀ a, some a ∈ antList → (ants a).Path.Nodup
  apart : ∀ a b, some a ∈ antList → some b ∈ antList → (ants a).Path ≠ (ants b).Path →
    ∀ (i j r : Nat), 1 ≤ i → i + 1 < (ants a).Path.length → (ants a).Path[i]? = some r →
      1 ≤ j → j + 1 < (ants b).Path.length → (ants b).Path[j]? = some r → False

/-- Ant `x` is not behind ant `y` when both walk the same path of three rooms or more, and
the two stand at the same index only in the first or the last room. -/
def Ahead (x y : Ant) : Prop :=
  x.Path = y.Path → 3 ≤ x.Path.length →
    y.PathIndex ≤ x.PathIndex ∧
      (x.PathIndex = y.PathIndex →
        x.PathIndex = 0 ∨ x.PathIndex = (x.Path.length : Int) - 1)

/-- Along the slice, an earlier ant is ahead of every later ant of its path. -/
def InLine (antList : List (Option Nat)) (ants : Nat → Ant) : Prop :=
  antList.Pairwise (fun p q => ∀ a b, p = some a → q = some b → Ahead (ants a) (ants b))

/-- Occupancy facts of a pass after the ants of `pre` have been visited: a mark names an
ant that moved into the room in this pass, the room an ant moved into stays marked, an ant
past its first room has moved, an ant that stayed in its first room found the second room
marked, and the visited ants are in line. -/
structure MidLine (rooms : List Room) (ants0 : Nat → Ant) (pre : List (Option Nat))
    (st : TurnState) : Prop where
  marked : ∀ r c, st.occupied r = some c →
    some c ∈ pre ∧ Advanced rooms (ants0 c) (st.ants c) ∧ (st.ants c).CurrentRoom = some r
  kept : ∀ c r, some c ∈ pre → Advanced rooms (ants0 c) (st.ants c) →
    (st.ants c).CurrentRoom = some r → isInterior rooms r = true → st.occupied r ≠ none
  moved : ∀ c, some c ∈ pre → (ants0 c).HasReached = false → 1 ≤ (ants0 c).PathIndex →
    Advanced rooms (ants0 c) (st.ants c)
  blocked : ∀ c, some c ∈ pre → (ants0 c).HasReached = false → st.ants c = ants0 c →
    3 ≤ (ants0 c).Path.length →
    (ants0 c).PathIndex = 0 ∧ ∃ nr, (ants0 c).Path[1]? = some nr ∧ st.occupied nr ≠ none
  ordered : InLine pre st.ants

/-- Arena of ten rooms with a short route, a cross route and two long routes: start 0, a 1,
b 2, g 3, c1 4, c2 5, d 6, f1 7, f2 8, end 9. The `Connected` lists are in the order the
links `start-a, a-end, start-b, g-end, b-g, b-c1, c1-c2, c2-end, start-d, d-f1, f1-f2,
f2-g` append them. -/
def roomsDetour : List Room :=
  [flaggedRoom "start" true false [1, 2, 6], flaggedRoom "a" false false [0, 9],
   flaggedRoom "b" false false [0, 3, 4], flaggedRoom "g" false false [9, 2, 8],
   flaggedRoom "c1" false false [2, 5], flaggedRoom "c2" false false [4, 9],
   flaggedRoom "d" false false [0, 7], flaggedRoom "f1" false false [6, 8],
   flaggedRoom "f2" false false [7, 3], flaggedRoom "end" false true [1, 3, 5]]

/-- Farm over `roomsDetour` with one ant. -/
def farmDetour : AntFarm := ⟨1, [some 0], [], some 0, some 9⟩

/-- The five simple routes of `roomsDetour` in the order `dfs` records them, which is the
order of their lengths 2, 3, 4, 5 and 8. -/
def detourPaths : List Path :=
  [recordPath [0, 1, 9], recordPath [0, 2, 3, 9], recordPath [0, 2, 4, 5, 9],
   recordPath [0, 6, 7, 8, 3, 9], recordPath [0, 6, 7, 8, 3, 2, 4, 5, 9]]

/-- The common rooms of `TestAntFarm_filterNonOverlappingPaths`: start 0, end 1, r1 2,
r2 3, r3 4, r4 5, none of them connected. -/
def roomsFilterTest : List Room :=
  [⟨"start", 0, 0, true, false, []⟩, ⟨"end", 5, 5, false, true, []⟩,
   ⟨"r1", 1, 1, false, false, []⟩, ⟨"r2", 2, 2, false, false, []⟩,
   ⟨"r3", 3, 3, false, false, []⟩, ⟨"r4", 4, 4, false, false, []⟩]

/-- Argument of the test "Two non-overlapping paths". -/
def pathsTwoApart : List Path := [recordPath [0, 2, 1], recordPath [0, 3, 1]]

/-- Argument of the test "Multiple paths with shared start/end". -/
def pathsFourApart : List Path :=
  [recordPath [0, 2, 1], recordPath [0, 3, 1], recordPath [0, 4, 1], recordPath [0, 5, 1]]

/-- Argument of the test "Paths with different lengths". -/
def pathsMixedApart : List Path := [recordPath [0, 2, 3, 4, 1], recordPath [0, 5, 1]]

/-- The error `models.ParseError`. -/
structure ParseError where
  Message : String
deriving DecidableEq

/-- The library routines the loader calls, as parameters of the embedding: `atoi` is
`strconv.Atoi` (`some n` when it returns no error), `fields` is `strings.Fields`, `split`
is `strings.Split`, `contains` is `strings.Contains` and `startsWith` is
`strings.HasPrefix`. -/
structure TextLib where
  atoi : String → Option Int
  fields : String → List String
  split : String → String → List String
  contains : String → String → Bool
  startsWith : String → String → Bool

/-- The constant `bufio.MaxScanTokenSize`: the largest buffer the scanner of
`bufio.NewScanner` allocates for a token. -/
def maxScanTokenSize : Nat := 64 * 1024

/-- Number of bytes of the UTF-8 encoding of a character with the given code. -/
def utf8Len (n : Nat) : Nat :=
  if n < 128 then 1 else if n < 2048 then 2 else if n < 65536 then 3 else 4

/-- The length `len(s)` of a Go string: the number of its bytes. -/
def byteLength (s : String) : Nat := (s.data.map (fun c => utf8Len c.toNat)).sum

/-- The helper `dropCR` of `bufio.ScanLines`: a carriage return at the end of the line is
not part of the token. -/
def dropCR (raw : String) : String :=
  if (raw.data.getLast?.map Char.toNat) = some 13 then String.mk raw.data.dropLast else raw

/-- The scanner `bufio.NewScanner(file)`, which cuts the input into lines (`ScanLines`).
`lines` are the lines the reader still supplies, each without its newline (the last one
may be an unfinished line); `fault` is the error with which the reader ends after them,
`none` at the end of the file; `err` is the error the scanner has stored and `Err`
returns. -/
structure Scanner where
  lines : List String
  fault : Option String
  err : Option String

/-- The method `Scan` of the scanner, with the token `Text` returns after it: a scanner that
has stored an error delivers nothing; at the end of the input the error of the reader is
stored; a line that does not fit the buffer of `maxScanTokenSize` bytes stops the scanner
with the error `bufio.ErrTooLong`; every other line is delivered without its carriage
return. -/
def Scanner.Scan (s : Scanner) : Option String × Scanner :=
  if s.err.isSome then (none, s)
  else
    match s.lines with
    | [] => (none, { s with err := s.fault })
    | raw :: rest =>
      if byteLength raw < maxScanTokenSize then (some (dropCR raw), { s with lines := rest })
      else (none, { s with err := some "bufio.Scanner: token too long" })

/-- The struct `parserState` of `parse.go`. -/
structure ParserState where
  scanner : Scanner
  expectStart : Bool
  expectEnd : Bool
  parsingLinks : Bool

/-- A value of the interface `error` that `parseRoomsAndLinks` returns: an error of the
loader or the error the scanner stored. -/
inductive LoaderError where
  | parseError (e : ParseError)
  | scanError (msg : String)
deriving DecidableEq

/-- The farm a loader method works on together with the arena its room pointers refer
to. -/
structure Loader where
  rooms : List Room
  af : AntFarm

/-- Lookup `af.Rooms[name]`, `none` when the key is absent. -/
def roomsLookup : List (String × Nat) → String → Option Nat
  | [], _ => none
  | e :: m, k => if e.1 = k then some e.2 else roomsLookup m k

/-- Assignment `af.Rooms[name] = room`. -/
def roomsStore : List (String × Nat) → String → Nat → List (String × Nat)
  | [], k, v => [(k, v)]
  | e :: m, k, v => if e.1 = k then (k, v) :: m else e :: roomsStore m k v

/-- The function `NewAntFarm` of `initialize.go`. -/
def NewAntFarm : AntFarm := ⟨0, [], [], none, none⟩

/-- The method `parseNumAnts` of `parse.go`; the result is the farm, the parser state and
the error, `none` being nil. -/
def parseNumAnts (L : TextLib) (af : AntFarm) (state : ParserState) :
    AntFarm × ParserState × Option ParseError :=
  match state.scanner.Scan with
  | (none, scanner) => (af, { state with scanner := scanner }, some ⟨"empty file"⟩)
  | (some line, scanner) =>
    let state := { state with scanner := scanner }
    match L.atoi line with
    | none => (af, state, some ⟨"invalid number of ants"⟩)
    | some numAnts =>
      if numAnts ≤ 0 then (af, state, some ⟨"number of ants must be positive"⟩)
      else if numAnts > 10000 then
        (af, state, some ⟨"number of ants exceeds maximum limit"⟩)
      else ({ af with NumAnts := numAnts }, state, none)

/-- The method `handleComment` of `parse.go`. -/
def handleComment (line : String) (state : ParserState) : ParserState :=
  if line = "##start" then { state with expectStart := true }
  else if line = "##end" then { state with expectEnd := true }
  else state

/-- The method `parseRoomDefinition` of `parse.go`. The room literal is allocated at the
end of the arena; the result is the arena and the pointer to the new room, or the error. -/
def parseRoomDefinition (L : TextLib) (ld : Loader) (line : String) (state : ParserState) :
    Loader × Except ParseError Nat :=
  let parts := L.fields line
  if parts.length ≠ 3 then (ld, .error ⟨"invalid room format"⟩)
  else
    let name := parts.getD 0 ""
    if (roomsLookup ld.af.Rooms name).isSome then (ld, .error ⟨"duplicate room name"⟩)
    else
      match L.atoi (parts.getD 1 ""), L.atoi (parts.getD 2 "") with
      | some x, some y =>
        ({ ld with rooms := ld.rooms ++
            [⟨name, x, y, state.expectStart, state.expectEnd, []⟩] },
          .ok ld.rooms.length)
      | _, _ => (ld, .error ⟨"invalid room coordinates"⟩)

/-- The method `addRoom` of `parse.go`. -/
def addRoom (ld : Loader) (room : Nat) : Loader × Option ParseError :=
  if (roomAt ld.rooms room).IsStart = true ∧ ld.af.Start ≠ none then
    (ld, some ⟨"multiple start rooms defined"⟩)
  else
    let af1 :=
      if (roomAt ld.rooms room).IsStart = true then { ld.af with Start := some room }
      else ld.af
    if (roomAt ld.rooms room).IsEnd = true ∧ af1.End ≠ none then
      ({ ld with af := af1 }, some ⟨"multiple end rooms defined"⟩)
    else
      let af2 :=
        if (roomAt ld.rooms room).IsEnd = true then { af1 with End := some room } else af1
      ({ ld with af :=
          { af2 with Rooms := roomsStore af2.Rooms (roomAt ld.rooms room).Name room } },
        none)

/-- The method `parseRoom` of `parse.go`. -/
def parseRoom (L : TextLib) (ld : Loader) (line : String) (state : ParserState) :
    Loader × Option ParseError :=
  match parseRoomDefinition L ld line state with
  | (ld1, .error err) => (ld1, some err)
  | (ld1, .ok room) => addRoom ld1 room

/-- The statement `r.Connected = append(r.Connected, c)` on the arena. -/
def appendConnected (rooms : List Room) (r c : Nat) : List Room :=
  rooms.set r { roomAt rooms r with Connected := (roomAt rooms r).Connected ++ [c] }

/-- The method `parseLink` of `parse.go`. -/
def parseLink (L : TextLib) (ld : Loader) (line : String) : Loader × Option ParseError :=
  let parts := L.split line "-"
  if parts.length ≠ 2 ∨ parts.getD 0 "" = parts.getD 1 "" then
    (ld, some ⟨"invalid link format"⟩)
  else
    match roomsLookup ld.af.Rooms (parts.getD 0 ""),
        roomsLookup ld.af.Rooms (parts.getD 1 "") with
    | some room1, some room2 =>
      if (roomAt ld.rooms room1).Connected.any
          (fun connected =>
            decide ((roomAt ld.rooms connected).Name = (roomAt ld.rooms room2).Name)) then
        (ld, some ⟨"duplicate link"⟩)
      else
        ({ ld with
            rooms := appendConnected (appendConnected ld.rooms room1 room2) room2 room1 },
          none)
    | _, _ => (ld, some ⟨"link references nonexistent room"⟩)

/-- The method `parseLine` of `parse.go`. -/
def parseLine (L : TextLib) (ld : Loader) (line : String) (state : ParserState) :
    Loader × ParserState × Option ParseError :=
  if L.contains line "-" then
    let state := { state with parsingLinks := true }
    ((parseLink L ld line).1, state, (parseLink L ld line).2)
  else if !state.parsingLinks then
    ((parseRoom L ld line state).1, state, (parseRoom L ld line state).2)
  else (ld, state, none)

/-- The call `state.scanner.Scan()` when the input still holds the given lines: the token
and the state with the scanner after the call. -/
def scanStep (state : ParserState) (lines : List String) : Option String × ParserState :=
  ((Scanner.Scan { state.scanner with lines := lines }).1,
    { state with scanner := (Scanner.Scan { state.scanner with lines := lines }).2 })

/-- The loop `for state.scanner.Scan()` of `parseRoomsAndLinks`, by recursion on the lines
the input still holds. -/
def scanLoop (L : TextLib) : List String → Loader → ParserState →
    Loader × ParserState × Option ParseError
  | [], ld, state => (ld, (scanStep state []).2, none)
  | raw :: rest, ld, state =>
    match (scanStep state (raw :: rest)).1 with
    | none => (ld, (scanStep state (raw :: rest)).2, none)
    | some line =>
      let state := (scanStep state (raw :: rest)).2
      if line = "" then scanLoop L rest ld state
      else if L.startsWith line "#" then scanLoop L rest ld (handleComment line state)
      else
        match parseLine L ld line state with
        | (ld1, state1, some err) => (ld1, state1, some err)
        | (ld1, state1, none) =>
          scanLoop L rest ld1
            (if !state1.parsingLinks then
              { state1 with expectStart := false, expectEnd := false }
            else state1)

/-- The method `parseRoomsAndLinks` of `parse.go`: the loop, and after a loop that ends
without an error of the loader the result `state.scanner.Err()`. -/
def parseRoomsAndLinks (L : TextLib) (ld : Loader) (state : ParserState) :
    Loader × ParserState × Option LoaderError :=
  ((scanLoop L state.scanner.lines ld state).1, (scanLoop L state.scanner.lines ld state).2.1,
    match (scanLoop L state.scanner.lines ld state).2.2 with
    | some err => some (.parseError err)
    | none => (scanLoop L state.scanner.lines ld state).2.1.scanner.err.map .scanError)

/-- The method `validate` of `parse.go`. -/
def validate (af : AntFarm) : Option ParseError :=
  if af.Start = none then some ⟨"no start room found"⟩
  else if af.End = none then some ⟨"no end room found"⟩
  else none

/-- The method `initializeAnts` of `initialize.go`. The ants are allocated at the addresses
`next`, `next + 1`, ... of the ant store; a negative `NumAnts` makes `make` panic, which is
`none`. -/
def initializeAnts (af : AntFarm) (ants : Nat → Ant) (next : Nat) :
    Option (AntFarm × (Nat → Ant)) :=
  if af.NumAnts < 0 then none
  else
    let filled := (List.range af.NumAnts.toNat).foldl
      (fun (st : List (Option Nat) × (Nat → Ant)) (i : Nat) =>
        (st.1.set i (some (next + i)),
          setAnt st.2 (next + i)
            { Id := (i : Int) + 1, CurrentRoom := af.Start, Path := [], PathIndex := 0,
              HasReached := false }))
      (List.replicate af.NumAnts.toNat none, ants)
    some ({ af with Ants := filled.1 }, filled.2)

/-- Calls of `parseLink` on a list of lines, one after the other, whether they fail or
not. -/
def linkAll (L : TextLib) (ld : Loader) (lines : List String) : Loader :=
  lines.foldl (fun ld line => (parseLink L ld line).1) ld

/-- Value of a run of decimal digits, `none` when the run is empty or holds another
character. -/
def digitsValue (cs : List Char) : Option Nat :=
  if cs = [] then none
  else cs.foldlM
    (fun acc c => if 48 ≤ c.toNat ∧ c.toNat ≤ 57 then some (acc * 10 + (c.toNat - 48))
      else none) 0

/-- Decimal reading of `strconv.Atoi` as the library documents it: an optional sign, then
digits only, and a value that fits a 64-bit `int`. -/
def decimalAtoi (s : String) : Option Int :=
  match s.data with
  | [] => none
  | c :: cs =>
    if c.toNat = 45 then
      (digitsValue cs).bind (fun n => if n ≤ 2 ^ 63 then some (-(n : Int)) else none)
    else if c.toNat = 43 then
      (digitsValue cs).bind (fun n => if n < 2 ^ 63 then some (n : Int) else none)
    else (digitsValue (c :: cs)).bind (fun n => if n < 2 ^ 63 then some (n : Int) else none)

/-- White space in the sense of `unicode.IsSpace`. -/
def isSpaceCode (n : Nat) : Bool :=
  decide (n = 32 ∨ (9 ≤ n ∧ n ≤ 13) ∨ n = 133 ∨ n = 160 ∨ n = 5760 ∨
    (8192 ≤ n ∧ n ≤ 8202) ∨ n = 8232 ∨ n = 8233 ∨ n = 8239 ∨ n = 8287 ∨ n = 12288)

/-- The fields of a line: its maximal runs of characters that are not white space. -/
def fieldsFrom (cur : List Char) : List Char → List String
  | [] => if cur = [] then [] else [String.mk cur.reverse]
  | c :: cs =>
    if isSpaceCode c.toNat then
      (if cur = [] then fieldsFrom [] cs else String.mk cur.reverse :: fieldsFrom [] cs)
    else fieldsFrom (c :: cur) cs

/-- The pieces of a line between the occurrences of the character with code `sep`. -/
def splitFrom (sep : Nat) (cur : List Char) : List Char → List String
  | [] => [String.mk cur.reverse]
  | c :: cs =>
    if c.toNat = sep then String.mk cur.reverse :: splitFrom sep [] cs
    else splitFrom sep (c :: cur) cs

/-- A text library for the fixtures: decimal `Atoi`, `Fields` on white space, and `Split`,
`Contains` and `HasPrefix` for a separator or pattern of one character, the only kind the
loader passes. -/
def fixtureText : TextLib where
  atoi := decimalAtoi
  fields := fun s => fieldsFrom [] s.data
  split := fun s sep => splitFrom (sep.data.headD default).toNat [] s.data
  contains := fun s sub => s.data.any (fun c => decide (c = sub.data.headD default))
  startsWith := fun s pre => decide (s.data.head? = pre.data.head?)

/-- A parser state with no flag set whose scanner reads a file of the given lines. -/
def scanOf (lines : List String) : ParserState := ⟨⟨lines, none, none⟩, false, false, false⟩

/-- A first line of 70000 bytes: 69999 digits 0 and the digit 5. -/
def longNumberLine : String := String.mk (List.replicate 69999 (Char.ofNat 48) ++ [Char.ofNat 53])

/-- The loader before the first line: the farm of `NewAntFarm` and an empty arena. -/
def newLoader : Loader := ⟨[], NewAntFarm⟩

/-- Arena of the test "valid link" of `TestParseLink`: Room1 0 and Room2 1, not linked. -/
def loaderTwoRooms : Loader :=
  ⟨[⟨"Room1", 0, 0, false, false, []⟩, ⟨"Room2", 0, 0, false, false, []⟩],
    ⟨0, [], [("Room1", 0), ("Room2", 1)], none, none⟩⟩

/-- Arena of the test "duplicate link" of `TestParseLink`: Room1 0 and Room2 1 are in the
map; the `Connected` list of Room1 holds another room named Room2 (2), that of Room2
another room named Room1 (3). -/
def loaderNamesakes : Loader :=
  ⟨[⟨"Room1", 0, 0, false, false, [2]⟩, ⟨"Room2", 0, 0, false, false, [3]⟩,
    ⟨"Room2", 0, 0, false, false, []⟩, ⟨"Room1", 0, 0, false, false, []⟩],
    ⟨0, [], [("Room1", 0), ("Room2", 1)], none, none⟩⟩

/-- Arena of the tests of `TestParseLink` whose map holds Room1 alone. -/
def loaderOneRoom : Loader :=
  ⟨[⟨"Room1", 0, 0, false, false, []⟩], ⟨0, [], [("Room1", 0)], none, none⟩⟩

/-- The graph the loader keeps: the map holds every room under its name, at an address of
the arena; the rooms of the `Connected` lists are rooms of the map; adjacency is symmetric,
no room is its own neighbour and no list holds a room twice. -/
structure LinkedRooms (ld : Loader) : Prop where
  registered : ∀ k r, roomsLookup ld.af.Rooms k = some r →
    r < ld.rooms.length ∧ (roomAt ld.rooms r).Name = k
  known : ∀ a b, b ∈ (roomAt ld.rooms a).Connected → ∃ k, roomsLookup ld.af.Rooms k = some b
  symmetric : ∀ a b,
    b ∈ (roomAt ld.rooms a).Connected ↔ a ∈ (roomAt ld.rooms b).Connected
  loopless : ∀ a, a ∉ (roomAt ld.rooms a).Connected
  simple : ∀ a, (roomAt ld.rooms a).Connected.Nodup

/-- The flags the loader keeps while it reads rooms: the map holds exactly the rooms of
the arena; `Start` is a room of the map flagged `IsStart`, and the only one; `End` is a
room of the map flagged `IsEnd`, and the only one. -/
structure FlaggedRooms (ld : Loader) : Prop where
  registered : ∀ k r, roomsLookup ld.af.Rooms k = some r → r < ld.rooms.length
  all_known : ∀ r, r < ld.rooms.length → ∃ k, roomsLookup ld.af.Rooms k = some r
  start_known : ∀ s, ld.af.Start = some s →
    (∃ k, roomsLookup ld.af.Rooms k = some s) ∧ (roomAt ld.rooms s).IsStart = true
  start_only : ∀ k r, roomsLookup ld.af.Rooms k = some r →
    (roomAt ld.rooms r).IsStart = true → ld.af.Start = some r
  end_known : ∀ e, ld.af.End = some e →
    (∃ k, roomsLookup ld.af.Rooms k = some e) ∧ (roomAt ld.rooms e).IsEnd = true
  end_only : ∀ k r, roomsLookup ld.af.Rooms k = some r →
    (roomAt ld.rooms r).IsEnd = true → ld.af.End = some r

/-- Arena for a selection the seed-greedy search does not find: start 0, end 1, a1 2, a2 3,
a3 4, b1 5, b2 6, b3 7, c1 8, c2 9, c3 10, none of them connected, as in the arena of
`TestAntFarm_filterNonOverlappingPaths`. -/
def roomsBlocked : List Room :=
  [⟨"start", 0, 0, true, false, []⟩, ⟨"end", 0, 0, false, true, []⟩,
   ⟨"a1", 0, 0, false, false, []⟩, ⟨"a2", 0, 0, false, false, []⟩,
   ⟨"a3", 0, 0, false, false, []⟩, ⟨"b1", 0, 0, false, false, []⟩,
   ⟨"b2", 0, 0, false, false, []⟩, ⟨"b3", 0, 0, false, false, []⟩,
   ⟨"c1", 0, 0, false, false, []⟩, ⟨"c2", 0, 0, false, false, []⟩,
   ⟨"c3", 0, 0, false, false, []⟩]

/-- Three routes of `Length` 4 over `roomsBlocked` that share no interior room: over a1,
a2, a3, over b1, b2, b3 and over c1, c2, c3. -/
def longRoutes : List Path :=
  [recordPath [0, 2, 3, 4, 1], recordPath [0, 5, 6, 7, 1], recordPath [0, 8, 9, 10, 1]]

/-- Input list over `roomsBlocked`, in ascending `Length`: three routes of `Length` 3, over
a1 and b1, over b1 and c1 and over a1 and c1, each crossing two of the long routes, then
the three routes of `longRoutes`. -/
def pathsBlocked : List Path :=
  [recordPath [0, 2, 5, 1], recordPath [0, 5, 8, 1], recordPath [0, 2, 8, 1],
   recordPath [0, 2, 3, 4, 1], recordPath [0, 5, 6, 7, 1], recordPath [0, 8, 9, 10, 1]]

/-- The slice `paths` of `findAllPaths` after the call of `dfs`: the enumerated paths in the
order of their discovery. -/
def foundPaths (rooms : List Room) (af : AntFarm) : Option (List Path) :=
  match af.Start, af.End with
  | some start, some finish =>
    (dfs rooms (rooms.length + 1) start finish (fun _ => false) [] []).map Prod.snd
  | _, _ => none

/-- The slice `paths` of `findAllPaths` after the call of `sort.Slice`. -/
def sortedPaths (S : SliceSorter) (rooms : List Room) (af : AntFarm) : Option (List Path) :=
  (foundPaths rooms af).map S.sort

/-- Arena the loader builds from the lines `##start`, `##end`, `Room 0 0`: one room that is
flagged both start and end. -/
def roomsSameRoom : List Room := [⟨"Room", 0, 0, true, true, []⟩]

/-- Farm over `roomsSameRoom` with one ant: start and end are the one room. -/
def farmSameRoom : AntFarm := ⟨1, [some 0], [("Room", 0)], some 0, some 0⟩

/-- The ant visited after the ants of `before` is the first ant of the turn, or the ant
visited immediately before it had arrived when the turn began: the visits at which the
counter `move` of `SimulateMovement` is incremented from 0. -/
def leadsRun (ants0 : Nat → Ant) (before : List (Option Nat)) : Prop :=
  before = [] ∨ ∃ b, before.getLast? = some (some b) ∧ (ants0 b).HasReached = true

/-- State of the counter `move` after the ants of `pre` have been visited, and what became
of the visited ants that had not arrived and have a path of two rooms. -/
structure Counted (rooms : List Room) (ants0 : Nat → Ant) (pre : List (Option Nat))
    (st : TurnState) : Prop where
  nonneg : 0 ≤ st.move
  counter : st.move = 0 ↔ leadsRun ants0 pre
  direct : ∀ (i : Nat) (x : Nat), pre[i]? = some (some x) → (ants0 x).HasReached = false →
    (ants0 x).Path.length = 2 →
    (leadsRun ants0 (pre.take i) → Advanced rooms (ants0 x) (st.ants x)) ∧
    (¬ leadsRun ants0 (pre.take i) → st.ants x = ants0 x)

/-- Number of positions before `i` of the slice that hold an ant carrying the path of the
ant at address `a`. -/
def aheadOnRoute (antList : List (Option Nat)) (ants : Nat → Ant) (i a : Nat) : Nat :=
  ((List.range i).filter
    (fun t => match antList[t]? with
      | some (some b) => decide ((ants b).Path = (ants a).Path)
      | _ => false)).length

/-- After `T` turns every ant on a path of three rooms or more has made as many moves as
turns have passed since the ants ahead of it on its path started, one per turn, up to the
number of moves its path takes. -/
def OnSchedule (antList : List (Option Nat)) (T : Nat) (ants : Nat → Ant) : Prop :=
  ∀ (i a : Nat), antList[i]? = some (some a) → 3 ≤ (ants a).Path.length →
    (ants a).PathIndex
      = ((min ((ants a).Path.length - 1) (T - aheadOnRoute antList ants i a) : Nat) : Int)

/-- No key of the map `af.Rooms` holds white space: the keys `parseRoom` stores are fields
of a line. -/
def UnspacedKeys (ld : Loader) : Prop :=
  ∀ k r, roomsLookup ld.af.Rooms k = some r → ∀ c ∈ k.data, isSpaceCode c.toNat = false
/-! ## The library routine `sort.Slice`

The functions of package `sort` that `sort.Slice` runs (file `zsortfunc.go`), on a slice
held as a list; a function that changes the slice returns the new slice. -/

/-- The call `data.Less(i, j)` of the `lessSwap` that `sort.Slice` builds: the function
`less` of the caller compares the elements the slice holds at the two indices. An index
outside the slice reads `default`. -/
def lessAt {α : Type} [Inhabited α] (lt : α → α → Bool) (xs : List α) (i j : Nat) : Bool :=
  lt (xs.getD i default) (xs.getD j default)

/-- The call `data.Swap(i, j)`: the elements at the two indices of the slice change
places. -/
def swapAt {α : Type} [Inhabited α] (xs : List α) (i j : Nat) : List α :=
  (xs.set i (xs.getD j default)).set j (xs.getD i default)

/-- Inner loop of `insertionSort_func`, `for j := i; j > a && data.Less(j, j-1); j--`, from
the index `j`. -/
def insertionInner {α : Type} [Inhabited α] (lt : α → α → Bool) (a : Nat) :
    Nat → List α → List α
  | 0, xs => xs
  | j + 1, xs =>
    if decide (j + 1 > a) && lessAt lt xs (j + 1) j then
      insertionInner lt a j (swapAt xs (j + 1) j)
    else xs

/-- The function `insertionSort_func` of package `sort`: sorts `data[a:b]` by insertion. -/
def insertionSort_func {α : Type} [Inhabited α] (lt : α → α → Bool) (xs : List α)
    (a b : Nat) : List α :=
  (List.range' (a + 1) (b - (a + 1))).foldl (fun xs i => insertionInner lt a i xs) xs

/-- The function `siftDown_func` of package `sort`; the loop runs from `root`, and `fuel`
bounds its iterations (each one at least doubles `root`, which stays below `hi`). -/
def siftDown_func {α : Type} [Inhabited α] (lt : α → α → Bool) (hi first : Nat) :
    Nat → Nat → List α → List α
  | 0, _, xs => xs
  | fuel + 1, root, xs =>
    if 2 * root + 1 ≥ hi then xs
    else
      let child :=
        if decide (2 * root + 1 + 1 < hi) &&
            lessAt lt xs (first + (2 * root + 1)) (first + (2 * root + 1) + 1) then
          2 * root + 1 + 1
        else 2 * root + 1
      if !lessAt lt xs (first + root) (first + child) then xs
      else siftDown_func lt hi first fuel child (swapAt xs (first + root) (first + child))

/-- The function `heapSort_func` of package `sort`: the first loop runs `i` from
`(hi - 1) / 2` down to 0, the second from `hi - 1` down to 0. -/
def heapSort_func {α : Type} [Inhabited α] (lt : α → α → Bool) (xs : List α)
    (a b : Nat) : List α :=
  let first := a
  let lo := 0
  let hi := b - a
  let heap := (List.range ((hi - 1) / 2 + 1)).reverse.foldl
    (fun xs i => siftDown_func lt hi first hi i xs) xs
  (List.range hi).reverse.foldl
    (fun xs i => siftDown_func lt i first i lo (swapAt xs first (first + i))) heap

/-- A loop `for i <= j && cond(i) { i++ }`; `fuel` bounds its iterations. -/
def scanUp (cond : Nat → Bool) (j : Nat) : Nat → Nat → Nat
  | 0, i => i
  | fuel + 1, i => if decide (i ≤ j) && cond i then scanUp cond j fuel (i + 1) else i

/-- A loop `for i <= j && cond(j) { j-- }`; `fuel` bounds its iterations. -/
def scanDown (cond : Nat → Bool) (i : Nat) : Nat → Nat → Nat
  | 0, j => j
  | fuel + 1, j => if decide (i ≤ j) && cond j then scanDown cond i fuel (j - 1) else j

/-- The loop `for { ... }` of `partition_func`; the result is the slice with `i` and `j`
at the `break`. -/
def partitionLoop {α : Type} [Inhabited α] (lt : α → α → Bool) (a : Nat) :
    Nat → List α → Nat → Nat → List α × Nat × Nat
  | 0, xs, i, j => (xs, i, j)
  | fuel + 1, xs, i, j =>
    let i1 := scanUp (fun i => lessAt lt xs i a) j (j + 1 - i) i
    let j1 := scanDown (fun j => !lessAt lt xs j a) i1 (j + 1 - i1) j
    if i1 > j1 then (xs, i1, j1)
    else partitionLoop lt a fuel (swapAt xs i1 j1) (i1 + 1) (j1 - 1)

/-- The function `partition_func` of package `sort`; the result is the slice, `newpivot`
and `alreadyPartitioned`. -/
def partition_func {α : Type} [Inhabited α] (lt : α → α → Bool) (xs : List α)
    (a b pivot : Nat) : List α × Nat × Bool :=
  let xs := swapAt xs a pivot
  let i := a + 1
  let j := b - 1
  let i1 := scanUp (fun i => lessAt lt xs i a) j (j + 1 - i) i
  let j1 := scanDown (fun j => !lessAt lt xs j a) i1 (j + 1 - i1) j
  if i1 > j1 then (swapAt xs j1 a, j1, true)
  else
    let r := partitionLoop lt a (j1 + 1 - i1) (swapAt xs i1 j1) (i1 + 1) (j1 - 1)
    (swapAt r.1 r.2.2 a, r.2.2, false)

/-- The loop `for { ... }` of `partitionEqual_func`; the result is the slice and `i` at the
`break`. -/
def partitionEqualLoop {α : Type} [Inhabited α] (lt : α → α → Bool) (a : Nat) :
    Nat → List α → Nat → Nat → List α × Nat
  | 0, xs, i, _ => (xs, i)
  | fuel + 1, xs, i, j =>
    let i1 := scanUp (fun i => !lessAt lt xs a i) j (j + 1 - i) i
    let j1 := scanDown (fun j => lessAt lt xs a j) i1 (j + 1 - i1) j
    if i1 > j1 then (xs, i1)
    else partitionEqualLoop lt a fuel (swapAt xs i1 j1) (i1 + 1) (j1 - 1)

/-- The function `partitionEqual_func` of package `sort`; the result is the slice and
`newpivot`. -/
def partitionEqual_func {α : Type} [Inhabited α] (lt : α → α → Bool) (xs : List α)
    (a b pivot : Nat) : List α × Nat :=
  partitionEqualLoop lt a (b - a) (swapAt xs a pivot) (a + 1) (b - 1)

/-- The loop `for j := i - 1; j >= 1; j--` of `partialInsertionSort_func`, from the index
`j`. -/
def shiftLeft {α : Type} [Inhabited α] (lt : α → α → Bool) : Nat → List α → List α
  | 0, xs => xs
  | j + 1, xs =>
    if !lessAt lt xs (j + 1) j then xs else shiftLeft lt j (swapAt xs (j + 1) j)

/-- The loop `for j := i + 1; j < b; j++` of `partialInsertionSort_func`, from the index
`j`; `fuel` bounds its iterations. -/
def shiftRight {α : Type} [Inhabited α] (lt : α → α → Bool) (b : Nat) :
    Nat → Nat → List α → List α
  | 0, _, xs => xs
  | fuel + 1, j, xs =>
    if j < b then
      if !lessAt lt xs j (j - 1) then xs
      else shiftRight lt b fuel (j + 1) (swapAt xs j (j - 1))
    else xs

/-- The loop `for j := 0; j < maxSteps; j++` of `partialInsertionSort_func` with `steps`
iterations left; the result is the slice and the value returned. -/
def partialInsertionLoop {α : Type} [Inhabited α] (lt : α → α → Bool) (a b : Nat) :
    Nat → List α → Nat → List α × Bool
  | 0, xs, _ => (xs, false)
  | steps + 1, xs, i =>
    let i1 := scanUp (fun i => !lessAt lt xs i (i - 1)) (b - 1) (b - i) i
    if i1 = b then (xs, true)
    else if b - a < 50 then (xs, false)
    else
      let xs1 := swapAt xs i1 (i1 - 1)
      let xs2 := if i1 - a ≥ 2 then shiftLeft lt (i1 - 1) xs1 else xs1
      let xs3 := if b - i1 ≥ 2 then shiftRight lt b (b - (i1 + 1)) (i1 + 1) xs2 else xs2
      partialInsertionLoop lt a b steps xs3 i1

/-- The function `partialInsertionSort_func` of package `sort`, with `maxSteps = 5` and
`shortestShifting = 50`. -/
def partialInsertionSort_func {α : Type} [Inhabited α] (lt : α → α → Bool) (xs : List α)
    (a b : Nat) : List α × Bool :=
  partialInsertionLoop lt a b 5 xs (a + 1)

/-- The number `bits.Len(uint(n))` of bits of `n`, by halving at most `fuel` times. -/
def bitsLenFrom : Nat → Nat → Nat
  | 0, _ => 0
  | fuel + 1, n => if n = 0 then 0 else bitsLenFrom fuel (n / 2) + 1

/-- The function `bits.Len` on a length. -/
def bitsLen (n : Nat) : Nat := bitsLenFrom n n

/-- The function `nextPowerOfTwo` of package `sort`. -/
def nextPowerOfTwo (length : Nat) : Nat := 2 ^ bitsLen length

/-- The function `breakPatterns_func` of package `sort`. The pseudo-random numbers are a
parameter: `rnd length i` is the value of call `i` of `random.Next()` on the generator
`xorshift(length)`. -/
def breakPatterns_func {α : Type} [Inhabited α] (rnd : Nat → Nat → Nat) (xs : List α)
    (a b : Nat) : List α :=
  let length := b - a
  if length ≥ 8 then
    let modulus := nextPowerOfTwo length
    let idx := a + (length / 4) * 2 - 1
    (List.range 3).foldl
      (fun xs i =>
        let other := rnd length i % modulus
        let other := if other ≥ length then other - length else other
        swapAt xs (idx - 1 + i) (a + other))
      xs
  else xs

/-- The type `sortedHint` of package `sort`. -/
inductive SortedHint where
  | unknownHint
  | increasingHint
  | decreasingHint
deriving DecidableEq

/-- The function `order2_func` of package `sort`; the counter `swaps` is threaded through
the calls. -/
def order2_func {α : Type} [Inhabited α] (lt : α → α → Bool) (xs : List α)
    (a b swaps : Nat) : Nat × Nat × Nat :=
  if lessAt lt xs b a then (b, a, swaps + 1) else (a, b, swaps)

/-- The function `median_func` of package `sort`; the result is the index and the
counter. -/
def median_func {α : Type} [Inhabited α] (lt : α → α → Bool) (xs : List α)
    (a b c swaps : Nat) : Nat × Nat :=
  let r1 := order2_func lt xs a b swaps
  let r2 := order2_func lt xs r1.2.1 c r1.2.2
  let r3 := order2_func lt xs r1.1 r2.1 r2.2.2
  (r3.2.1, r3.2.2)

/-- The function `medianAdjacent_func` of package `sort`. -/
def medianAdjacent_func {α : Type} [Inhabited α] (lt : α → α → Bool) (xs : List α)
    (a swaps : Nat) : Nat × Nat :=
  median_func lt xs (a - 1) a (a + 1) swaps

/-- The function `choosePivot_func` of package `sort`, with `shortestNinther = 50` and
`maxSwaps = 4 * 3`. -/
def choosePivot_func {α : Type} [Inhabited α] (lt : α → α → Bool) (xs : List α)
    (a b : Nat) : Nat × SortedHint :=
  let l := b - a
  let i := a + l / 4 * 1
  let j := a + l / 4 * 2
  let k := a + l / 4 * 3
  let r :=
    if l ≥ 8 then
      if l ≥ 50 then
        let ri := medianAdjacent_func lt xs i 0
        let rj := medianAdjacent_func lt xs j ri.2
        let rk := medianAdjacent_func lt xs k rj.2
        median_func lt xs ri.1 rj.1 rk.1 rk.2
      else median_func lt xs i j k 0
    else (j, 0)
  if r.2 = 0 then (r.1, .increasingHint)
  else if r.2 = 4 * 3 then (r.1, .decreasingHint)
  else (r.1, .unknownHint)

/-- The loop of `reverseRange_func`; `fuel` bounds its iterations. -/
def reverseLoop {α : Type} [Inhabited α] : Nat → List α → Nat → Nat → List α
  | 0, xs, _, _ => xs
  | fuel + 1, xs, i, j =>
    if i < j then reverseLoop fuel (swapAt xs i j) (i + 1) (j - 1) else xs

/-- The function `reverseRange_func` of package `sort`. -/
def reverseRange_func {α : Type} [Inhabited α] (xs : List α) (a b : Nat) : List α :=
  reverseLoop (b - a) xs a (b - 1)

/-- The function `pdqsort_func` of package `sort`, with `maxInsertion = 12`: the loop
`for { ... }` with the variables `a`, `b`, `limit`, `wasBalanced` and `wasPartitioned`; the
function itself enters the loop with both flags true. Every iteration and every recursive
call works on a shorter range and takes one unit of fuel; `none` means the fuel ran out. -/
def pdqsort_func {α : Type} [Inhabited α] (rnd : Nat → Nat → Nat) (lt : α → α → Bool) :
    Nat → List α → Nat → Nat → Nat → Bool → Bool → Option (List α)
  | 0, _, _, _, _, _, _ => none
  | fuel + 1, xs, a, b, limit, wasBalanced, wasPartitioned =>
    let length := b - a
    if length ≤ 12 then some (insertionSort_func lt xs a b)
    else if limit = 0 then some (heapSort_func lt xs a b)
    else
      let xs1 := if !wasBalanced then breakPatterns_func rnd xs a b else xs
      let limit1 := if !wasBalanced then limit - 1 else limit
      let ph := choosePivot_func lt xs1 a b
      let xs2 := if ph.2 = .decreasingHint then reverseRange_func xs1 a b else xs1
      let pivot := if ph.2 = .decreasingHint then (b - 1) - (ph.1 - a) else ph.1
      let hint := if ph.2 = .decreasingHint then SortedHint.increasingHint else ph.2
      let ps :=
        if wasBalanced && wasPartitioned && decide (hint = .increasingHint) then
          partialInsertionSort_func lt xs2 a b
        else (xs2, false)
      if ps.2 then some ps.1
      else if decide (a > 0) && !lessAt lt ps.1 (a - 1) pivot then
        let r := partitionEqual_func lt ps.1 a b pivot
        pdqsort_func rnd lt fuel r.1 r.2 b limit1 wasBalanced wasPartitioned
      else
        let r := partition_func lt ps.1 a b pivot
        let mid := r.2.1
        let leftLen := mid - a
        let rightLen := b - mid
        let balanceThreshold := length / 8
        if leftLen < rightLen then
          match pdqsort_func rnd lt fuel r.1 a mid limit1 true true with
          | none => none
          | some xs3 =>
            pdqsort_func rnd lt fuel xs3 (mid + 1) b limit1
              (decide (leftLen ≥ balanceThreshold)) r.2.2
        else
          match pdqsort_func rnd lt fuel r.1 (mid + 1) b limit1 true true with
          | none => none
          | some xs3 =>
            pdqsort_func rnd lt fuel xs3 a mid limit1
              (decide (rightLen ≥ balanceThreshold)) r.2.2

/-- The function `sort.Slice` of the Go library on a slice with the comparison `lt` of its
elements: `pdqsort_func(lessSwap{less, swap}, 0, length, bits.Len(uint(length)))`. -/
def Slice {α : Type} [Inhabited α] (rnd : Nat → Nat → Nat) (lt : α → α → Bool)
    (xs : List α) : Option (List α) :=
  pdqsort_func rnd lt (xs.length + 1) xs 0 xs.length (bitsLen xs.length) true true

/-- The slice `ys` arises from `xs` by calls of `Swap` on indices of `[a, b)`. -/
inductive Shuffled {α : Type} [Inhabited α] (a b : Nat) : List α → List α → Prop
  | refl (xs : List α) : Shuffled a b xs xs
  | swap (xs ys : List α) (i j : Nat) : a ≤ i → i < b → a ≤ j → j < b →
      Shuffled a b xs ys → Shuffled a b xs (swapAt ys i j)

/-- The key of the element the slice holds at an index. -/
def keyAt {α : Type} [Inhabited α] (key : α → Int) (xs : List α) (i : Nat) : Int :=
  key (xs.getD i default)

/-- The keys of `data[a:b]` ascend. -/
def SortedOn {α : Type} [Inhabited α] (key : α → Int) (xs : List α) (a b : Nat) : Prop :=
  ∀ i j, a ≤ i → i ≤ j → j < b → keyAt key xs i ≤ keyAt key xs j

/-- The range `data[a:b]` starts the slice, or no key of it is below the key of the element
before it: the state in which `pdqsort_func` works on a range. -/
def LowerBound {α : Type} [Inhabited α] (key : α → Int) (xs : List α) (a b : Nat) : Prop :=
  a = 0 ∨ ∀ i, a ≤ i → i < b → keyAt key xs (a - 1) ≤ keyAt key xs i

/-- The comparison by a key: `less` of two elements is `key x < key y`. -/
def keyLess {α : Type} (key : α → Int) (x y : α) : Bool := decide (key x < key y)

/-- The heap property of `siftDown_func` on the nodes from `lo` on: no child in
`data[first : first+hi]` has a key above its parent. -/
def HeapFrom {α : Type} [Inhabited α] (key : α → Int) (xs : List α) (first hi lo : Nat) :
    Prop :=
  ∀ p c, lo ≤ p → (c = 2 * p + 1 ∨ c = 2 * p + 2) → c < hi →
    keyAt key xs (first + c) ≤ keyAt key xs (first + p)

/-- The function `less` that `findAllPaths` passes to `sort.Slice`:
`paths[i].Length < paths[j].Length`. -/
def lengthLess (p q : Path) : Bool := decide (p.Length < q.Length)

/-- The slice `paths` of `findAllPaths` after the call of `sort.Slice`, with the routine of
the Go library: `none` when `Start` or `End` is nil or the fuel of a recursion ran out. -/
def sortedBySlice (rnd : Nat → Nat → Nat) (rooms : List Room) (af : AntFarm) :
    Option (List Path) :=
  (foundPaths rooms af).bind (Slice rnd lengthLess)

/-- Arena with thirteen routes: start 0, x 1, y 2, m1 to m12 at 3 to 14, end 15. The
`Connected` lists are in the order the links `start-x, x-y, y-end, start-m1, m1-end, ...,
start-m12, m12-end` append them. -/
def roomsThirteen : List Room :=
  [flaggedRoom "start" true false [1, 3, 4, 5, 6, 7, 8, 9, 10, 11, 12, 13, 14],
   flaggedRoom "x" false false [0, 2], flaggedRoom "y" false false [1, 15],
   flaggedRoom "m1" false false [0, 15], flaggedRoom "m2" false false [0, 15],
   flaggedRoom "m3" false false [0, 15], flaggedRoom "m4" false false [0, 15],
   flaggedRoom "m5" false false [0, 15], flaggedRoom "m6" false false [0, 15],
   flaggedRoom "m7" false false [0, 15], flaggedRoom "m8" false false [0, 15],
   flaggedRoom "m9" false false [0, 15], flaggedRoom "m10" false false [0, 15],
   flaggedRoom "m11" false false [0, 15], flaggedRoom "m12" false false [0, 15],
   flaggedRoom "end" false true [2, 3, 4, 5, 6, 7, 8, 9, 10, 11, 12, 13, 14]]

/-- Farm over `roomsThirteen` with one ant. -/
def farmThirteen : AntFarm := ⟨1, [some 0], [], some 0, some 15⟩

/-- The thirteen routes of `roomsThirteen` in the order `dfs` records them: the route over
x and y of `Length` 3, then the routes over m1 to m12 of `Length` 2. -/
def thirteenPaths : List Path :=
  [recordPath [0, 1, 2, 15], recordPath [0, 3, 15], recordPath [0, 4, 15],
   recordPath [0, 5, 15], recordPath [0, 6, 15], recordPath [0, 7, 15],
   recordPath [0, 8, 15], recordPath [0, 9, 15], recordPath [0, 10, 15],
   recordPath [0, 11, 15], recordPath [0, 12, 15], recordPath [0, 13, 15],
   recordPath [0, 14, 15]]

/-- The routes of `thirteenPaths` in the order `Slice` leaves them: the route over m6, the
routes over m1 to m5, the routes over m7 to m12, the route over x and y. -/
def thirteenSorted : List Path :=
  [recordPath [0, 8, 15], recordPath [0, 3, 15], recordPath [0, 4, 15],
   recordPath [0, 5, 15], recordPath [0, 6, 15], recordPath [0, 7, 15],
   recordPath [0, 9, 15], recordPath [0, 10, 15], recordPath [0, 11, 15],
   recordPath [0, 12, 15], recordPath [0, 13, 15], recordPath [0, 14, 15],
   recordPath [0, 1, 2, 15]]

/-- Lines of an input file, after the line with the number of ants, that describe the arena
`roomsThirteen`: the rooms in the order of their addresses, then the links. -/
def linesThirteen : List String :=
  ["##start", "start 0 0", "x 0 0", "y 0 0", "m1 0 0", "m2 0 0", "m3 0 0", "m4 0 0",
   "m5 0 0", "m6 0 0", "m7 0 0", "m8 0 0", "m9 0 0", "m10 0 0", "m11 0 0", "m12 0 0",
   "##end", "end 0 0", "start-x", "x-y", "y-end", "start-m1", "m1-end", "start-m2",
   "m2-end", "start-m3", "m3-end", "start-m4", "m4-end", "start-m5", "m5-end", "start-m6",
   "m6-end", "start-m7", "m7-end", "start-m8", "m8-end", "start-m9", "m9-end", "start-m10",
   "m10-end", "start-m11", "m11-end", "start-m12", "m12-end"]

/-! ## Depth-first enumeration -/

theorem filter_length_le {p q : Nat → Bool} (h : ∀ x, p x = true → q x = true) :
    ∀ l : List Nat, (l.filter p).length ≤ (l.filter q).length := by
  intro l
  induction l with
  | nil => simp
  | cons a t ih =>
    rw [List.filter_cons, List.filter_cons]
    by_cases hp : p a = true
    · rw [if_pos hp, if_pos (h a hp)]
      simpa using ih
    · rw [if_neg hp]
      split
      · exact Nat.le_succ_of_le ih
      · exact ih

theorem filter_length_lt {p q : Nat → Bool} (h : ∀ x, p x = true → q x = true) (c : Nat)
    (hq : q c = true) (hp : p c = false) :
    ∀ l : List Nat, c ∈ l → (l.filter p).length < (l.filter q).length := by
  intro l
  induction l with
  | nil => simp
  | cons a t ih =>
    intro hmem
    rw [List.filter_cons, List.filter_cons]
    by_cases ha : a = c
    · subst ha
      have := filter_length_le h t
      simp only [hq, hp, if_true, List.length_cons]
      simp
      omega
    · have hct : c ∈ t := by
        rcases List.mem_cons.1 hmem with h1 | h1
        · exact absurd h1.symm ha
        · exact h1
      have := ih hct
      by_cases hpa : p a = true
      · rw [if_pos hpa, if_pos (h a hpa)]
        simpa using this
      · rw [if_neg hpa]
        split
        · exact Nat.lt_succ_of_lt this
        · exact this

theorem setVisited_restore (visited : Nat → Bool) (r : Nat) (h : visited r = false) :
    setVisited (setVisited visited r true) r false = visited := by
  funext k
  unfold setVisited
  by_cases hk : k = r
  · simp [hk, h]
  · simp [hk]

theorem roomAt_connected_of_le (rooms : List Room) (r : Nat) (h : rooms.length ≤ r) :
    (roomAt rooms r).Connected = [] := by
  unfold roomAt
  rw [List.getD_eq_default _ _ h]
  rfl

theorem unvisited_mark_lt (rooms : List Room) (visited : Nat → Bool) (c : Nat)
    (hc : visited c = false) (hlt : c < rooms.length) :
    unvisited rooms (setVisited visited c true) < unvisited rooms visited := by
  unfold unvisited
  refine filter_length_lt ?_ c ?_ ?_ _ (List.mem_range.2 hlt)
  · intro x hx
    unfold setVisited at hx
    by_cases hxc : x = c
    · simp [hxc] at hx
    · simpa [hxc] using hx
  · simp [hc]
  · simp [setVisited]

theorem unvisited_le (rooms : List Room) (visited : Nat → Bool) :
    unvisited rooms visited ≤ rooms.length := by
  unfold unvisited
  calc ((List.range rooms.length).filter (fun r => !visited r)).length
      ≤ (List.range rooms.length).length := List.length_filter_le _ _
    _ = rooms.length := List.length_range _

/-- The loop over `current.Connected` inside `dfs`, given what each recursive call does. -/
theorem dfs_loop (rooms : List Room) (finish fuel : Nat) (v : Nat → Bool) (path : List Nat)
    (ih : ∀ next acc, v next = false →
      dfs rooms fuel next finish v path acc
        = some (v, acc ++ (walks rooms fuel next finish v).map (fun q => recordPath (path ++ q)))) :
    ∀ (cs : List Nat) (acc : List Path),
      cs.foldlM (fun (st : (Nat → Bool) × List Path) next =>
          if !st.1 next then dfs rooms fuel next finish st.1 path st.2 else some st) (v, acc)
        = some (v, acc ++ ((cs.filter (fun next => !v next)).flatMap
            (fun next => walks rooms fuel next finish v)).map (fun q => recordPath (path ++ q))) := by
  intro cs
  induction cs with
  | nil => intro acc; simp
  | cons c t iht =>
    intro acc
    rw [List.foldlM_cons]
    by_cases hv : v c = false
    · simp only [hv, Bool.not_false, if_true]
      rw [ih c acc hv]
      simp only [Option.some_bind, Option.bind_eq_bind]
      rw [iht]
      simp [List.filter_cons, hv, List.flatMap_cons, List.append_assoc]
    · have hv1 : v c = true := by simpa using hv
      simp only [hv1, Bool.not_true, Bool.false_eq_true, if_false]
      simp only [Option.some_bind, Option.bind_eq_bind]
      rw [iht]
      simp [List.filter_cons, hv1]

/-- With more fuel than unvisited rooms, `dfs` returns: it leaves the visited map as it
found it and appends the records of `walks`. -/
theorem dfs_eq_walks (rooms : List Room) (finish : Nat) :
    ∀ (fuel current : Nat) (visited : Nat → Bool) (path : List Nat) (paths : List Path),
      visited current = false → unvisited rooms visited < fuel →
      dfs rooms fuel current finish visited path paths
        = some (visited, paths ++ (walks rooms fuel current finish visited).map
            (fun q => recordPath (path ++ q))) := by
  intro fuel
  induction fuel with
  | zero => intro _ _ _ _ _ h; omega
  | succ fuel ih =>
    intro current visited path paths hcur hfuel
    unfold dfs walks
    by_cases hfin : current = finish
    · simp only [hfin, if_true]
      rw [setVisited_restore visited finish (hfin ▸ hcur)]
      simp [recordPath]
    · simp only [hfin, if_false]
      by_cases hlt : current < rooms.length
      · have hm := unvisited_mark_lt rooms visited current hcur hlt
        have key := dfs_loop rooms finish fuel (setVisited visited current true) (path ++ [current])
          (fun next acc hn => ih next (setVisited visited current true) (path ++ [current]) acc hn
            (by omega)) (roomAt rooms current).Connected paths
        rw [key]
        simp only []
        rw [setVisited_restore visited current hcur]
        simp [List.map_flatMap, List.flatMap_map, Function.comp_def]
      · rw [roomAt_connected_of_le rooms current (by omega)]
        simp [setVisited_restore visited current hcur]

/-- The call `findAllPaths` makes: empty visited map, empty buffer, empty result. -/
theorem dfs_top (rooms : List Room) (start finish fuel : Nat) (hfuel : rooms.length < fuel) :
    dfs rooms fuel start finish (fun _ => false) [] []
      = some (fun _ => false,
          (walks rooms fuel start finish (fun _ => false)).map recordPath) := by
  have h := dfs_eq_walks rooms finish fuel start (fun _ => false) [] [] rfl
    (lt_of_le_of_lt (unvisited_le rooms _) hfuel)
  simpa using h

theorem walks_shape (rooms : List Room) (finish : Nat) :
    ∀ (fuel current : Nat) (visited : Nat → Bool) (q : List Nat),
      q ∈ walks rooms fuel current finish visited →
      q.head? = some current ∧ q.getLast? = some finish ∧ q.Chain' (adjacent rooms) := by
  intro fuel
  induction fuel with
  | zero => intro _ _ q h; simp [walks] at h
  | succ fuel ih =>
    intro current visited q h
    unfold walks at h
    by_cases hfin : current = finish
    · simp only [hfin, if_true, List.mem_singleton] at h
      subst h
      simp [hfin]
    · simp only [hfin, if_false, List.mem_flatMap, List.mem_filter, List.mem_map] at h
      obtain ⟨next, ⟨hmem, _⟩, q1, hq1, rfl⟩ := h
      obtain ⟨hh, hl, hc⟩ := ih next _ q1 hq1
      cases q1 with
      | nil => simp at hh
      | cons a t =>
        simp only [List.head?_cons, Option.some.injEq] at hh
        subst hh
        refine ⟨rfl, ?_, ?_⟩
        · rw [List.getLast?_cons_cons]; exact hl
        · exact List.Chain'.cons hmem hc

theorem walks_simple (rooms : List Room) (finish : Nat) :
    ∀ (fuel current : Nat) (visited : Nat → Bool) (q : List Nat),
      q ∈ walks rooms fuel current finish visited →
      q.Nodup ∧ ∀ r ∈ q.tail, visited r = false ∧ r ≠ current := by
  intro fuel
  induction fuel with
  | zero => intro _ _ q h; simp [walks] at h
  | succ fuel ih =>
    intro current visited q h
    unfold walks at h
    by_cases hfin : current = finish
    · simp only [hfin, if_true, List.mem_singleton] at h
      subst h
      simp
    · simp only [hfin, if_false, List.mem_flatMap, List.mem_filter, List.mem_map] at h
      obtain ⟨next, ⟨_, hnv⟩, q1, hq1, rfl⟩ := h
      obtain ⟨hnd, htl⟩ := ih next _ q1 hq1
      obtain ⟨hh, _, _⟩ := walks_shape rooms finish fuel next _ q1 hq1
      have hall : ∀ r ∈ q1, visited r = false ∧ r ≠ current := by
        intro r hr
        have hr' : setVisited visited current true r = false := by
          cases q1 with
          | nil => simp at hr
          | cons a t =>
            simp only [List.head?_cons, Option.some.injEq] at hh
            subst hh
            rcases List.mem_cons.1 hr with h1 | h1
            · subst h1; simpa using hnv
            · exact (htl r (by simpa using h1)).1
        unfold setVisited at hr'
        by_cases hrc : r = current
        · simp [hrc] at hr'
        · exact ⟨by simpa [hrc] using hr', hrc⟩
      refine ⟨List.nodup_cons.2 ⟨fun hc => (hall current hc).2 rfl, hnd⟩, ?_⟩
      intro r hr
      exact hall r (by simpa using hr)

theorem walks_nodup (rooms : List Room) (finish : Nat)
    (hC : ∀ r, (roomAt rooms r).Connected.Nodup) :
    ∀ (fuel current : Nat) (visited : Nat → Bool),
      (walks rooms fuel current finish visited).Nodup := by
  intro fuel
  induction fuel with
  | zero => intro _ _; simp [walks]
  | succ fuel ih =>
    intro current visited
    unfold walks
    by_cases hfin : current = finish
    · simp [hfin]
    · simp only [hfin, if_false]
      rw [List.nodup_flatMap]
      constructor
      · intro x _
        exact (ih x _).map (List.cons_injective)
      · have hnd : ((roomAt rooms current).Connected.filter
            (fun next => !(setVisited visited current true) next)).Nodup := (hC current).filter _
        refine List.Pairwise.imp ?_ hnd
        intro a b hab
        intro q hqa hqb
        simp only [List.mem_map] at hqa hqb
        obtain ⟨qa, hqa, rfl⟩ := hqa
        obtain ⟨qb, hqb, hEq⟩ := hqb
        have hEq' : qb = qa := by simpa using hEq
        subst hEq'
        have h1 := (walks_shape rooms finish fuel a _ qb hqa).1
        have h2 := (walks_shape rooms finish fuel b _ qb hqb).1
        rw [h1] at h2
        exact hab (by simpa using h2)

theorem walks_complete (rooms : List Room) (finish : Nat) :
    ∀ (fuel current : Nat) (visited : Nat → Bool) (q : List Nat),
      visited current = false → unvisited rooms visited < fuel →
      q.head? = some current → q.getLast? = some finish → q.Chain' (adjacent rooms) →
      q.Nodup → (∀ r ∈ q, visited r = false) →
      q ∈ walks rooms fuel current finish visited := by
  intro fuel
  induction fuel with
  | zero => intro _ _ _ _ h; omega
  | succ fuel ih =>
    intro current visited q hcur hfuel hh hl hc hnd hav
    unfold walks
    cases q with
    | nil => simp at hh
    | cons a t =>
      simp only [List.head?_cons, Option.some.injEq] at hh
      subst hh
      by_cases hfin : a = finish
      · simp only [hfin, if_true, List.mem_singleton]
        cases t with
        | nil => rfl
        | cons b t' =>
          exfalso
          rw [List.getLast?_cons_cons] at hl
          have hmem : finish ∈ b :: t' := List.mem_of_getLast?_eq_some hl
          exact (List.nodup_cons.1 hnd).1 (hfin ▸ hmem)
      · simp only [hfin, if_false, List.mem_flatMap, List.mem_filter, List.mem_map]
        cases t with
        | nil =>
          exfalso
          simp at hl
          exact hfin hl
        | cons b t' =>
          have hadj : b ∈ (roomAt rooms a).Connected := (List.chain'_cons.1 hc).1
          have hlt : a < rooms.length := by
            by_contra hge
            rw [roomAt_connected_of_le rooms a (by omega)] at hadj
            simp at hadj
          have hm := unvisited_mark_lt rooms visited a hcur hlt
          have hav' : ∀ r ∈ b :: t', setVisited visited a true r = false := by
            intro r hr
            have hra : r ≠ a := fun h => (List.nodup_cons.1 hnd).1 (h ▸ hr)
            unfold setVisited
            simpa [hra] using hav r (List.mem_cons_of_mem _ hr)
          have hb := hav' b (List.mem_cons_self _ _)
          refine ⟨b, ⟨hadj, by simpa using hb⟩, b :: t', ?_, rfl⟩
          apply ih b _ (b :: t') hb (by omega) rfl
          · rw [List.getLast?_cons_cons] at hl; exact hl
          · exact (List.chain'_cons.1 hc).2
          · exact (List.nodup_cons.1 hnd).2
          · exact hav'

theorem countP_eq_one_of_nodup {α : Type} [DecidableEq α] (a : α) :
    ∀ l : List α, l.Nodup → a ∈ l → l.countP (fun x => decide (x = a)) = 1 := by
  intro l
  induction l with
  | nil => intro _ h; simp at h
  | cons b t ih =>
    intro hnd hmem
    obtain ⟨hb, ht⟩ := List.nodup_cons.1 hnd
    by_cases hba : b = a
    · subst hba
      have h0 : t.countP (fun x => decide (x = b)) = 0 := by
        rw [List.countP_eq_zero]
        intro x hx hxb
        have : x = b := by simpa using hxb
        exact hb (this ▸ hx)
      rw [List.countP_cons_of_pos _ _ (by simp), h0]
    · have hat : a ∈ t := by
        rcases List.mem_cons.1 hmem with h | h
        · exact absurd h.symm hba
        · exact h
      rw [List.countP_cons_of_neg _ _ (by simpa using hba)]
      exact ih ht hat

theorem roomAt_connected_nodup (rooms : List Room) (h : ∀ rm ∈ rooms, rm.Connected.Nodup)
    (r : Nat) : (roomAt rooms r).Connected.Nodup := by
  by_cases hr : r < rooms.length
  · unfold roomAt
    rw [List.getD_eq_getElem _ _ hr]
    exact h _ (List.getElem_mem hr)
  · rw [roomAt_connected_of_le rooms r (by omega)]
    exact List.nodup_nil

/-- C1: every path `dfs` produces when called from the start room with an empty visited
map and an empty path buffer begins with the start room, ends with the end room, has each
room in the `Connected` list of its predecessor, and has `Length = len(Rooms) - 1`; with
more fuel than the arena has rooms the call returns. -/
theorem dfs_paths_lead_from_start_to_end (rooms : List Room) (start finish fuel : Nat)
    (hfuel : rooms.length < fuel) :
    ∃ visited paths,
      dfs rooms fuel start finish (fun _ => false) [] [] = some (visited, paths) ∧
      ∀ p ∈ paths,
        p.Rooms.head? = some start ∧ p.Rooms.getLast? = some finish ∧
        p.Rooms.Chain' (adjacent rooms) ∧ p.Length = (p.Rooms.length : Int) - 1 := by
  refine ⟨_, _, dfs_top rooms start finish fuel hfuel, ?_⟩
  intro p hp
  obtain ⟨q, hq, rfl⟩ := List.mem_map.1 hp
  obtain ⟨hh, hl, hc⟩ := walks_shape rooms finish fuel start _ q hq
  exact ⟨hh, hl, hc, rfl⟩

theorem dfs_paths_lead_from_start_to_end_witness :
    fixtureCycle.length < 5 ∧
    ∃ visited paths,
      dfs fixtureCycle 5 0 3 (fun _ => false) [] [] = some (visited, paths) ∧
      ∀ p ∈ paths,
        p.Rooms.head? = some 0 ∧ p.Rooms.getLast? = some 3 ∧
        p.Rooms.Chain' (adjacent fixtureCycle) ∧ p.Length = (p.Rooms.length : Int) - 1 :=
  ⟨by decide, dfs_paths_lead_from_start_to_end fixtureCycle 0 3 5 (by decide)⟩

/-- C2: no path `dfs` produces from the start room with an empty visited map holds the
same room twice; with more fuel than the arena has rooms the call returns. -/
theorem dfs_paths_repeat_no_room (rooms : List Room) (start finish fuel : Nat)
    (hfuel : rooms.length < fuel) :
    ∃ visited paths,
      dfs rooms fuel start finish (fun _ => false) [] [] = some (visited, paths) ∧
      ∀ p ∈ paths, p.Rooms.Nodup := by
  refine ⟨_, _, dfs_top rooms start finish fuel hfuel, ?_⟩
  intro p hp
  obtain ⟨q, hq, rfl⟩ := List.mem_map.1 hp
  exact (walks_simple rooms finish fuel start _ q hq).1

theorem dfs_paths_repeat_no_room_witness :
    fixtureCycle.length < 5 ∧
    ∃ visited paths,
      dfs fixtureCycle 5 0 3 (fun _ => false) [] [] = some (visited, paths) ∧
      ∀ p ∈ paths, p.Rooms.Nodup :=
  ⟨by decide, dfs_paths_repeat_no_room fixtureCycle 0 3 5 (by decide)⟩

/-- C3: on a graph whose `Connected` lists have no duplicate entries, every simple path
from the start room to the end room occurs exactly once among the paths `dfs` produces
from the start room with an empty visited map. -/
theorem dfs_finds_each_simple_path_once (rooms : List Room) (start finish fuel : Nat)
    (hfuel : rooms.length < fuel) (hdup : ∀ rm ∈ rooms, rm.Connected.Nodup)
    (q : List Nat) (hq : IsSimplePath rooms start finish q) :
    ∃ visited paths,
      dfs rooms fuel start finish (fun _ => false) [] [] = some (visited, paths) ∧
      paths.countP (fun p => decide (p.Rooms = q)) = 1 := by
  refine ⟨_, _, dfs_top rooms start finish fuel hfuel, ?_⟩
  obtain ⟨hh, hl, hc, hnd⟩ := hq
  have hmem : q ∈ walks rooms fuel start finish (fun _ => false) :=
    walks_complete rooms finish fuel start _ q rfl
      (lt_of_le_of_lt (unvisited_le rooms _) hfuel) hh hl hc hnd (fun _ _ => rfl)
  have hnodup := walks_nodup rooms finish (roomAt_connected_nodup rooms hdup) fuel start
    (fun _ => false)
  have hcount := countP_eq_one_of_nodup q _ hnodup hmem
  rw [List.countP_map, ← hcount]
  apply List.countP_congr
  intro x _
  simp [recordPath]

theorem dfs_finds_each_simple_path_once_witness :
    fixtureCycle.length < 5 ∧ (∀ rm ∈ fixtureCycle, rm.Connected.Nodup) ∧
    IsSimplePath fixtureCycle 0 3 [0, 1, 2, 3] ∧
    ∃ visited paths,
      dfs fixtureCycle 5 0 3 (fun _ => false) [] [] = some (visited, paths) ∧
      paths.countP (fun p => decide (p.Rooms = [0, 1, 2, 3])) = 1 :=
  have hd : ∀ rm ∈ fixtureCycle, rm.Connected.Nodup := by decide
  have hs : IsSimplePath fixtureCycle 0 3 [0, 1, 2, 3] := by
    refine ⟨rfl, rfl, ?_, by decide⟩
    simp [adjacent, roomAt, fixtureCycle, plainRoom]
  ⟨by decide, hd, hs, dfs_finds_each_simple_path_once fixtureCycle 0 3 5 (by decide) hd _ hs⟩

/-- C4: on the five fixture graphs of `TestAntFarm_dfs`, `dfs` from start to end collects
1, 2, 2, 0 and 4 paths. -/
theorem dfs_fixture_counts :
    dfsCount fixtureSingle 4 0 2 = some 1 ∧
    dfsCount fixtureMultiple 5 0 3 = some 2 ∧
    dfsCount fixtureCycle 5 0 3 = some 2 ∧
    dfsCount fixtureNoPath 5 0 3 = some 0 ∧
    dfsCount fixtureComplex 7 0 5 = some 4 := by
  refine ⟨?_, ?_, ?_, ?_, ?_⟩ <;> decide

/-! ## Selection of interior-disjoint paths -/

theorem mem_middleNames (rooms : List Room) (p : Path) (nm : String) :
    nm ∈ middleNames rooms p ↔
      ∃ i, 1 ≤ i ∧ i + 1 < p.Rooms.length ∧ (roomAt rooms (p.Rooms.getD i 0)).Name = nm := by
  unfold middleNames
  rw [List.mem_map]
  constructor
  · rintro ⟨i, hi, rfl⟩
    rw [List.mem_range'_1] at hi
    exact ⟨i, hi.1, by omega, rfl⟩
  · rintro ⟨i, h1, h2, rfl⟩
    exact ⟨i, List.mem_range'_1.2 ⟨h1, by omega⟩, rfl⟩

theorem pathsOverlap_eq_false (rooms : List Room) (p q : Path) :
    pathsOverlap rooms p q = false ↔
      ∀ nm ∈ middleNames rooms q, nm ∉ middleNames rooms p := by
  unfold pathsOverlap
  rw [List.any_eq_false]
  simp

theorem isCompatible_iff (rooms : List Room) (p : Path) (combination : List Path) :
    isCompatible rooms p combination = true ↔
      ∀ e ∈ combination, ∀ nm ∈ middleNames rooms e, nm ∉ middleNames rooms p := by
  unfold isCompatible
  rw [List.all_eq_true]
  constructor
  · intro h e he
    have := h e he
    rw [Bool.not_eq_true'] at this
    exact (pathsOverlap_eq_false rooms p e).1 this
  · intro h e he
    rw [Bool.not_eq_true']
    exact (pathsOverlap_eq_false rooms p e).2 (h e he)

/-- The inner loop of `findBestCombination` keeps the combination pairwise disjoint. -/
theorem grow_pairwise (rooms : List Room) (s : Nat) :
    ∀ (l : List (Nat × Path)) (acc : List Path),
      acc.Pairwise (fun x y => ∀ nm ∈ middleNames rooms x, nm ∉ middleNames rooms y) →
      (l.foldl
        (fun currentCombination (ip : Nat × Path) =>
          if ip.1 = s then currentCombination
          else if isCompatible rooms ip.2 currentCombination then currentCombination ++ [ip.2]
          else currentCombination) acc).Pairwise
        (fun x y => ∀ nm ∈ middleNames rooms x, nm ∉ middleNames rooms y) := by
  intro l
  induction l with
  | nil => intro acc h; simpa using h
  | cons e t ih =>
    intro acc h
    rw [List.foldl_cons]
    apply ih
    by_cases hs : e.1 = s
    · rw [if_pos hs]; exact h
    · rw [if_neg hs]
      by_cases hc : isCompatible rooms e.2 acc = true
      · rw [if_pos hc]
        rw [List.pairwise_append]
        refine ⟨h, List.pairwise_singleton _ _, ?_⟩
        intro x hx y hy
        rw [List.mem_singleton] at hy
        subst hy
        exact (isCompatible_iff rooms e.2 acc).1 hc x hx
      · rw [if_neg hc]; exact h

theorem growCombination_pairwise (rooms : List Room) (paths : List Path) (s : Nat) (seed : Path) :
    (growCombination rooms paths s seed).Pairwise
      (fun x y => ∀ nm ∈ middleNames rooms x, nm ∉ middleNames rooms y) :=
  grow_pairwise rooms s _ _ (List.pairwise_singleton _ _)

theorem best_pairwise (rooms : List Room) (paths : List Path) :
    ∀ (l : List (Nat × Path)) (best : List Path × Nat),
      best.1.Pairwise (fun x y => ∀ nm ∈ middleNames rooms x, nm ∉ middleNames rooms y) →
      (l.foldl
        (fun (best : List Path × Nat) (sp : Nat × Path) =>
          let currentCombination := growCombination rooms paths sp.1 sp.2
          if currentCombination.length > best.2 then
            (currentCombination, currentCombination.length)
          else best) best).1.Pairwise
        (fun x y => ∀ nm ∈ middleNames rooms x, nm ∉ middleNames rooms y) := by
  intro l
  induction l with
  | nil => intro best h; simpa using h
  | cons e t ih =>
    intro best h
    rw [List.foldl_cons]
    apply ih
    simp only []
    split
    · exact growCombination_pairwise rooms paths e.1 e.2
    · exact h

theorem filter_pairwise (rooms : List Room) (paths : List Path) :
    (filterNonOverlappingPaths rooms paths).Pairwise
      (fun x y => ∀ nm ∈ middleNames rooms x, nm ∉ middleNames rooms y) := by
  unfold filterNonOverlappingPaths findBestCombination
  cases paths with
  | nil => exact List.Pairwise.nil
  | cons first rest => exact best_pairwise rooms _ _ _ (List.pairwise_singleton _ _)

/-- C5: no two paths at different positions of the result of `filterNonOverlappingPaths`
share an interior room: a room name at a position `1 .. len-2` of one never occurs at a
position `1 .. len-2` of the other. -/
theorem selected_paths_share_no_interior_room (rooms : List Room) (paths : List Path)
    (i j : Nat) (p q : Path) (hij : i ≠ j)
    (hp : (filterNonOverlappingPaths rooms paths)[i]? = some p)
    (hq : (filterNonOverlappingPaths rooms paths)[j]? = some q)
    (a b : Nat) (ha1 : 1 ≤ a) (ha2 : a + 1 < p.Rooms.length)
    (hb1 : 1 ≤ b) (hb2 : b + 1 < q.Rooms.length) :
    (roomAt rooms (p.Rooms.getD a 0)).Name ≠ (roomAt rooms (q.Rooms.getD b 0)).Name := by
  have hpw := List.pairwise_iff_getElem.1 (filter_pairwise rooms paths)
  obtain ⟨hi, hpi⟩ := List.getElem?_eq_some.1 hp
  obtain ⟨hj, hqj⟩ := List.getElem?_eq_some.1 hq
  have hma : (roomAt rooms (p.Rooms.getD a 0)).Name ∈ middleNames rooms p :=
    (mem_middleNames rooms p _).2 ⟨a, ha1, ha2, rfl⟩
  have hmb : (roomAt rooms (q.Rooms.getD b 0)).Name ∈ middleNames rooms q :=
    (mem_middleNames rooms q _).2 ⟨b, hb1, hb2, rfl⟩
  intro heq
  rcases Nat.lt_or_gt_of_ne hij with hlt | hgt
  · have h := hpw i j hi hj hlt
    rw [hpi, hqj] at h
    exact h _ hma (heq ▸ hmb)
  · have h := hpw j i hj hi hgt
    rw [hpi, hqj] at h
    exact h _ hmb (heq ▸ hma)

theorem tail_dropLast_eq (l : List Nat) :
    l.tail.dropLast = (List.range' 1 (l.length - 2)).map (fun i => l.getD i 0) := by
  apply List.ext_getElem
  · simp
    omega
  · intro n h1 h2
    simp at h1 h2 ⊢
    have : 1 + n < l.length := by omega
    rw [List.getElem?_eq_getElem this]
    simp [Nat.add_comm]

theorem interiorNames_eq_middleNames (rooms : List Room) (p : Path) :
    interiorNames rooms p = middleNames rooms p := by
  unfold interiorNames middleNames
  rw [tail_dropLast_eq, List.map_map]
  rfl

/-- First strict improvement: a left fold that replaces the running best by a candidate of
strictly smaller key ends on the first candidate of least key, or on the initial value
when no candidate beats it. -/
theorem fold_first_least {σ : Type} (key : σ → Int) (upd : σ → σ → σ)
    (hupd : ∀ best c, upd best c = if key c < key best then c else best) :
    ∀ (cs : List σ) (init : σ),
      key (cs.foldl upd init) ≤ key init ∧
      (∀ c ∈ cs, key (cs.foldl upd init) ≤ key c) ∧
      (cs.foldl upd init = init ∨
        ∃ (t : Nat) (c : σ), cs[t]? = some c ∧ cs.foldl upd init = c ∧ key c < key init ∧
          ∀ (t' : Nat) (c' : σ), t' < t → cs[t']? = some c' → key c < key c') := by
  intro cs
  induction cs with
  | nil => intro init; simp
  | cons x xs ih =>
    intro init
    rw [List.foldl_cons]
    obtain ⟨h1, h2, h3⟩ := ih (upd init x)
    have hle : key (upd init x) ≤ key init ∧ key (upd init x) ≤ key x := by
      rw [hupd]
      split <;> constructor <;> omega
    refine ⟨le_trans h1 hle.1, ?_, ?_⟩
    · intro c hc
      rcases List.mem_cons.1 hc with h | h
      · subst h; exact le_trans h1 hle.2
      · exact h2 c h
    · rcases h3 with h | ⟨t, c, hc, hr, hlt, hfirst⟩
      · by_cases hx : key x < key init
        · right
          refine ⟨0, x, by simp, ?_, hx, ?_⟩
          · rw [h, hupd, if_pos hx]
          · intro t' c' ht'; omega
        · left
          rw [h, hupd, if_neg hx]
      · right
        refine ⟨t + 1, c, by simpa using hc, hr, lt_of_lt_of_le hlt hle.1, ?_⟩
        intro t' c' ht' hc'
        cases t' with
        | zero =>
          simp at hc'
          subst hc'
          exact lt_of_lt_of_le hlt hle.2
        | succ t'' =>
          simp at hc'
          exact hfirst t'' c' (by omega) hc'

theorem isCompatible_iff_spec (rooms : List Room) (p : Path) (acc : List Path) :
    isCompatible rooms p acc = true ↔
      ∀ q ∈ acc, ∀ nm ∈ interiorNames rooms p, nm ∉ interiorNames rooms q := by
  rw [isCompatible_iff]
  simp only [interiorNames_eq_middleNames]
  constructor
  · intro h q hq nm hnm hnq
    exact h q hq nm hnq hnm
  · intro h e he nm hnm hnp
    exact h e he nm hnp hnm

/-- The inner loop of `findBestCombination` is the scan of the seed-greedy reference. -/
theorem grow_eq_candScan (rooms : List Room) (paths : List Path) (s : Nat) :
    ∀ (l : List (Nat × Path)) (acc : List Path),
      (∀ e ∈ l, paths.getD e.1 default = e.2) →
      l.foldl
        (fun currentCombination (ip : Nat × Path) =>
          if ip.1 = s then currentCombination
          else if isCompatible rooms ip.2 currentCombination then currentCombination ++ [ip.2]
          else currentCombination) acc
        = candScan rooms paths ((l.map Prod.fst).filter (fun i => i ≠ s)) acc := by
  intro l
  induction l with
  | nil => intro acc _; simp [candScan]
  | cons e t ih =>
    intro acc h
    have he := h e (List.mem_cons_self _ _)
    have ht : ∀ e' ∈ t, paths.getD e'.1 default = e'.2 :=
      fun e' he' => h e' (List.mem_cons_of_mem _ he')
    rw [List.foldl_cons, List.map_cons]
    by_cases hs : e.1 = s
    · have hf : List.filter (fun i => decide (i ≠ s)) (e.1 :: t.map Prod.fst)
          = List.filter (fun i => decide (i ≠ s)) (t.map Prod.fst) := by
        rw [List.filter_cons]; simp [hs]
      rw [hf]
      simp only [hs, if_true]
      exact ih acc ht
    · have hf : List.filter (fun i => decide (i ≠ s)) (e.1 :: t.map Prod.fst)
          = e.1 :: List.filter (fun i => decide (i ≠ s)) (t.map Prod.fst) := by
        rw [List.filter_cons]; simp [hs]
      rw [hf]
      simp only [hs, if_false]
      unfold candScan
      rw [he]
      by_cases hc : isCompatible rooms e.2 acc = true
      · rw [if_pos hc, if_pos ((isCompatible_iff_spec rooms e.2 acc).1 hc)]
        exact ih _ ht
      · rw [if_neg hc, if_neg (fun h' => hc ((isCompatible_iff_spec rooms e.2 acc).2 h'))]
        exact ih _ ht

theorem growCombination_eq_cand (rooms : List Room) (paths : List Path) (s : Nat) (p : Path)
    (hp : paths[s]? = some p) : growCombination rooms paths s p = cand rooms paths s := by
  unfold growCombination cand
  rw [grow_eq_candScan rooms paths s paths.enum [p]]
  · rw [List.enum_map_fst]
    congr 1
    simp [hp]
  · intro e he
    have := List.mem_enum_iff_getElem?.1 he
    simp [this]

theorem candScan_extends (rooms : List Room) (paths : List Path) :
    ∀ (l : List Nat) (acc : List Path), ∃ ext, candScan rooms paths l acc = acc ++ ext := by
  intro l
  induction l with
  | nil => intro acc; exact ⟨[], by simp [candScan]⟩
  | cons i t ih =>
    intro acc
    unfold candScan
    split
    · obtain ⟨ext, h⟩ := ih (acc ++ [paths.getD i default])
      exact ⟨paths.getD i default :: ext, by rw [h]; simp⟩
    · exact ih acc

theorem cand_extends (rooms : List Room) (paths : List Path) (s : Nat) :
    ∃ ext, cand rooms paths s = paths.getD s default :: ext := by
  obtain ⟨ext, h⟩ := candScan_extends rooms paths
    ((List.range paths.length).filter (fun i => i ≠ s)) [paths.getD s default]
  exact ⟨ext, by unfold cand; rw [h]; rfl⟩

/-- C6: `filterNonOverlappingPaths` is the seed-greedy reference. On the empty list it
returns the empty list; on a non-empty list it returns `cand s` for the smallest index `s`
whose candidate has the largest length, `cand s` being the seed `paths[s]` followed, in
ascending index order, by every other path that shares no interior room with a path
already taken. -/
theorem filter_is_seed_greedy (rooms : List Room) (paths : List Path) (hne : paths ≠ []) :
    filterNonOverlappingPaths rooms [] = [] ∧
    ∃ s, s < paths.length ∧
      filterNonOverlappingPaths rooms paths = cand rooms paths s ∧
      (∀ t, t < paths.length → (cand rooms paths t).length ≤ (cand rooms paths s).length) ∧
      (∀ t, t < s → (cand rooms paths t).length < (cand rooms paths s).length) := by
  refine ⟨rfl, ?_⟩
  cases paths with
  | nil => exact absurd rfl hne
  | cons first rest =>
    have hcs : ∀ (t : Nat) (c : List Path × Nat),
        (((first :: rest).enum.map (fun (sp : Nat × Path) =>
          (growCombination rooms (first :: rest) sp.1 sp.2,
            (growCombination rooms (first :: rest) sp.1 sp.2).length)))[t]? = some c) →
        t < (first :: rest).length ∧
          c = (cand rooms (first :: rest) t, (cand rooms (first :: rest) t).length) := by
      intro t c hc
      rw [List.getElem?_map, List.getElem?_enum] at hc
      cases hpt : (first :: rest)[t]? with
      | none => rw [hpt] at hc; simp at hc
      | some p =>
        rw [hpt] at hc
        simp only [Option.map_some', Option.some.injEq] at hc
        rw [growCombination_eq_cand rooms _ t p hpt] at hc
        exact ⟨(List.getElem?_eq_some.1 hpt).1, hc.symm⟩
    have hfold : filterNonOverlappingPaths rooms (first :: rest)
        = (((first :: rest).enum.map (fun (sp : Nat × Path) =>
            (growCombination rooms (first :: rest) sp.1 sp.2,
              (growCombination rooms (first :: rest) sp.1 sp.2).length))).foldl
            (fun (best c : List Path × Nat) => if c.2 > best.2 then c else best)
            ([first], 1)).1 := by
      unfold filterNonOverlappingPaths findBestCombination
      rw [List.foldl_map]
    obtain ⟨_, h2, h3⟩ := fold_first_least (fun (b : List Path × Nat) => -(b.2 : Int))
      (fun (best c : List Path × Nat) => if c.2 > best.2 then c else best)
      (by
        intro best c
        show (if c.2 > best.2 then c else best)
          = if -(c.2 : Int) < -(best.2 : Int) then c else best
        by_cases h : c.2 > best.2
        · rw [if_pos h, if_pos (by omega)]
        · rw [if_neg h, if_neg (by omega)])
      ((first :: rest).enum.map (fun (sp : Nat × Path) =>
          (growCombination rooms (first :: rest) sp.1 sp.2,
            (growCombination rooms (first :: rest) sp.1 sp.2).length)))
      ([first], 1)
    have hall : ∀ t, t < (first :: rest).length →
        ∃ c, (((first :: rest).enum.map (fun (sp : Nat × Path) =>
          (growCombination rooms (first :: rest) sp.1 sp.2,
            (growCombination rooms (first :: rest) sp.1 sp.2).length)))[t]? = some c) := by
      intro t ht
      have : t < ((first :: rest).enum.map (fun (sp : Nat × Path) =>
          (growCombination rooms (first :: rest) sp.1 sp.2,
            (growCombination rooms (first :: rest) sp.1 sp.2).length))).length := by
        simpa using ht
      exact ⟨_, List.getElem?_eq_getElem this⟩
    rcases h3 with h | ⟨t, c, hc, hr, _, hfirst⟩
    · refine ⟨0, by simp, ?_, ?_, ?_⟩
      · rw [hfold, h]
        obtain ⟨ext, hext⟩ := cand_extends rooms (first :: rest) 0
        obtain ⟨c, hc⟩ := hall 0 (by simp)
        have hle := h2 c (List.getElem?_mem hc)
        rw [h, (hcs 0 c hc).2, hext] at hle
        simp at hle
        have hnil : ext = [] := by
          cases ext with
          | nil => rfl
          | cons a b => simp at hle
        rw [hext, hnil]
        simp
      · intro t ht
        obtain ⟨c, hc⟩ := hall t ht
        have hle := h2 c (List.getElem?_mem hc)
        rw [h, (hcs t c hc).2] at hle
        obtain ⟨ext, hext⟩ := cand_extends rooms (first :: rest) 0
        rw [hext]
        simp at hle ⊢
        omega
      · intro t ht; omega
    · obtain ⟨htlt, hceq⟩ := hcs t c hc
      refine ⟨t, htlt, ?_, ?_, ?_⟩
      · rw [hfold, hr, hceq]
      · intro t' ht'
        obtain ⟨c', hc'⟩ := hall t' ht'
        have hle := h2 c' (List.getElem?_mem hc')
        rw [hr, hceq, (hcs t' c' hc').2] at hle
        simp at hle
        exact hle
      · intro t' ht'
        obtain ⟨c', hc'⟩ := hall t' (by omega)
        have hlt := hfirst t' c' ht' hc'
        rw [hceq, (hcs t' c' hc').2] at hlt
        simp at hlt
        exact hlt

theorem selected_paths_share_no_interior_room_witness :
    (filterNonOverlappingPaths roomsTwoRoutes twoRoutePaths)[0]? = some (recordPath [0, 1, 3]) ∧
    (filterNonOverlappingPaths roomsTwoRoutes twoRoutePaths)[1]? = some (recordPath [0, 2, 3]) ∧
    (roomAt roomsTwoRoutes ((recordPath [0, 1, 3]).Rooms.getD 1 0)).Name
      ≠ (roomAt roomsTwoRoutes ((recordPath [0, 2, 3]).Rooms.getD 1 0)).Name :=
  ⟨by decide, by decide,
    selected_paths_share_no_interior_room roomsTwoRoutes twoRoutePaths 0 1 _ _ (by decide)
      (by decide) (by decide) 1 1 (by decide) (by decide) (by decide) (by decide)⟩

theorem filter_is_seed_greedy_witness :
    twoRoutePaths ≠ [] ∧
    filterNonOverlappingPaths roomsTwoRoutes [] = [] ∧
    ∃ s, s < twoRoutePaths.length ∧
      filterNonOverlappingPaths roomsTwoRoutes twoRoutePaths = cand roomsTwoRoutes twoRoutePaths s ∧
      (∀ t, t < twoRoutePaths.length →
        (cand roomsTwoRoutes twoRoutePaths t).length
          ≤ (cand roomsTwoRoutes twoRoutePaths s).length) ∧
      (∀ t, t < s →
        (cand roomsTwoRoutes twoRoutePaths t).length
          < (cand roomsTwoRoutes twoRoutePaths s).length) :=
  ⟨by decide, filter_is_seed_greedy roomsTwoRoutes twoRoutePaths (by decide)⟩

/-! ## Assignment of ants to paths -/

theorem grow_subset (rooms : List Room) (s : Nat) (paths : List Path) :
    ∀ (l : List (Nat × Path)) (acc : List Path),
      (∀ e ∈ l, e.2 ∈ paths) → (∀ p ∈ acc, p ∈ paths) →
      ∀ p ∈ l.foldl
        (fun currentCombination (ip : Nat × Path) =>
          if ip.1 = s then currentCombination
          else if isCompatible rooms ip.2 currentCombination then currentCombination ++ [ip.2]
          else currentCombination) acc, p ∈ paths := by
  intro l
  induction l with
  | nil => intro acc _ h; simpa using h
  | cons e t ih =>
    intro acc hl hacc
    rw [List.foldl_cons]
    apply ih _ (fun e' he' => hl e' (List.mem_cons_of_mem _ he'))
    have he := hl e (List.mem_cons_self _ _)
    split
    · exact hacc
    · split
      · intro p hp
        rcases List.mem_append.1 hp with h | h
        · exact hacc p h
        · rw [List.mem_singleton] at h; exact h ▸ he
      · exact hacc

theorem best_subset (rooms : List Room) (paths : List Path) :
    ∀ (l : List (Nat × Path)) (best : List Path × Nat),
      (∀ e ∈ l, e.2 ∈ paths) → (∀ p ∈ best.1, p ∈ paths) →
      ∀ p ∈ (l.foldl
        (fun (best : List Path × Nat) (sp : Nat × Path) =>
          let currentCombination := growCombination rooms paths sp.1 sp.2
          if currentCombination.length > best.2 then
            (currentCombination, currentCombination.length)
          else best) best).1, p ∈ paths := by
  intro l
  induction l with
  | nil => intro best _ h; simpa using h
  | cons e t ih =>
    intro best hl hbest
    rw [List.foldl_cons]
    apply ih _ (fun e' he' => hl e' (List.mem_cons_of_mem _ he'))
    have he := hl e (List.mem_cons_self _ _)
    simp only []
    split
    · exact grow_subset rooms e.1 paths paths.enum [e.2]
        (fun e' he' => List.snd_mem_of_mem_enum he')
        (fun p hp => by rw [List.mem_singleton] at hp; exact hp ▸ he)
    · exact hbest

/-- Every path `filterNonOverlappingPaths` returns is one of its inputs. -/
theorem filter_subset (rooms : List Room) (paths : List Path) :
    ∀ p ∈ filterNonOverlappingPaths rooms paths, p ∈ paths := by
  unfold filterNonOverlappingPaths findBestCombination
  cases paths with
  | nil => intro p hp; simp at hp
  | cons first rest =>
    exact best_subset rooms (first :: rest) _ _ (fun e he => List.snd_mem_of_mem_enum he)
      (fun p hp => by rw [List.mem_singleton] at hp; exact hp ▸ List.mem_cons_self _ _)

/-- With `Start` and `End` set, `findAllPaths` returns, and each returned path is the
record of a walk of `dfs`. -/
theorem findAllPaths_some (S : SliceSorter) (rooms : List Room) (af : AntFarm)
    (start finish : Nat) (hs : af.Start = some start) (he : af.End = some finish) :
    ∃ paths, findAllPaths S rooms af = some paths ∧
      ∀ p ∈ paths, ∃ q ∈ walks rooms (rooms.length + 1) start finish (fun _ => false),
        p = recordPath q := by
  unfold findAllPaths
  rw [hs, he]
  simp only []
  rw [dfs_top rooms start finish (rooms.length + 1) (Nat.lt_succ_self _)]
  refine ⟨_, rfl, ?_⟩
  intro p hp
  have h1 := filter_subset rooms _ p hp
  have h2 := (S.perm _).subset h1
  obtain ⟨q, hq, rfl⟩ := List.mem_map.1 h2
  exact ⟨q, hq, rfl⟩

theorem walks_inner_lt (rooms : List Room) (finish : Nat) :
    ∀ (fuel current : Nat) (visited : Nat → Bool) (q : List Nat),
      q ∈ walks rooms fuel current finish visited → ∀ r ∈ q.dropLast, r < rooms.length := by
  intro fuel
  induction fuel with
  | zero => intro _ _ q h; simp [walks] at h
  | succ fuel ih =>
    intro current visited q h
    unfold walks at h
    by_cases hfin : current = finish
    · simp only [hfin, if_true, List.mem_singleton] at h
      subst h
      simp
    · simp only [hfin, if_false, List.mem_flatMap, List.mem_filter, List.mem_map] at h
      obtain ⟨next, ⟨hmem, _⟩, q1, hq1, rfl⟩ := h
      have hlt : current < rooms.length := by
        by_contra hge
        rw [roomAt_connected_of_le rooms current (by omega)] at hmem
        simp at hmem
      obtain ⟨hh, _, _⟩ := walks_shape rooms finish fuel next _ q1 hq1
      cases q1 with
      | nil => simp at hh
      | cons a t =>
        intro r hr
        rw [List.dropLast_cons₂] at hr
        rcases List.mem_cons.1 hr with h1 | h1
        · exact h1 ▸ hlt
        · exact ih next _ (a :: t) hq1 r h1

theorem walks_length_le (rooms : List Room) (finish fuel current : Nat) (visited : Nat → Bool)
    (q : List Nat) (hq : q ∈ walks rooms fuel current finish visited) :
    q.length ≤ rooms.length + 1 := by
  have hnd : q.dropLast.Nodup :=
    (walks_simple rooms finish fuel current visited q hq).1.sublist (List.dropLast_sublist q)
  have hsub : q.dropLast ⊆ List.range rooms.length :=
    fun r hr => List.mem_range.2 (walks_inner_lt rooms finish fuel current visited q hq r hr)
  have := (List.subperm_of_subset hnd hsub).length_le
  rw [List.length_range, List.length_dropLast] at this
  omega

/-- A path of `findAllPaths` has at most as many tunnels as the arena has rooms. -/
theorem findAllPaths_length_le (S : SliceSorter) (rooms : List Room) (af : AntFarm)
    (paths : List Path) (h : findAllPaths S rooms af = some paths) :
    ∀ p ∈ paths, p.Length ≤ (rooms.length : Int) := by
  unfold findAllPaths at h
  cases hs : af.Start with
  | none => rw [hs] at h; simp at h
  | some start =>
    cases he : af.End with
    | none => rw [hs, he] at h; simp at h
    | some finish =>
      obtain ⟨paths', h1, h2⟩ := findAllPaths_some S rooms af start finish hs he
      unfold findAllPaths at h1
      rw [h] at h1
      cases h1
      intro p hp
      obtain ⟨q, hq, rfl⟩ := h2 p hp
      have := walks_length_le rooms finish _ start _ q hq
      simp only [recordPath]
      omega

theorem pickPath_eq_fold (paths : List Path) (pathAnts : List Int) :
    pickPath paths pathAnts
      = (paths.enum.map (fun (jp : Nat × Path) =>
            (jp.2.Length + pathAnts.getD jp.1 0, jp.1))).foldl
          (fun (best c : Int × Nat) => if c.1 < best.1 then c else best) (maxInt, 0) := by
  unfold pickPath
  rw [List.foldl_map]

theorem pickPath_candidates (paths : List Path) (pathAnts : List Int) (t : Nat) (c : Int × Nat)
    (hc : (paths.enum.map (fun (jp : Nat × Path) =>
            (jp.2.Length + pathAnts.getD jp.1 0, jp.1)))[t]? = some c) :
    t < paths.length ∧ c = ((paths.getD t default).Length + pathAnts.getD t 0, t) := by
  rw [List.getElem?_map, List.getElem?_enum] at hc
  cases hpt : paths[t]? with
  | none => rw [hpt] at hc; simp at hc
  | some p =>
    rw [hpt] at hc
    simp only [Option.map_some', Option.some.injEq] at hc
    refine ⟨(List.getElem?_eq_some.1 hpt).1, ?_⟩
    rw [← hc]
    simp [hpt]

theorem pickPath_candidate_at (paths : List Path) (pathAnts : List Int) (t : Nat)
    (ht : t < paths.length) :
    (paths.enum.map (fun (jp : Nat × Path) =>
        (jp.2.Length + pathAnts.getD jp.1 0, jp.1)))[t]?
      = some ((paths.getD t default).Length + pathAnts.getD t 0, t) := by
  have hlen : t < (paths.enum.map (fun (jp : Nat × Path) =>
        (jp.2.Length + pathAnts.getD jp.1 0, jp.1))).length := by simpa using ht
  have h := List.getElem?_eq_getElem hlen
  rw [h, (pickPath_candidates paths pathAnts t _ h).2]

/-- The index `pickPath` returns is an index of the path list. -/
theorem pickPath_index_lt (paths : List Path) (pathAnts : List Int) (hne : paths ≠ []) :
    (pickPath paths pathAnts).2 < paths.length := by
  rw [pickPath_eq_fold]
  obtain ⟨_, _, h3⟩ := fold_first_least (fun (b : Int × Nat) => b.1)
    (fun (best c : Int × Nat) => if c.1 < best.1 then c else best) (fun _ _ => rfl)
    (paths.enum.map (fun (jp : Nat × Path) => (jp.2.Length + pathAnts.getD jp.1 0, jp.1)))
    (maxInt, 0)
  rcases h3 with h | ⟨t, c, hc, hr, _, _⟩
  · rw [h]
    exact List.length_pos.2 hne
  · obtain ⟨ht, hceq⟩ := pickPath_candidates paths pathAnts t c hc
    rw [hr, hceq]
    exact ht

/-- When every total stays below the largest `int`, `pickPath` returns the least total and
the lowest index that attains it. -/
theorem pickPath_least (paths : List Path) (pathAnts : List Int) (hne : paths ≠ [])
    (hb : ∀ k, k < paths.length → (paths.getD k default).Length + pathAnts.getD k 0 < maxInt) :
    (pickPath paths pathAnts).1
        = (paths.getD (pickPath paths pathAnts).2 default).Length
            + pathAnts.getD (pickPath paths pathAnts).2 0 ∧
    (∀ k, k < paths.length →
      (pickPath paths pathAnts).1 ≤ (paths.getD k default).Length + pathAnts.getD k 0) ∧
    (∀ k, k < (pickPath paths pathAnts).2 →
      (pickPath paths pathAnts).1 < (paths.getD k default).Length + pathAnts.getD k 0) := by
  have hpos : 0 < paths.length := List.length_pos.2 hne
  rw [pickPath_eq_fold]
  obtain ⟨_, h2, h3⟩ := fold_first_least (fun (b : Int × Nat) => b.1)
    (fun (best c : Int × Nat) => if c.1 < best.1 then c else best) (fun _ _ => rfl)
    (paths.enum.map (fun (jp : Nat × Path) => (jp.2.Length + pathAnts.getD jp.1 0, jp.1)))
    (maxInt, 0)
  have hall : ∀ k, k < paths.length →
      ((paths.enum.map (fun (jp : Nat × Path) =>
        (jp.2.Length + pathAnts.getD jp.1 0, jp.1))).foldl
          (fun (best c : Int × Nat) => if c.1 < best.1 then c else best) (maxInt, 0)).1
        ≤ (paths.getD k default).Length + pathAnts.getD k 0 := by
    intro k hk
    exact h2 _ (List.getElem?_mem (pickPath_candidate_at paths pathAnts k hk))
  rcases h3 with h | ⟨t, c, hc, hr, _, hfirst⟩
  · exfalso
    have h0 := hall 0 hpos
    rw [h] at h0
    have := hb 0 hpos
    simp only at h0
    omega
  · obtain ⟨ht, hceq⟩ := pickPath_candidates paths pathAnts t c hc
    refine ⟨?_, hall, ?_⟩
    · rw [hr, hceq]
    · intro k hk
      rw [hr, hceq] at hk ⊢
      have := hfirst k _ hk (pickPath_candidate_at paths pathAnts k (by simp at hk; omega))
      rw [hceq] at this
      exact this

theorem assign_pathAnts_length (paths : List Path) :
    ∀ (l : List (Option Nat)) (st : AssignState),
      (l.foldl (assignOne paths) st).pathAnts.length = st.pathAnts.length := by
  intro l
  induction l with
  | nil => intro st; rfl
  | cons a t ih =>
    intro st
    rw [List.foldl_cons, ih]
    simp [assignOne]

theorem assign_prefix_length (paths : List Path) (ants : List (Option Nat)) (i : Nat) :
    ((ants.take i).foldl (assignOne paths) (assignInit paths)).pathAnts.length = paths.length := by
  rw [assign_pathAnts_length]
  simp [assignInit]

theorem assign_prefix_succ (paths : List Path) (ants : List (Option Nat)) (i : Nat)
    (hi : i < ants.length) :
    (ants.take (i + 1)).foldl (assignOne paths) (assignInit paths)
      = assignOne paths ((ants.take i).foldl (assignOne paths) (assignInit paths))
          (ants.getD i none) := by
  rw [List.take_succ, List.foldl_append, List.getD_eq_getElem _ _ hi,
    List.getElem?_eq_getElem hi]
  rfl

theorem earlierOn_succ (paths : List Path) (ants : List (Option Nat)) (i k : Nat) :
    earlierOn paths ants (i + 1) k
      = earlierOn paths ants i k + (if choice paths ants i = k then 1 else 0) := by
  unfold earlierOn
  rw [List.range_succ, List.filter_append, List.length_append]
  by_cases h : choice paths ants i = k
  · simp [h]
  · simp [h]

/-- The counter `pathAnts[k]` is the number of earlier ants that were given path `k`. -/
theorem assign_counter (paths : List Path) (ants : List (Option Nat)) (hne : paths ≠ []) :
    ∀ i, i ≤ ants.length → ∀ k, k < paths.length →
      ((ants.take i).foldl (assignOne paths) (assignInit paths)).pathAnts.getD k 0
        = (earlierOn paths ants i k : Int) := by
  intro i
  induction i with
  | zero =>
    intro _ k hk
    simp [assignInit, earlierOn, List.getElem?_replicate, hk]
  | succ i ih =>
    intro hi k hk
    have hprev := ih (by omega) k hk
    rw [assign_prefix_succ paths ants i (by omega), earlierOn_succ]
    have hj : choice paths ants i < paths.length := pickPath_index_lt paths _ hne
    have hlen := assign_prefix_length paths ants i
    show (((ants.take i).foldl (assignOne paths) (assignInit paths)).pathAnts.set
        (choice paths ants i)
        (((ants.take i).foldl (assignOne paths) (assignInit paths)).pathAnts.getD
          (choice paths ants i) 0 + 1)).getD k 0 = _
    by_cases hc : choice paths ants i = k
    · rw [hc] at hj ⊢
      rw [hprev]
      simp [List.getElem?_set, hlen, hk]
    · have hprev' := hprev
      simp only [List.getD_eq_getElem?_getD] at hprev' ⊢
      rw [List.getElem?_set_ne hc, hprev']
      simp [hc]

theorem mapLookup_mapStore (m : List (Option Nat × Path)) (k k' : Option Nat) (v : Path) :
    mapLookup (mapStore m k v) k' = if k' = k then some v else mapLookup m k' := by
  induction m with
  | nil =>
    unfold mapStore mapLookup
    by_cases h : k = k'
    · simp [h]
    · have h' : ¬ k' = k := fun e => h e.symm
      simp [h, h', mapLookup]
  | cons e t ih =>
    unfold mapStore
    by_cases hek : e.1 = k
    · rw [if_pos hek]
      by_cases h : k' = k
      · simp [mapLookup, h]
      · have hne : ¬ k = k' := fun e' => h e'.symm
        have hne' : ¬ e.1 = k' := fun e' => h (e'.symm.trans hek)
        simp [mapLookup, h, hne, hne']
    · rw [if_neg hek]
      by_cases h : e.1 = k'
      · have hne : ¬ k' = k := fun e' => hek (h.trans e')
        simp [mapLookup, h, hne]
      · simp only [mapLookup, h, if_false]
        exact ih

theorem assign_lookup_unchanged (paths : List Path) (a : Option Nat) :
    ∀ (l : List (Option Nat)) (st : AssignState), a ∉ l →
      mapLookup (l.foldl (assignOne paths) st).antPaths a = mapLookup st.antPaths a := by
  intro l
  induction l with
  | nil => intro st _; rfl
  | cons b t ih =>
    intro st h
    rw [List.foldl_cons, ih _ (fun h' => h (List.mem_cons_of_mem _ h'))]
    show mapLookup (mapStore st.antPaths b _) a = _
    rw [mapLookup_mapStore, if_neg (fun (e : a = b) => h (e ▸ List.mem_cons_self _ _))]

/-- The ant at position `i` keeps the path chosen for it unless a later position holds the
same ant again. -/
theorem assign_lookup_at (paths : List Path) (ants : List (Option Nat)) (i : Nat)
    (hi : i < ants.length) (hlast : ants.getD i none ∉ ants.drop (i + 1)) :
    mapLookup (ants.foldl (assignOne paths) (assignInit paths)).antPaths (ants.getD i none)
      = some (paths.getD (choice paths ants i) default) := by
  have hsplit : ants = ants.take i ++ (ants.getD i none :: ants.drop (i + 1)) := by
    rw [List.getD_eq_getElem _ _ hi, ← List.drop_eq_getElem_cons hi, List.take_append_drop]
  have hfold : ants.foldl (assignOne paths) (assignInit paths)
      = (ants.drop (i + 1)).foldl (assignOne paths)
          (assignOne paths ((ants.take i).foldl (assignOne paths) (assignInit paths))
            (ants.getD i none)) := by
    conv_lhs => rw [hsplit]
    rw [List.foldl_append, List.foldl_cons]
  rw [hfold, assign_lookup_unchanged paths _ _ _ hlast]
  show mapLookup (mapStore _ (ants.getD i none) _) (ants.getD i none) = _
  rw [mapLookup_mapStore, if_pos rfl]
  rfl

theorem earlierOn_le (paths : List Path) (ants : List (Option Nat)) (i k : Nat) :
    earlierOn paths ants i k ≤ i := by
  unfold earlierOn
  calc ((List.range i).filter (fun t => decide (choice paths ants t = k))).length
      ≤ (List.range i).length := List.length_filter_le _ _
    _ = i := List.length_range _

theorem assignAntsToPath_eq (S : SliceSorter) (rooms : List Room) (af : AntFarm)
    (paths : List Path) (hpaths : findAllPaths S rooms af = some paths) (hne : paths ≠ []) :
    assignAntsToPath S rooms af
      = some (some (af.Ants.foldl (assignOne paths) (assignInit paths)).antPaths) := by
  unfold assignAntsToPath
  rw [hpaths]
  have : ¬ paths.length = 0 := fun h => hne (List.length_eq_zero.1 h)
  simp only [this, if_false]

/-- C7: `assignAntsToPath` takes the ants in slice order and gives the ant at position `i`
the path of lowest index `j` that minimises `paths[j].Length` plus the number of earlier
ants given `paths[j]`; the entry of the returned map for that ant is `paths[j]` unless the
same ant pointer occurs again later in the slice. The farm is taken to fit the machine:
rooms and ants together number at most the largest `int`. -/
theorem assign_gives_least_total_path (S : SliceSorter) (rooms : List Room) (af : AntFarm)
    (paths : List Path) (hpaths : findAllPaths S rooms af = some paths) (hne : paths ≠ [])
    (hsize : (rooms.length : Int) + (af.Ants.length : Int) ≤ maxInt) :
    ∃ m, assignAntsToPath S rooms af = some (some m) ∧
      ∀ i, i < af.Ants.length →
        choice paths af.Ants i < paths.length ∧
        (∀ k, k < paths.length →
          turnsOn paths af.Ants i (choice paths af.Ants i) ≤ turnsOn paths af.Ants i k) ∧
        (∀ k, k < choice paths af.Ants i →
          turnsOn paths af.Ants i (choice paths af.Ants i) < turnsOn paths af.Ants i k) ∧
        (af.Ants.getD i none ∉ af.Ants.drop (i + 1) →
          mapLookup m (af.Ants.getD i none)
            = some (paths.getD (choice paths af.Ants i) default)) := by
  refine ⟨_, assignAntsToPath_eq S rooms af paths hpaths hne, ?_⟩
  intro i hi
  have hcnt := assign_counter paths af.Ants hne i (le_of_lt hi)
  have hj : choice paths af.Ants i < paths.length := pickPath_index_lt paths _ hne
  have hb : ∀ k, k < paths.length →
      (paths.getD k default).Length
        + ((af.Ants.take i).foldl (assignOne paths) (assignInit paths)).pathAnts.getD k 0
        < maxInt := by
    intro k hk
    rw [hcnt k hk]
    have h1 : (paths.getD k default).Length ≤ (rooms.length : Int) := by
      apply findAllPaths_length_le S rooms af paths hpaths
      rw [List.getD_eq_getElem _ _ hk]
      exact List.getElem_mem hk
    have h2 := earlierOn_le paths af.Ants i k
    omega
  obtain ⟨h1, h2, h3⟩ := pickPath_least paths _ hne hb
  have hturn : ∀ k, k < paths.length →
      turnsOn paths af.Ants i k
        = (paths.getD k default).Length
          + ((af.Ants.take i).foldl (assignOne paths) (assignInit paths)).pathAnts.getD k 0 := by
    intro k hk
    unfold turnsOn
    rw [hcnt k hk]
  have hbest : turnsOn paths af.Ants i (choice paths af.Ants i)
      = (pickPath paths
          ((af.Ants.take i).foldl (assignOne paths) (assignInit paths)).pathAnts).1 := by
    rw [hturn _ hj, h1]
    rfl
  refine ⟨hj, ?_, ?_, ?_⟩
  · intro k hk
    rw [hbest, hturn k hk]
    exact h2 k hk
  · intro k hk
    have hk' : k < paths.length := lt_trans hk hj
    rw [hbest, hturn k hk']
    exact h3 k hk
  · intro hlast
    exact assign_lookup_at paths af.Ants i hi hlast

theorem mapStore_keys (m : List (Option Nat × Path)) (k : Option Nat) (v : Path) :
    (mapStore m k v).map Prod.fst
      = if k ∈ m.map Prod.fst then m.map Prod.fst else m.map Prod.fst ++ [k] := by
  induction m with
  | nil => simp [mapStore]
  | cons e t ih =>
    unfold mapStore
    by_cases hek : e.1 = k
    · simp [hek]
    · have hke : ¬ k = e.1 := fun h => hek h.symm
      rw [if_neg hek, List.map_cons, ih]
      by_cases hmem : k ∈ t.map Prod.fst
      · rw [if_pos hmem, if_pos (by rw [List.map_cons]; exact List.mem_cons_of_mem _ hmem)]
        rfl
      · rw [if_neg hmem, if_neg (by
          rw [List.map_cons]
          intro h
          rcases List.mem_cons.1 h with h' | h'
          · exact hke h'
          · exact hmem h')]
        rfl

theorem mapStore_mem (m : List (Option Nat × Path)) (k : Option Nat) (v : Path)
    (e : Option Nat × Path) (he : e ∈ mapStore m k v) : e ∈ m ∨ e = (k, v) := by
  induction m with
  | nil =>
    simp [mapStore] at he
    exact Or.inr he
  | cons x t ih =>
    unfold mapStore at he
    by_cases hxk : x.1 = k
    · rw [if_pos hxk] at he
      rcases List.mem_cons.1 he with h | h
      · exact Or.inr h
      · exact Or.inl (List.mem_cons_of_mem _ h)
    · rw [if_neg hxk] at he
      rcases List.mem_cons.1 he with h | h
      · exact Or.inl (h ▸ List.mem_cons_self _ _)
      · rcases ih h with h' | h'
        · exact Or.inl (List.mem_cons_of_mem _ h')
        · exact Or.inr h'

theorem mapLookup_of_key (m : List (Option Nat × Path)) (a : Option Nat)
    (ha : a ∈ m.map Prod.fst) : ∃ p, mapLookup m a = some p ∧ (a, p) ∈ m := by
  induction m with
  | nil => simp at ha
  | cons x t ih =>
    unfold mapLookup
    by_cases hxa : x.1 = a
    · rw [if_pos hxa]
      exact ⟨x.2, rfl, by rw [← hxa]; exact List.mem_cons_self _ _⟩
    · rw [if_neg hxa]
      have hat : a ∈ t.map Prod.fst := by
        rw [List.map_cons] at ha
        rcases List.mem_cons.1 ha with h | h
        · exact absurd h.symm hxa
        · exact h
      obtain ⟨p, hp, hmem⟩ := ih hat
      exact ⟨p, hp, List.mem_cons_of_mem _ hmem⟩

/-- The keys of the map are the ants in slice order when no ant occurs twice. -/
theorem assign_keys (paths : List Path) :
    ∀ (l : List (Option Nat)) (st : AssignState),
      (st.antPaths.map Prod.fst ++ l).Nodup →
      (l.foldl (assignOne paths) st).antPaths.map Prod.fst = st.antPaths.map Prod.fst ++ l := by
  intro l
  induction l with
  | nil => intro st _; simp
  | cons a t ih =>
    intro st hnd
    rw [List.foldl_cons]
    have hnot : a ∉ st.antPaths.map Prod.fst := by
      intro h
      have := (List.nodup_append.1 hnd).2.2
      exact this h (List.mem_cons_self _ _)
    have hkeys : (assignOne paths st a).antPaths.map Prod.fst
        = st.antPaths.map Prod.fst ++ [a] := by
      show (mapStore st.antPaths a _).map Prod.fst = _
      rw [mapStore_keys, if_neg hnot]
    rw [ih (assignOne paths st a) (by rw [hkeys]; simpa using hnd), hkeys]
    simp

theorem assign_values (paths : List Path) (hne : paths ≠ []) :
    ∀ (l : List (Option Nat)) (st : AssignState),
      (∀ e ∈ st.antPaths, e.2 ∈ paths) →
      ∀ e ∈ (l.foldl (assignOne paths) st).antPaths, e.2 ∈ paths := by
  intro l
  induction l with
  | nil => intro st h; simpa using h
  | cons a t ih =>
    intro st h
    rw [List.foldl_cons]
    apply ih
    intro e he
    rcases mapStore_mem _ _ _ e he with h' | h'
    · exact h e h'
    · rw [h']
      have hj := pickPath_index_lt paths st.pathAnts hne
      show paths.getD _ default ∈ paths
      rw [List.getD_eq_getElem _ _ hj]
      exact List.getElem_mem hj

/-- C8: when the selected path set is non-empty and no ant occurs twice in `af.Ants`, the
map `assignAntsToPath` returns has exactly `len(af.Ants)` entries, one for each ant, and
the path of each entry is an element of the list `findAllPaths` returned. -/
theorem assign_maps_each_ant_once (S : SliceSorter) (rooms : List Room) (af : AntFarm)
    (paths : List Path) (hpaths : findAllPaths S rooms af = some paths) (hne : paths ≠ [])
    (hdist : af.Ants.Nodup) :
    ∃ m, assignAntsToPath S rooms af = some (some m) ∧
      m.length = af.Ants.length ∧
      ∀ a ∈ af.Ants,
        m.countP (fun e => decide (e.1 = a)) = 1 ∧
        ∃ p, mapLookup m a = some p ∧ p ∈ paths := by
  refine ⟨_, assignAntsToPath_eq S rooms af paths hpaths hne, ?_⟩
  have hkeys : (af.Ants.foldl (assignOne paths) (assignInit paths)).antPaths.map Prod.fst
      = af.Ants := by
    have := assign_keys paths af.Ants (assignInit paths) (by simpa [assignInit] using hdist)
    simpa [assignInit] using this
  have hvals := assign_values paths hne af.Ants (assignInit paths)
    (by intro e he; simp [assignInit] at he)
  refine ⟨?_, ?_⟩
  · have := congrArg List.length hkeys
    simpa using this
  · intro a ha
    constructor
    · have h1 := countP_eq_one_of_nodup a af.Ants hdist ha
      rw [← hkeys, List.countP_map] at h1
      exact h1
    · obtain ⟨p, hp, hmem⟩ := mapLookup_of_key _ a (by rw [hkeys]; exact ha)
      exact ⟨p, hp, hvals _ hmem⟩

/-- C9: `assignAntsToPath` returns the nil map exactly when `findAllPaths` returns no
path; with a non-empty path set and no ants it returns a non-nil empty map. -/
theorem assign_nil_iff_no_path (S : SliceSorter) (rooms : List Room) (af : AntFarm)
    (start finish : Nat) (hs : af.Start = some start) (he : af.End = some finish) :
    ∃ paths, findAllPaths S rooms af = some paths ∧
      (assignAntsToPath S rooms af = some none ↔ paths = []) ∧
      (paths ≠ [] → af.Ants = [] → assignAntsToPath S rooms af = some (some [])) := by
  obtain ⟨paths, hpaths, _⟩ := findAllPaths_some S rooms af start finish hs he
  refine ⟨paths, hpaths, ?_, ?_⟩
  · constructor
    · intro h
      by_contra hne
      rw [assignAntsToPath_eq S rooms af paths hpaths hne] at h
      simp at h
    · intro h
      unfold assignAntsToPath
      rw [hpaths, h]
      rfl
  · intro hne hants
    rw [assignAntsToPath_eq S rooms af paths hpaths hne, hants]
    rfl

/-! ## Movement simulation: the fatal preconditions -/

theorem antReady_setAnt_self (h : Nat → Ant) (a : Nat) (v : Ant)
    (hv : v.Path.length ≠ 0 ∧ v.CurrentRoom ≠ none) : antReady (setAnt h a v) a := by
  unfold antReady setAnt
  simpa using hv

theorem antReady_setAnt (h : Nat → Ant) (a b : Nat) (v : Ant)
    (hv : v.Path.length ≠ 0 ∧ v.CurrentRoom ≠ none) (hb : antReady h b) :
    antReady (setAnt h a v) b := by
  by_cases hba : b = a
  · rw [hba]; exact antReady_setAnt_self h a v hv
  · unfold antReady at hb ⊢
    unfold setAnt
    simp only [hba, if_false]
    exact hb

/-- After the initialisation loop every key of the map is a ready ant. -/
theorem initAnts_ready :
    ∀ (l : List (Option Nat × Path)) (h h' : Nat → Ant), initAnts l h = some h' →
      (∀ a, antReady h a → antReady h' a) ∧
      (∀ e ∈ l, ∀ a, e.1 = some a → antReady h' a) := by
  intro l
  induction l with
  | nil =>
    intro h h' heq
    simp [initAnts] at heq
    subst heq
    exact ⟨fun _ hr => hr, fun e he => by simp at he⟩
  | cons e t ih =>
    intro h h' heq
    unfold initAnts at heq
    rw [List.foldlM_cons] at heq
    cases hk : e.1 with
    | none => simp [hk] at heq
    | some a0 =>
      cases hr : e.2.Rooms with
      | nil => simp [hk, hr] at heq
      | cons first rest =>
        simp only [hk, hr, Option.bind_eq_bind, Option.some_bind] at heq
        obtain ⟨ih1, ih2⟩ := ih _ h' heq
        refine ⟨fun a ha => ih1 a (antReady_setAnt h a0 a _ (by simp) ha), ?_⟩
        intro e' he' a hea
        rcases List.mem_cons.1 he' with h1 | h1
        · subst h1
          rw [hk] at hea
          injection hea with hea
          subst hea
          exact ih1 a0 (antReady_setAnt_self h a0 _ (by simp))
        · exact ih2 e' h1 a hea

/-- One ant's move never reports an error when the ant is non-nil and ready, and it leaves
every ready ant ready. -/
theorem moveAnt_ready (rooms : List Room) (st : TurnState) (a : Nat)
    (hr : antReady st.ants a) :
    (∀ msg, moveAnt rooms st (some a) ≠ .error (.err msg)) ∧
    (∀ st', moveAnt rooms st (some a) = .ok st' →
      ∀ b, antReady st.ants b → antReady st'.ants b) := by
  obtain ⟨hp, hc⟩ := hr
  cases hcur : (st.ants a).CurrentRoom with
  | none => exact absurd hcur hc
  | some currentRoom =>
    unfold moveAnt
    simp only [hp, hcur, if_false]
    constructor
    · intro msg
      split_ifs <;> first | (intro h; cases h) | skip
      all_goals
        split <;> first | (intro h; cases h) | skip
        all_goals split_ifs <;> intro h <;> cases h
    · intro st' hst' b hb
      repeat' (split at hst')
      all_goals
        cases hst' <;> first
          | exact hb
          | exact antReady_setAnt _ _ _ _ ⟨hp, by simp⟩ hb

/-- A pass over the ants reports no error and keeps the ants ready. -/
theorem foldTurn_ready (rooms : List Room) (antList : List (Option Nat))
    (hnil : ∀ p ∈ antList, p ≠ none) :
    ∀ (l : List (Option Nat)) (st : TurnState), (∀ p ∈ l, p ∈ antList) →
      (∀ a, some a ∈ antList → antReady st.ants a) →
      (∀ msg, l.foldlM (moveAnt rooms) st ≠ .error (.err msg)) ∧
      (∀ st', l.foldlM (moveAnt rooms) st = .ok st' →
        ∀ a, some a ∈ antList → antReady st'.ants a) := by
  intro l
  induction l with
  | nil =>
    intro st _ hr
    constructor
    · intro msg h; cases h
    · intro st' h
      cases h
      exact hr
  | cons p t ih =>
    intro st hsub hr
    have hp := hsub p (List.mem_cons_self _ _)
    have ht : ∀ q ∈ t, q ∈ antList := fun q hq => hsub q (List.mem_cons_of_mem _ hq)
    cases hpa : p with
    | none => exact absurd hpa (hnil p hp)
    | some a =>
      rw [hpa] at hp
      obtain ⟨hne, hok⟩ := moveAnt_ready rooms st a (hr a hp)
      rw [List.foldlM_cons]
      cases hmv : moveAnt rooms st (some a) with
      | error f =>
        constructor
        · intro msg h
          cases f with
          | err m => exact hne m hmv
          | crash => cases h
        · intro st' h; cases h
      | ok st1 =>
        exact ih st1 ht (fun b hb => hok st1 hmv b (hr b hb))

theorem runTurn_ready (rooms : List Room) (antList : List (Option Nat))
    (hnil : ∀ p ∈ antList, p ≠ none) (ants : Nat → Ant) (occupied : Nat → Option Nat)
    (hr : ∀ a, some a ∈ antList → antReady ants a) :
    (∀ msg, runTurn rooms antList ants occupied ≠ .error (.err msg)) ∧
    (∀ st', runTurn rooms antList ants occupied = .ok st' →
      ∀ a, some a ∈ antList → antReady st'.ants a) :=
  foldTurn_ready rooms antList hnil antList _ (fun _ h => h) hr

/-- The turn loop never returns an error when every ant of the slice is non-nil and
ready. -/
theorem turnLoop_no_error (rooms : List Room) (antList : List (Option Nat))
    (hnil : ∀ p ∈ antList, p ≠ none) :
    ∀ (fuel : Nat) (ants : Nat → Ant) (occupied : Nat → Option Nat) (allMoves : String),
      (∀ a, some a ∈ antList → antReady ants a) →
      ∀ t msg, turnLoop rooms antList fuel ants occupied allMoves ≠ some (.error t msg) := by
  intro fuel
  induction fuel with
  | zero => intro _ _ _ _ t msg h; cases h
  | succ fuel ih =>
    intro ants occupied allMoves hr t msg
    obtain ⟨hne, hok⟩ := runTurn_ready rooms antList hnil ants occupied hr
    unfold turnLoop
    cases hturn : runTurn rooms antList ants occupied with
    | error f =>
      cases f with
      | err m => exact absurd hturn (hne m)
      | crash => intro h; cases h
    | ok st =>
      simp only []
      split
      · intro h; cases h
      · exact ih _ _ _ (hok st hturn) t msg

theorem assign_keys_mem (paths : List Path) :
    ∀ (l : List (Option Nat)) (st : AssignState) (a : Option Nat),
      (a ∈ l ∨ a ∈ st.antPaths.map Prod.fst) →
      a ∈ (l.foldl (assignOne paths) st).antPaths.map Prod.fst := by
  intro l
  induction l with
  | nil =>
    intro st a h
    rcases h with h | h
    · simp at h
    · exact h
  | cons b t ih =>
    intro st a h
    rw [List.foldl_cons]
    apply ih
    have hkeys : (assignOne paths st b).antPaths.map Prod.fst
        = if b ∈ st.antPaths.map Prod.fst then st.antPaths.map Prod.fst
          else st.antPaths.map Prod.fst ++ [b] := mapStore_keys _ _ _
    rcases h with h | h
    · rcases List.mem_cons.1 h with h1 | h1
      · right
        rw [hkeys, h1]
        split
        · assumption
        · simp
      · exact Or.inl h1
    · right
      rw [hkeys]
      split
      · exact h
      · exact List.mem_append_left _ h

/-- C10: on a farm with `Start` and `End` set and no nil ant, `SimulateMovement` returns
an error exactly when `findAllPaths` returns no path or the farm has no ants, and every
error it returns comes with the empty transcript. -/
theorem simulate_error_iff_no_path_or_no_ants (S : SliceSorter) (fuel : Nat)
    (rooms : List Room) (ants : Nat → Ant) (af : AntFarm) (start finish : Nat)
    (hs : af.Start = some start) (he : af.End = some finish)
    (hnil : ∀ p ∈ af.Ants, p ≠ none) :
    ∃ paths, findAllPaths S rooms af = some paths ∧
      ((∃ t msg, SimulateMovement S fuel rooms ants af = some (.error t msg))
        ↔ (paths = [] ∨ af.Ants = [])) ∧
      (∀ t msg, SimulateMovement S fuel rooms ants af = some (.error t msg) → t = "") := by
  obtain ⟨paths, hpaths, _⟩ := findAllPaths_some S rooms af start finish hs he
  refine ⟨paths, hpaths, ?_⟩
  by_cases hp : paths = []
  · have hsim : SimulateMovement S fuel rooms ants af
        = some (.error "" "ERROR: no valid path found between start and end") := by
      unfold SimulateMovement assignAntsToPath
      rw [hpaths, hp]
      rfl
    refine ⟨⟨fun _ => Or.inl hp, fun _ => ⟨_, _, hsim⟩⟩, ?_⟩
    intro t msg h
    rw [hsim] at h
    injection h with h
    injection h with h1 h2
    exact h1.symm
  · have hassign := assignAntsToPath_eq S rooms af paths hpaths hp
    by_cases ha : af.Ants = []
    · have hsim : SimulateMovement S fuel rooms ants af
          = some (.error "" "no ants available") := by
        unfold SimulateMovement
        rw [hassign, ha]
        rfl
      refine ⟨⟨fun _ => Or.inr ha, fun _ => ⟨_, _, hsim⟩⟩, ?_⟩
      intro t msg h
      rw [hsim] at h
      injection h with h
      injection h with h1 h2
      exact h1.symm
    · have hnone : ∀ t msg, SimulateMovement S fuel rooms ants af ≠ some (.error t msg) := by
        intro t msg
        unfold SimulateMovement
        rw [hassign]
        have hlen : ¬ af.Ants.length = 0 := fun h => ha (List.length_eq_zero.1 h)
        simp only [hlen, if_false]
        cases hinit : initAnts (af.Ants.foldl (assignOne paths) (assignInit paths)).antPaths
            ants with
        | none => intro h; cases h
        | some ants' =>
          simp only []
          apply turnLoop_no_error rooms af.Ants hnil
          intro a hmem
          have hkey := assign_keys_mem paths af.Ants (assignInit paths) (some a) (Or.inl hmem)
          obtain ⟨e, he1, he2⟩ := List.mem_map.1 hkey
          exact (initAnts_ready _ ants ants' hinit).2 e he1 a he2
      refine ⟨⟨?_, ?_⟩, ?_⟩
      · rintro ⟨t, msg, h⟩
        exact absurd h (hnone t msg)
      · rintro (h | h)
        · exact absurd h hp
        · exact absurd h ha
      · intro t msg h
        exact absurd h (hnone t msg)

/-! ## The theorems at the fixture "Complex path with multiple routes" -/

theorem findAllPaths_twoRoutes :
    findAllPaths insertionSorter roomsTwoRoutes farmTwoRoutes = some twoRoutePaths := by
  decide

theorem twoRoutes_fits : (roomsTwoRoutes.length : Int) + (farmTwoRoutes.Ants.length : Int)
    ≤ maxInt := by
  unfold maxInt
  simp [roomsTwoRoutes, farmTwoRoutes]

theorem assign_gives_least_total_path_witness :
    findAllPaths insertionSorter roomsTwoRoutes farmTwoRoutes = some twoRoutePaths ∧
    twoRoutePaths ≠ [] ∧
    (roomsTwoRoutes.length : Int) + (farmTwoRoutes.Ants.length : Int) ≤ maxInt ∧
    ∃ m, assignAntsToPath insertionSorter roomsTwoRoutes farmTwoRoutes = some (some m) ∧
      ∀ i, i < farmTwoRoutes.Ants.length →
        choice twoRoutePaths farmTwoRoutes.Ants i < twoRoutePaths.length ∧
        (∀ k, k < twoRoutePaths.length →
          turnsOn twoRoutePaths farmTwoRoutes.Ants i (choice twoRoutePaths farmTwoRoutes.Ants i)
            ≤ turnsOn twoRoutePaths farmTwoRoutes.Ants i k) ∧
        (∀ k, k < choice twoRoutePaths farmTwoRoutes.Ants i →
          turnsOn twoRoutePaths farmTwoRoutes.Ants i (choice twoRoutePaths farmTwoRoutes.Ants i)
            < turnsOn twoRoutePaths farmTwoRoutes.Ants i k) ∧
        (farmTwoRoutes.Ants.getD i none ∉ farmTwoRoutes.Ants.drop (i + 1) →
          mapLookup m (farmTwoRoutes.Ants.getD i none)
            = some (twoRoutePaths.getD (choice twoRoutePaths farmTwoRoutes.Ants i) default)) :=
  ⟨findAllPaths_twoRoutes, by decide, twoRoutes_fits,
    assign_gives_least_total_path insertionSorter roomsTwoRoutes farmTwoRoutes twoRoutePaths
      findAllPaths_twoRoutes (by decide) twoRoutes_fits⟩

theorem assign_maps_each_ant_once_witness :
    findAllPaths insertionSorter roomsTwoRoutes farmTwoRoutes = some twoRoutePaths ∧
    twoRoutePaths ≠ [] ∧ farmTwoRoutes.Ants.Nodup ∧
    ∃ m, assignAntsToPath insertionSorter roomsTwoRoutes farmTwoRoutes = some (some m) ∧
      m.length = farmTwoRoutes.Ants.length ∧
      ∀ a ∈ farmTwoRoutes.Ants,
        m.countP (fun e => decide (e.1 = a)) = 1 ∧
        ∃ p, mapLookup m a = some p ∧ p ∈ twoRoutePaths :=
  ⟨findAllPaths_twoRoutes, by decide, by decide,
    assign_maps_each_ant_once insertionSorter roomsTwoRoutes farmTwoRoutes twoRoutePaths
      findAllPaths_twoRoutes (by decide) (by decide)⟩

theorem assign_nil_iff_no_path_witness :
    farmTwoRoutes.Start = some 0 ∧ farmTwoRoutes.End = some 3 ∧
    ∃ paths, findAllPaths insertionSorter roomsTwoRoutes farmTwoRoutes = some paths ∧
      (assignAntsToPath insertionSorter roomsTwoRoutes farmTwoRoutes = some none ↔ paths = []) ∧
      (paths ≠ [] → farmTwoRoutes.Ants = [] →
        assignAntsToPath insertionSorter roomsTwoRoutes farmTwoRoutes = some (some [])) :=
  ⟨rfl, rfl, assign_nil_iff_no_path insertionSorter roomsTwoRoutes farmTwoRoutes 0 3 rfl rfl⟩

theorem simulate_error_iff_no_path_or_no_ants_witness :
    farmTwoRoutes.Start = some 0 ∧ farmTwoRoutes.End = some 3 ∧
    (∀ p ∈ farmTwoRoutes.Ants, p ≠ none) ∧
    ∃ paths, findAllPaths insertionSorter roomsTwoRoutes farmTwoRoutes = some paths ∧
      ((∃ t msg, SimulateMovement insertionSorter 8 roomsTwoRoutes freshAnts farmTwoRoutes
          = some (.error t msg)) ↔ (paths = [] ∨ farmTwoRoutes.Ants = [])) ∧
      (∀ t msg, SimulateMovement insertionSorter 8 roomsTwoRoutes freshAnts farmTwoRoutes
          = some (.error t msg) → t = "") :=
  ⟨rfl, rfl, by decide,
    simulate_error_iff_no_path_or_no_ants insertionSorter 8 roomsTwoRoutes freshAnts
      farmTwoRoutes 0 3 rfl rfl (by decide)⟩

/-! ## Movement simulation: fixtures and the two-room rule -/

theorem turnLoop_mono (rooms : List Room) (antList : List (Option Nat)) :
    ∀ (fuel k : Nat) (ants : Nat → Ant) (occupied : Nat → Option Nat) (allMoves : String)
      (r : SimResult),
      turnLoop rooms antList fuel ants occupied allMoves = some r →
      turnLoop rooms antList (fuel + k) ants occupied allMoves = some r := by
  intro fuel
  induction fuel with
  | zero => intro k ants occupied allMoves r h; simp [turnLoop] at h
  | succ fuel ih =>
    intro k ants occupied allMoves r h
    rw [Nat.succ_add]
    unfold turnLoop at h ⊢
    cases hturn : runTurn rooms antList ants occupied with
    | error f =>
      rw [hturn] at h
      cases f with
      | err m => exact h
      | crash => exact h
    | ok st =>
      rw [hturn] at h
      simp only [] at h ⊢
      split
      · rename_i hall
        rw [if_pos hall] at h
        exact h
      · rename_i hall
        rw [if_neg hall] at h
        exact ih k _ _ _ r h

theorem SimulateMovement_mono (S : SliceSorter) (rooms : List Room) (ants : Nat → Ant)
    (af : AntFarm) (fuel k : Nat) (r : SimResult)
    (h : SimulateMovement S fuel rooms ants af = some r) :
    SimulateMovement S (fuel + k) rooms ants af = some r := by
  unfold SimulateMovement at h ⊢
  cases ha : assignAntsToPath S rooms af with
  | none => rw [ha] at h; exact h
  | some m =>
    cases m with
    | none => rw [ha] at h; exact h
    | some antPaths =>
      rw [ha] at h
      simp only [] at h ⊢
      split
      · rename_i h0; rw [if_pos h0] at h; exact h
      · rename_i h0
        rw [if_neg h0] at h
        cases hi : initAnts antPaths ants with
        | none => rw [hi] at h; exact h
        | some ants0 =>
          rw [hi] at h
          exact turnLoop_mono rooms af.Ants fuel k _ _ _ r h

theorem okTranscript_mono (S : SliceSorter) (rooms : List Room) (ants : Nat → Ant)
    (af : AntFarm) (fuel fuel' : Nat) (t : String) (hle : fuel ≤ fuel')
    (h : okTranscript (SimulateMovement S fuel rooms ants af) = some t) :
    okTranscript (SimulateMovement S fuel' rooms ants af) = some t := by
  cases hr : SimulateMovement S fuel rooms ants af with
  | none => rw [hr] at h; simp [okTranscript] at h
  | some r =>
    obtain ⟨k, rfl⟩ := Nat.exists_eq_add_of_le hle
    rw [SimulateMovement_mono S rooms ants af fuel k r hr, ← hr]
    exact h

/-- When `dfs` finds a single path, `findAllPaths` returns that path, whatever the sorter. -/
theorem findAllPaths_single (S : SliceSorter) (rooms : List Room) (af : AntFarm)
    (start finish : Nat) (v : Nat → Bool) (p : Path)
    (hs : af.Start = some start) (he : af.End = some finish)
    (hd : dfs rooms (rooms.length + 1) start finish (fun _ => false) [] [] = some (v, [p])) :
    findAllPaths S rooms af = some [p] := by
  unfold findAllPaths
  rw [hs, he]
  simp only [hd]
  have hsort : S.sort [p] = [p] := List.perm_singleton.1 (S.perm [p])
  rw [hsort]
  rfl

theorem findAllPaths_direct (S : SliceSorter) (af : AntFarm) (hs : af.Start = some 0)
    (he : af.End = some 1) : findAllPaths S roomsDirect af = some [recordPath [0, 1]] := by
  have hd := dfs_top roomsDirect 0 1 (roomsDirect.length + 1) (Nat.lt_succ_self _)
  exact findAllPaths_single S roomsDirect af 0 1 _ _ hs he hd

theorem findAllPaths_onePath (S : SliceSorter) :
    findAllPaths S roomsOnePath farmOnePath = some [recordPath [0, 1, 2]] := by
  have hd := dfs_top roomsOnePath 0 2 (roomsOnePath.length + 1) (Nat.lt_succ_self _)
  exact findAllPaths_single S roomsOnePath farmOnePath 0 2 _ _ rfl rfl hd

/-- C16: on the farm with one ant and the two rooms start and end joined by a tunnel,
`SimulateMovement` returns without error and the transcript is the single line
`L1-end`. -/
theorem single_ant_direct_transcript (S : SliceSorter) (fuel : Nat) (hfuel : 2 ≤ fuel) :
    okTranscript (SimulateMovement S fuel roomsDirect freshAnts farmDirect)
      = some "L1-end\n" := by
  apply okTranscript_mono S roomsDirect freshAnts farmDirect 2 fuel _ hfuel
  unfold SimulateMovement assignAntsToPath
  rw [findAllPaths_direct S farmDirect rfl rfl]
  decide

/-- C17: on the farm with three ants and the single path start-mid-end,
`SimulateMovement` returns the four-line transcript `L1-mid`, `L1-end L2-mid`,
`L2-end L3-mid`, `L3-end`. -/
theorem three_ants_one_path_transcript (S : SliceSorter) (fuel : Nat) (hfuel : 5 ≤ fuel) :
    okTranscript (SimulateMovement S fuel roomsOnePath freshAnts farmOnePath)
      = some "L1-mid\nL1-end L2-mid\nL2-end L3-mid\nL3-end\n" := by
  apply okTranscript_mono S roomsOnePath freshAnts farmOnePath 5 fuel _ hfuel
  unfold SimulateMovement assignAntsToPath
  rw [findAllPaths_onePath S]
  decide

theorem single_ant_direct_transcript_witness :
    2 ≤ 2 ∧
    okTranscript (SimulateMovement insertionSorter 2 roomsDirect freshAnts farmDirect)
      = some "L1-end\n" :=
  ⟨le_refl 2, single_ant_direct_transcript insertionSorter 2 (le_refl 2)⟩

theorem three_ants_one_path_transcript_witness :
    5 ≤ 5 ∧
    okTranscript (SimulateMovement insertionSorter 5 roomsOnePath freshAnts farmOnePath)
      = some "L1-mid\nL1-end L2-mid\nL2-end L3-mid\nL3-end\n" :=
  ⟨le_refl 5, three_ants_one_path_transcript insertionSorter 5 (le_refl 5)⟩

/-- C11: the two checks before the loop give distinct errors in a fixed order. When
`findAllPaths` returns no path, `SimulateMovement` returns the error
"ERROR: no valid path found between start and end" whatever the ants are; when there is
a path and the farm has no ants, it returns the error "no ants available". -/
theorem simulate_precondition_errors (S : SliceSorter) (fuel : Nat) (rooms : List Room)
    (ants : Nat → Ant) (af : AntFarm) (start finish : Nat)
    (hs : af.Start = some start) (he : af.End = some finish) :
    ∃ paths, findAllPaths S rooms af = some paths ∧
      (paths = [] → SimulateMovement S fuel rooms ants af
        = some (.error "" "ERROR: no valid path found between start and end")) ∧
      (paths ≠ [] → af.Ants = [] → SimulateMovement S fuel rooms ants af
        = some (.error "" "no ants available")) ∧
      "ERROR: no valid path found between start and end" ≠ "no ants available" := by
  obtain ⟨paths, hpaths, _⟩ := findAllPaths_some S rooms af start finish hs he
  refine ⟨paths, hpaths, ?_, ?_, by decide⟩
  · intro hp
    unfold SimulateMovement assignAntsToPath
    rw [hpaths, hp]
    rfl
  · intro hp ha
    unfold SimulateMovement
    rw [assignAntsToPath_eq S rooms af paths hpaths hp, ha]
    rfl

theorem simulate_precondition_errors_witness :
    (farmApart.Start = some 0 ∧ farmApart.End = some 1 ∧ farmApart.Ants.length = 2 ∧
      findAllPaths insertionSorter roomsApart farmApart = some [] ∧
      SimulateMovement insertionSorter 8 roomsApart freshAnts farmApart
        = some (.error "" "ERROR: no valid path found between start and end")) ∧
    (farmNoAnts.Ants = [] ∧ findAllPaths insertionSorter roomsApart farmNoAnts = some [] ∧
      SimulateMovement insertionSorter 8 roomsApart freshAnts farmNoAnts
        = some (.error "" "ERROR: no valid path found between start and end")) ∧
    (findAllPaths insertionSorter roomsDirect farmNoAnts = some [recordPath [0, 1]] ∧
      SimulateMovement insertionSorter 8 roomsDirect freshAnts farmNoAnts
        = some (.error "" "no ants available")) := by
  have hapart : findAllPaths insertionSorter roomsApart farmApart = some [] := by decide
  have hnone : findAllPaths insertionSorter roomsApart farmNoAnts = some [] := by decide
  have hdirect : findAllPaths insertionSorter roomsDirect farmNoAnts
      = some [recordPath [0, 1]] := by decide
  obtain ⟨p1, hp1, h1, _, _⟩ :=
    simulate_precondition_errors insertionSorter 8 roomsApart freshAnts farmApart 0 1 rfl rfl
  obtain ⟨p2, hp2, h2, _, _⟩ :=
    simulate_precondition_errors insertionSorter 8 roomsApart freshAnts farmNoAnts 0 1 rfl rfl
  obtain ⟨p3, hp3, _, h3, _⟩ :=
    simulate_precondition_errors insertionSorter 8 roomsDirect freshAnts farmNoAnts 0 1
      rfl rfl
  rw [hapart] at hp1
  rw [hnone] at hp2
  rw [hdirect] at hp3
  cases hp1
  cases hp2
  cases hp3
  exact ⟨⟨rfl, rfl, rfl, hapart, h1 rfl⟩, ⟨rfl, hnone, h2 rfl⟩,
    ⟨hdirect, h3 (by simp) rfl⟩⟩

/-- The move of an ant that is not passed over and whose next room is free: what
`moveAnt` returns. -/
theorem moveAnt_advance (rooms : List Room) (st : TurnState) (a cur nr : Nat)
    (hpath : (st.ants a).Path.length ≠ 0) (hcur : (st.ants a).CurrentRoom = some cur)
    (hnot : (st.ants a).HasReached = false)
    (hskip : ¬ ((st.ants a).Path.length = 2 ∧ st.move + 1 ≥ 2))
    (hidx : (st.ants a).PathIndex < ((st.ants a).Path.length : Int) - 1)
    (hnext : indexInt (st.ants a).Path ((st.ants a).PathIndex + 1) = some nr)
    (hfree : st.occupied nr = none ∨ (roomAt rooms nr).IsEnd = true) :
    moveAnt rooms st (some a) = .ok
      { ants := setAnt st.ants a
          { st.ants a with
            CurrentRoom := some nr, PathIndex := (st.ants a).PathIndex + 1,
            HasReached := if (roomAt rooms nr).IsEnd then true else (st.ants a).HasReached }
        occupied :=
          if isInterior rooms nr then
            setOccupied (if isInterior rooms cur then setOccupied st.occupied cur none
              else st.occupied) nr (some a)
          else (if isInterior rooms cur then setOccupied st.occupied cur none
              else st.occupied)
        moves := st.moves ++ [moveRecord (st.ants a).Id (roomAt rooms nr).Name]
        allReached := false
        move := st.move + 1 } := by
  unfold moveAnt
  simp only [hpath, hcur, hnot, hskip, hidx, hnext, hfree, if_false, if_true,
    Bool.false_eq_true, moveRecord]

/-- C19 (amended): an ant that has not arrived and is not passed over by the two-room
rule (its path has exactly two rooms and the counter `move` has reached 2) moves into
its next room and emits the move record whenever that room is the end room or is not
marked occupied at the moment the ant is visited. -/
theorem unskipped_ant_moves (rooms : List Room) (st : TurnState) (a cur nr : Nat)
    (hpath : (st.ants a).Path.length ≠ 0) (hcur : (st.ants a).CurrentRoom = some cur)
    (hnot : (st.ants a).HasReached = false)
    (hskip : ¬ ((st.ants a).Path.length = 2 ∧ st.move + 1 ≥ 2))
    (hidx : (st.ants a).PathIndex < ((st.ants a).Path.length : Int) - 1)
    (hnext : indexInt (st.ants a).Path ((st.ants a).PathIndex + 1) = some nr)
    (hfree : (roomAt rooms nr).IsEnd = true ∨ st.occupied nr = none) :
    ∃ st', moveAnt rooms st (some a) = .ok st' ∧
      (st'.ants a).CurrentRoom = some nr ∧
      (st'.ants a).PathIndex = (st.ants a).PathIndex + 1 ∧
      st'.moves = st.moves ++ [moveRecord (st.ants a).Id (roomAt rooms nr).Name] := by
  refine ⟨_, moveAnt_advance rooms st a cur nr hpath hcur hnot hskip hidx hnext hfree.symm,
    ?_, ?_, rfl⟩
  · simp [setAnt]
  · simp [setAnt]

theorem unskipped_ant_moves_witness :
    (directTurnStart.ants 0).Path.length ≠ 0 ∧
    (directTurnStart.ants 0).CurrentRoom = some 0 ∧
    (directTurnStart.ants 0).HasReached = false ∧
    ¬ ((directTurnStart.ants 0).Path.length = 2 ∧ directTurnStart.move + 1 ≥ 2) ∧
    (directTurnStart.ants 0).PathIndex < ((directTurnStart.ants 0).Path.length : Int) - 1 ∧
    indexInt (directTurnStart.ants 0).Path ((directTurnStart.ants 0).PathIndex + 1) = some 1 ∧
    ((roomAt roomsDirect 1).IsEnd = true ∨ directTurnStart.occupied 1 = none) ∧
    ∃ st', moveAnt roomsDirect directTurnStart (some 0) = .ok st' ∧
      (st'.ants 0).CurrentRoom = some 1 ∧
      (st'.ants 0).PathIndex = (directTurnStart.ants 0).PathIndex + 1 ∧
      st'.moves = directTurnStart.moves
        ++ [moveRecord (directTurnStart.ants 0).Id (roomAt roomsDirect 1).Name] :=
  ⟨by decide, by decide, by decide, by decide, by decide, by decide, by decide,
    unskipped_ant_moves roomsDirect directTurnStart 0 0 1 (by decide) (by decide) (by decide)
      (by decide) (by decide) (by decide) (by decide)⟩

/-- Counterexample to C19 as stated: with two ants on the direct tunnel start-end, the
second ant has not arrived when the first turn visits it and its next room is the end
room, yet the turn leaves it where it was and writes the single record `L1-end`. -/
theorem second_direct_ant_waits :
    ∃ ants0 st,
      simStart insertionSorter roomsDirect freshAnts farmDirectTwo = some ants0 ∧
      runTurn roomsDirect farmDirectTwo.Ants ants0 (fun _ => none) = .ok st ∧
      (ants0 1).HasReached = false ∧
      indexInt (ants0 1).Path ((ants0 1).PathIndex + 1) = some 1 ∧
      (roomAt roomsDirect 1).IsEnd = true ∧
      (st.ants 1).CurrentRoom = (ants0 1).CurrentRoom ∧
      (st.ants 1).PathIndex = (ants0 1).PathIndex ∧
      st.moves = ["L1-end"] ∧
      okTranscript (SimulateMovement insertionSorter 3 roomsDirect freshAnts farmDirectTwo)
        = some "L1-end\nL2-end\n" :=
  ⟨_, _, rfl, rfl, rfl, rfl, rfl, rfl, rfl, rfl, by decide⟩

/-! ## Movement simulation: one pass over the ants -/

theorem indexInt_natCast (l : List Nat) (k : Nat) : indexInt l (k : Int) = l[k]? := by
  unfold indexInt
  simp

theorem indexInt_some_lt (l : List Nat) (i : Int) (r : Nat) (h : indexInt l i = some r) :
    ∃ k : Nat, i = k ∧ k < l.length ∧ l[k]? = some r := by
  unfold indexInt at h
  by_cases hi : 0 ≤ i
  · rw [if_pos hi] at h
    obtain ⟨k, rfl⟩ := Int.eq_ofNat_of_zero_le hi
    simp at h
    exact ⟨k, rfl, (List.getElem?_eq_some.1 h).1, h⟩
  · rw [if_neg hi] at h
    cases h

theorem indexInt_of_lt (l : List Nat) (i : Int) (h0 : 0 ≤ i) (h1 : i < l.length) :
    ∃ r, indexInt l i = some r := by
  obtain ⟨k, rfl⟩ := Int.eq_ofNat_of_zero_le h0
  have hk : k < l.length := by exact_mod_cast h1
  exact ⟨l[k], by rw [indexInt_natCast, List.getElem?_eq_getElem hk]⟩

/-- What `moveAnt` does with a non-nil ant that has a path, a current room and a
non-negative `PathIndex`: the ant has arrived, or is passed over by the two-room rule, or
stays because it is at the end of its path or its next room is marked, or it moves. -/
theorem moveAnt_cases (rooms : List Room) (st : TurnState) (a cur : Nat)
    (hpath : (st.ants a).Path.length ≠ 0) (hcur : (st.ants a).CurrentRoom = some cur)
    (hidx : 0 ≤ (st.ants a).PathIndex) :
    ((st.ants a).HasReached = true ∧ moveAnt rooms st (some a) = .ok { st with move := 0 }) ∨
    ((st.ants a).HasReached = false ∧ ((st.ants a).Path.length = 2 ∧ st.move + 1 ≥ 2) ∧
      moveAnt rooms st (some a) = .ok { st with move := st.move + 1 }) ∨
    ((st.ants a).HasReached = false ∧ ¬ ((st.ants a).Path.length = 2 ∧ st.move + 1 ≥ 2) ∧
      ((st.ants a).PathIndex ≥ ((st.ants a).Path.length : Int) - 1 ∨
        ∃ nr, indexInt (st.ants a).Path ((st.ants a).PathIndex + 1) = some nr ∧
          st.occupied nr ≠ none ∧ (roomAt rooms nr).IsEnd = false) ∧
      moveAnt rooms st (some a) = .ok { st with move := st.move + 1, allReached := false }) ∨
    (∃ nr, (st.ants a).HasReached = false ∧
      ¬ ((st.ants a).Path.length = 2 ∧ st.move + 1 ≥ 2) ∧
      (st.ants a).PathIndex < ((st.ants a).Path.length : Int) - 1 ∧
      indexInt (st.ants a).Path ((st.ants a).PathIndex + 1) = some nr ∧
      (st.occupied nr = none ∨ (roomAt rooms nr).IsEnd = true) ∧
      moveAnt rooms st (some a) = .ok (advanceState rooms st a cur nr)) := by
  by_cases hr : (st.ants a).HasReached = true
  · left
    refine ⟨hr, ?_⟩
    unfold moveAnt
    simp only [hpath, hcur, hr, if_false, if_true]
  · have hr' : (st.ants a).HasReached = false := by simpa using hr
    right
    by_cases hskip : (st.ants a).Path.length = 2 ∧ st.move + 1 ≥ 2
    · left
      refine ⟨hr', hskip, ?_⟩
      unfold moveAnt
      simp only [hpath, if_false]
      simp only [hcur, hr', hskip, if_false, if_true, Bool.false_eq_true, and_self]
    · right
      by_cases hlt : (st.ants a).PathIndex < ((st.ants a).Path.length : Int) - 1
      · obtain ⟨nr, hnr⟩ := indexInt_of_lt (st.ants a).Path ((st.ants a).PathIndex + 1)
          (by omega) (by omega)
        by_cases hfree : st.occupied nr = none ∨ (roomAt rooms nr).IsEnd = true
        · right
          exact ⟨nr, hr', hskip, hlt, hnr, hfree,
            moveAnt_advance rooms st a cur nr hpath hcur hr' hskip hlt hnr hfree⟩
        · left
          have hocc : st.occupied nr ≠ none := fun h => hfree (Or.inl h)
          have hend : (roomAt rooms nr).IsEnd = false := by
            cases he : (roomAt rooms nr).IsEnd with
            | false => rfl
            | true => exact absurd (Or.inr he) hfree
          refine ⟨hr', hskip, Or.inr ⟨nr, hnr, hocc, hend⟩, ?_⟩
          unfold moveAnt
          simp only [hpath, hcur, hr', hskip, hlt, hnr, hfree, if_false, if_true,
            Bool.false_eq_true]
      · left
        refine ⟨hr', hskip, Or.inl (by omega), ?_⟩
        unfold moveAnt
        simp only [hpath, hcur, hr', hskip, hlt, if_false, if_true, Bool.false_eq_true]

theorem OnTrack.ready {rooms : List Room} {x : Ant} (h : OnTrack rooms x) :
    x.Path.length ≠ 0 ∧ ∃ cur, x.CurrentRoom = some cur := by
  obtain ⟨h0, h1, h2, _, _⟩ := h
  have hlen : x.Path.length ≠ 0 := by
    intro hz
    rw [hz] at h1
    simp at h1
    omega
  refine ⟨hlen, ?_⟩
  obtain ⟨r, hr⟩ := indexInt_of_lt x.Path x.PathIndex h0 (by omega)
  exact ⟨r, by rw [h2, hr]⟩

/-- A move keeps the state machine invariant. -/
theorem OnTrack.advanced {rooms : List Room} {x y : Ant} (h : OnTrack rooms x)
    (hxy : Advanced rooms x y) : OnTrack rooms y := by
  obtain ⟨h0, h1, h2, h3, h4⟩ := h
  obtain ⟨nr, hnr, hnot, hlt, rfl⟩ := hxy
  obtain ⟨k, hk, hklt, hkr⟩ := indexInt_some_lt _ _ _ hnr
  refine ⟨by simp only; omega, by simp only; omega, by simp only; exact hnr.symm, ?_, h4⟩
  simp only
  have hk1 : 1 ≤ k := by omega
  have hflag := h4 k nr hk1 hkr
  constructor
  · intro hy
    by_cases he : (roomAt rooms nr).IsEnd = true
    · have := hflag.1 he
      omega
    · simp only [he, if_false, Bool.false_eq_true] at hy
      rw [hnot] at hy
      cases hy
  · intro hidx
    have : k + 1 = x.Path.length := by omega
    rw [hflag.2 this]
    rfl

/-- Induction over a pass: a property of the visited prefix and the turn state that the
body of the loop keeps holds for the whole slice when the pass is over. -/
theorem foldTurn_inv (rooms : List Room) (antList : List (Option Nat))
    (P : List (Option Nat) → TurnState → Prop)
    (hstep : ∀ pre p rest st, antList = pre ++ p :: rest → P pre st →
      ∃ st', moveAnt rooms st p = .ok st' ∧ P (pre ++ [p]) st') :
    ∀ (rest pre : List (Option Nat)) (st : TurnState), antList = pre ++ rest → P pre st →
      ∃ st', rest.foldlM (moveAnt rooms) st = .ok st' ∧ P antList st' := by
  intro rest
  induction rest with
  | nil =>
    intro pre st hL hP
    rw [List.append_nil] at hL
    exact ⟨st, rfl, hL ▸ hP⟩
  | cons p t ih =>
    intro pre st hL hP
    obtain ⟨st1, h1, hP1⟩ := hstep pre p t st hL hP
    obtain ⟨st', h', hP'⟩ := ih (pre ++ [p]) st1 (by rw [hL]; simp) hP1
    refine ⟨st', ?_, hP'⟩
    rw [List.foldlM_cons, h1]
    exact h'

theorem mem_filterMap_id (l : List (Option Nat)) (x : Nat) :
    x ∈ l.filterMap id ↔ some x ∈ l := by
  simp [List.mem_filterMap]

theorem movers_append_single (pre : List (Option Nat)) (a : Nat) (before after : Nat → Ant) :
    movers (pre ++ [some a]) before after
      = movers pre before after
        ++ (if (after a).PathIndex ≠ (before a).PathIndex then [a] else []) := by
  unfold movers
  rw [List.filterMap_append, List.filter_append]
  congr 1
  by_cases h : (after a).PathIndex = (before a).PathIndex
  · simp [h]
  · simp [h]

theorem movers_congr (pre : List (Option Nat)) (before after after' : Nat → Ant)
    (h : ∀ x, some x ∈ pre → after x = after' x) :
    movers pre before after = movers pre before after' := by
  unfold movers
  apply List.filter_congr
  intro x hx
  rw [h x ((mem_filterMap_id pre x).1 hx)]

theorem movers_mem (pre : List (Option Nat)) (before after : Nat → Ant) (x : Nat)
    (hx : x ∈ movers pre before after) : some x ∈ pre := by
  unfold movers at hx
  exact (mem_filterMap_id pre x).1 (List.mem_filter.1 hx).1

theorem records_congr (rooms : List Room) (pre : List (Option Nat))
    (before after after' : Nat → Ant) (h : ∀ x, some x ∈ pre → after x = after' x) :
    (movers pre before after).map (recordFor rooms after)
      = (movers pre before after').map (recordFor rooms after') := by
  rw [movers_congr pre before after after' h]
  apply List.map_congr_left
  intro x hx
  unfold recordFor
  rw [h x (movers_mem pre before after' x hx)]

/-- A visit that moves no ant keeps the pass invariant. -/
theorem midTurn_stay (rooms : List Room) (ants0 : Nat → Ant) (pre : List (Option Nat))
    (a : Nat) (st st' : TurnState) (h : MidTurn rooms ants0 pre st) (hnew : some a ∉ pre)
    (hants : st'.ants = st.ants) (hocc : st'.occupied = st.occupied)
    (hmoves : st'.moves = st.moves)
    (htrue : st'.allReached = true →
      st.allReached = true ∧ st'.move = 0 ∧ (ants0 a).HasReached = true)
    (hfalse : st'.allReached = false → st.allReached = false) :
    MidTurn rooms ants0 (pre ++ [some a]) st' := by
  have hna : st.ants a = ants0 a := h.untouched a hnew
  refine ⟨?_, ?_, ?_, ?_, ?_, ?_⟩
  · intro x hx
    rw [hants]
    exact h.untouched x (fun hm => hx (List.mem_append_left _ hm))
  · intro x hx
    rw [hants]
    rcases List.mem_append.1 hx with hm | hm
    · exact h.stepped x hm
    · simp only [List.mem_singleton, Option.some.injEq] at hm
      rw [hm]
      exact Or.inl hna
  · rw [hmoves, hants, h.records, movers_append_single, hna]
    simp
  · intro ht
    obtain ⟨h1, h2, h3⟩ := htrue ht
    obtain ⟨_, q2, q3⟩ := h.quiet h1
    refine ⟨h2, by rw [hocc]; exact q2, ?_⟩
    intro x hx
    rcases List.mem_append.1 hx with hm | hm
    · exact q3 x hm
    · simp only [List.mem_singleton, Option.some.injEq] at hm
      rw [hm]
      exact h3
  · intro hf
    obtain ⟨p1, x, p2, hpre, hp1, hx, hadv⟩ := h.first (hfalse hf)
    exact ⟨p1, x, p2 ++ [some a], by rw [hpre]; simp, hp1, hx, by rw [hants]; exact hadv⟩
  · intro r hr
    rw [hocc] at hr
    exact h.marks r hr

theorem advanceState_ants_ne (rooms : List Room) (st : TurnState) (a cur nr x : Nat)
    (hx : x ≠ a) : (advanceState rooms st a cur nr).ants x = st.ants x := by
  simp [advanceState, setAnt, hx]

theorem advanceState_ants_self (rooms : List Room) (st : TurnState) (a cur nr : Nat) :
    (advanceState rooms st a cur nr).ants a
      = { st.ants a with
          CurrentRoom := some nr, PathIndex := (st.ants a).PathIndex + 1,
          HasReached := if (roomAt rooms nr).IsEnd then true else (st.ants a).HasReached } := by
  simp [advanceState, setAnt]

theorem advanceState_marks (rooms : List Room) (st : TurnState) (a cur nr r : Nat)
    (h : ∀ r, st.occupied r ≠ none → isInterior rooms r = true)
    (hr : (advanceState rooms st a cur nr).occupied r ≠ none) : isInterior rooms r = true := by
  unfold advanceState at hr
  simp only at hr
  by_cases hn : isInterior rooms nr = true
  · rw [if_pos hn] at hr
    unfold setOccupied at hr
    by_cases hrn : r = nr
    · rw [hrn]; exact hn
    · simp only [hrn, if_false] at hr
      by_cases hc : isInterior rooms cur = true
      · rw [if_pos hc] at hr
        by_cases hrc : r = cur
        · rw [hrc]; exact hc
        · simp only [hrc, if_false] at hr
          exact h r hr
      · rw [if_neg hc] at hr
        exact h r hr
  · rw [if_neg hn] at hr
    by_cases hc : isInterior rooms cur = true
    · rw [if_pos hc] at hr
      unfold setOccupied at hr
      by_cases hrc : r = cur
      · rw [hrc]; exact hc
      · simp only [hrc, if_false] at hr
        exact h r hr
    · rw [if_neg hc] at hr
      exact h r hr

/-- A visit that moves the ant keeps the pass invariant. -/
theorem midTurn_advance (rooms : List Room) (ants0 : Nat → Ant) (pre : List (Option Nat))
    (a cur nr : Nat) (st : TurnState) (h : MidTurn rooms ants0 pre st) (hnew : some a ∉ pre)
    (hnot : (st.ants a).HasReached = false)
    (hlt : (st.ants a).PathIndex < ((st.ants a).Path.length : Int) - 1)
    (hnr : indexInt (st.ants a).Path ((st.ants a).PathIndex + 1) = some nr) :
    MidTurn rooms ants0 (pre ++ [some a]) (advanceState rooms st a cur nr) := by
  have hna : st.ants a = ants0 a := h.untouched a hnew
  have hother : ∀ x, some x ∈ pre → (advanceState rooms st a cur nr).ants x = st.ants x := by
    intro x hx
    apply advanceState_ants_ne
    intro hxa
    exact hnew (hxa ▸ hx)
  have hadv : Advanced rooms (ants0 a) ((advanceState rooms st a cur nr).ants a) := by
    rw [advanceState_ants_self, ← hna]
    exact ⟨nr, hnr, hnot, hlt, rfl⟩
  refine ⟨?_, ?_, ?_, ?_, ?_, ?_⟩
  · intro x hx
    have hxa : x ≠ a := fun e => hx (List.mem_append_right _ (by simp [e]))
    rw [advanceState_ants_ne rooms st a cur nr x hxa]
    exact h.untouched x (fun hm => hx (List.mem_append_left _ hm))
  · intro x hx
    rcases List.mem_append.1 hx with hm | hm
    · rw [hother x hm]
      exact h.stepped x hm
    · simp only [List.mem_singleton, Option.some.injEq] at hm
      rw [hm]
      exact Or.inr hadv
  · rw [movers_append_single, List.map_append,
      records_congr rooms pre ants0 _ st.ants hother, ← h.records]
    have hchg : ((advanceState rooms st a cur nr).ants a).PathIndex ≠ (ants0 a).PathIndex := by
      rw [advanceState_ants_self, ← hna]
      simp
    rw [if_pos hchg]
    show st.moves ++ [moveRecord (st.ants a).Id (roomAt rooms nr).Name] = _
    congr 1
    simp [recordFor, advanceState_ants_self]
  · intro ht
    simp [advanceState] at ht
  · intro _
    by_cases hall : st.allReached = true
    · obtain ⟨_, _, q3⟩ := h.quiet hall
      exact ⟨pre, a, [], rfl, q3, by rw [← hna]; exact hnot, hadv⟩
    · have hall' : st.allReached = false := by simpa using hall
      obtain ⟨p1, x, p2, hpre, hp1, hx, hadvx⟩ := h.first hall'
      have hxpre : some x ∈ pre := by rw [hpre]; simp
      exact ⟨p1, x, p2 ++ [some a], by rw [hpre]; simp, hp1, hx, by rw [hother x hxpre]; exact hadvx⟩
  · intro r hr
    exact advanceState_marks rooms st a cur nr r h.marks hr

/-- The body of the loop keeps the pass invariant when every ant of the slice is non-nil,
occurs once and is on track. -/
theorem midTurn_step (rooms : List Room) (antList : List (Option Nat)) (ants0 : Nat → Ant)
    (hnd : antList.Nodup) (hnil : ∀ p ∈ antList, p ≠ none)
    (htrack : ∀ a, some a ∈ antList → OnTrack rooms (ants0 a))
    (pre : List (Option Nat)) (p : Option Nat) (rest : List (Option Nat)) (st : TurnState)
    (hL : antList = pre ++ p :: rest) (h : MidTurn rooms ants0 pre st) :
    ∃ st', moveAnt rooms st p = .ok st' ∧ MidTurn rooms ants0 (pre ++ [p]) st' := by
  have hp : p ∈ antList := by rw [hL]; simp
  cases hpa : p with
  | none => exact absurd hpa (hnil p hp)
  | some a =>
    rw [hpa] at hL hp
    have hnew : some a ∉ pre := by
      rw [hL] at hnd
      have := (List.nodup_append.1 hnd).2.2
      intro hm
      exact this hm (List.mem_cons_self _ _)
    have hna : st.ants a = ants0 a := h.untouched a hnew
    have ht : OnTrack rooms (st.ants a) := by rw [hna]; exact htrack a hp
    obtain ⟨hpath, cur, hcur⟩ := ht.ready
    obtain ⟨h0, h1, h2, h3, h4⟩ := ht
    rcases moveAnt_cases rooms st a cur hpath hcur h0 with
      ⟨hr, hm⟩ | ⟨hr, hskip, hm⟩ | ⟨hr, hskip, hstuck, hm⟩ | ⟨nr, hr, hskip, hlt, hnr, hfree, hm⟩
    · refine ⟨_, hm, midTurn_stay rooms ants0 pre a st _ h hnew rfl rfl rfl ?_ ?_⟩
      · intro ht
        exact ⟨ht, rfl, by rw [← hna]; exact hr⟩
      · intro hf; exact hf
    · refine ⟨_, hm, midTurn_stay rooms ants0 pre a st _ h hnew rfl rfl rfl ?_ ?_⟩
      · intro ht
        exfalso
        have hmove := (h.quiet ht).1
        have := hskip.2
        omega
      · intro hf; exact hf
    · refine ⟨_, hm, midTurn_stay rooms ants0 pre a st _ h hnew rfl rfl rfl ?_ ?_⟩
      · intro ht
        simp at ht
      · intro _
        by_contra hall
        have hall' : st.allReached = true := by simpa using hall
        obtain ⟨_, hocc, _⟩ := h.quiet hall'
        rcases hstuck with hge | ⟨nr, _, hne, _⟩
        · have : (st.ants a).PathIndex = ((st.ants a).Path.length : Int) - 1 := by omega
          have := h3.2 this
          rw [hr] at this
          cases this
        · rw [hocc] at hne
          exact hne rfl
    · exact ⟨_, hm, midTurn_advance rooms ants0 pre a cur nr st h hnew hr hlt hnr⟩

/-! ## Movement simulation: the sequence of passes -/

/-- A pass over non-nil, distinct, on-track ants returns, and its state satisfies the pass
invariant for the whole slice. -/
theorem runTurn_midTurn (rooms : List Room) (antList : List (Option Nat)) (ants0 : Nat → Ant)
    (occupied : Nat → Option Nat) (hnd : antList.Nodup) (hnil : ∀ p ∈ antList, p ≠ none)
    (htrack : ∀ a, some a ∈ antList → OnTrack rooms (ants0 a))
    (hocc : ∀ r, occupied r ≠ none → isInterior rooms r = true) :
    ∃ st, runTurn rooms antList ants0 occupied = .ok st ∧ MidTurn rooms ants0 antList st := by
  unfold runTurn
  apply foldTurn_inv rooms antList (MidTurn rooms ants0)
    (midTurn_step rooms antList ants0 hnd hnil htrack) antList [] _ rfl
  have hclear : (fun r => if isInterior rooms r = true then none else occupied r)
      = (fun _ => (none : Option Nat)) := by
    funext r
    by_cases hi : isInterior rooms r = true
    · simp [hi]
    · simp only [hi, if_false]
      by_contra hne
      exact hi (hocc r hne)
  refine ⟨fun _ _ => rfl, fun x hx => by simp at hx, by simp [movers], ?_, ?_, ?_⟩
  · intro _
    exact ⟨rfl, hclear, fun x hx => by simp at hx⟩
  · intro h
    simp at h
  · intro r hr
    have hc := congrFun hclear r
    simp only at hc hr
    rw [hc] at hr
    exact absurd rfl hr

/-- A pass ends with `allReached` exactly when every ant had arrived before it. -/
theorem MidTurn.allReached_iff {rooms : List Room} {ants0 : Nat → Ant}
    {antList : List (Option Nat)} {st : TurnState} (h : MidTurn rooms ants0 antList st) :
    st.allReached = true ↔ ∀ a, some a ∈ antList → (ants0 a).HasReached = true := by
  constructor
  · intro ht
    exact (h.quiet ht).2.2
  · intro hall
    by_contra hf
    have hf' : st.allReached = false := by simpa using hf
    obtain ⟨p1, x, p2, hpre, _, hx, _⟩ := h.first hf'
    have := hall x (by rw [hpre]; simp)
    rw [hx] at this
    cases this

theorem Advanced.index {rooms : List Room} {x y : Ant} (h : Advanced rooms x y) :
    y.PathIndex = x.PathIndex + 1 ∧ y.Path = x.Path ∧ y.Id = x.Id := by
  obtain ⟨nr, _, _, _, rfl⟩ := h
  exact ⟨rfl, rfl, rfl⟩

/-- An ant that had arrived before a pass is the same after it. -/
theorem MidTurn.arrived_fixed {rooms : List Room} {ants0 : Nat → Ant}
    {antList : List (Option Nat)} {st : TurnState} (h : MidTurn rooms ants0 antList st)
    (a : Nat) (ha : (ants0 a).HasReached = true) : st.ants a = ants0 a := by
  by_cases hm : some a ∈ antList
  · rcases h.stepped a hm with heq | hadv
    · exact heq
    · obtain ⟨nr, _, hnot, _, _⟩ := hadv
      rw [ha] at hnot
      cases hnot
  · exact h.untouched a hm

/-- Every ant is on track after a pass that it began on track. -/
theorem MidTurn.onTrack {rooms : List Room} {ants0 : Nat → Ant}
    {antList : List (Option Nat)} {st : TurnState} (h : MidTurn rooms ants0 antList st)
    (htrack : ∀ a, some a ∈ antList → OnTrack rooms (ants0 a)) :
    ∀ a, some a ∈ antList → OnTrack rooms (st.ants a) := by
  intro a ha
  rcases h.stepped a ha with heq | hadv
  · rw [heq]; exact htrack a ha
  · exact (htrack a ha).advanced hadv

theorem MidTurn.remaining_eq {rooms : List Room} {ants0 : Nat → Ant}
    {antList : List (Option Nat)} {st : TurnState} (h : MidTurn rooms ants0 antList st)
    (a : Nat) (ha : some a ∈ antList) :
    remaining (ants0 a)
      = remaining (st.ants a) + (if movedIn a (ants0, st) then 1 else 0) := by
  unfold movedIn remaining
  rcases h.stepped a ha with heq | hadv
  · rw [heq]
    simp
  · obtain ⟨hidx, hpath, _⟩ := hadv.index
    obtain ⟨nr, _, _, hlt, _⟩ := hadv
    rw [hidx, hpath]
    simp
    omega

theorem MidTurn.moves_length {rooms : List Room} {ants0 : Nat → Ant}
    {antList : List (Option Nat)} {st : TurnState} (h : MidTurn rooms ants0 antList st) :
    st.moves.length
      = ((antList.filterMap id).filter (fun a => movedIn a (ants0, st))).length := by
  rw [h.records, List.length_map]
  rfl

/-- The moves still to make drop, in a pass, by the number of records the pass writes. -/
theorem MidTurn.remainingAll_eq {rooms : List Room} {ants0 : Nat → Ant}
    {antList : List (Option Nat)} {st : TurnState} (h : MidTurn rooms ants0 antList st) :
    remainingAll antList ants0 = remainingAll antList st.ants + st.moves.length := by
  rw [h.moves_length]
  unfold remainingAll
  have key : ∀ l : List Nat, (∀ x ∈ l, some x ∈ antList) →
      (l.map (fun a => remaining (ants0 a))).sum
        = (l.map (fun a => remaining (st.ants a))).sum
          + (l.filter (fun a => movedIn a (ants0, st))).length := by
    intro l
    induction l with
    | nil => intro _; simp
    | cons x t ih =>
      intro hl
      have hx := h.remaining_eq x (hl x (List.mem_cons_self _ _))
      have ht := ih (fun y hy => hl y (List.mem_cons_of_mem _ hy))
      rw [List.map_cons, List.sum_cons, List.map_cons, List.sum_cons, List.filter_cons, hx, ht]
      by_cases hm : movedIn x (ants0, st) = true
      · simp [hm]; omega
      · simp [hm]; omega
  exact key _ (fun x hx => (mem_filterMap_id antList x).1 hx)

theorem passes_succ (rooms : List Room) (antList : List (Option Nat)) (fuel : Nat)
    (ants : Nat → Ant) (occupied : Nat → Option Nat) (st : TurnState)
    (h : runTurn rooms antList ants occupied = .ok st) :
    passes rooms antList (fuel + 1) ants occupied
      = (ants, st) ::
        (if st.allReached then [] else passes rooms antList fuel st.ants st.occupied) := by
  rw [passes, h]

/-- Every pass begins with all ants on track and satisfies the pass invariant. -/
theorem passes_inv (rooms : List Room) (antList : List (Option Nat)) (hnd : antList.Nodup)
    (hnil : ∀ p ∈ antList, p ≠ none) :
    ∀ (fuel : Nat) (ants : Nat → Ant) (occupied : Nat → Option Nat),
      (∀ a, some a ∈ antList → OnTrack rooms (ants a)) →
      (∀ r, occupied r ≠ none → isInterior rooms r = true) →
      ∀ pass ∈ passes rooms antList fuel ants occupied,
        (∀ a, some a ∈ antList → OnTrack rooms (pass.1 a)) ∧
        MidTurn rooms pass.1 antList pass.2 := by
  intro fuel
  induction fuel with
  | zero => intro ants occupied _ _ pass hp; simp [passes] at hp
  | succ fuel ih =>
    intro ants occupied htrack hocc pass hp
    obtain ⟨st, hst, hmid⟩ := runTurn_midTurn rooms antList ants occupied hnd hnil htrack hocc
    rw [passes_succ rooms antList fuel ants occupied st hst] at hp
    rcases List.mem_cons.1 hp with h | h
    · rw [h]
      exact ⟨htrack, hmid⟩
    · by_cases hall : st.allReached = true
      · rw [if_pos hall] at h
        simp at h
      · rw [if_neg hall] at h
        exact ih st.ants st.occupied (hmid.onTrack htrack) hmid.marks pass h

theorem OnTrack.remaining_zero {rooms : List Room} {x : Ant} (h : OnTrack rooms x)
    (hr : x.HasReached = true) : remaining x = 0 := by
  have := h.2.2.2.1.1 hr
  unfold remaining
  omega

/-- With more fuel than moves still to make, the passes end with one in which every ant
has arrived; the passes that wrote a record are at most as many as the moves still to
make, every ant moved in as many passes as it had moves to make, and the records written
are as many as the moves to make. -/
theorem passes_terminate (rooms : List Room) (antList : List (Option Nat))
    (hnd : antList.Nodup) (hnil : ∀ p ∈ antList, p ≠ none) :
    ∀ (fuel : Nat) (ants : Nat → Ant) (occupied : Nat → Option Nat),
      (∀ a, some a ∈ antList → OnTrack rooms (ants a)) →
      (∀ r, occupied r ≠ none → isInterior rooms r = true) →
      remainingAll antList ants < fuel →
      ∃ last, (passes rooms antList fuel ants occupied).getLast? = some last ∧
        last.2.allReached = true ∧
        ((passes rooms antList fuel ants occupied).filter
            (fun p => decide (p.2.moves.length > 0))).length ≤ remainingAll antList ants ∧
        (∀ a, some a ∈ antList →
          ((passes rooms antList fuel ants occupied).filter (movedIn a)).length
            = remaining (ants a)) ∧
        ((passes rooms antList fuel ants occupied).map (fun p => p.2.moves.length)).sum
          = remainingAll antList ants := by
  intro fuel
  induction fuel with
  | zero => intro _ _ _ _ h; omega
  | succ fuel ih =>
    intro ants occupied htrack hocc hfuel
    obtain ⟨st, hst, hmid⟩ := runTurn_midTurn rooms antList ants occupied hnd hnil htrack hocc
    rw [passes_succ rooms antList fuel ants occupied st hst]
    have hacc := hmid.remainingAll_eq
    by_cases hall : st.allReached = true
    · rw [if_pos hall]
      have hreached := hmid.allReached_iff.1 hall
      have hsame : ∀ a, st.ants a = ants a := fun a => by
        by_cases hm : some a ∈ antList
        · exact hmid.arrived_fixed a (hreached a hm)
        · exact hmid.untouched a hm
      have hnomove : ∀ a, movedIn a (ants, st) = false := by
        intro a
        unfold movedIn
        simp [hsame a]
      have hlen : st.moves.length = 0 := by
        rw [hmid.moves_length]
        simp [hnomove]
      refine ⟨(ants, st), rfl, hall, ?_, ?_, ?_⟩
      · simp [hlen]
      · intro a ha
        rw [(htrack a ha).remaining_zero (hreached a ha)]
        simp [hnomove]
      · have hzero : remainingAll antList ants = 0 := by
          unfold remainingAll
          apply List.sum_eq_zero
          intro n hn
          obtain ⟨a, ha, rfl⟩ := List.mem_map.1 hn
          exact (htrack a ((mem_filterMap_id antList a).1 ha)).remaining_zero
            (hreached a ((mem_filterMap_id antList a).1 ha))
        simp only [List.map_cons, List.map_nil, List.sum_cons, List.sum_nil]
        omega
    · rw [if_neg hall]
      have hall' : st.allReached = false := by simpa using hall
      obtain ⟨p1, x, p2, hpre, _, _, hadv⟩ := hmid.first hall'
      have hxmem : some x ∈ antList := by rw [hpre]; simp
      have hmoved : movedIn x (ants, st) = true := by
        unfold movedIn
        simp [hadv.index.1]
      have hpos : 0 < st.moves.length := by
        rw [hmid.moves_length]
        apply List.length_pos_of_mem
        exact List.mem_filter.2 ⟨(mem_filterMap_id antList x).2 hxmem, hmoved⟩
      obtain ⟨last, hlast, hlall, hlines, hcount, htotal⟩ :=
        ih st.ants st.occupied (hmid.onTrack htrack) hmid.marks (by omega)
      have hne : passes rooms antList fuel st.ants st.occupied ≠ [] := by
        intro hnil'
        rw [hnil'] at hlast
        simp at hlast
      refine ⟨last, ?_, hlall, ?_, ?_, ?_⟩
      · obtain ⟨b, t, hbt⟩ := List.exists_cons_of_ne_nil hne
        rw [hbt] at hlast ⊢
        rw [List.getLast?_cons_cons]
        exact hlast
      · rw [List.filter_cons]
        simp only [hpos, decide_True, if_true, List.length_cons]
        omega
      · intro a ha
        rw [List.filter_cons, hmid.remaining_eq a ha, ← hcount a ha]
        by_cases hm : movedIn a (ants, st) = true
        · simp [hm]
        · simp [hm]
      · rw [List.map_cons, List.sum_cons, htotal]
        show st.moves.length + remainingAll antList st.ants = remainingAll antList ants
        omega

/-- The transcript `turnLoop` returns is what it was given followed by the lines of its
passes, and the store it returns is the store of the last pass. -/
theorem turnLoop_passes (rooms : List Room) (antList : List (Option Nat)) :
    ∀ (fuel : Nat) (ants : Nat → Ant) (occupied : Nat → Option Nat) (allMoves : String)
      (last : (Nat → Ant) × TurnState),
      (passes rooms antList fuel ants occupied).getLast? = some last →
      last.2.allReached = true →
      turnLoop rooms antList fuel ants occupied allMoves
        = some (.ok last.2.ants
            (allMoves ++ transcriptOf (passes rooms antList fuel ants occupied))) := by
  intro fuel
  induction fuel with
  | zero => intro _ _ _ last h; simp [passes] at h
  | succ fuel ih =>
    intro ants occupied allMoves last hlast hall
    cases hturn : runTurn rooms antList ants occupied with
    | error f =>
      rw [passes, hturn] at hlast
      simp at hlast
    | ok st =>
      rw [passes_succ rooms antList fuel ants occupied st hturn] at hlast ⊢
      have hacc : (if st.moves.length > 0 then allMoves ++ (" ".intercalate st.moves ++ "\n")
          else allMoves) = allMoves ++ passLine st := by
        unfold passLine
        split <;> simp
      rw [turnLoop, hturn]
      simp only [hacc]
      by_cases hst : st.allReached = true
      · rw [if_pos hst] at hlast ⊢
        simp only [List.getLast?_singleton, Option.some.injEq] at hlast
        rw [if_pos hst, ← hlast]
        simp [transcriptOf]
      · rw [if_neg hst] at hlast ⊢
        have hne : passes rooms antList fuel st.ants st.occupied ≠ [] := by
          intro hnil'
          rw [hnil'] at hlast
          simp only [List.getLast?_singleton, Option.some.injEq] at hlast
          rw [← hlast] at hall
          exact hst hall
        obtain ⟨b, t, hbt⟩ := List.exists_cons_of_ne_nil hne
        have hlast' : (passes rooms antList fuel st.ants st.occupied).getLast? = some last := by
          rw [hbt] at hlast ⊢
          rw [List.getLast?_cons_cons] at hlast
          exact hlast
        rw [if_neg hst, ih st.ants st.occupied _ last hlast' hall]
        simp [transcriptOf, String.append_assoc]

/-! ## Movement simulation: the state the loop starts from -/

/-- The initialisation loop, on a map with distinct non-nil keys and non-empty paths,
returns; it puts every key at the first room of its path and leaves the other ants
alone. -/
theorem initAnts_spec :
    ∀ (l : List (Option Nat × Path)) (h : Nat → Ant),
      (l.map Prod.fst).Nodup → (∀ e ∈ l, e.1 ≠ none ∧ e.2.Rooms ≠ []) →
      ∃ h', initAnts l h = some h' ∧
        (∀ a p, (some a, p) ∈ l →
          h' a = { h a with Path := p.Rooms, PathIndex := 0, CurrentRoom := p.Rooms.head?,
                            HasReached := false }) ∧
        (∀ x, some x ∉ l.map Prod.fst → h' x = h x) := by
  intro l
  induction l with
  | nil =>
    intro h _ _
    exact ⟨h, rfl, fun a p hm => by simp at hm, fun _ _ => rfl⟩
  | cons e t ih =>
    intro h hnd hok
    obtain ⟨hk, hrooms⟩ := hok e (List.mem_cons_self _ _)
    rw [List.map_cons] at hnd
    obtain ⟨hnot, hndt⟩ := List.nodup_cons.1 hnd
    cases hke : e.1 with
    | none => exact absurd hke hk
    | some a0 =>
      cases hr : e.2.Rooms with
      | nil => exact absurd hr hrooms
      | cons first rest =>
        obtain ⟨h', hh', hin, hout⟩ := ih
          (setAnt h a0 { h a0 with Path := e.2.Rooms, PathIndex := 0,
                                   CurrentRoom := some first, HasReached := false })
          hndt (fun e' he' => hok e' (List.mem_cons_of_mem _ he'))
        refine ⟨h', ?_, ?_, ?_⟩
        · unfold initAnts
          rw [List.foldlM_cons]
          simp only [hke, hr, Option.bind_eq_bind, Option.some_bind]
          unfold initAnts at hh'
          rw [hr] at hh'
          exact hh'
        · intro a p hm
          rcases List.mem_cons.1 hm with h1 | h1
          · have ha : a0 = a := by
              have := congrArg Prod.fst h1
              simp only [hke] at this
              exact (Option.some.inj this).symm
            have hp : p = e.2 := by
              have := congrArg Prod.snd h1
              exact this
            subst ha
            rw [hout a0 (by rw [← hke]; exact hnot)]
            simp [setAnt, hp, hr]
          · have hne : a ≠ a0 := by
              intro heq
              apply hnot
              rw [hke, ← heq]
              exact List.mem_map.2 ⟨(some a, p), h1, rfl⟩
            rw [hin a p h1]
            simp [setAnt, hne]
        · intro x hx
          rw [List.map_cons, List.mem_cons, not_or] at hx
          have hne : x ≠ a0 := by
            intro heq
            apply hx.1
            rw [hke, heq]
          rw [hout x hx.2]
          simp [setAnt, hne]

theorem mapLookup_mem (m : List (Option Nat × Path)) (k : Option Nat) (p : Path)
    (h : mapLookup m k = some p) : (k, p) ∈ m := by
  induction m with
  | nil => simp [mapLookup] at h
  | cons e t ih =>
    unfold mapLookup at h
    by_cases hek : e.1 = k
    · rw [if_pos hek] at h
      have hp : e.2 = p := Option.some.inj h
      rw [← hek, ← hp]
      exact List.mem_cons_self _ _
    · rw [if_neg hek] at h
      exact List.mem_cons_of_mem _ (ih h)

theorem mapLookup_of_mem (m : List (Option Nat × Path)) (hnd : (m.map Prod.fst).Nodup)
    (k : Option Nat) (p : Path) (h : (k, p) ∈ m) : mapLookup m k = some p := by
  induction m with
  | nil => simp at h
  | cons e t ih =>
    rw [List.map_cons] at hnd
    obtain ⟨hnot, hndt⟩ := List.nodup_cons.1 hnd
    unfold mapLookup
    rcases List.mem_cons.1 h with h1 | h1
    · rw [← h1]
      simp
    · have hne : ¬ e.1 = k := by
        intro heq
        apply hnot
        rw [heq]
        exact List.mem_map.2 ⟨(k, p), h1, rfl⟩
      rw [if_neg hne]
      exact ih hndt h1

/-- A simple path from a start room to a different end room, in a farm where `IsEnd` flags
the end room only, puts an ant standing at its first room on track. -/
theorem walk_onTrack (rooms : List Room) (start finish : Nat) (q : List Nat) (id : Int)
    (hflag : ∀ r, (roomAt rooms r).IsEnd = true ↔ r = finish) (hdist : start ≠ finish)
    (hh : q.head? = some start) (hl : q.getLast? = some finish) (hnd : q.Nodup) :
    OnTrack rooms
      { Id := id, CurrentRoom := q.head?, Path := q, PathIndex := 0, HasReached := false } ∧
    2 ≤ q.length := by
  have hlen : 2 ≤ q.length := by
    cases q with
    | nil => simp at hh
    | cons x t =>
      cases t with
      | nil =>
        simp at hh hl
        exact absurd (hh.symm.trans hl) hdist
      | cons y t' => simp
  refine ⟨⟨le_refl 0, by simp only; omega, ?_, ?_, ?_⟩, hlen⟩
  · simp only
    rw [List.head?_eq_getElem?]
    exact (indexInt_natCast q 0).symm
  · simp only
    constructor
    · intro h; cases h
    · intro h; omega
  · intro j r hj hjr
    simp only at hjr ⊢
    rw [hflag r]
    rw [List.getLast?_eq_getElem?] at hl
    obtain ⟨hjlt, _⟩ := List.getElem?_eq_some.1 hjr
    constructor
    · intro hr
      have : q[j]? = q[q.length - 1]? := by rw [hjr, hl, hr]
      have := List.getElem?_inj hjlt hnd this
      omega
    · intro hj1
      have : j = q.length - 1 := by omega
      rw [this, hl] at hjr
      exact (Option.some.inj hjr).symm

/-- On a loaded farm with a path and an ant, `SimulateMovement` reaches its loop: the map
of `assignAntsToPath` has the ants as keys, the initialisation returns, and every ant
stands at the first room of its assigned path, which is a simple path from the start room
to the end room. -/
theorem simStart_spec (S : SliceSorter) (rooms : List Room) (ants : Nat → Ant) (af : AntFarm)
    (start finish : Nat) (paths : List Path) (hfarm : LoadedFarm rooms af start finish)
    (hpaths : findAllPaths S rooms af = some paths) (hne : paths ≠ [])
    (hants : af.Ants ≠ []) :
    ∃ m ants0, assignAntsToPath S rooms af = some (some m) ∧
      simStart S rooms ants af = some ants0 ∧
      (∀ fuel, SimulateMovement S fuel rooms ants af
        = turnLoop rooms af.Ants fuel ants0 (fun _ => none) "") ∧
      (∀ a, some a ∈ af.Ants → ∃ p q, p ∈ paths ∧ mapLookup m (some a) = some p ∧
        p = recordPath q ∧ q.head? = some start ∧ q.getLast? = some finish ∧ q.Nodup ∧
        ants0 a = { ants a with Path := q, PathIndex := 0, CurrentRoom := q.head?,
                                HasReached := false }) ∧
      (∀ x, some x ∉ af.Ants → ants0 x = ants x) := by
  have hassign := assignAntsToPath_eq S rooms af paths hpaths hne
  obtain ⟨paths', hpaths', hwalks⟩ :=
    findAllPaths_some S rooms af start finish hfarm.start_set hfarm.end_set
  rw [hpaths] at hpaths'
  cases hpaths'
  have hkeys : (af.Ants.foldl (assignOne paths) (assignInit paths)).antPaths.map Prod.fst
      = af.Ants := by
    have := assign_keys paths af.Ants (assignInit paths)
      (by simpa [assignInit] using hfarm.ants_once)
    simpa [assignInit] using this
  have hvals := assign_values paths hne af.Ants (assignInit paths)
    (by intro e he; simp [assignInit] at he)
  have hwalk : ∀ p ∈ paths, ∃ q, p = recordPath q ∧ q.head? = some start ∧
      q.getLast? = some finish ∧ q.Nodup := by
    intro p hp
    obtain ⟨q, hq, hpq⟩ := hwalks p hp
    obtain ⟨hh, hl, _⟩ := walks_shape rooms finish _ start _ q hq
    exact ⟨q, hpq, hh, hl, (walks_simple rooms finish _ start _ q hq).1⟩
  obtain ⟨ants0, hinit, hin, hout⟩ := initAnts_spec
    (af.Ants.foldl (assignOne paths) (assignInit paths)).antPaths ants
    (by rw [hkeys]; exact hfarm.ants_once)
    (by
      intro e he
      constructor
      · apply hfarm.ants_set
        rw [← hkeys]
        exact List.mem_map.2 ⟨e, he, rfl⟩
      · obtain ⟨q, hq, hh, _, _⟩ := hwalk e.2 (hvals e he)
        rw [hq]
        intro hnil
        simp only [recordPath] at hnil
        rw [hnil] at hh
        simp at hh)
  have hlen : ¬ af.Ants.length = 0 := fun h => hants (List.length_eq_zero.1 h)
  refine ⟨_, ants0, hassign, ?_, ?_, ?_, ?_⟩
  · unfold simStart
    rw [hassign]
    simp only [hlen, if_false]
    exact hinit
  · intro fuel
    unfold SimulateMovement
    rw [hassign]
    simp only [hlen, if_false, hinit]
  · intro a ha
    obtain ⟨p, hp, hmem⟩ := mapLookup_of_key _ (some a) (by rw [hkeys]; exact ha)
    obtain ⟨q, hq, hh, hl, hnd⟩ := hwalk p (hvals _ hmem)
    refine ⟨p, q, hvals _ hmem, hp, hq, hh, hl, hnd, ?_⟩
    rw [hin a p hmem, hq]
    rfl
  · intro x hx
    exact hout x (by rw [hkeys]; exact hx)

/-- On a loaded farm whose start and end rooms differ, the loop starts with every ant on
track, with as many moves to make as its assigned path is long, and with no room marked. -/
theorem simStart_onTrack (S : SliceSorter) (rooms : List Room) (ants : Nat → Ant)
    (af : AntFarm) (start finish : Nat) (paths : List Path)
    (hfarm : LoadedFarm rooms af start finish) (hdist : start ≠ finish)
    (hpaths : findAllPaths S rooms af = some paths) (hne : paths ≠ [])
    (hants : af.Ants ≠ []) :
    ∃ m ants0, assignAntsToPath S rooms af = some (some m) ∧
      simStart S rooms ants af = some ants0 ∧
      (∀ fuel, SimulateMovement S fuel rooms ants af
        = turnLoop rooms af.Ants fuel ants0 (fun _ => none) "") ∧
      (∀ a, some a ∈ af.Ants → OnTrack rooms (ants0 a)) ∧
      (∀ a, some a ∈ af.Ants → (remaining (ants0 a) : Int) = assignedLength m a) ∧
      (remainingAll af.Ants ants0 : Int) = totalLength m af.Ants ∧
      (∀ a, some a ∈ af.Ants → (ants0 a).Id = (ants a).Id) := by
  obtain ⟨m, ants0, hassign, hstart, hloop, hspec, _⟩ :=
    simStart_spec S rooms ants af start finish paths hfarm hpaths hne hants
  have hrem : ∀ a, some a ∈ af.Ants → (remaining (ants0 a) : Int) = assignedLength m a := by
    intro a ha
    obtain ⟨p, q, _, hp, hq, hh, hl, hnd, h0⟩ := hspec a ha
    have hlen := (walk_onTrack rooms start finish q (ants a).Id hfarm.end_flag hdist hh hl hnd).2
    unfold assignedLength remaining
    rw [hp, h0, hq]
    simp only [recordPath]
    omega
  refine ⟨m, ants0, hassign, hstart, hloop, ?_, hrem, ?_, ?_⟩
  · intro a ha
    obtain ⟨p, q, _, _, _, hh, hl, hnd, h0⟩ := hspec a ha
    rw [h0]
    exact (walk_onTrack rooms start finish q (ants a).Id hfarm.end_flag hdist hh hl hnd).1
  rotate_left
  · intro a ha
    obtain ⟨p, q, _, _, _, _, _, _, h0⟩ := hspec a ha
    rw [h0]
  · unfold remainingAll totalLength
    have key : ∀ l : List Nat, (∀ x ∈ l, some x ∈ af.Ants) →
        (((l.map (fun a => remaining (ants0 a))).sum : Nat) : Int)
          = (l.map (assignedLength m)).sum := by
      intro l
      induction l with
      | nil => intro _; simp
      | cons x t ih =>
        intro hl
        rw [List.map_cons, List.sum_cons, List.map_cons, List.sum_cons, Nat.cast_add]
        rw [hrem x (hl x (List.mem_cons_self _ _)),
          ih (fun y hy => hl y (List.mem_cons_of_mem _ hy))]
    exact key _ (fun x hx => (mem_filterMap_id af.Ants x).1 hx)

/-! ## The run of the simulator on a loaded farm -/

theorem transcriptOf_eq_render (ps : List ((Nat → Ant) × TurnState)) :
    transcriptOf ps = renderLines (linesOf ps) := by
  induction ps with
  | nil => rfl
  | cons p t ih =>
    unfold linesOf at ih ⊢
    rw [transcriptOf, ih, List.map_cons, List.filter_cons]
    unfold passLine
    by_cases h : p.2.moves.length > 0
    · simp only [h, if_true, decide_True, renderLines]
    · simp only [h, if_false, decide_False, String.empty_append]
      simp

theorem passes_head (rooms : List Room) (antList : List (Option Nat)) (fuel : Nat)
    (ants : Nat → Ant) (occupied : Nat → Option Nat) (p : (Nat → Ant) × TurnState)
    (h : (passes rooms antList fuel ants occupied).head? = some p) : p.1 = ants := by
  cases fuel with
  | zero => simp [passes] at h
  | succ fuel =>
    cases hturn : runTurn rooms antList ants occupied with
    | error f => rw [passes, hturn] at h; simp at h
    | ok st =>
      rw [passes_succ rooms antList fuel ants occupied st hturn] at h
      simp only [List.head?_cons, Option.some.injEq] at h
      rw [← h]

/-- Every pass but the first begins with the store the pass before it ended with. -/
theorem passes_chain (rooms : List Room) (antList : List (Option Nat)) :
    ∀ (fuel : Nat) (ants : Nat → Ant) (occupied : Nat → Option Nat) (i : Nat)
      (p q : (Nat → Ant) × TurnState),
      (passes rooms antList fuel ants occupied)[i]? = some p →
      (passes rooms antList fuel ants occupied)[i + 1]? = some q → q.1 = p.2.ants := by
  intro fuel
  induction fuel with
  | zero => intro _ _ _ _ _ h; simp [passes] at h
  | succ fuel ih =>
    intro ants occupied i p q hp hq
    cases hturn : runTurn rooms antList ants occupied with
    | error f => rw [passes, hturn] at hp; simp at hp
    | ok st =>
      rw [passes_succ rooms antList fuel ants occupied st hturn] at hp hq
      rw [List.getElem?_cons_succ] at hq
      by_cases hst : st.allReached = true
      · rw [if_pos hst] at hq
        simp at hq
      · rw [if_neg hst] at hp hq
        cases i with
        | zero =>
          simp only [List.getElem?_cons_zero, Option.some.injEq] at hp
          rw [← hp]
          apply passes_head rooms antList fuel st.ants st.occupied q
          rw [List.head?_eq_getElem?]
          exact hq
        | succ i =>
          rw [List.getElem?_cons_succ] at hp
          exact ih st.ants st.occupied i p q hp hq

/-- The passes from the pass of index `i` on are the passes of a run that starts with the
store of that pass, again with every ant on track and only interior rooms marked. -/
theorem passes_drop (rooms : List Room) (antList : List (Option Nat)) (hnd : antList.Nodup)
    (hnil : ∀ p ∈ antList, p ≠ none) :
    ∀ (fuel : Nat) (ants : Nat → Ant) (occupied : Nat → Option Nat),
      (∀ a, some a ∈ antList → OnTrack rooms (ants a)) →
      (∀ r, occupied r ≠ none → isInterior rooms r = true) →
      ∀ (i : Nat) (p : (Nat → Ant) × TurnState),
        (passes rooms antList fuel ants occupied)[i]? = some p →
        ∃ fuel' occ', (∀ a, some a ∈ antList → OnTrack rooms (p.1 a)) ∧
          (∀ r, occ' r ≠ none → isInterior rooms r = true) ∧
          (passes rooms antList fuel ants occupied).drop i
            = passes rooms antList fuel' p.1 occ' := by
  intro fuel
  induction fuel with
  | zero => intro _ _ _ _ _ _ h; simp [passes] at h
  | succ fuel ih =>
    intro ants occupied htrack hocc i p hp
    obtain ⟨st, hturn, hmid⟩ := runTurn_midTurn rooms antList ants occupied hnd hnil htrack hocc
    cases i with
    | zero =>
      have hhead := passes_head rooms antList (fuel + 1) ants occupied p
        (by rw [List.head?_eq_getElem?]; exact hp)
      refine ⟨fuel + 1, occupied, ?_, hocc, ?_⟩
      · rw [hhead]; exact htrack
      · rw [hhead]; rfl
    | succ i =>
      rw [passes_succ rooms antList fuel ants occupied st hturn] at hp ⊢
      rw [List.getElem?_cons_succ] at hp
      rw [List.drop_succ_cons]
      by_cases hst : st.allReached = true
      · rw [if_pos hst] at hp
        simp at hp
      · rw [if_neg hst] at hp ⊢
        exact ih st.ants st.occupied (hmid.onTrack htrack) hmid.marks i p hp

/-- Along a run the identity and the path of an ant stay, and an ant that has arrived keeps
its record. -/
theorem passes_fixed (rooms : List Room) (antList : List (Option Nat)) (hnd : antList.Nodup)
    (hnil : ∀ p ∈ antList, p ≠ none) :
    ∀ (fuel : Nat) (ants : Nat → Ant) (occupied : Nat → Option Nat),
      (∀ a, some a ∈ antList → OnTrack rooms (ants a)) →
      (∀ r, occupied r ≠ none → isInterior rooms r = true) →
      ∀ pass ∈ passes rooms antList fuel ants occupied, ∀ a, some a ∈ antList →
        ((pass.1 a).Id = (ants a).Id ∧ (pass.1 a).Path = (ants a).Path) ∧
        ((pass.2.ants a).Id = (ants a).Id ∧ (pass.2.ants a).Path = (ants a).Path) ∧
        ((ants a).HasReached = true → pass.1 a = ants a ∧ pass.2.ants a = ants a) := by
  intro fuel
  induction fuel with
  | zero => intro _ _ _ _ pass h; simp [passes] at h
  | succ fuel ih =>
    intro ants occupied htrack hocc pass hpass a ha
    obtain ⟨st, hturn, hmid⟩ := runTurn_midTurn rooms antList ants occupied hnd hnil htrack hocc
    have hstep : (st.ants a).Id = (ants a).Id ∧ (st.ants a).Path = (ants a).Path := by
      rcases hmid.stepped a ha with h | h
      · rw [h]; exact ⟨rfl, rfl⟩
      · exact ⟨h.index.2.2, h.index.2.1⟩
    rw [passes_succ rooms antList fuel ants occupied st hturn] at hpass
    rcases List.mem_cons.1 hpass with h | h
    · rw [h]
      exact ⟨⟨rfl, rfl⟩, hstep, fun hr => ⟨rfl, hmid.arrived_fixed a hr⟩⟩
    · by_cases hst : st.allReached = true
      · rw [if_pos hst] at h
        simp at h
      · rw [if_neg hst] at h
        obtain ⟨h1, h2, h3⟩ := ih st.ants st.occupied (hmid.onTrack htrack) hmid.marks pass h a ha
        refine ⟨⟨h1.1.trans hstep.1, h1.2.trans hstep.2⟩,
          ⟨h2.1.trans hstep.1, h2.2.trans hstep.2⟩, ?_⟩
        intro hr
        have hfix := hmid.arrived_fixed a hr
        obtain ⟨e1, e2⟩ := h3 (by rw [hfix]; exact hr)
        exact ⟨e1.trans hfix, e2.trans hfix⟩

theorem OnTrack.inStateMachine {rooms : List Room} {x : Ant} (h : OnTrack rooms x) :
    InStateMachine x := ⟨h.1, h.2.1, h.2.2.1, h.2.2.2.1⟩

/-- The farm of the test "Multiple ants with one path" is loaded: room 0 alone is flagged
start, room 2 alone is flagged end, and the three ants are distinct. -/
theorem loadedFarm_onePath : LoadedFarm roomsOnePath farmOnePath 0 2 where
  start_set := rfl
  end_set := rfl
  start_flag := by
    intro r
    match r with
    | 0 => simp [roomAt, roomsOnePath, flaggedRoom]
    | 1 => simp [roomAt, roomsOnePath, flaggedRoom]
    | 2 => simp [roomAt, roomsOnePath, flaggedRoom]
    | n + 3 => simp [roomAt, roomsOnePath, flaggedRoom]
  end_flag := by
    intro r
    match r with
    | 0 => simp [roomAt, roomsOnePath, flaggedRoom]
    | 1 => simp [roomAt, roomsOnePath, flaggedRoom]
    | 2 => simp [roomAt, roomsOnePath, flaggedRoom]
    | n + 3 => simp [roomAt, roomsOnePath, flaggedRoom]
  ants_set := by decide
  ants_once := by decide

/-- The five passes of the test "Multiple ants with one path": the records each pass wrote
(the last pass writes none and sees every ant arrived) and the rooms of the three ants at
the end of each pass. -/
theorem onePath_passes :
    ∃ ants0, simStart insertionSorter roomsOnePath freshAnts farmOnePath = some ants0 ∧
      (passes roomsOnePath farmOnePath.Ants 5 ants0 (fun _ => none)).map (fun p => p.2.moves)
        = [["L1-mid"], ["L1-end", "L2-mid"], ["L2-end", "L3-mid"], ["L3-end"], []] ∧
      (passes roomsOnePath farmOnePath.Ants 5 ants0 (fun _ => none)).map
          (fun p => farmOnePath.Ants.filterMap
            (fun a => a.bind (fun k => (p.2.ants k).CurrentRoom)))
        = [[1, 0, 0], [2, 1, 0], [2, 2, 1], [2, 2, 2], [2, 2, 2]] :=
  ⟨_, rfl, by decide, by decide⟩

theorem mem_movers (antList : List (Option Nat)) (before after : Nat → Ant) (x : Nat) :
    x ∈ movers antList before after
      ↔ some x ∈ antList ∧ (after x).PathIndex ≠ (before x).PathIndex := by
  unfold movers
  rw [List.mem_filter, mem_filterMap_id]
  simp

theorem movers_nodup (antList : List (Option Nat)) (hnd : antList.Nodup)
    (before after : Nat → Ant) : (movers antList before after).Nodup := by
  unfold movers
  apply List.Nodup.filter
  apply List.Nodup.filterMap _ hnd
  intro a b c ha hb
  simp only [id, Option.mem_def] at ha hb
  rw [ha, hb]

/-- C20: on a loaded farm whose start and end rooms differ, with a path and an ant, the
ants the loop of `SimulateMovement` starts with and the ants every turn ends with satisfy
`0 ≤ PathIndex ≤ len(Path) - 1`, `CurrentRoom = Path[PathIndex]` and `HasReached` exactly
when `PathIndex = len(Path) - 1`; the first turn begins with the initialised store and every
later turn with the store the turn before ended with; in one turn `PathIndex` stays or grows
by one; and an ant that has `HasReached` at the end of a turn has the same `PathIndex`,
`CurrentRoom` and `HasReached` at the end of every later turn. -/
theorem ant_state_machine (S : SliceSorter) (rooms : List Room) (ants : Nat → Ant)
    (af : AntFarm) (start finish : Nat) (paths : List Path)
    (hfarm : LoadedFarm rooms af start finish) (hdist : start ≠ finish)
    (hpaths : findAllPaths S rooms af = some paths) (hne : paths ≠ [])
    (hants : af.Ants ≠ []) :
    ∃ ants0, simStart S rooms ants af = some ants0 ∧
      (∀ fuel, SimulateMovement S fuel rooms ants af
        = turnLoop rooms af.Ants fuel ants0 (fun _ => none) "") ∧
      (∀ a, some a ∈ af.Ants → InStateMachine (ants0 a)) ∧
      ∀ fuel,
        (∀ p, (passes rooms af.Ants fuel ants0 (fun _ => none)).head? = some p →
          p.1 = ants0) ∧
        (∀ (i : Nat) p q, (passes rooms af.Ants fuel ants0 (fun _ => none))[i]? = some p →
          (passes rooms af.Ants fuel ants0 (fun _ => none))[i + 1]? = some q →
          q.1 = p.2.ants) ∧
        (∀ p ∈ passes rooms af.Ants fuel ants0 (fun _ => none), ∀ a, some a ∈ af.Ants →
          InStateMachine (p.2.ants a) ∧
          ((p.2.ants a).PathIndex = (p.1 a).PathIndex ∨
            (p.2.ants a).PathIndex = (p.1 a).PathIndex + 1)) ∧
        (∀ (i j : Nat) p q, i ≤ j →
          (passes rooms af.Ants fuel ants0 (fun _ => none))[i]? = some p →
          (passes rooms af.Ants fuel ants0 (fun _ => none))[j]? = some q →
          ∀ a, some a ∈ af.Ants → (p.2.ants a).HasReached = true →
            (q.2.ants a).PathIndex = (p.2.ants a).PathIndex ∧
            (q.2.ants a).CurrentRoom = (p.2.ants a).CurrentRoom ∧
            (q.2.ants a).HasReached = true) := by
  obtain ⟨m, ants0, _, hstart, hloop, htrack, _, _, _⟩ :=
    simStart_onTrack S rooms ants af start finish paths hfarm hdist hpaths hne hants
  have hocc : ∀ r, (fun _ : Nat => (none : Option Nat)) r ≠ none → isInterior rooms r = true :=
    fun r h => absurd rfl h
  refine ⟨ants0, hstart, hloop, fun a ha => (htrack a ha).inStateMachine, ?_⟩
  intro fuel
  refine ⟨passes_head rooms af.Ants fuel ants0 _, passes_chain rooms af.Ants fuel ants0 _,
    ?_, ?_⟩
  · intro p hp a ha
    obtain ⟨hp1, hmid⟩ := passes_inv rooms af.Ants hfarm.ants_once hfarm.ants_set fuel ants0 _
      htrack hocc p hp
    refine ⟨(hmid.onTrack hp1 a ha).inStateMachine, ?_⟩
    rcases hmid.stepped a ha with h | h
    · left; rw [h]
    · right; exact h.index.1
  · intro i j p q hij hp hq a ha hr
    by_cases hij' : i = j
    · subst hij'
      rw [hp] at hq
      cases hq
      exact ⟨rfl, rfl, hr⟩
    · have hlt : i + 1 ≤ j := by omega
      have hjlen : j < (passes rooms af.Ants fuel ants0 (fun _ => none)).length := by
        by_contra hcon
        rw [List.getElem?_eq_none (by omega)] at hq
        cases hq
      have hi1 : i + 1 < (passes rooms af.Ants fuel ants0 (fun _ => none)).length := by omega
      have hp' := List.getElem?_eq_getElem hi1
      have hchain := passes_chain rooms af.Ants fuel ants0 _ i p _ hp hp'
      obtain ⟨fuel', occ', htrack', hocc', hdrop⟩ :=
        passes_drop rooms af.Ants hfarm.ants_once hfarm.ants_set fuel ants0 _ htrack hocc
          (i + 1) _ hp'
      have hq' : ((passes rooms af.Ants fuel ants0 (fun _ => none)).drop (i + 1))[j - (i + 1)]?
          = some q := by
        rw [List.getElem?_drop]
        rw [show i + 1 + (j - (i + 1)) = j by omega]
        exact hq
      rw [hdrop] at hq'
      have hmem := List.getElem?_mem hq'
      have hfix := (passes_fixed rooms af.Ants hfarm.ants_once hfarm.ants_set fuel' _ occ'
        htrack' hocc' q hmem a ha).2.2
      rw [hchain] at hfix
      have := (hfix hr).2
      rw [this]
      exact ⟨rfl, rfl, hr⟩

theorem ant_state_machine_witness :
    LoadedFarm roomsOnePath farmOnePath 0 2 ∧ (0 : Nat) ≠ 2 ∧
    findAllPaths insertionSorter roomsOnePath farmOnePath = some [recordPath [0, 1, 2]] ∧
    [recordPath [0, 1, 2]] ≠ [] ∧ farmOnePath.Ants ≠ [] ∧
    ∃ ants0, simStart insertionSorter roomsOnePath freshAnts farmOnePath = some ants0 ∧
      (∀ fuel, SimulateMovement insertionSorter fuel roomsOnePath freshAnts farmOnePath
        = turnLoop roomsOnePath farmOnePath.Ants fuel ants0 (fun _ => none) "") ∧
      (∀ a, some a ∈ farmOnePath.Ants → InStateMachine (ants0 a)) ∧
      ∀ fuel,
        (∀ p, (passes roomsOnePath farmOnePath.Ants fuel ants0 (fun _ => none)).head? = some p →
          p.1 = ants0) ∧
        (∀ (i : Nat) p q,
          (passes roomsOnePath farmOnePath.Ants fuel ants0 (fun _ => none))[i]? = some p →
          (passes roomsOnePath farmOnePath.Ants fuel ants0 (fun _ => none))[i + 1]? = some q →
          q.1 = p.2.ants) ∧
        (∀ p ∈ passes roomsOnePath farmOnePath.Ants fuel ants0 (fun _ => none),
          ∀ a, some a ∈ farmOnePath.Ants →
          InStateMachine (p.2.ants a) ∧
          ((p.2.ants a).PathIndex = (p.1 a).PathIndex ∨
            (p.2.ants a).PathIndex = (p.1 a).PathIndex + 1)) ∧
        (∀ (i j : Nat) p q, i ≤ j →
          (passes roomsOnePath farmOnePath.Ants fuel ants0 (fun _ => none))[i]? = some p →
          (passes roomsOnePath farmOnePath.Ants fuel ants0 (fun _ => none))[j]? = some q →
          ∀ a, some a ∈ farmOnePath.Ants → (p.2.ants a).HasReached = true →
            (q.2.ants a).PathIndex = (p.2.ants a).PathIndex ∧
            (q.2.ants a).CurrentRoom = (p.2.ants a).CurrentRoom ∧
            (q.2.ants a).HasReached = true) :=
  ⟨loadedFarm_onePath, by decide, findAllPaths_onePath insertionSorter, by simp, by decide,
    ant_state_machine insertionSorter roomsOnePath freshAnts farmOnePath 0 2 _
      loadedFarm_onePath (by decide) (findAllPaths_onePath insertionSorter) (by simp)
      (by decide)⟩

/-- C15: on a loaded farm whose start and end rooms differ, with a path and an ant, every
turn of `SimulateMovement` that begins with an ant that has not arrived writes a move
record: the first such ant in slice order moves one room along its path and its record is
among the records of the turn; when the ids ascend along the slice, that ant has the lowest
id among the ants that have not arrived. -/
theorem no_stall (S : SliceSorter) (rooms : List Room) (ants : Nat → Ant)
    (af : AntFarm) (start finish : Nat) (paths : List Path)
    (hfarm : LoadedFarm rooms af start finish) (hdist : start ≠ finish)
    (hpaths : findAllPaths S rooms af = some paths) (hne : paths ≠ [])
    (hants : af.Ants ≠ []) :
    ∃ ants0, simStart S rooms ants af = some ants0 ∧
      (∀ fuel, SimulateMovement S fuel rooms ants af
        = turnLoop rooms af.Ants fuel ants0 (fun _ => none) "") ∧
      ∀ fuel, ∀ pass ∈ passes rooms af.Ants fuel ants0 (fun _ => none),
        (∃ a, some a ∈ af.Ants ∧ (pass.1 a).HasReached = false) →
        pass.2.moves ≠ [] ∧
        ∃ p1 x p2, af.Ants = p1 ++ some x :: p2 ∧
          (∀ y, some y ∈ p1 → (pass.1 y).HasReached = true) ∧
          (pass.1 x).HasReached = false ∧
          Advanced rooms (pass.1 x) (pass.2.ants x) ∧
          recordFor rooms pass.2.ants x ∈ pass.2.moves ∧
          ((af.Ants.filterMap id).Pairwise (fun a b => (ants a).Id < (ants b).Id) →
            ∀ y, some y ∈ af.Ants → (pass.1 y).HasReached = false →
              (pass.1 x).Id ≤ (pass.1 y).Id) := by
  obtain ⟨m, ants0, _, hstart, hloop, htrack, _, _, hid⟩ :=
    simStart_onTrack S rooms ants af start finish paths hfarm hdist hpaths hne hants
  have hocc : ∀ r, (fun _ : Nat => (none : Option Nat)) r ≠ none → isInterior rooms r = true :=
    fun r h => absurd rfl h
  refine ⟨ants0, hstart, hloop, ?_⟩
  intro fuel pass hpass hsome
  obtain ⟨hp1, hmid⟩ := passes_inv rooms af.Ants hfarm.ants_once hfarm.ants_set fuel ants0 _
    htrack hocc pass hpass
  have hfix := passes_fixed rooms af.Ants hfarm.ants_once hfarm.ants_set fuel ants0 _
    htrack hocc pass hpass
  have hall : pass.2.allReached = false := by
    cases h : pass.2.allReached with
    | false => rfl
    | true =>
      obtain ⟨a, ha, hna⟩ := hsome
      rw [hmid.allReached_iff.1 h a ha] at hna
      cases hna
  obtain ⟨p1, x, p2, hsplit, hbefore, hx, hadv⟩ := hmid.first hall
  have hxmem : some x ∈ af.Ants := by rw [hsplit]; simp
  have hrec : recordFor rooms pass.2.ants x ∈ pass.2.moves := by
    rw [hmid.records]
    apply List.mem_map_of_mem
    rw [mem_movers]
    refine ⟨hxmem, ?_⟩
    rw [hadv.index.1]
    omega
  refine ⟨List.ne_nil_of_mem hrec, p1, x, p2, hsplit, hbefore, hx, hadv, hrec, ?_⟩
  intro hids y hy hny
  rw [(hfix x hxmem).1.1, (hfix y hy).1.1, hid x hxmem, hid y hy]
  rw [hsplit] at hy hids
  rw [List.filterMap_append, List.filterMap_cons_some (by rfl), List.pairwise_append] at hids
  rcases List.mem_append.1 hy with h | h
  · rw [hbefore y h] at hny
    cases hny
  · rcases List.mem_cons.1 h with h | h
    · cases h
      exact le_refl _
    · exact le_of_lt ((List.pairwise_cons.1 hids.2.1).1 y ((mem_filterMap_id p2 y).2 h))

theorem no_stall_witness :
    LoadedFarm roomsOnePath farmOnePath 0 2 ∧ (0 : Nat) ≠ 2 ∧
    findAllPaths insertionSorter roomsOnePath farmOnePath = some [recordPath [0, 1, 2]] ∧
    [recordPath [0, 1, 2]] ≠ [] ∧ farmOnePath.Ants ≠ [] ∧
    ∃ ants0, simStart insertionSorter roomsOnePath freshAnts farmOnePath = some ants0 ∧
      (∀ fuel, SimulateMovement insertionSorter fuel roomsOnePath freshAnts farmOnePath
        = turnLoop roomsOnePath farmOnePath.Ants fuel ants0 (fun _ => none) "") ∧
      ∀ fuel, ∀ pass ∈ passes roomsOnePath farmOnePath.Ants fuel ants0 (fun _ => none),
        (∃ a, some a ∈ farmOnePath.Ants ∧ (pass.1 a).HasReached = false) →
        pass.2.moves ≠ [] ∧
        ∃ p1 x p2, farmOnePath.Ants = p1 ++ some x :: p2 ∧
          (∀ y, some y ∈ p1 → (pass.1 y).HasReached = true) ∧
          (pass.1 x).HasReached = false ∧
          Advanced roomsOnePath (pass.1 x) (pass.2.ants x) ∧
          recordFor roomsOnePath pass.2.ants x ∈ pass.2.moves ∧
          ((farmOnePath.Ants.filterMap id).Pairwise
              (fun a b => (freshAnts a).Id < (freshAnts b).Id) →
            ∀ y, some y ∈ farmOnePath.Ants → (pass.1 y).HasReached = false →
              (pass.1 x).Id ≤ (pass.1 y).Id) :=
  ⟨loadedFarm_onePath, by decide, findAllPaths_onePath insertionSorter, by simp, by decide,
    no_stall insertionSorter roomsOnePath freshAnts farmOnePath 0 2 _
      loadedFarm_onePath (by decide) (findAllPaths_onePath insertionSorter) (by simp)
      (by decide)⟩

theorem linesOf_length (ps : List ((Nat → Ant) × TurnState)) :
    (linesOf ps).length = (ps.filter (fun p => decide (p.2.moves.length > 0))).length := by
  unfold linesOf
  rw [List.filter_map, List.length_map]
  rfl

/-- C14: on a loaded farm whose start and end rooms differ, with a path and an ant,
`SimulateMovement` returns without error as soon as the fuel exceeds the sum over the ants
of the `Length` of the assigned path; the transcript it returns is the text of the lines of
its turns, and the number of those lines is at most that sum. -/
theorem simulation_terminates (S : SliceSorter) (rooms : List Room) (ants : Nat → Ant)
    (af : AntFarm) (start finish : Nat) (paths : List Path)
    (hfarm : LoadedFarm rooms af start finish) (hdist : start ≠ finish)
    (hpaths : findAllPaths S rooms af = some paths) (hne : paths ≠ [])
    (hants : af.Ants ≠ []) :
    ∃ m ants0, assignAntsToPath S rooms af = some (some m) ∧
      simStart S rooms ants af = some ants0 ∧
      ∀ (fuel : Nat), totalLength m af.Ants < (fuel : Int) →
        (∃ ants1, SimulateMovement S fuel rooms ants af
          = some (.ok ants1
              (renderLines (linesOf (passes rooms af.Ants fuel ants0 (fun _ => none)))))) ∧
        ((linesOf (passes rooms af.Ants fuel ants0 (fun _ => none))).length : Int)
          ≤ totalLength m af.Ants := by
  obtain ⟨m, ants0, hassign, hstart, hloop, htrack, _, htotal, _⟩ :=
    simStart_onTrack S rooms ants af start finish paths hfarm hdist hpaths hne hants
  have hocc : ∀ r, (fun _ : Nat => (none : Option Nat)) r ≠ none → isInterior rooms r = true :=
    fun r h => absurd rfl h
  refine ⟨m, ants0, hassign, hstart, ?_⟩
  intro fuel hfuel
  obtain ⟨last, hlast, hall, hlines, _, _⟩ :=
    passes_terminate rooms af.Ants hfarm.ants_once hfarm.ants_set fuel ants0 _ htrack hocc
      (by omega)
  constructor
  · refine ⟨last.2.ants, ?_⟩
    rw [hloop fuel, turnLoop_passes rooms af.Ants fuel ants0 _ "" last hlast hall,
      transcriptOf_eq_render, String.empty_append]
  · rw [linesOf_length, ← htotal]
    exact_mod_cast hlines

theorem simulation_terminates_witness :
    LoadedFarm roomsOnePath farmOnePath 0 2 ∧ (0 : Nat) ≠ 2 ∧
    findAllPaths insertionSorter roomsOnePath farmOnePath = some [recordPath [0, 1, 2]] ∧
    [recordPath [0, 1, 2]] ≠ [] ∧ farmOnePath.Ants ≠ [] ∧
    ∃ m ants0, assignAntsToPath insertionSorter roomsOnePath farmOnePath = some (some m) ∧
      simStart insertionSorter roomsOnePath freshAnts farmOnePath = some ants0 ∧
      ∀ (fuel : Nat), totalLength m farmOnePath.Ants < (fuel : Int) →
        (∃ ants1, SimulateMovement insertionSorter fuel roomsOnePath freshAnts farmOnePath
          = some (.ok ants1 (renderLines
              (linesOf (passes roomsOnePath farmOnePath.Ants fuel ants0 (fun _ => none)))))) ∧
        ((linesOf (passes roomsOnePath farmOnePath.Ants fuel ants0 (fun _ => none))).length
            : Int) ≤ totalLength m farmOnePath.Ants :=
  ⟨loadedFarm_onePath, by decide, findAllPaths_onePath insertionSorter, by simp, by decide,
    simulation_terminates insertionSorter roomsOnePath freshAnts farmOnePath 0 2 _
      loadedFarm_onePath (by decide) (findAllPaths_onePath insertionSorter) (by simp)
      (by decide)⟩

/-- C12: on a loaded farm whose start and end rooms differ, with a path and an ant, a run
of `SimulateMovement` with enough fuel returns the text of the lines of its turns; the
records of a turn are the records of the ants that moved in it, one per ant in slice
order; every ant has a record in exactly `Length` of its assigned path many turns; and the
number of records of all turns is the sum of those lengths. -/
theorem each_ant_emits_length_records (S : SliceSorter) (rooms : List Room)
    (ants : Nat → Ant) (af : AntFarm) (start finish : Nat) (paths : List Path)
    (hfarm : LoadedFarm rooms af start finish) (hdist : start ≠ finish)
    (hpaths : findAllPaths S rooms af = some paths) (hne : paths ≠ [])
    (hants : af.Ants ≠ []) :
    ∃ m ants0, assignAntsToPath S rooms af = some (some m) ∧
      simStart S rooms ants af = some ants0 ∧
      ∀ (fuel : Nat), totalLength m af.Ants < (fuel : Int) →
        (∃ ants1, SimulateMovement S fuel rooms ants af
          = some (.ok ants1
              (renderLines (linesOf (passes rooms af.Ants fuel ants0 (fun _ => none)))))) ∧
        (∀ p ∈ passes rooms af.Ants fuel ants0 (fun _ => none),
          p.2.moves = (movers af.Ants p.1 p.2.ants).map (recordFor rooms p.2.ants) ∧
          (movers af.Ants p.1 p.2.ants).Nodup) ∧
        (∀ a, some a ∈ af.Ants →
          (recordCount af.Ants a (passes rooms af.Ants fuel ants0 (fun _ => none)) : Int)
            = assignedLength m a) ∧
        ((((passes rooms af.Ants fuel ants0 (fun _ => none)).map
            (fun p => p.2.moves.length)).sum : Nat) : Int) = totalLength m af.Ants := by
  obtain ⟨m, ants0, hassign, hstart, hloop, htrack, hrem, htotal, _⟩ :=
    simStart_onTrack S rooms ants af start finish paths hfarm hdist hpaths hne hants
  have hocc : ∀ r, (fun _ : Nat => (none : Option Nat)) r ≠ none → isInterior rooms r = true :=
    fun r h => absurd rfl h
  refine ⟨m, ants0, hassign, hstart, ?_⟩
  intro fuel hfuel
  obtain ⟨last, hlast, hall, _, hcount, hsum⟩ :=
    passes_terminate rooms af.Ants hfarm.ants_once hfarm.ants_set fuel ants0 _ htrack hocc
      (by omega)
  refine ⟨⟨last.2.ants, ?_⟩, ?_, ?_, ?_⟩
  · rw [hloop fuel, turnLoop_passes rooms af.Ants fuel ants0 _ "" last hlast hall,
      transcriptOf_eq_render, String.empty_append]
  · intro p hp
    exact ⟨(passes_inv rooms af.Ants hfarm.ants_once hfarm.ants_set fuel ants0 _
      htrack hocc p hp).2.records, movers_nodup af.Ants hfarm.ants_once _ _⟩
  · intro a ha
    rw [← hrem a ha, ← hcount a ha]
    unfold recordCount
    congr 2
    apply List.filter_congr
    intro p _
    unfold movedIn
    simp only [mem_movers, ha, true_and]
  · rw [hsum, htotal]

theorem each_ant_emits_length_records_witness :
    LoadedFarm roomsOnePath farmOnePath 0 2 ∧ (0 : Nat) ≠ 2 ∧
    findAllPaths insertionSorter roomsOnePath farmOnePath = some [recordPath [0, 1, 2]] ∧
    [recordPath [0, 1, 2]] ≠ [] ∧ farmOnePath.Ants ≠ [] ∧
    ∃ m ants0, assignAntsToPath insertionSorter roomsOnePath farmOnePath = some (some m) ∧
      simStart insertionSorter roomsOnePath freshAnts farmOnePath = some ants0 ∧
      ∀ (fuel : Nat), totalLength m farmOnePath.Ants < (fuel : Int) →
        (∃ ants1, SimulateMovement insertionSorter fuel roomsOnePath freshAnts farmOnePath
          = some (.ok ants1 (renderLines
              (linesOf (passes roomsOnePath farmOnePath.Ants fuel ants0 (fun _ => none)))))) ∧
        (∀ p ∈ passes roomsOnePath farmOnePath.Ants fuel ants0 (fun _ => none),
          p.2.moves
            = (movers farmOnePath.Ants p.1 p.2.ants).map (recordFor roomsOnePath p.2.ants) ∧
          (movers farmOnePath.Ants p.1 p.2.ants).Nodup) ∧
        (∀ a, some a ∈ farmOnePath.Ants →
          (recordCount farmOnePath.Ants a
              (passes roomsOnePath farmOnePath.Ants fuel ants0 (fun _ => none)) : Int)
            = assignedLength m a) ∧
        ((((passes roomsOnePath farmOnePath.Ants fuel ants0 (fun _ => none)).map
            (fun p => p.2.moves.length)).sum : Nat) : Int)
          = totalLength m farmOnePath.Ants :=
  ⟨loadedFarm_onePath, by decide, findAllPaths_onePath insertionSorter, by simp, by decide,
    each_ant_emits_length_records insertionSorter roomsOnePath freshAnts farmOnePath 0 2 _
      loadedFarm_onePath (by decide) (findAllPaths_onePath insertionSorter) (by simp)
      (by decide)⟩

/-! ## The transcript of a run that returns -/

/-- A visit that returns either leaves ants, marks and records alone or moves the ant. -/
theorem moveAnt_ok_cases (rooms : List Room) (st st' : TurnState) (a : Nat)
    (hok : moveAnt rooms st (some a) = .ok st') :
    (st'.ants = st.ants ∧ st'.moves = st.moves ∧ st'.occupied = st.occupied) ∨
    (∃ cur nr, (st.ants a).HasReached = false ∧
      (st.ants a).PathIndex < ((st.ants a).Path.length : Int) - 1 ∧
      indexInt (st.ants a).Path ((st.ants a).PathIndex + 1) = some nr ∧
      st' = advanceState rooms st a cur nr) := by
  have hpath : (st.ants a).Path.length ≠ 0 := by
    intro h
    unfold moveAnt at hok
    simp only [h, if_true] at hok
    cases hok
  cases hcur : (st.ants a).CurrentRoom with
  | none =>
    unfold moveAnt at hok
    simp only [hpath, hcur, if_false] at hok
    cases hok
  | some cur =>
    by_cases hr : (st.ants a).HasReached = true
    · unfold moveAnt at hok
      simp only [hpath, hcur, hr, if_false, if_true] at hok
      cases hok
      exact Or.inl ⟨rfl, rfl, rfl⟩
    · have hr' : (st.ants a).HasReached = false := by simpa using hr
      by_cases hskip : (st.ants a).Path.length = 2 ∧ st.move + 1 ≥ 2
      · unfold moveAnt at hok
        simp only [hpath, if_false] at hok
        simp only [hcur, hr', hskip, if_false, if_true, Bool.false_eq_true, and_self] at hok
        cases hok
        exact Or.inl ⟨rfl, rfl, rfl⟩
      · by_cases hlt : (st.ants a).PathIndex < ((st.ants a).Path.length : Int) - 1
        · cases hnr : indexInt (st.ants a).Path ((st.ants a).PathIndex + 1) with
          | none =>
            unfold moveAnt at hok
            simp only [hpath, hcur, hr', hskip, hlt, hnr, if_false, if_true,
              Bool.false_eq_true] at hok
            cases hok
          | some nr =>
            by_cases hfree : st.occupied nr = none ∨ (roomAt rooms nr).IsEnd = true
            · right
              have := moveAnt_advance rooms st a cur nr hpath hcur hr' hskip hlt hnr hfree
              rw [this] at hok
              cases hok
              exact ⟨cur, nr, hr', hlt, rfl, rfl⟩
            · unfold moveAnt at hok
              simp only [hpath, hcur, hr', hskip, hlt, hnr, hfree, if_false, if_true,
                Bool.false_eq_true] at hok
              cases hok
              exact Or.inl ⟨rfl, rfl, rfl⟩
        · unfold moveAnt at hok
          simp only [hpath, hcur, hr', hskip, hlt, if_false, if_true,
            Bool.false_eq_true] at hok
          cases hok
          exact Or.inl ⟨rfl, rfl, rfl⟩

/-- A property of the turn state that every returning visit keeps holds at the end of a
pass that returns. -/
theorem foldTurn_ok_inv (rooms : List Room) (antList : List (Option Nat))
    (P : List (Option Nat) → TurnState → Prop)
    (hstep : ∀ pre p rest st st', antList = pre ++ p :: rest → P pre st →
      moveAnt rooms st p = .ok st' → P (pre ++ [p]) st') :
    ∀ (rest pre : List (Option Nat)) (st st' : TurnState), antList = pre ++ rest → P pre st →
      rest.foldlM (moveAnt rooms) st = .ok st' → P antList st' := by
  intro rest
  induction rest with
  | nil =>
    intro pre st st' hL hP hfold
    simp only [List.foldlM_nil] at hfold
    cases hfold
    rw [hL, List.append_nil]
    exact hP
  | cons p rest ih =>
    intro pre st st' hL hP hfold
    rw [List.foldlM_cons] at hfold
    cases hmove : moveAnt rooms st p with
    | error f =>
      rw [hmove] at hfold
      cases hfold
    | ok st1 =>
      rw [hmove] at hfold
      exact ih (pre ++ [p]) st1 st' (by rw [hL]; simp) (hstep pre p rest st st1 hL hP hmove)
        hfold

theorem stepping_step (rooms : List Room) (antList : List (Option Nat)) (ants0 : Nat → Ant)
    (hnd : antList.Nodup) (pre : List (Option Nat)) (p : Option Nat)
    (rest : List (Option Nat)) (st st' : TurnState) (hL : antList = pre ++ p :: rest)
    (h : Stepping rooms ants0 pre st) (hok : moveAnt rooms st p = .ok st') :
    Stepping rooms ants0 (pre ++ [p]) st' := by
  cases p with
  | none =>
    unfold moveAnt at hok
    cases hok
  | some a =>
    have hnew : some a ∉ pre := by
      rw [hL] at hnd
      have := (List.nodup_append.1 hnd).2.2
      intro hm
      exact this hm (List.mem_cons_self _ _)
    have hna : st.ants a = ants0 a := h.untouched a hnew
    have hpres : ∀ q ∈ pre ++ [some a], q ≠ none := by
      intro q hq
      rcases List.mem_append.1 hq with hm | hm
      · exact h.present q hm
      · simp only [List.mem_singleton] at hm
        rw [hm]
        simp
    rcases moveAnt_ok_cases rooms st st' a hok with
      ⟨hants, hmoves, _⟩ | ⟨cur, nr, hnot, hlt, hnr, rfl⟩
    · refine ⟨?_, ?_, ?_, hpres⟩
      · intro x hx
        rw [hants]
        exact h.untouched x (fun hm => hx (List.mem_append_left _ hm))
      · intro x hx
        rw [hants]
        rcases List.mem_append.1 hx with hm | hm
        · exact h.stepped x hm
        · simp only [List.mem_singleton, Option.some.injEq] at hm
          rw [hm]
          exact Or.inl hna
      · rw [hmoves, hants, h.records, movers_append_single, hna]
        simp
    · have hother : ∀ x, some x ∈ pre → (advanceState rooms st a cur nr).ants x = st.ants x := by
        intro x hx
        apply advanceState_ants_ne
        intro hxa
        exact hnew (hxa ▸ hx)
      have hadv : Advanced rooms (ants0 a) ((advanceState rooms st a cur nr).ants a) := by
        rw [advanceState_ants_self, ← hna]
        exact ⟨nr, hnr, hnot, hlt, rfl⟩
      refine ⟨?_, ?_, ?_, hpres⟩
      · intro x hx
        have hxa : x ≠ a := fun e => hx (List.mem_append_right _ (by simp [e]))
        rw [advanceState_ants_ne rooms st a cur nr x hxa]
        exact h.untouched x (fun hm => hx (List.mem_append_left _ hm))
      · intro x hx
        rcases List.mem_append.1 hx with hm | hm
        · rw [hother x hm]
          exact h.stepped x hm
        · simp only [List.mem_singleton, Option.some.injEq] at hm
          rw [hm]
          exact Or.inr hadv
      · rw [movers_append_single, List.map_append,
          records_congr rooms pre ants0 _ st.ants hother, ← h.records]
        have hchg : ((advanceState rooms st a cur nr).ants a).PathIndex
            ≠ (ants0 a).PathIndex := by
          rw [advanceState_ants_self, ← hna]
          simp
        rw [if_pos hchg]
        show st.moves ++ [moveRecord (st.ants a).Id (roomAt rooms nr).Name] = _
        congr 1
        simp [recordFor, advanceState_ants_self]

/-- A pass that returns on a slice without repetition: every ant is as it was or one move
further, the records are those of the movers, and no entry of the slice is nil. -/
theorem runTurn_stepping (rooms : List Room) (antList : List (Option Nat))
    (ants0 : Nat → Ant) (occupied : Nat → Option Nat) (st : TurnState)
    (hnd : antList.Nodup) (hok : runTurn rooms antList ants0 occupied = .ok st) :
    Stepping rooms ants0 antList st := by
  unfold runTurn at hok
  refine foldTurn_ok_inv rooms antList (Stepping rooms ants0)
    (fun pre p rest st st' hL hP hmove =>
      stepping_step rooms antList ants0 hnd pre p rest st st' hL hP hmove)
    antList [] _ st rfl ?_ hok
  exact ⟨fun _ _ => rfl, fun x hx => by simp at hx, by simp [movers],
    fun p hp => by simp at hp⟩

/-- A pass that returns visits no nil ant, whether or not the slice repeats an ant. -/
theorem runTurn_present (rooms : List Room) (antList : List (Option Nat))
    (ants0 : Nat → Ant) (occupied : Nat → Option Nat) (st : TurnState)
    (hok : runTurn rooms antList ants0 occupied = .ok st) : ∀ p ∈ antList, p ≠ none := by
  unfold runTurn at hok
  refine foldTurn_ok_inv rooms antList (fun pre _ => ∀ p ∈ pre, p ≠ none) ?_
    antList [] _ st rfl (fun p hp => by simp at hp) hok
  intro pre p rest st1 st2 _ hP hmove q hq
  rcases List.mem_append.1 hq with hm | hm
  · exact hP q hm
  · simp only [List.mem_singleton] at hm
    rw [hm]
    intro hnone
    rw [hnone] at hmove
    unfold moveAnt at hmove
    cases hmove

theorem passes_ok (rooms : List Room) (antList : List (Option Nat)) :
    ∀ (fuel : Nat) (ants : Nat → Ant) (occupied : Nat → Option Nat),
      ∀ pass ∈ passes rooms antList fuel ants occupied,
        ∃ occ, runTurn rooms antList pass.1 occ = .ok pass.2 := by
  intro fuel
  induction fuel with
  | zero => intro _ _ pass h; simp [passes] at h
  | succ fuel ih =>
    intro ants occupied pass hpass
    cases hturn : runTurn rooms antList ants occupied with
    | error f => rw [passes, hturn] at hpass; simp at hpass
    | ok st =>
      rw [passes_succ rooms antList fuel ants occupied st hturn] at hpass
      rcases List.mem_cons.1 hpass with h | h
      · rw [h]; exact ⟨occupied, hturn⟩
      · by_cases hst : st.allReached = true
        · rw [if_pos hst] at h
          simp at h
        · rw [if_neg hst] at h
          exact ih st.ants st.occupied pass h

/-- The ids of the ants never change in a run on a slice without repetition. -/
theorem passes_id (rooms : List Room) (antList : List (Option Nat)) (hnd : antList.Nodup) :
    ∀ (fuel : Nat) (ants : Nat → Ant) (occupied : Nat → Option Nat),
      ∀ pass ∈ passes rooms antList fuel ants occupied, ∀ a,
        (pass.1 a).Id = (ants a).Id ∧ (pass.2.ants a).Id = (ants a).Id := by
  intro fuel
  induction fuel with
  | zero => intro _ _ pass h; simp [passes] at h
  | succ fuel ih =>
    intro ants occupied pass hpass a
    cases hturn : runTurn rooms antList ants occupied with
    | error f => rw [passes, hturn] at hpass; simp at hpass
    | ok st =>
      have hstep := runTurn_stepping rooms antList ants occupied st hnd hturn
      have hid : (st.ants a).Id = (ants a).Id := by
        by_cases ha : some a ∈ antList
        · rcases hstep.stepped a ha with h | h
          · rw [h]
          · exact h.index.2.2
        · rw [hstep.untouched a ha]
      rw [passes_succ rooms antList fuel ants occupied st hturn] at hpass
      rcases List.mem_cons.1 hpass with h | h
      · rw [h]; exact ⟨rfl, hid⟩
      · by_cases hst : st.allReached = true
        · rw [if_pos hst] at h
          simp at h
        · rw [if_neg hst] at h
          obtain ⟨h1, h2⟩ := ih st.ants st.occupied pass h a
          exact ⟨h1.trans hid, h2.trans hid⟩

/-- The transcript a returning `turnLoop` gives is what it was given followed by the lines
of its passes, and it made a first pass. -/
theorem turnLoop_ok_passes (rooms : List Room) (antList : List (Option Nat)) :
    ∀ (fuel : Nat) (ants : Nat → Ant) (occupied : Nat → Option Nat) (allMoves : String)
      (ants1 : Nat → Ant) (t : String),
      turnLoop rooms antList fuel ants occupied allMoves = some (.ok ants1 t) →
      t = allMoves ++ transcriptOf (passes rooms antList fuel ants occupied) ∧
      ∃ st, runTurn rooms antList ants occupied = .ok st := by
  intro fuel
  induction fuel with
  | zero => intro _ _ _ _ _ h; simp [turnLoop] at h
  | succ fuel ih =>
    intro ants occupied allMoves ants1 t hrun
    cases hturn : runTurn rooms antList ants occupied with
    | error f =>
      rw [turnLoop, hturn] at hrun
      cases f with
      | err m => cases hrun
      | crash => cases hrun
    | ok st =>
      refine ⟨?_, st, rfl⟩
      rw [passes_succ rooms antList fuel ants occupied st hturn]
      have hacc : (if st.moves.length > 0 then allMoves ++ (" ".intercalate st.moves ++ "\n")
          else allMoves) = allMoves ++ passLine st := by
        unfold passLine
        split <;> simp
      rw [turnLoop, hturn] at hrun
      simp only [hacc] at hrun
      by_cases hst : st.allReached = true
      · rw [if_pos hst] at hrun ⊢
        cases hrun
        simp [transcriptOf]
      · rw [if_neg hst] at hrun ⊢
        rw [(ih st.ants st.occupied _ ants1 t hrun).1]
        simp [transcriptOf, String.append_assoc]

theorem initAnts_id :
    ∀ (l : List (Option Nat × Path)) (h h' : Nat → Ant), initAnts l h = some h' →
      ∀ a, (h' a).Id = (h a).Id := by
  intro l
  induction l with
  | nil =>
    intro h h' hinit a
    simp only [initAnts, List.foldlM_nil] at hinit
    cases hinit
    rfl
  | cons e t ih =>
    intro h h' hinit a
    unfold initAnts at hinit
    rw [List.foldlM_cons] at hinit
    cases hke : e.1 with
    | none => simp [hke] at hinit
    | some a0 =>
      cases hr : e.2.Rooms with
      | nil => simp [hke, hr] at hinit
      | cons first rest =>
        simp only [hke, hr, Option.bind_eq_bind, Option.some_bind] at hinit
        have := ih _ h' (show initAnts t _ = some h' from hinit) a
        rw [this]
        unfold setAnt
        by_cases haa : a = a0
        · simp [haa]
        · simp [haa]

theorem nodup_of_filterMap_id :
    ∀ l : List (Option Nat), (∀ p ∈ l, p ≠ none) → (l.filterMap id).Nodup → l.Nodup := by
  intro l
  induction l with
  | nil => intro _ _; exact List.nodup_nil
  | cons p t ih =>
    intro hnil hnd
    cases hp : p with
    | none => exact absurd hp (hnil p (List.mem_cons_self _ _))
    | some a =>
      rw [hp] at hnd
      rw [List.filterMap_cons_some (by rfl)] at hnd
      obtain ⟨hnot, hndt⟩ := List.nodup_cons.1 hnd
      apply List.nodup_cons.2
      refine ⟨fun hm => hnot ((mem_filterMap_id t a).2 hm), ?_⟩
      exact ih (fun q hq => hnil q (List.mem_cons_of_mem _ hq)) hndt

theorem okTranscript_some (r : Option SimResult) (t : String)
    (h : okTranscript r = some t) : ∃ ants1, r = some (.ok ants1 t) := by
  cases r with
  | none => simp [okTranscript] at h
  | some res =>
    cases res with
    | ok ants1 t' =>
      simp only [okTranscript, Option.some.injEq] at h
      exact ⟨ants1, by rw [h]⟩
    | error t' m => simp [okTranscript] at h
    | crash => simp [okTranscript] at h

/-- A run of `SimulateMovement` that returns a transcript went through the initialisation
and the loop. -/
theorem simulate_ok_loop (S : SliceSorter) (fuel : Nat) (rooms : List Room)
    (ants : Nat → Ant) (af : AntFarm) (ants1 : Nat → Ant) (t : String)
    (hrun : SimulateMovement S fuel rooms ants af = some (.ok ants1 t)) :
    ∃ m ants0, assignAntsToPath S rooms af = some (some m) ∧ initAnts m ants = some ants0 ∧
      simStart S rooms ants af = some ants0 ∧
      turnLoop rooms af.Ants fuel ants0 (fun _ => none) "" = some (.ok ants1 t) := by
  unfold SimulateMovement at hrun
  cases hassign : assignAntsToPath S rooms af with
  | none => rw [hassign] at hrun; cases hrun
  | some r =>
    cases r with
    | none => rw [hassign] at hrun; cases hrun
    | some m =>
      rw [hassign] at hrun
      simp only at hrun
      by_cases hlen : af.Ants.length = 0
      · rw [if_pos hlen] at hrun
        cases hrun
      · rw [if_neg hlen] at hrun
        cases hinit : initAnts m ants with
        | none => rw [hinit] at hrun; cases hrun
        | some ants0 =>
          rw [hinit] at hrun
          refine ⟨m, ants0, rfl, hinit, ?_, hrun⟩
          unfold simStart
          rw [hassign]
          simp only [hlen, if_false]
          exact hinit

/-- C18: when `SimulateMovement` returns a transcript on a farm whose ant ids ascend along
the slice, the transcript is the text of the lines of its turns: every line is a non-empty
list of tokens joined by single spaces and closed by a newline; the tokens of a turn are,
in slice order, the tokens `L<id>-<name>` of the ants that moved in it, with the id the ant
had before the run and the name of the room the ant moved into; and the ids of the tokens
of a line ascend strictly. -/
theorem transcript_format (S : SliceSorter) (fuel : Nat) (rooms : List Room)
    (ants : Nat → Ant) (af : AntFarm) (t : String)
    (hrun : okTranscript (SimulateMovement S fuel rooms ants af) = some t)
    (hids : (af.Ants.filterMap id).Pairwise (fun a b => (ants a).Id < (ants b).Id)) :
    ∃ ants0, simStart S rooms ants af = some ants0 ∧
      t = renderLines (linesOf (passes rooms af.Ants fuel ants0 (fun _ => none))) ∧
      (∀ l ∈ linesOf (passes rooms af.Ants fuel ants0 (fun _ => none)), l ≠ []) ∧
      ∀ p ∈ passes rooms af.Ants fuel ants0 (fun _ => none),
        p.2.moves = (movers af.Ants p.1 p.2.ants).map (recordFor rooms p.2.ants) ∧
        (∀ a, (p.2.ants a).Id = (ants a).Id) ∧
        (∀ a ∈ movers af.Ants p.1 p.2.ants, Advanced rooms (p.1 a) (p.2.ants a)) ∧
        ((movers af.Ants p.1 p.2.ants).map (fun a => (ants a).Id)).Pairwise (· < ·) := by
  obtain ⟨ants1, hrun1⟩ := okTranscript_some _ t hrun
  obtain ⟨m, ants0, _, hinit, hstart, hloop⟩ :=
    simulate_ok_loop S fuel rooms ants af ants1 t hrun1
  obtain ⟨ht, st, hfirst⟩ := turnLoop_ok_passes rooms af.Ants fuel ants0 _ "" ants1 t hloop
  have hpres := runTurn_present rooms af.Ants ants0 _ st hfirst
  have hnd : af.Ants.Nodup := by
    apply nodup_of_filterMap_id af.Ants hpres
    exact hids.imp (fun {a b} hab heq => by rw [heq] at hab; exact lt_irrefl _ hab)
  refine ⟨ants0, hstart, ?_, ?_, ?_⟩
  · rw [ht, String.empty_append, transcriptOf_eq_render]
  · intro l hl hnil
    unfold linesOf at hl
    rw [hnil] at hl
    simp at hl
  · intro p hp
    obtain ⟨occ, hok⟩ := passes_ok rooms af.Ants fuel ants0 _ p hp
    have hstep := runTurn_stepping rooms af.Ants p.1 occ p.2 hnd hok
    have hid : ∀ a, (p.2.ants a).Id = (ants a).Id := by
      intro a
      rw [(passes_id rooms af.Ants hnd fuel ants0 _ p hp a).2, initAnts_id m ants ants0 hinit a]
    refine ⟨hstep.records, hid, ?_, ?_⟩
    · intro a ha
      rcases hstep.stepped a ((mem_movers af.Ants p.1 p.2.ants a).1 ha).1 with h | h
      · exact absurd (by rw [h]) ((mem_movers af.Ants p.1 p.2.ants a).1 ha).2
      · exact h
    · rw [List.pairwise_map]
      unfold movers
      exact hids.sublist (List.filter_sublist _)

theorem onePath_run :
    okTranscript (SimulateMovement insertionSorter 5 roomsOnePath freshAnts farmOnePath)
      = some "L1-mid\nL1-end L2-mid\nL2-end L3-mid\nL3-end\n" := by
  unfold SimulateMovement assignAntsToPath
  rw [findAllPaths_onePath insertionSorter]
  decide

theorem transcript_format_witness :
    okTranscript (SimulateMovement insertionSorter 5 roomsOnePath freshAnts farmOnePath)
      = some "L1-mid\nL1-end L2-mid\nL2-end L3-mid\nL3-end\n" ∧
    (farmOnePath.Ants.filterMap id).Pairwise
      (fun a b => (freshAnts a).Id < (freshAnts b).Id) ∧
    ∃ ants0, simStart insertionSorter roomsOnePath freshAnts farmOnePath = some ants0 ∧
      "L1-mid\nL1-end L2-mid\nL2-end L3-mid\nL3-end\n"
        = renderLines (linesOf (passes roomsOnePath farmOnePath.Ants 5 ants0 (fun _ => none))) ∧
      (∀ l ∈ linesOf (passes roomsOnePath farmOnePath.Ants 5 ants0 (fun _ => none)), l ≠ []) ∧
      ∀ p ∈ passes roomsOnePath farmOnePath.Ants 5 ants0 (fun _ => none),
        p.2.moves
          = (movers farmOnePath.Ants p.1 p.2.ants).map (recordFor roomsOnePath p.2.ants) ∧
        (∀ a, (p.2.ants a).Id = (freshAnts a).Id) ∧
        (∀ a ∈ movers farmOnePath.Ants p.1 p.2.ants,
          Advanced roomsOnePath (p.1 a) (p.2.ants a)) ∧
        ((movers farmOnePath.Ants p.1 p.2.ants).map (fun a => (freshAnts a).Id)).Pairwise
          (· < ·) :=
  ⟨onePath_run, by simp [farmOnePath, freshAnts],
    transcript_format insertionSorter 5 roomsOnePath freshAnts farmOnePath _ onePath_run
      (by simp [farmOnePath, freshAnts])⟩

/-! ## One ant per interior room -/

theorem OnTrack.spot {rooms : List Room} {x : Ant} (h : OnTrack rooms x) :
    ∃ k : Nat, x.PathIndex = k ∧ k < x.Path.length ∧ x.Path[k]? = x.CurrentRoom := by
  obtain ⟨h0, h1, h2, _, _⟩ := h
  obtain ⟨k, hk⟩ := Int.eq_ofNat_of_zero_le h0
  have hlt : k < x.Path.length := by omega
  refine ⟨k, hk, hlt, ?_⟩
  rw [h2, hk, indexInt_natCast]

/-- On a routed farm a room of a path is interior (flagged neither start nor end) exactly
when it is neither the first nor the last room of the path. -/
theorem Routed.interior_iff {rooms : List Room} {start finish : Nat}
    {antList : List (Option Nat)} {ants : Nat → Ant}
    (hR : Routed rooms start finish antList ants) (a : Nat) (ha : some a ∈ antList)
    (j r : Nat) (hj : (ants a).Path[j]? = some r) :
    isInterior rooms r = true ↔ 1 ≤ j ∧ j + 1 < (ants a).Path.length := by
  obtain ⟨hjlt, hjr⟩ := List.getElem?_eq_some.1 hj
  have hnd := hR.simple a ha
  have hhead := hR.head a ha
  have hlast := hR.last a ha
  rw [List.head?_eq_getElem?] at hhead
  rw [List.getLast?_eq_getElem?] at hlast
  obtain ⟨h0lt, h0⟩ := List.getElem?_eq_some.1 hhead
  obtain ⟨hllt, hl⟩ := List.getElem?_eq_some.1 hlast
  have hs : r = start ↔ j = 0 := by
    constructor
    · intro hrs
      exact (hnd.getElem_inj_iff).1 (by rw [hjr, h0, hrs])
    · intro hj0
      subst hj0
      rw [← hjr, h0]
  have hf : r = finish ↔ j = (ants a).Path.length - 1 := by
    constructor
    · intro hrf
      exact (hnd.getElem_inj_iff).1 (by rw [hjr, hl, hrf])
    · intro hjl
      subst hjl
      rw [← hjr, hl]
  have hflag : isInterior rooms r = true ↔ r ≠ start ∧ r ≠ finish := by
    unfold isInterior
    rw [Bool.and_eq_true, Bool.not_eq_true', Bool.not_eq_true', ← Bool.not_eq_true,
      ← Bool.not_eq_true, hR.start_flag r, hR.end_flag r]
  rw [hflag, Ne, Ne, hs, hf]
  omega

/-- Two ants of a routed farm that have the same interior room on their paths have the same
path, and the room at the same index. -/
theorem Routed.same_spot {rooms : List Room} {start finish : Nat}
    {antList : List (Option Nat)} {ants : Nat → Ant}
    (hR : Routed rooms start finish antList ants) (a b : Nat) (ha : some a ∈ antList)
    (hb : some b ∈ antList) (i j r : Nat) (hi : (ants a).Path[i]? = some r)
    (hj : (ants b).Path[j]? = some r) (hint : isInterior rooms r = true) :
    (ants a).Path = (ants b).Path ∧ i = j ∧ 1 ≤ i ∧ i + 1 < (ants a).Path.length := by
  have hia := (hR.interior_iff a ha i r hi).1 hint
  have hjb := (hR.interior_iff b hb j r hj).1 hint
  have hpath : (ants a).Path = (ants b).Path := by
    by_contra hne
    exact hR.apart a b ha hb hne i j r hia.1 hia.2 hi hjb.1 hjb.2 hj
  refine ⟨hpath, ?_, hia.1, hia.2⟩
  rw [← hpath] at hj
  obtain ⟨hilt, hir⟩ := List.getElem?_eq_some.1 hi
  obtain ⟨hjlt, hjr⟩ := List.getElem?_eq_some.1 hj
  exact ((hR.simple a ha).getElem_inj_iff).1 (by rw [hir, hjr])

theorem Advanced.landing {rooms : List Room} {x y : Ant} (h : Advanced rooms x y) :
    ∃ (k : Nat) (nr : Nat), x.PathIndex + 1 = k ∧ x.Path[k]? = some nr ∧
      y.CurrentRoom = some nr ∧ y.PathIndex = k ∧ y.Path = x.Path := by
  obtain ⟨nr, hnr, _, _, rfl⟩ := h
  obtain ⟨k, hk, _, hkr⟩ := indexInt_some_lt _ _ _ hnr
  exact ⟨k, nr, hk, hkr, rfl, hk, rfl⟩

theorem Advanced.ne_self {rooms : List Room} {x : Ant} (h : Advanced rooms x x) : False := by
  have := h.index.1
  omega

/-- A marked room that lies on the path of an ant of the slice: the mark names a visited
ant of the same path that moved into the room in this pass, and the room is neither the
first nor the last of the path. -/
theorem mark_spot {rooms : List Room} {start finish : Nat} {antList : List (Option Nat)}
    {ants0 : Nat → Ant} {pre : List (Option Nat)} {st : TurnState}
    (hR : Routed rooms start finish antList ants0) (hsub : ∀ p ∈ pre, p ∈ antList)
    (hmid : MidTurn rooms ants0 pre st) (hml : MidLine rooms ants0 pre st)
    (d : Nat) (hd : some d ∈ antList) (k nr e : Nat) (hk : (ants0 d).Path[k]? = some nr)
    (hocc : st.occupied nr = some e) :
    some e ∈ pre ∧ (ants0 e).Path = (ants0 d).Path ∧ (ants0 e).PathIndex + 1 = k ∧
      1 ≤ k ∧ k + 1 < (ants0 d).Path.length ∧ Advanced rooms (ants0 e) (st.ants e) := by
  obtain ⟨he, hadv, hcur⟩ := hml.marked nr e hocc
  obtain ⟨k', nr', hk', hkr', hcur', _, _⟩ := hadv.landing
  rw [hcur] at hcur'
  cases hcur'
  have hint : isInterior rooms nr = true := hmid.marks nr (by rw [hocc]; simp)
  obtain ⟨hpath, hkk, h1, h2⟩ := hR.same_spot e d (hsub _ he) hd k' k nr hkr' hk hint
  subst hkk
  rw [hpath] at h2
  exact ⟨he, hpath, hk', h1, h2, hadv⟩

/-- A visit that changes neither the store nor the marks keeps the occupancy facts. -/
theorem midLine_stay {rooms : List Room} {ants0 : Nat → Ant} {pre : List (Option Nat)}
    {st st' : TurnState} (d : Nat) (hml : MidLine rooms ants0 pre st)
    (hmid : MidTurn rooms ants0 pre st) (hnew : some d ∉ pre)
    (hants : st'.ants = st.ants) (hocc : st'.occupied = st.occupied)
    (hmoved : (ants0 d).HasReached = false → 1 ≤ (ants0 d).PathIndex → False)
    (hblocked : (ants0 d).HasReached = false → 3 ≤ (ants0 d).Path.length →
      (ants0 d).PathIndex = 0 ∧ ∃ nr, (ants0 d).Path[1]? = some nr ∧ st.occupied nr ≠ none)
    (hahead : ∀ c, some c ∈ pre → Ahead (ants0 c) (ants0 d)) :
    MidLine rooms ants0 (pre ++ [some d]) st' := by
  have hna : st.ants d = ants0 d := hmid.untouched d hnew
  refine ⟨?_, ?_, ?_, ?_, ?_⟩
  · intro r c hrc
    rw [hocc] at hrc
    obtain ⟨h1, h2, h3⟩ := hml.marked r c hrc
    rw [hants]
    exact ⟨List.mem_append_left _ h1, h2, h3⟩
  · intro c r hc hadv hcur hint
    rw [hants] at hadv hcur
    rw [hocc]
    rcases List.mem_append.1 hc with hm | hm
    · exact hml.kept c r hm hadv hcur hint
    · simp only [List.mem_singleton, Option.some.injEq] at hm
      rw [hm, hna] at hadv
      exact absurd hadv (fun h => h.ne_self)
  · intro c hc hnot hidx
    rw [hants]
    rcases List.mem_append.1 hc with hm | hm
    · exact hml.moved c hm hnot hidx
    · simp only [List.mem_singleton, Option.some.injEq] at hm
      rw [hm] at hnot hidx
      exact absurd hidx (fun h => hmoved hnot h)
  · intro c hc hnot hsame hlen
    rw [hants] at hsame
    rw [hocc]
    rcases List.mem_append.1 hc with hm | hm
    · exact hml.blocked c hm hnot hsame hlen
    · simp only [List.mem_singleton, Option.some.injEq] at hm
      rw [hm] at hnot hlen ⊢
      exact hblocked hnot hlen
  · unfold InLine
    rw [List.pairwise_append]
    refine ⟨by rw [hants]; exact hml.ordered, List.pairwise_singleton _ _, ?_⟩
    intro p hp q hq a b hpa hqb
    simp only [List.mem_singleton] at hq
    rw [hq] at hqb
    cases hqb
    rw [hpa] at hp
    rw [hants, hna]
    rcases hmid.stepped a hp with h | h
    · rw [h]
      exact hahead a hp
    · intro hpath hlen
      obtain ⟨hidx, hp', _⟩ := h.index
      rw [hp'] at hpath hlen
      obtain ⟨h1, _⟩ := hahead a hp hpath hlen
      rw [hidx]
      exact ⟨by omega, fun heq => by omega⟩

theorem advanceState_occupied (rooms : List Room) (st : TurnState) (a cur nr : Nat)
    (hfree : st.occupied cur = none) :
    (advanceState rooms st a cur nr).occupied
      = if isInterior rooms nr then setOccupied st.occupied nr (some a) else st.occupied := by
  have hclear : setOccupied st.occupied cur none = st.occupied := by
    funext r
    unfold setOccupied
    by_cases h : r = cur
    · rw [if_pos h, h, hfree]
    · rw [if_neg h]
  unfold advanceState
  simp only [hclear, ite_self]

/-- A visit that moves the ant keeps the occupancy facts, when the room the ant leaves is
not marked and the ant is still behind the visited ants of its path. -/
theorem midLine_advance {rooms : List Room} {ants0 : Nat → Ant} {pre : List (Option Nat)}
    {st : TurnState} (d cur nr : Nat) (hml : MidLine rooms ants0 pre st)
    (hmid : MidTurn rooms ants0 pre st) (hnew : some d ∉ pre)
    (hnot : (st.ants d).HasReached = false)
    (hlt : (st.ants d).PathIndex < ((st.ants d).Path.length : Int) - 1)
    (hnr : indexInt (st.ants d).Path ((st.ants d).PathIndex + 1) = some nr)
    (hcurfree : st.occupied cur = none)
    (hahead : ∀ c, some c ∈ pre →
      Ahead (st.ants c) ((advanceState rooms st d cur nr).ants d)) :
    MidLine rooms ants0 (pre ++ [some d]) (advanceState rooms st d cur nr) := by
  have hna : st.ants d = ants0 d := hmid.untouched d hnew
  have hother : ∀ x, some x ∈ pre → (advanceState rooms st d cur nr).ants x = st.ants x := by
    intro x hx
    apply advanceState_ants_ne
    intro hxd
    exact hnew (hxd ▸ hx)
  have hadv : Advanced rooms (ants0 d) ((advanceState rooms st d cur nr).ants d) := by
    rw [advanceState_ants_self, ← hna]
    exact ⟨nr, hnr, hnot, hlt, rfl⟩
  have hroom : ((advanceState rooms st d cur nr).ants d).CurrentRoom = some nr := by
    rw [advanceState_ants_self]
  have hmark : ∀ r, st.occupied r ≠ none →
      (advanceState rooms st d cur nr).occupied r ≠ none := by
    intro r hr
    rw [advanceState_occupied rooms st d cur nr hcurfree]
    by_cases hint : isInterior rooms nr = true
    · rw [if_pos hint]
      unfold setOccupied
      by_cases hrn : r = nr
      · rw [if_pos hrn]; simp
      · rw [if_neg hrn]; exact hr
    · rw [if_neg hint]; exact hr
  refine ⟨?_, ?_, ?_, ?_, ?_⟩
  · intro r c hrc
    rw [advanceState_occupied rooms st d cur nr hcurfree] at hrc
    have hold : st.occupied r = some c →
        some c ∈ pre ++ [some d] ∧
          Advanced rooms (ants0 c) ((advanceState rooms st d cur nr).ants c) ∧
          ((advanceState rooms st d cur nr).ants c).CurrentRoom = some r := by
      intro h
      obtain ⟨h1, h2, h3⟩ := hml.marked r c h
      rw [hother c h1]
      exact ⟨List.mem_append_left _ h1, h2, h3⟩
    by_cases hint : isInterior rooms nr = true
    · rw [if_pos hint] at hrc
      unfold setOccupied at hrc
      by_cases hrn : r = nr
      · rw [if_pos hrn] at hrc
        cases hrc
        rw [hrn]
        exact ⟨List.mem_append_right _ (by simp), hadv, hroom⟩
      · rw [if_neg hrn] at hrc
        exact hold hrc
    · rw [if_neg hint] at hrc
      exact hold hrc
  · intro c r hc hadvc hcur hint
    rcases List.mem_append.1 hc with hm | hm
    · rw [hother c hm] at hadvc hcur
      exact hmark r (hml.kept c r hm hadvc hcur hint)
    · simp only [List.mem_singleton, Option.some.injEq] at hm
      rw [hm, hroom] at hcur
      cases hcur
      rw [advanceState_occupied rooms st d cur nr hcurfree, if_pos hint]
      simp [setOccupied]
  · intro c hc hnotc hidx
    rcases List.mem_append.1 hc with hm | hm
    · rw [hother c hm]
      exact hml.moved c hm hnotc hidx
    · simp only [List.mem_singleton, Option.some.injEq] at hm
      rw [hm]
      exact hadv
  · intro c hc hnotc hsame hlen
    rcases List.mem_append.1 hc with hm | hm
    · rw [hother c hm] at hsame
      obtain ⟨h0, nr0, hnr0, hocc0⟩ := hml.blocked c hm hnotc hsame hlen
      exact ⟨h0, nr0, hnr0, hmark nr0 hocc0⟩
    · simp only [List.mem_singleton, Option.some.injEq] at hm
      rw [hm] at hsame
      rw [hsame] at hadv
      exact absurd hadv (fun h => h.ne_self)
  · unfold InLine
    rw [List.pairwise_append]
    refine ⟨?_, List.pairwise_singleton _ _, ?_⟩
    · refine List.Pairwise.imp_of_mem ?_ hml.ordered
      intro p q hp hq hrel a b hpa hqb
      rw [hpa] at hp
      rw [hqb] at hq
      rw [hother a hp, hother b hq]
      exact hrel a b hpa hqb
    · intro p hp q hq a b hpa hqb
      simp only [List.mem_singleton] at hq
      rw [hq] at hqb
      cases hqb
      rw [hpa] at hp
      rw [hother a hp]
      exact hahead a hp

/-- The body of the loop keeps the pass invariant and the occupancy facts on a routed farm
whose ants were in line when the pass began. -/
theorem midLine_step (rooms : List Room) (start finish : Nat) (antList : List (Option Nat))
    (ants0 : Nat → Ant) (hnd : antList.Nodup) (hnil : ∀ p ∈ antList, p ≠ none)
    (htrack : ∀ a, some a ∈ antList → OnTrack rooms (ants0 a))
    (hR : Routed rooms start finish antList ants0) (hline : InLine antList ants0)
    (pre : List (Option Nat)) (p : Option Nat) (rest : List (Option Nat)) (st : TurnState)
    (hL : antList = pre ++ p :: rest)
    (h : MidTurn rooms ants0 pre st ∧ MidLine rooms ants0 pre st) :
    ∃ st', moveAnt rooms st p = .ok st' ∧
      (MidTurn rooms ants0 (pre ++ [p]) st' ∧ MidLine rooms ants0 (pre ++ [p]) st') := by
  obtain ⟨hmid, hml⟩ := h
  obtain ⟨st', hmove, hmid'⟩ :=
    midTurn_step rooms antList ants0 hnd hnil htrack pre p rest st hL hmid
  refine ⟨st', hmove, hmid', ?_⟩
  have hp : p ∈ antList := by rw [hL]; simp
  cases hpd : p with
  | none => exact absurd hpd (hnil p hp)
  | some d =>
    rw [hpd] at hmove hp hL
    have hsub : ∀ q ∈ pre, q ∈ antList := by
      intro q hq
      rw [hL]
      exact List.mem_append_left _ hq
    have hnew : some d ∉ pre := by
      rw [hL] at hnd
      have := (List.nodup_append.1 hnd).2.2
      intro hm
      exact this hm (List.mem_cons_self _ _)
    have hna : st.ants d = ants0 d := hmid.untouched d hnew
    have htd := htrack d hp
    obtain ⟨hpath, cur, hcur⟩ := htd.ready
    obtain ⟨kd, hkd, hkdlt, hkdr⟩ := htd.spot
    rw [hcur] at hkdr
    have haheadOld : ∀ c, some c ∈ pre → Ahead (ants0 c) (ants0 d) := by
      intro c hc
      unfold InLine at hline
      rw [hL, List.pairwise_append] at hline
      exact hline.2.2 (some c) hc (some d) (List.mem_cons_self _ _) c d rfl rfl
    have hcurfree : st.occupied cur = none := by
      cases hocc : st.occupied cur with
      | none => rfl
      | some e =>
        obtain ⟨he, hpe, hke, h1, h2, _⟩ := mark_spot hR hsub hmid hml d hp kd cur e hkdr hocc
        have := (haheadOld e he hpe (by rw [hpe]; omega)).1
        omega
    have hcases := moveAnt_cases rooms st d cur (by rw [hna]; exact hpath)
      (by rw [hna]; exact hcur) (by rw [hna]; exact htd.1)
    rw [hna] at hcases
    rcases hcases with ⟨hr, hm⟩ | ⟨hr, hskip, hm⟩ | ⟨hr, hskip, hstuck, hm⟩ |
      ⟨nr, hr, hskip, hlt, hnr, hfree, hm⟩
    · rw [hm] at hmove
      cases hmove
      exact midLine_stay d hml hmid hnew rfl rfl
        (fun hnot _ => by rw [hr] at hnot; cases hnot)
        (fun hnot _ => by rw [hr] at hnot; cases hnot) haheadOld
    · rw [hm] at hmove
      cases hmove
      refine midLine_stay d hml hmid hnew rfl rfl ?_ ?_ haheadOld
      · intro _ hge
        have hlast : (ants0 d).PathIndex = ((ants0 d).Path.length : Int) - 1 := by
          have := htd.2.1
          have := hskip.1
          omega
        have := htd.2.2.2.1.2 hlast
        rw [hr] at this
        cases this
      · intro _ hlen
        have := hskip.1
        omega
    · rw [hm] at hmove
      cases hmove
      have hinner : (ants0 d).PathIndex = 0 ∧
          ∃ nr, (ants0 d).Path[1]? = some nr ∧ st.occupied nr ≠ none := by
        rcases hstuck with hge | ⟨nr, hnr, hocc, _⟩
        · have hlast : (ants0 d).PathIndex = ((ants0 d).Path.length : Int) - 1 := by
            have := htd.2.1
            omega
          have := htd.2.2.2.1.2 hlast
          rw [hr] at this
          cases this
        · obtain ⟨e, he⟩ := Option.ne_none_iff_exists'.1 hocc
          obtain ⟨k, hk, _, hkr⟩ := indexInt_some_lt _ _ _ hnr
          obtain ⟨hepre, hpe, hke, h1, h2, _⟩ :=
            mark_spot hR hsub hmid hml d hp k nr e hkr he
          obtain ⟨_, heq⟩ := haheadOld e hepre hpe (by rw [hpe]; omega)
          have hzero : (ants0 d).PathIndex = 0 := by
            rcases heq (by omega) with h0 | h0
            · omega
            · rw [hpe] at h0
              omega
          refine ⟨hzero, nr, ?_, hocc⟩
          have hk1 : k = 1 := by omega
          rw [← hk1]
          exact hkr
      refine midLine_stay d hml hmid hnew rfl rfl ?_ ?_ haheadOld
      · intro _ hge
        have := hinner.1
        omega
      · intro _ _
        exact hinner
    · rw [hm] at hmove
      cases hmove
      obtain ⟨k, hk, hklt, hkr⟩ := indexInt_some_lt _ _ _ hnr
      refine midLine_advance d cur nr hml hmid hnew (by rw [hna]; exact hr)
        (by rw [hna]; exact hlt) (by rw [hna]; exact hnr) hcurfree ?_
      intro c hc
      have htc := htrack c (hsub _ hc)
      rw [advanceState_ants_self, hna]
      intro hpc hlen
      simp only at hpc ⊢
      rcases hmid.stepped c hc with hsame | hadvc
      · rw [hsame] at hpc hlen ⊢
        obtain ⟨h1, h2⟩ := haheadOld c hc hpc hlen
        by_cases hrc : (ants0 c).HasReached = true
        · have hlast := htc.2.2.2.1.1 hrc
          rw [hpc] at hlast ⊢
          refine ⟨by omega, fun _ => Or.inr hlast⟩
        · have hrc' : (ants0 c).HasReached = false := by simpa using hrc
          by_cases hge : 1 ≤ (ants0 c).PathIndex
          · have hadv := hml.moved c hc hrc' hge
            rw [hsame] at hadv
            exact absurd hadv (fun h => h.ne_self)
          · obtain ⟨_, nr0, hnr0, hocc0⟩ := hml.blocked c hc hrc' hsame hlen
            have hc0 := htc.1
            have hd0 := htd.1
            have hk1 : k = 1 := by omega
            rw [hpc, ← hk1, hkr] at hnr0
            cases hnr0
            rcases hfree with hf | hf
            · exact absurd hf hocc0
            · have := (htd.2.2.2.2 k nr (by omega) hkr).1 hf
              rw [hpc] at hlen
              omega
      · obtain ⟨kc, nrc, hkc, hkcr, hcurc, hidxc, hpathc⟩ := hadvc.landing
        rw [hpathc] at hpc hlen
        obtain ⟨h1, h2⟩ := haheadOld c hc hpc hlen
        rw [hidxc]
        refine ⟨by omega, ?_⟩
        intro heq
        exfalso
        have hcl : (ants0 c).PathIndex < ((ants0 c).Path.length : Int) - 1 := by
          obtain ⟨_, _, _, hlt', _⟩ := hadvc
          exact hlt'
        rcases h2 (by omega) with h0 | h0
        · have hkc1 : kc = 1 := by omega
          have hk1 : k = 1 := by omega
          rw [hpc, hkc1, ← hk1, hkr] at hkcr
          cases hkcr
          have hint : isInterior rooms nr = true :=
            (hR.interior_iff d hp k nr hkr).2 ⟨by omega, by rw [hpc] at hlen; omega⟩
          have hocc := hml.kept c nr hc hadvc hcurc hint
          rcases hfree with hf | hf
          · exact hocc hf
          · unfold isInterior at hint
            rw [hf] at hint
            simp at hint
        · omega

/-- On a routed farm whose ants are on track and in line, a pass returns, keeps the pass
invariant, names in every mark an ant standing in the marked room, and leaves the ants in
line. -/
theorem runTurn_midLine (rooms : List Room) (start finish : Nat)
    (antList : List (Option Nat)) (ants0 : Nat → Ant) (occupied : Nat → Option Nat)
    (hnd : antList.Nodup) (hnil : ∀ p ∈ antList, p ≠ none)
    (htrack : ∀ a, some a ∈ antList → OnTrack rooms (ants0 a))
    (hR : Routed rooms start finish antList ants0) (hline : InLine antList ants0)
    (hocc : ∀ r, occupied r ≠ none → isInterior rooms r = true) :
    ∃ st, runTurn rooms antList ants0 occupied = .ok st ∧
      MidTurn rooms ants0 antList st ∧ MidLine rooms ants0 antList st := by
  have hclear : (fun r => if isInterior rooms r then none else occupied r)
      = (fun _ : Nat => (none : Option Nat)) := by
    funext r
    by_cases hr : isInterior rooms r = true
    · rw [if_pos hr]
    · rw [if_neg hr]
      by_contra hne
      exact hr (hocc r hne)
  unfold runTurn
  rw [hclear]
  refine foldTurn_inv rooms antList
    (fun pre st => MidTurn rooms ants0 pre st ∧ MidLine rooms ants0 pre st)
    (fun pre p rest st hL hP =>
      midLine_step rooms start finish antList ants0 hnd hnil htrack hR hline pre p rest st
        hL hP)
    antList [] _ rfl ⟨?_, ?_⟩
  · exact ⟨fun _ _ => rfl, fun x hx => by simp at hx, by simp [movers],
      fun _ => ⟨rfl, rfl, fun x hx => by simp at hx⟩, fun h => by simp at h,
      fun r hr => by simp at hr⟩
  · exact ⟨fun r c h => by simp at h, fun c r hc => by simp at hc,
      fun c hc => by simp at hc, fun c hc => by simp at hc, List.Pairwise.nil⟩

theorem Routed.congr {rooms : List Room} {start finish : Nat} {antList : List (Option Nat)}
    {ants ants1 : Nat → Ant} (hR : Routed rooms start finish antList ants)
    (hpath : ∀ a, some a ∈ antList → (ants1 a).Path = (ants a).Path) :
    Routed rooms start finish antList ants1 := by
  refine ⟨hR.start_flag, hR.end_flag, hR.ends_differ, ?_, ?_, ?_, ?_⟩
  · intro a ha
    rw [hpath a ha]
    exact hR.head a ha
  · intro a ha
    rw [hpath a ha]
    exact hR.last a ha
  · intro a ha
    rw [hpath a ha]
    exact hR.simple a ha
  · intro a b ha hb
    rw [hpath a ha, hpath b hb]
    exact hR.apart a b ha hb

/-- Two ants of a routed farm that are on track and in line stand in the same room only
when it is the start room or the end room. -/
theorem room_shared_only_at_ends {rooms : List Room} {start finish : Nat}
    {antList : List (Option Nat)} {ants : Nat → Ant}
    (hR : Routed rooms start finish antList ants)
    (htrack : ∀ a, some a ∈ antList → OnTrack rooms (ants a)) (hline : InLine antList ants)
    (a b r : Nat) (ha : some a ∈ antList) (hb : some b ∈ antList) (hab : a ≠ b)
    (hra : (ants a).CurrentRoom = some r) (hrb : (ants b).CurrentRoom = some r) :
    r = start ∨ r = finish := by
  by_contra hcon
  have hint : isInterior rooms r = true := by
    unfold isInterior
    rw [Bool.and_eq_true, Bool.not_eq_true', Bool.not_eq_true', ← Bool.not_eq_true,
      ← Bool.not_eq_true, hR.start_flag r, hR.end_flag r]
    exact ⟨fun h => hcon (Or.inl h), fun h => hcon (Or.inr h)⟩
  obtain ⟨ka, hka, _, hkar⟩ := (htrack a ha).spot
  obtain ⟨kb, hkb, _, hkbr⟩ := (htrack b hb).spot
  rw [hra] at hkar
  rw [hrb] at hkbr
  obtain ⟨hpath, hk, h1, h2⟩ := hR.same_spot a b ha hb ka kb r hkar hkbr hint
  have hsym : antList.Pairwise (fun p q => ∀ x y, p = some x → q = some y →
      (Ahead (ants x) (ants y) ∨ Ahead (ants y) (ants x))) :=
    hline.imp (fun {p q} h x y hp hq => Or.inl (h x y hp hq))
  have hs : Symmetric (fun (p q : Option Nat) => ∀ x y, p = some x → q = some y →
      (Ahead (ants x) (ants y) ∨ Ahead (ants y) (ants x))) := by
    intro p q h x y hp hq
    exact (h y x hq hp).symm
  have hpair := List.Pairwise.forall hs hsym ha hb
    (fun h => hab (Option.some.inj h)) a b rfl rfl
  rcases hpair with h | h
  · obtain ⟨_, heq⟩ := h hpath (by omega)
    rcases heq (by omega) with h0 | h0
    · omega
    · omega
  · obtain ⟨_, heq⟩ := h hpath.symm (by rw [← hpath]; omega)
    rcases heq (by omega) with h0 | h0
    · omega
    · rw [← hpath] at h0
      omega

/-- Every pass of a run that starts on a routed farm with the ants on track and in line
keeps the occupancy facts and ends with the ants on track and in line. -/
theorem passes_line (rooms : List Room) (start finish : Nat) (antList : List (Option Nat))
    (hnd : antList.Nodup) (hnil : ∀ p ∈ antList, p ≠ none) :
    ∀ (fuel : Nat) (ants : Nat → Ant) (occupied : Nat → Option Nat),
      (∀ a, some a ∈ antList → OnTrack rooms (ants a)) →
      Routed rooms start finish antList ants → InLine antList ants →
      (∀ r, occupied r ≠ none → isInterior rooms r = true) →
      ∀ pass ∈ passes rooms antList fuel ants occupied,
        (∀ a, some a ∈ antList → OnTrack rooms (pass.2.ants a)) ∧
        Routed rooms start finish antList pass.2.ants ∧ InLine antList pass.2.ants ∧
        MidTurn rooms pass.1 antList pass.2 ∧ MidLine rooms pass.1 antList pass.2 := by
  intro fuel
  induction fuel with
  | zero => intro _ _ _ _ _ _ pass h; simp [passes] at h
  | succ fuel ih =>
    intro ants occupied htrack hR hline hocc pass hpass
    obtain ⟨st, hturn, hmid, hml⟩ :=
      runTurn_midLine rooms start finish antList ants occupied hnd hnil htrack hR hline hocc
    have htrack' := hmid.onTrack htrack
    have hR' : Routed rooms start finish antList st.ants := by
      apply hR.congr
      intro a ha
      rcases hmid.stepped a ha with h | h
      · rw [h]
      · exact h.index.2.1
    rw [passes_succ rooms antList fuel ants occupied st hturn] at hpass
    rcases List.mem_cons.1 hpass with h | h
    · rw [h]
      exact ⟨htrack', hR', hml.ordered, hmid, hml⟩
    · by_cases hst : st.allReached = true
      · rw [if_pos hst] at h
        simp at h
      · rw [if_neg hst] at h
        exact ih st.ants st.occupied htrack' hR' hml.ordered hmid.marks pass h

theorem findAllPaths_pairwise (S : SliceSorter) (rooms : List Room) (af : AntFarm)
    (paths : List Path) (h : findAllPaths S rooms af = some paths) :
    paths.Pairwise (fun x y => ∀ nm ∈ middleNames rooms x, nm ∉ middleNames rooms y) := by
  unfold findAllPaths at h
  split at h
  · split at h
    · cases h
      exact filter_pairwise rooms _
    · cases h
  · cases h

/-- On a loaded farm whose start and end rooms differ, the loop starts with the ants on
track, routed and in line. -/
theorem simStart_routed (S : SliceSorter) (rooms : List Room) (ants : Nat → Ant)
    (af : AntFarm) (start finish : Nat) (paths : List Path)
    (hfarm : LoadedFarm rooms af start finish) (hdist : start ≠ finish)
    (hpaths : findAllPaths S rooms af = some paths) (hne : paths ≠ [])
    (hants : af.Ants ≠ []) :
    ∃ ants0, simStart S rooms ants af = some ants0 ∧
      (∀ fuel, SimulateMovement S fuel rooms ants af
        = turnLoop rooms af.Ants fuel ants0 (fun _ => none) "") ∧
      (∀ a, some a ∈ af.Ants → OnTrack rooms (ants0 a)) ∧
      Routed rooms start finish af.Ants ants0 ∧ InLine af.Ants ants0 := by
  obtain ⟨m, ants0, _, hstart, hloop, hspec, _⟩ :=
    simStart_spec S rooms ants af start finish paths hfarm hpaths hne hants
  have hpair := findAllPaths_pairwise S rooms af paths hpaths
  have hzero : ∀ a, some a ∈ af.Ants → (ants0 a).PathIndex = 0 := by
    intro a ha
    obtain ⟨p, q, _, _, _, _, _, _, h0⟩ := hspec a ha
    rw [h0]
  refine ⟨ants0, hstart, hloop, ?_, ⟨hfarm.start_flag, hfarm.end_flag, hdist, ?_, ?_, ?_, ?_⟩,
    ?_⟩
  · intro a ha
    obtain ⟨p, q, _, _, _, hh, hl, hnd, h0⟩ := hspec a ha
    rw [h0]
    exact (walk_onTrack rooms start finish q (ants a).Id hfarm.end_flag hdist hh hl hnd).1
  · intro a ha
    obtain ⟨p, q, _, _, _, hh, _, _, h0⟩ := hspec a ha
    rw [h0]
    exact hh
  · intro a ha
    obtain ⟨p, q, _, _, _, _, hl, _, h0⟩ := hspec a ha
    rw [h0]
    exact hl
  · intro a ha
    obtain ⟨p, q, _, _, _, _, _, hnd, h0⟩ := hspec a ha
    rw [h0]
    exact hnd
  · intro a b ha hb hab i j r hi1 hi2 hir hj1 hj2 hjr
    obtain ⟨pa, qa, hpa, _, hqa, _, _, _, ha0⟩ := hspec a ha
    obtain ⟨pb, qb, hpb, _, hqb, _, _, _, hb0⟩ := hspec b hb
    rw [ha0] at hi2 hir hab
    rw [hb0] at hj2 hjr hab
    simp only at hi2 hir hj2 hjr hab
    have hne' : pa ≠ pb := by
      intro h
      rw [hqa, hqb] at h
      exact hab (congrArg Path.Rooms h)
    have hs : Symmetric (fun (x y : Path) =>
        ∀ nm ∈ middleNames rooms x, nm ∉ middleNames rooms y) := by
      intro x y h nm hy hx
      exact h nm hx hy
    have hno := List.Pairwise.forall hs hpair hpa hpb hne'
    apply hno (roomAt rooms r).Name
    · rw [mem_middleNames]
      refine ⟨i, hi1, by rw [hqa]; exact hi2, ?_⟩
      rw [hqa]
      simp [recordPath, List.getD_eq_getElem?_getD, hir]
    · rw [mem_middleNames]
      refine ⟨j, hj1, by rw [hqb]; exact hj2, ?_⟩
      rw [hqb]
      simp [recordPath, List.getD_eq_getElem?_getD, hjr]
  · unfold InLine
    rw [List.pairwise_iff_forall_sublist]
    intro p q hsub a b hpa hqb _ _
    have ha : some a ∈ af.Ants := by
      rw [← hpa]
      exact hsub.subset (by simp)
    have hb : some b ∈ af.Ants := by
      rw [← hqb]
      exact hsub.subset (by simp)
    rw [hzero a ha, hzero b hb]
    exact ⟨le_refl _, fun _ => Or.inl rfl⟩

theorem walk_loop_single (q : List Nat) (s : Nat) (hnd : q.Nodup) (hh : q.head? = some s)
    (hl : q.getLast? = some s) : q = [s] := by
  rw [List.head?_eq_getElem?] at hh
  rw [List.getLast?_eq_getElem?] at hl
  obtain ⟨h0lt, h0⟩ := List.getElem?_eq_some.1 hh
  obtain ⟨hllt, hlast⟩ := List.getElem?_eq_some.1 hl
  have hidx : 0 = q.length - 1 := (hnd.getElem_inj_iff).1 (by rw [h0, hlast])
  match q, h0lt, h0, hidx with
  | [x], _, h0, _ =>
    simp only [List.getElem_cons_zero] at h0
    rw [h0]
  | x :: y :: t, _, _, hidx => simp at hidx

/-- A pass over ants that all stand at index 0 of a one-room path, begun with no room
marked, changes neither the ants nor the marks. -/
theorem runTurn_still (rooms : List Room) (antList : List (Option Nat)) (ants0 : Nat → Ant)
    (st : TurnState)
    (hstill : ∀ a, some a ∈ antList →
      (ants0 a).Path.length = 1 ∧ (ants0 a).PathIndex = 0)
    (hok : runTurn rooms antList ants0 (fun _ => none) = .ok st) :
    st.ants = ants0 ∧ st.occupied = (fun _ => none) := by
  unfold runTurn at hok
  simp only [ite_self] at hok
  refine foldTurn_ok_inv rooms antList
    (fun _ s => s.ants = ants0 ∧ s.occupied = (fun _ => none)) ?_
    antList [] _ st rfl ⟨rfl, rfl⟩ hok
  intro pre p rest s s' hL hP hmove
  cases p with
  | none =>
    unfold moveAnt at hmove
    cases hmove
  | some a =>
    have ha : some a ∈ antList := by rw [hL]; simp
    rcases moveAnt_ok_cases rooms s s' a hmove with
      ⟨h1, _, h3⟩ | ⟨cur, nr, _, hlt, _, _⟩
    · exact ⟨h1.trans hP.1, h3.trans hP.2⟩
    · rw [hP.1] at hlt
      obtain ⟨hlen, hidx⟩ := hstill a ha
      rw [hlen, hidx] at hlt
      simp at hlt

theorem passes_still (rooms : List Room) (antList : List (Option Nat)) (ants0 : Nat → Ant)
    (hstill : ∀ a, some a ∈ antList →
      (ants0 a).Path.length = 1 ∧ (ants0 a).PathIndex = 0) :
    ∀ (fuel : Nat), ∀ pass ∈ passes rooms antList fuel ants0 (fun _ => none),
      pass.2.ants = ants0 ∧ pass.2.occupied = (fun _ => none) := by
  intro fuel
  induction fuel with
  | zero => intro pass h; simp [passes] at h
  | succ fuel ih =>
    intro pass hpass
    cases hturn : runTurn rooms antList ants0 (fun _ => none) with
    | error f => rw [passes, hturn] at hpass; simp at hpass
    | ok st =>
      obtain ⟨h1, h2⟩ := runTurn_still rooms antList ants0 st hstill hturn
      rw [passes_succ rooms antList fuel ants0 _ st hturn] at hpass
      rcases List.mem_cons.1 hpass with h | h
      · rw [h]
        exact ⟨h1, h2⟩
      · by_cases hst : st.allReached = true
        · rw [if_pos hst] at h
          simp at h
        · rw [if_neg hst, h1, h2] at h
          exact ih pass h

/-- C13: on a loaded farm with a path and an ant, the ants start in the start room, and at
the end of every turn of `SimulateMovement` two distinct ants of the slice stand in the
same room only when it is the start room or the end room; every mark of the occupancy map
names one ant of the slice, that ant stands in the marked room, and the marked room is
neither the start room nor the end room. -/
theorem one_ant_per_interior_room (S : SliceSorter) (rooms : List Room) (ants : Nat → Ant)
    (af : AntFarm) (start finish : Nat) (paths : List Path)
    (hfarm : LoadedFarm rooms af start finish)
    (hpaths : findAllPaths S rooms af = some paths) (hne : paths ≠ [])
    (hants : af.Ants ≠ []) :
    ∃ ants0, simStart S rooms ants af = some ants0 ∧
      (∀ fuel, SimulateMovement S fuel rooms ants af
        = turnLoop rooms af.Ants fuel ants0 (fun _ => none) "") ∧
      (∀ a, some a ∈ af.Ants → (ants0 a).CurrentRoom = some start) ∧
      ∀ fuel, ∀ pass ∈ passes rooms af.Ants fuel ants0 (fun _ => none),
        (∀ a b r, some a ∈ af.Ants → some b ∈ af.Ants → a ≠ b →
          (pass.2.ants a).CurrentRoom = some r → (pass.2.ants b).CurrentRoom = some r →
          r = start ∨ r = finish) ∧
        (∀ r c, pass.2.occupied r = some c →
          some c ∈ af.Ants ∧ (pass.2.ants c).CurrentRoom = some r ∧
            r ≠ start ∧ r ≠ finish) := by
  obtain ⟨m, ants0, _, hstart, hloop, hspec, _⟩ :=
    simStart_spec S rooms ants af start finish paths hfarm hpaths hne hants
  have hroom : ∀ a, some a ∈ af.Ants → (ants0 a).CurrentRoom = some start := by
    intro a ha
    obtain ⟨p, q, _, _, _, hh, _, _, h0⟩ := hspec a ha
    rw [h0]
    exact hh
  refine ⟨ants0, hstart, hloop, hroom, ?_⟩
  intro fuel pass hpass
  by_cases hdist : start = finish
  · have hstill : ∀ a, some a ∈ af.Ants →
        (ants0 a).Path.length = 1 ∧ (ants0 a).PathIndex = 0 := by
      intro a ha
      obtain ⟨p, q, _, _, _, hh, hl, hnd, h0⟩ := hspec a ha
      rw [← hdist] at hl
      rw [h0, walk_loop_single q start hnd hh hl]
      exact ⟨rfl, rfl⟩
    obtain ⟨h1, h2⟩ := passes_still rooms af.Ants ants0 hstill fuel pass hpass
    constructor
    · intro a b r ha _ _ hra _
      rw [h1, hroom a ha] at hra
      exact Or.inl (Option.some.inj hra).symm
    · intro r c hrc
      rw [h2] at hrc
      cases hrc
  · obtain ⟨ants0', hstart', _, htrack, hR, hline⟩ :=
      simStart_routed S rooms ants af start finish paths hfarm hdist hpaths hne hants
    rw [hstart] at hstart'
    cases hstart'
    obtain ⟨htrack', hR', hline', hmid, hml⟩ :=
      passes_line rooms start finish af.Ants hfarm.ants_once hfarm.ants_set fuel ants0 _
        htrack hR hline (fun r h => absurd rfl h) pass hpass
    constructor
    · intro a b r ha hb hab hra hrb
      exact room_shared_only_at_ends hR' htrack' hline' a b r ha hb hab hra hrb
    · intro r c hrc
      obtain ⟨hc, _, hcur⟩ := hml.marked r c hrc
      have hint : isInterior rooms r = true := hmid.marks r (by rw [hrc]; simp)
      unfold isInterior at hint
      rw [Bool.and_eq_true, Bool.not_eq_true', Bool.not_eq_true', ← Bool.not_eq_true,
        ← Bool.not_eq_true, hfarm.start_flag r, hfarm.end_flag r] at hint
      exact ⟨hc, hcur, hint.1, hint.2⟩

theorem one_ant_per_interior_room_witness :
    LoadedFarm roomsOnePath farmOnePath 0 2 ∧
    findAllPaths insertionSorter roomsOnePath farmOnePath = some [recordPath [0, 1, 2]] ∧
    [recordPath [0, 1, 2]] ≠ [] ∧ farmOnePath.Ants ≠ [] ∧
    ∃ ants0, simStart insertionSorter roomsOnePath freshAnts farmOnePath = some ants0 ∧
      (∀ fuel, SimulateMovement insertionSorter fuel roomsOnePath freshAnts farmOnePath
        = turnLoop roomsOnePath farmOnePath.Ants fuel ants0 (fun _ => none) "") ∧
      (∀ a, some a ∈ farmOnePath.Ants → (ants0 a).CurrentRoom = some 0) ∧
      ∀ fuel, ∀ pass ∈ passes roomsOnePath farmOnePath.Ants fuel ants0 (fun _ => none),
        (∀ a b r, some a ∈ farmOnePath.Ants → some b ∈ farmOnePath.Ants → a ≠ b →
          (pass.2.ants a).CurrentRoom = some r → (pass.2.ants b).CurrentRoom = some r →
          r = 0 ∨ r = 2) ∧
        (∀ r c, pass.2.occupied r = some c →
          some c ∈ farmOnePath.Ants ∧ (pass.2.ants c).CurrentRoom = some r ∧
            r ≠ 0 ∧ r ≠ 2) :=
  ⟨loadedFarm_onePath, findAllPaths_onePath insertionSorter, by simp, by decide,
    one_ant_per_interior_room insertionSorter roomsOnePath freshAnts farmOnePath 0 2 _
      loadedFarm_onePath (findAllPaths_onePath insertionSorter) (by simp) (by decide)⟩

/-! ## Termination of the search, order and completeness of the selection -/

/-- C30: `dfs` returns on every arena, cycles or not, as soon as the fuel exceeds the
number of rooms not marked visited: every call on an unmarked room returns, and the call
`findAllPaths` makes returns paths that repeat no room, have at most one room more than
the arena, and at most as many rooms as the arena when the end room is a room of the
arena. -/
theorem dfs_terminates (rooms : List Room) (start finish fuel : Nat)
    (hfuel : rooms.length < fuel) :
    (∀ (current : Nat) (visited : Nat → Bool) (path : List Nat) (paths : List Path),
      visited current = false →
      ∃ found, dfs rooms fuel current finish visited path paths
        = some (visited, paths ++ found)) ∧
    ∃ paths, dfs rooms fuel start finish (fun _ => false) [] [] = some (fun _ => false, paths) ∧
      ∀ p ∈ paths, p.Rooms.Nodup ∧ p.Rooms.length ≤ rooms.length + 1 ∧
        (finish < rooms.length → p.Rooms.length ≤ rooms.length) := by
  constructor
  · intro current visited path paths hcur
    exact ⟨_, dfs_eq_walks rooms finish fuel current visited path paths hcur
      (lt_of_le_of_lt (unvisited_le rooms visited) hfuel)⟩
  · refine ⟨_, dfs_top rooms start finish fuel hfuel, ?_⟩
    intro p hp
    obtain ⟨q, hq, rfl⟩ := List.mem_map.1 hp
    have hnd := (walks_simple rooms finish fuel start _ q hq).1
    refine ⟨hnd, walks_length_le rooms finish fuel start _ q hq, ?_⟩
    intro hfin
    have hlast := (walks_shape rooms finish fuel start _ q hq).2.1
    have hsub : q ⊆ List.range rooms.length := by
      intro r hr
      rw [List.mem_range]
      by_cases hd : r ∈ q.dropLast
      · exact walks_inner_lt rooms finish fuel start _ q hq r hd
      · have hne : q ≠ [] := List.ne_nil_of_mem hr
        have hsplit := List.dropLast_append_getLast hne
        rw [← hsplit] at hr
        rcases List.mem_append.1 hr with h | h
        · exact absurd h hd
        · rw [List.mem_singleton] at h
          rw [List.getLast?_eq_getLast _ hne] at hlast
          rw [h, Option.some.inj hlast]
          exact hfin
    have := (List.subperm_of_subset hnd hsub).length_le
    rw [List.length_range] at this
    exact this

theorem dfs_terminates_witness :
    fixtureCycle.length < 5 ∧
    (∀ (current : Nat) (visited : Nat → Bool) (path : List Nat) (paths : List Path),
      visited current = false →
      ∃ found, dfs fixtureCycle 5 current 3 visited path paths
        = some (visited, paths ++ found)) ∧
    ∃ paths, dfs fixtureCycle 5 0 3 (fun _ => false) [] [] = some (fun _ => false, paths) ∧
      ∀ p ∈ paths, p.Rooms.Nodup ∧ p.Rooms.length ≤ fixtureCycle.length + 1 ∧
        (3 < fixtureCycle.length → p.Rooms.length ≤ fixtureCycle.length) :=
  ⟨by decide, dfs_terminates fixtureCycle 0 3 5 (by decide)⟩

/-- The inner loop of `findBestCombination` over paths that come after the seed and are
disjoint from everything before them appends them all. -/
theorem grow_takes_all (rooms : List Room) :
    ∀ (l : List Path) (k : Nat) (acc : List Path), 1 ≤ k →
      (acc ++ l).Pairwise (fun x y => ∀ nm ∈ middleNames rooms x, nm ∉ middleNames rooms y) →
      (l.enumFrom k).foldl
        (fun currentCombination (ip : Nat × Path) =>
          if ip.1 = 0 then currentCombination
          else if isCompatible rooms ip.2 currentCombination then currentCombination ++ [ip.2]
          else currentCombination) acc
        = acc ++ l := by
  intro l
  induction l with
  | nil => intro k acc _ _; simp
  | cons x t ih =>
    intro k acc hk hpair
    rw [List.enumFrom_cons, List.foldl_cons]
    have hk0 : ¬ k = 0 := by omega
    have hcompat : isCompatible rooms x acc = true := by
      rw [isCompatible_iff]
      intro e he
      exact (List.pairwise_append.1 hpair).2.2 e he x (List.mem_cons_self _ _)
    simp only [hk0, if_false, hcompat, if_true]
    rw [ih (k + 1) (acc ++ [x]) (by omega) (by simpa using hpair)]
    simp

theorem candScan_length_le (rooms : List Room) (paths : List Path) :
    ∀ (l : List Nat) (acc : List Path),
      (candScan rooms paths l acc).length ≤ acc.length + l.length := by
  intro l
  induction l with
  | nil => intro acc; simp [candScan]
  | cons i rest ih =>
    intro acc
    unfold candScan
    split
    · have := ih (acc ++ [paths.getD i default])
      simp only [List.length_append, List.length_singleton, List.length_cons,
        List.length_nil] at this ⊢
      omega
    · have := ih acc
      simp only [List.length_cons]
      omega

/-- No combination grown by `findBestCombination` is longer than the list of paths. -/
theorem growCombination_length_le (rooms : List Room) (paths : List Path) (s : Nat)
    (p : Path) (hp : paths[s]? = some p) :
    (growCombination rooms paths s p).length ≤ paths.length := by
  rw [growCombination_eq_cand rooms paths s p hp]
  unfold cand
  have hs : s < paths.length := (List.getElem?_eq_some.1 hp).1
  have hlen : ((List.range paths.length).filter (fun i => decide (i ≠ s))).length
      = paths.length - 1 := by
    have hmem : s ∈ List.range paths.length := List.mem_range.2 hs
    have := List.Nodup.erase_eq_filter (List.nodup_range paths.length) s
    have hlen := List.length_erase_of_mem hmem
    rw [List.length_range] at hlen
    rw [← hlen, this]
    congr 1
    apply List.filter_congr
    intro x _
    by_cases hx : x = s
    · simp [hx]
    · simp [hx]
  have := candScan_length_le rooms paths
    ((List.range paths.length).filter (fun i => decide (i ≠ s))) [paths.getD s default]
  rw [hlen] at this
  simp only [List.length_singleton] at this
  omega

/-- The outer loop of `findBestCombination` keeps a best combination that already has as
many paths as the list. -/
theorem best_keeps_full (rooms : List Room) (paths : List Path) :
    ∀ (l : List (Nat × Path)) (best : List Path × Nat),
      (∀ e ∈ l, paths[e.1]? = some e.2) → paths.length ≤ best.2 →
      l.foldl
        (fun (best : List Path × Nat) (sp : Nat × Path) =>
          let currentCombination := growCombination rooms paths sp.1 sp.2
          if currentCombination.length > best.2 then
            (currentCombination, currentCombination.length)
          else best) best = best := by
  intro l
  induction l with
  | nil => intro _ _ _; rfl
  | cons e t ih =>
    intro best hl hbest
    rw [List.foldl_cons]
    have hle := growCombination_length_le rooms paths e.1 e.2 (hl e (List.mem_cons_self _ _))
    have hnot : ¬ (growCombination rooms paths e.1 e.2).length > best.2 := by omega
    simp only [hnot, if_false]
    exact ih best (fun e' he' => hl e' (List.mem_cons_of_mem _ he')) hbest

/-- C23: when no two of the input paths share the name of an interior room,
`filterNonOverlappingPaths` returns the input list, every path in its place. -/
theorem filter_keeps_disjoint_paths (rooms : List Room) (paths : List Path)
    (hdisj : paths.Pairwise
      (fun x y => ∀ nm ∈ middleNames rooms x, nm ∉ middleNames rooms y)) :
    filterNonOverlappingPaths rooms paths = paths := by
  unfold filterNonOverlappingPaths findBestCombination
  cases paths with
  | nil => rfl
  | cons first rest =>
    simp only [List.enum_cons, List.foldl_cons]
    have hgrow : growCombination rooms (first :: rest) 0 first = first :: rest := by
      unfold growCombination
      rw [List.enum_cons, List.foldl_cons]
      simp only [if_true]
      exact grow_takes_all rooms rest 1 [first] (le_refl 1) hdisj
    have htail : ∀ e ∈ rest.enumFrom 1, (first :: rest)[e.1]? = some e.2 := by
      intro e he
      have hmem : e ∈ (first :: rest).enum := by
        rw [List.enum_cons]
        exact List.mem_cons_of_mem _ he
      exact List.mem_enum_iff_getElem?.1 hmem
    rw [hgrow]
    cases rest with
    | nil => simp
    | cons second more =>
      have hlong : (first :: second :: more).length > 1 := by simp
      simp only [hlong, if_true]
      rw [best_keeps_full rooms (first :: second :: more) _ _ htail (le_refl _)]

theorem filter_keeps_disjoint_paths_witness :
    pathsFourApart.Pairwise
      (fun x y => ∀ nm ∈ middleNames roomsFilterTest x, nm ∉ middleNames roomsFilterTest y) ∧
    filterNonOverlappingPaths roomsFilterTest pathsFourApart = pathsFourApart :=
  ⟨by decide, filter_keeps_disjoint_paths roomsFilterTest pathsFourApart (by decide)⟩

/-- The three tests of `TestAntFarm_filterNonOverlappingPaths` with paths that do not
overlap: two paths, four paths, and two paths of different lengths come back as given. -/
theorem filter_tests_apart :
    filterNonOverlappingPaths roomsFilterTest pathsTwoApart = pathsTwoApart ∧
    filterNonOverlappingPaths roomsFilterTest pathsFourApart = pathsFourApart ∧
    filterNonOverlappingPaths roomsFilterTest pathsMixedApart = pathsMixedApart := by
  decide

theorem map_eq_of_injOn {α β : Type} (f : α → β) :
    ∀ (l1 l2 : List α), l1.map f = l2.map f →
      (∀ x ∈ l1, ∀ y ∈ l2, f x = f y → x = y) → l1 = l2 := by
  intro l1
  induction l1 with
  | nil =>
    intro l2 h _
    cases l2 with
    | nil => rfl
    | cons y t => simp at h
  | cons x t ih =>
    intro l2 h hinj
    cases l2 with
    | nil => simp at h
    | cons y t2 =>
      simp only [List.map_cons, List.cons.injEq] at h
      have hxy := hinj x (List.mem_cons_self _ _) y (List.mem_cons_self _ _) h.1
      rw [hxy, ih t2 h.2 (fun a ha b hb => hinj a (List.mem_cons_of_mem _ ha) b
        (List.mem_cons_of_mem _ hb))]

/-- A slice whose lengths ascend strictly is left as it is by every sorter that meets the
contract of `sort.Slice`. -/
theorem sort_strict_fixed (S : SliceSorter) (l : List Path)
    (h : l.Pairwise (fun a b => a.Length < b.Length)) : S.sort l = l := by
  have h1 : ((S.sort l).map Path.Length).Sorted (· ≤ ·) := List.pairwise_map.2 (S.sorted l)
  have h2 : (l.map Path.Length).Sorted (· ≤ ·) :=
    List.pairwise_map.2 (h.imp (fun hab => le_of_lt hab))
  have hmap := List.eq_of_perm_of_sorted ((S.perm l).map Path.Length) h1 h2
  have hnd : (l.map Path.Length).Nodup :=
    List.pairwise_map.2 (h.imp (fun hab => ne_of_lt hab))
  apply map_eq_of_injOn Path.Length _ _ hmap
  intro x hx y hy hxy
  exact List.inj_on_of_nodup_map hnd ((S.perm l).subset hx) hy hxy

theorem walks_detour :
    (walks roomsDetour 11 0 9 (fun _ => false)).map recordPath = detourPaths := by
  decide

/-- C22 (evaluation at the failing input): on the arena `roomsDetour`, whatever the sorter,
`findAllPaths` returns the route of length 4 first, then the route of length 2, then the
route of length 5, so the returned list is not sorted by non-decreasing `Length`. -/
theorem findAllPaths_detour (S : SliceSorter) :
    findAllPaths S roomsDetour farmDetour
      = some [recordPath [0, 2, 4, 5, 9], recordPath [0, 1, 9],
          recordPath [0, 6, 7, 8, 3, 9]] ∧
    (recordPath [0, 2, 4, 5, 9]).Length = 4 ∧ (recordPath [0, 1, 9]).Length = 2 ∧
    ¬ List.Chain' (fun a b : Path => a.Length ≤ b.Length)
      [recordPath [0, 2, 4, 5, 9], recordPath [0, 1, 9], recordPath [0, 6, 7, 8, 3, 9]] := by
  refine ⟨?_, by decide, by decide, ?_⟩
  · have hd := dfs_top roomsDetour 0 9 (roomsDetour.length + 1) (Nat.lt_succ_self _)
    have hw : (walks roomsDetour (roomsDetour.length + 1) 0 9 (fun _ => false)).map recordPath
        = detourPaths := walks_detour
    rw [hw] at hd
    unfold findAllPaths
    simp only [farmDetour, hd]
    rw [sort_strict_fixed S detourPaths (by simp [detourPaths, recordPath])]
    decide
  · simp [List.chain'_cons, recordPath]

/-! ## The fixture "Complex path with multiple routes" -/

theorem findAllPaths_twoRoutes_kept (S : SliceSorter)
    (hS : S.sort twoRoutePaths = twoRoutePaths) :
    findAllPaths S roomsTwoRoutes farmTwoRoutes = some twoRoutePaths := by
  have hd := dfs_top roomsTwoRoutes 0 3 (roomsTwoRoutes.length + 1) (Nat.lt_succ_self _)
  have hw : (walks roomsTwoRoutes (roomsTwoRoutes.length + 1) 0 3 (fun _ => false)).map
      recordPath = twoRoutePaths := by decide
  rw [hw] at hd
  unfold findAllPaths
  simp only [farmTwoRoutes, hd]
  rw [hS]
  decide

/-- C29: on the farm with two ants and the routes start-mid1-end and start-mid2-end, with a
sorter that leaves the two routes, which have the same length, in the order `dfs` found
them, `assignAntsToPath` gives the first ant the route over mid1 and the second ant the
route over mid2, and `SimulateMovement` returns the two lines `L1-mid1 L2-mid2` and
`L1-end L2-end`. -/
theorem two_routes_transcript (S : SliceSorter) (fuel : Nat) (hfuel : 3 ≤ fuel)
    (hS : S.sort twoRoutePaths = twoRoutePaths) :
    (∃ m, assignAntsToPath S roomsTwoRoutes farmTwoRoutes = some (some m) ∧
      mapLookup m (some 0) = some (recordPath [0, 1, 3]) ∧
      mapLookup m (some 1) = some (recordPath [0, 2, 3]) ∧
      recordPath [0, 1, 3] ≠ recordPath [0, 2, 3]) ∧
    okTranscript (SimulateMovement S fuel roomsTwoRoutes freshAnts farmTwoRoutes)
      = some "L1-mid1 L2-mid2\nL1-end L2-end\n" := by
  have hpaths := findAllPaths_twoRoutes_kept S hS
  constructor
  · exact ⟨_, assignAntsToPath_eq S roomsTwoRoutes farmTwoRoutes twoRoutePaths hpaths
      (by decide), by decide, by decide, by decide⟩
  · apply okTranscript_mono S roomsTwoRoutes freshAnts farmTwoRoutes 3 fuel _ hfuel
    unfold SimulateMovement assignAntsToPath
    rw [hpaths]
    decide

theorem two_routes_transcript_witness :
    3 ≤ 3 ∧ insertionSorter.sort twoRoutePaths = twoRoutePaths ∧
    (∃ m, assignAntsToPath insertionSorter roomsTwoRoutes farmTwoRoutes = some (some m) ∧
      mapLookup m (some 0) = some (recordPath [0, 1, 3]) ∧
      mapLookup m (some 1) = some (recordPath [0, 2, 3]) ∧
      recordPath [0, 1, 3] ≠ recordPath [0, 2, 3]) ∧
    okTranscript
        (SimulateMovement insertionSorter 3 roomsTwoRoutes freshAnts farmTwoRoutes)
      = some "L1-mid1 L2-mid2\nL1-end L2-end\n" :=
  ⟨le_refl 3, by decide, two_routes_transcript insertionSorter 3 (le_refl 3) (by decide)⟩

/-! ## A second run on the farm the first run left -/

/-- A pass that returns changes no id and no ant outside the slice. -/
theorem runTurn_frame (rooms : List Room) (antList : List (Option Nat)) (ants0 : Nat → Ant)
    (occupied : Nat → Option Nat) (st : TurnState)
    (hok : runTurn rooms antList ants0 occupied = .ok st) :
    (∀ x, (st.ants x).Id = (ants0 x).Id) ∧ (∀ x, some x ∉ antList → st.ants x = ants0 x) := by
  unfold runTurn at hok
  refine foldTurn_ok_inv rooms antList
    (fun _ s => (∀ x, (s.ants x).Id = (ants0 x).Id) ∧
      (∀ x, some x ∉ antList → s.ants x = ants0 x)) ?_
    antList [] _ st rfl ⟨fun _ => rfl, fun _ _ => rfl⟩ hok
  intro pre p rest s s' hL hP hmove
  cases p with
  | none =>
    unfold moveAnt at hmove
    cases hmove
  | some a =>
    have ha : some a ∈ antList := by rw [hL]; simp
    rcases moveAnt_ok_cases rooms s s' a hmove with
      ⟨h1, _, _⟩ | ⟨cur, nr, _, _, _, rfl⟩
    · rw [h1]
      exact hP
    · constructor
      · intro x
        by_cases hx : x = a
        · rw [hx, advanceState_ants_self]
          exact hP.1 a
        · rw [advanceState_ants_ne rooms s a cur nr x hx]
          exact hP.1 x
      · intro x hx
        have hxa : x ≠ a := fun h => hx (h ▸ ha)
        rw [advanceState_ants_ne rooms s a cur nr x hxa]
        exact hP.2 x hx

theorem turnLoop_frame (rooms : List Room) (antList : List (Option Nat)) :
    ∀ (fuel : Nat) (ants : Nat → Ant) (occupied : Nat → Option Nat) (allMoves : String)
      (ants1 : Nat → Ant) (t : String),
      turnLoop rooms antList fuel ants occupied allMoves = some (.ok ants1 t) →
      (∀ x, (ants1 x).Id = (ants x).Id) ∧ (∀ x, some x ∉ antList → ants1 x = ants x) := by
  intro fuel
  induction fuel with
  | zero => intro _ _ _ _ _ h; simp [turnLoop] at h
  | succ fuel ih =>
    intro ants occupied allMoves ants1 t hrun
    cases hturn : runTurn rooms antList ants occupied with
    | error f =>
      rw [turnLoop, hturn] at hrun
      cases f with
      | err m => cases hrun
      | crash => cases hrun
    | ok st =>
      obtain ⟨hid, hout⟩ := runTurn_frame rooms antList ants occupied st hturn
      rw [turnLoop, hturn] at hrun
      simp only at hrun
      by_cases hst : st.allReached = true
      · rw [if_pos hst] at hrun
        cases hrun
        exact ⟨hid, hout⟩
      · rw [if_neg hst] at hrun
        obtain ⟨h1, h2⟩ := ih st.ants st.occupied _ ants1 t hrun
        exact ⟨fun x => (h1 x).trans (hid x), fun x hx => (h2 x hx).trans (hout x hx)⟩

/-- An initialisation that returns met no nil key and no empty path. -/
theorem initAnts_some_inv :
    ∀ (l : List (Option Nat × Path)) (h h' : Nat → Ant), initAnts l h = some h' →
      ∀ e ∈ l, e.1 ≠ none ∧ e.2.Rooms ≠ [] := by
  intro l
  induction l with
  | nil => intro _ _ _ e he; simp at he
  | cons e t ih =>
    intro h h' hinit e' he'
    unfold initAnts at hinit
    rw [List.foldlM_cons] at hinit
    cases hke : e.1 with
    | none => simp [hke] at hinit
    | some a0 =>
      cases hr : e.2.Rooms with
      | nil => simp [hke, hr] at hinit
      | cons first rest =>
        simp only [hke, hr, Option.bind_eq_bind, Option.some_bind] at hinit
        rcases List.mem_cons.1 he' with h1 | h1
        · rw [h1, hke, hr]
          simp
        · exact ih _ h' (show initAnts t _ = some h' from hinit) e' h1

theorem assign_keys_nodup (paths : List Path) :
    ∀ (l : List (Option Nat)) (st : AssignState), (st.antPaths.map Prod.fst).Nodup →
      ((l.foldl (assignOne paths) st).antPaths.map Prod.fst).Nodup := by
  intro l
  induction l with
  | nil => intro st h; exact h
  | cons a t ih =>
    intro st h
    rw [List.foldl_cons]
    apply ih
    show ((mapStore st.antPaths a _).map Prod.fst).Nodup
    rw [mapStore_keys]
    by_cases ha : a ∈ st.antPaths.map Prod.fst
    · rw [if_pos ha]
      exact h
    · rw [if_neg ha]
      exact List.Nodup.append h (List.nodup_singleton a)
        (by
          intro x hx hx'
          rw [List.mem_singleton] at hx'
          exact ha (hx' ▸ hx))

/-- C21: when `SimulateMovement` returns a transcript, a second call on the same farm with
the ants as the first call left them returns the same transcript, and leaves the ants as
the first call left them. -/
theorem rerun_same_transcript (S : SliceSorter) (fuel : Nat) (rooms : List Room)
    (ants : Nat → Ant) (af : AntFarm) (t : String)
    (hrun : okTranscript (SimulateMovement S fuel rooms ants af) = some t) :
    ∃ ants1, SimulateMovement S fuel rooms ants af = some (.ok ants1 t) ∧
      SimulateMovement S fuel rooms ants1 af = some (.ok ants1 t) := by
  obtain ⟨ants1, hrun1⟩ := okTranscript_some _ t hrun
  refine ⟨ants1, hrun1, ?_⟩
  obtain ⟨m, ants0, hassign, hinit, _, hloop⟩ :=
    simulate_ok_loop S fuel rooms ants af ants1 t hrun1
  obtain ⟨hid, hout⟩ := turnLoop_frame rooms af.Ants fuel ants0 _ "" ants1 t hloop
  have hm : ∃ paths, m = (af.Ants.foldl (assignOne paths) (assignInit paths)).antPaths := by
    unfold assignAntsToPath at hassign
    cases hp : findAllPaths S rooms af with
    | none => rw [hp] at hassign; cases hassign
    | some paths =>
      rw [hp] at hassign
      simp only at hassign
      by_cases hlen : paths.length = 0
      · rw [if_pos hlen] at hassign
        cases hassign
      · rw [if_neg hlen] at hassign
        exact ⟨paths, (Option.some.inj (Option.some.inj hassign)).symm⟩
  obtain ⟨paths, hmeq⟩ := hm
  have hkeys : (m.map Prod.fst).Nodup := by
    rw [hmeq]
    exact assign_keys_nodup paths af.Ants (assignInit paths) (by simp [assignInit])
  have hslice : ∀ x, some x ∈ af.Ants → some x ∈ m.map Prod.fst := by
    intro x hx
    rw [hmeq]
    exact assign_keys_mem paths af.Ants (assignInit paths) (some x) (Or.inl hx)
  have hwf := initAnts_some_inv m ants ants0 hinit
  obtain ⟨g0, hg0, hin0, hout0⟩ := initAnts_spec m ants hkeys hwf
  rw [hinit] at hg0
  cases hg0
  obtain ⟨g1, hg1, hin1, hout1⟩ := initAnts_spec m ants1 hkeys hwf
  have hsame : g1 = ants0 := by
    funext x
    by_cases hx : some x ∈ m.map Prod.fst
    · obtain ⟨e, he, hex⟩ := List.mem_map.1 hx
      have hmem : (some x, e.2) ∈ m := by
        rw [← hex]
        exact he
      have hx0 := hin0 x e.2 hmem
      have hid0 : (ants0 x).Id = (ants x).Id := by rw [hx0]
      rw [hin1 x e.2 hmem, hx0]
      simp only [hid x, hid0]
    · rw [hout1 x hx, hout0 x hx]
      have hx' : some x ∉ af.Ants := fun h => hx (hslice x h)
      rw [hout x hx', hout0 x hx]
  rw [hsame] at hg1
  have hlen : ¬ af.Ants.length = 0 := by
    intro h
    unfold SimulateMovement at hrun1
    rw [hassign] at hrun1
    simp only [h, if_true] at hrun1
    cases hrun1
  unfold SimulateMovement
  rw [hassign]
  simp only [hlen, if_false, hg1]
  exact hloop

theorem rerun_same_transcript_witness :
    okTranscript (SimulateMovement insertionSorter 5 roomsOnePath freshAnts farmOnePath)
      = some "L1-mid\nL1-end L2-mid\nL2-end L3-mid\nL3-end\n" ∧
    ∃ ants1, SimulateMovement insertionSorter 5 roomsOnePath freshAnts farmOnePath
        = some (.ok ants1 "L1-mid\nL1-end L2-mid\nL2-end L3-mid\nL3-end\n") ∧
      SimulateMovement insertionSorter 5 roomsOnePath ants1 farmOnePath
        = some (.ok ants1 "L1-mid\nL1-end L2-mid\nL2-end L3-mid\nL3-end\n") :=
  ⟨onePath_run, rerun_same_transcript insertionSorter 5 roomsOnePath freshAnts farmOnePath _
    onePath_run⟩

/-! ## The loader: ant count and ant creation -/

/-- When `Scan` delivers a line: the scanner has stored no error, the input holds a next
line of fewer than `maxScanTokenSize` bytes, and the token is that line without its
carriage return. -/
theorem scan_delivers (s : Scanner) (line : String) :
    s.Scan.1 = some line ↔
      s.err = none ∧ ∃ raw rest, s.lines = raw :: rest ∧ byteLength raw < maxScanTokenSize ∧
        line = dropCR raw := by
  unfold Scanner.Scan
  cases he : s.err with
  | some e => simp
  | none =>
    cases hl : s.lines with
    | nil => simp
    | cons raw rest =>
      by_cases hfit : byteLength raw < maxScanTokenSize
      · simp [hfit, eq_comm]
      · simp [hfit]

theorem parseNumAnts_empty (L : TextLib) (af : AntFarm) (state : ParserState)
    (hs : state.scanner.Scan.1 = none) :
    parseNumAnts L af state
      = (af, { state with scanner := state.scanner.Scan.2 }, some ⟨"empty file"⟩) := by
  unfold parseNumAnts
  cases h : state.scanner.Scan with
  | mk tok sc =>
    rw [h] at hs
    simp only at hs
    subst hs
    rfl

theorem parseNumAnts_unread (L : TextLib) (af : AntFarm) (state : ParserState)
    (line : String) (hs : state.scanner.Scan.1 = some line) (ha : L.atoi line = none) :
    parseNumAnts L af state
      = (af, { state with scanner := state.scanner.Scan.2 },
          some ⟨"invalid number of ants"⟩) := by
  unfold parseNumAnts
  cases h : state.scanner.Scan with
  | mk tok sc =>
    rw [h] at hs
    simp only at hs
    subst hs
    simp only [ha]

theorem parseNumAnts_low (L : TextLib) (af : AntFarm) (state : ParserState)
    (line : String) (n : Int) (hs : state.scanner.Scan.1 = some line)
    (ha : L.atoi line = some n) (hn : n ≤ 0) :
    parseNumAnts L af state
      = (af, { state with scanner := state.scanner.Scan.2 },
          some ⟨"number of ants must be positive"⟩) := by
  unfold parseNumAnts
  cases h : state.scanner.Scan with
  | mk tok sc =>
    rw [h] at hs
    simp only at hs
    subst hs
    simp only [ha, hn, if_true]

theorem parseNumAnts_high (L : TextLib) (af : AntFarm) (state : ParserState)
    (line : String) (n : Int) (hs : state.scanner.Scan.1 = some line)
    (ha : L.atoi line = some n) (hn : 10000 < n) :
    parseNumAnts L af state
      = (af, { state with scanner := state.scanner.Scan.2 },
          some ⟨"number of ants exceeds maximum limit"⟩) := by
  have h0 : ¬ n ≤ 0 := by omega
  have h1 : n > 10000 := hn
  unfold parseNumAnts
  cases h : state.scanner.Scan with
  | mk tok sc =>
    rw [h] at hs
    simp only at hs
    subst hs
    simp only [ha, h0, h1, if_true, if_false]

theorem parseNumAnts_good (L : TextLib) (af : AntFarm) (state : ParserState)
    (line : String) (n : Int) (hs : state.scanner.Scan.1 = some line)
    (ha : L.atoi line = some n) (h1 : 1 ≤ n) (h2 : n ≤ 10000) :
    parseNumAnts L af state
      = ({ af with NumAnts := n }, { state with scanner := state.scanner.Scan.2 }, none) := by
  have h0 : ¬ n ≤ 0 := by omega
  have h3 : ¬ n > 10000 := by omega
  unfold parseNumAnts
  cases h : state.scanner.Scan with
  | mk tok sc =>
    rw [h] at hs
    simp only at hs
    subst hs
    simp only [ha, h0, h3, if_false]

/-- C24 (amended): `parseNumAnts` returns no error exactly when the scanner delivers a first
line that `Atoi` reads as a number `n` with `1 ≤ n ≤ 10000`, and then the farm is the old
farm with `NumAnts = n`. The scanner delivers a line exactly when it has stored no error
and the input holds a first line of fewer than 65536 bytes; the line is delivered without
its carriage return. When `parseNumAnts` returns an error it is a `ParseError` and the
farm is unchanged: "empty file" when no line is delivered, "invalid number of ants" when
`Atoi` fails, "number of ants must be positive" for `n ≤ 0` and "number of ants exceeds
maximum limit" for `n > 10000`. In every case the scanner has made one call of `Scan`. -/
theorem parseNumAnts_spec (L : TextLib) (af : AntFarm) (state : ParserState) :
    ((parseNumAnts L af state).2.2 = none ↔
      ∃ line n, state.scanner.Scan.1 = some line ∧ L.atoi line = some n ∧
        1 ≤ n ∧ n ≤ 10000) ∧
    (∀ line, state.scanner.Scan.1 = some line ↔
      state.scanner.err = none ∧ ∃ raw rest, state.scanner.lines = raw :: rest ∧
        byteLength raw < 65536 ∧ line = dropCR raw) ∧
    (∀ line n, state.scanner.Scan.1 = some line → L.atoi line = some n → 1 ≤ n →
      n ≤ 10000 → (parseNumAnts L af state).1 = { af with NumAnts := n }) ∧
    ((parseNumAnts L af state).2.2 ≠ none → (parseNumAnts L af state).1 = af) ∧
    (state.scanner.Scan.1 = none →
      (parseNumAnts L af state).2.2 = some ⟨"empty file"⟩) ∧
    (∀ line, state.scanner.Scan.1 = some line → L.atoi line = none →
      (parseNumAnts L af state).2.2 = some ⟨"invalid number of ants"⟩) ∧
    (∀ line n, state.scanner.Scan.1 = some line → L.atoi line = some n → n ≤ 0 →
      (parseNumAnts L af state).2.2 = some ⟨"number of ants must be positive"⟩) ∧
    (∀ line n, state.scanner.Scan.1 = some line → L.atoi line = some n → 10000 < n →
      (parseNumAnts L af state).2.2 = some ⟨"number of ants exceeds maximum limit"⟩) ∧
    (parseNumAnts L af state).2.1 = { state with scanner := state.scanner.Scan.2 } := by
  refine ⟨?_, ?_, ?_, ?_, ?_, ?_, ?_, ?_, ?_⟩
  · constructor
    · intro hok
      cases hs : state.scanner.Scan.1 with
      | none =>
        rw [parseNumAnts_empty L af state hs] at hok
        cases hok
      | some line =>
        cases ha : L.atoi line with
        | none =>
          rw [parseNumAnts_unread L af state line hs ha] at hok
          cases hok
        | some n =>
          by_cases h0 : n ≤ 0
          · rw [parseNumAnts_low L af state line n hs ha h0] at hok
            cases hok
          · by_cases hbig : 10000 < n
            · rw [parseNumAnts_high L af state line n hs ha hbig] at hok
              cases hok
            · exact ⟨line, n, rfl, ha, by omega, by omega⟩
    · rintro ⟨line, n, hs, ha, h1, h2⟩
      rw [parseNumAnts_good L af state line n hs ha h1 h2]
  · intro line
    exact scan_delivers state.scanner line
  · intro line n hs ha h1 h2
    rw [parseNumAnts_good L af state line n hs ha h1 h2]
  · intro herr
    cases hs : state.scanner.Scan.1 with
    | none => rw [parseNumAnts_empty L af state hs]
    | some line =>
      cases ha : L.atoi line with
      | none => rw [parseNumAnts_unread L af state line hs ha]
      | some n =>
        by_cases h0 : n ≤ 0
        · rw [parseNumAnts_low L af state line n hs ha h0]
        · by_cases hbig : 10000 < n
          · rw [parseNumAnts_high L af state line n hs ha hbig]
          · rw [parseNumAnts_good L af state line n hs ha (by omega) (by omega)] at herr
            exact absurd rfl herr
  · intro hs
    rw [parseNumAnts_empty L af state hs]
  · intro line hs ha
    rw [parseNumAnts_unread L af state line hs ha]
  · intro line n hs ha hn
    rw [parseNumAnts_low L af state line n hs ha hn]
  · intro line n hs ha hn
    rw [parseNumAnts_high L af state line n hs ha hn]
  · cases hs : state.scanner.Scan.1 with
    | none => rw [parseNumAnts_empty L af state hs]
    | some line =>
      cases ha : L.atoi line with
      | none => rw [parseNumAnts_unread L af state line hs ha]
      | some n =>
        by_cases h0 : n ≤ 0
        · rw [parseNumAnts_low L af state line n hs ha h0]
        · by_cases hbig : 10000 < n
          · rw [parseNumAnts_high L af state line n hs ha hbig]
          · rw [parseNumAnts_good L af state line n hs ha (by omega) (by omega)]

/-- A run of digits 0 in front of a text does not change the value `digitsValue` reads
from it. -/
theorem foldlM_zeros (f : Nat → Char → Option Nat)
    (hf : f 0 (Char.ofNat 48) = some 0) (rest : List Char) :
    ∀ n, (List.replicate n (Char.ofNat 48) ++ rest).foldlM f 0 = rest.foldlM f 0 := by
  intro n
  induction n with
  | zero => rfl
  | succ n ih =>
    rw [List.replicate_succ, List.cons_append, List.foldlM_cons, hf]
    exact ih

/-- The number of bytes of a run of `n` digits 0 followed by the digit 5. -/
theorem byteLength_zeros (n : Nat) :
    byteLength (String.mk (List.replicate n (Char.ofNat 48) ++ [Char.ofNat 53])) = n + 1 := by
  unfold byteLength
  induction n with
  | zero => rfl
  | succ n ih =>
    simp only [List.replicate_succ, List.cons_append, List.map_cons, List.sum_cons] at ih ⊢
    rw [ih]
    have h48 : utf8Len (Char.ofNat 48).toNat = 1 := by decide
    rw [h48]
    omega

/-- The value `Atoi` reads from a run of digits 0 followed by the digit 5. -/
theorem decimalAtoi_zeros (n : Nat) :
    decimalAtoi (String.mk (List.replicate (n + 1) (Char.ofNat 48) ++ [Char.ofNat 53]))
      = some 5 := by
  unfold decimalAtoi
  simp only [List.replicate_succ, List.cons_append]
  have h45 : ¬ (Char.ofNat 48).toNat = 45 := by decide
  have h43 : ¬ (Char.ofNat 48).toNat = 43 := by decide
  simp only [h45, h43, if_false]
  unfold digitsValue
  rw [if_neg (by simp)]
  rw [← List.cons_append, ← List.replicate_succ]
  rw [foldlM_zeros _ (by decide) [Char.ofNat 53] (n + 1)]
  decide

/-- C24 (counterexample): the input whose first line is 69999 digits 0 followed by the
digit 5, and whose second line is `##start`. The first line exists and `Atoi` reads it as
the number 5, which lies between 1 and 10000, but the line has 70000 bytes, more than the
scanner buffers: `Scan` delivers nothing, `parseNumAnts` returns "empty file" and
`NumAnts` stays 0. -/
theorem long_first_line_refused :
    (scanOf [longNumberLine, "##start"]).scanner.lines = [longNumberLine, "##start"] ∧
    fixtureText.atoi longNumberLine = some 5 ∧
    byteLength longNumberLine = 70000 ∧
    (parseNumAnts fixtureText NewAntFarm (scanOf [longNumberLine, "##start"])).2.2
      = some ⟨"empty file"⟩ ∧
    (parseNumAnts fixtureText NewAntFarm (scanOf [longNumberLine, "##start"])).1.NumAnts = 0 ∧
    (parseNumAnts fixtureText NewAntFarm
        (scanOf [longNumberLine, "##start"])).2.1.scanner.err
      = some "bufio.Scanner: token too long" := by
  have hlen : byteLength longNumberLine = 70000 := byteLength_zeros 69999
  have hscan : (scanOf [longNumberLine, "##start"]).scanner.Scan
      = (none, { lines := [longNumberLine, "##start"], fault := none,
                 err := some "bufio.Scanner: token too long" }) := by
    unfold Scanner.Scan scanOf
    have hbig : ¬ byteLength longNumberLine < maxScanTokenSize := by
      rw [hlen]
      decide
    simp only [Option.isSome_none, Bool.false_eq_true, if_false, hbig]
  have hrun := parseNumAnts_empty fixtureText NewAntFarm (scanOf [longNumberLine, "##start"])
    (by rw [hscan])
  refine ⟨rfl, ?_, hlen, ?_, ?_, ?_⟩
  · have hatoi : fixtureText.atoi = decimalAtoi := rfl
    have hline : longNumberLine
        = String.mk (List.replicate (69998 + 1) (Char.ofNat 48) ++ [Char.ofNat 53]) := rfl
    rw [hatoi, hline]
    exact decimalAtoi_zeros 69998
  · rw [hrun]
  · rw [hrun]
    rfl
  · rw [hrun, hscan]

/-- The method `parseRoomsAndLinks` returns nil exactly when its loop ends without an error
of the loader and the scanner has stored no error. -/
theorem parseRoomsAndLinks_ok (L : TextLib) (ld : Loader) (state : ParserState) :
    (parseRoomsAndLinks L ld state).2.2 = none ↔
      (scanLoop L state.scanner.lines ld state).2.2 = none ∧
        (scanLoop L state.scanner.lines ld state).2.1.scanner.err = none := by
  unfold parseRoomsAndLinks
  cases hsl : (scanLoop L state.scanner.lines ld state).2.2 with
  | some err => simp
  | none =>
    cases herr : (scanLoop L state.scanner.lines ld state).2.1.scanner.err with
    | none => simp
    | some e => simp

/-- The five cases of `TestParseNumAnts` with the decimal reading of `Atoi`: "10" sets
`NumAnts` to 10, and "0", "-5", "10001" and "abc" fail and leave it 0. -/
theorem parseNumAnts_tests :
    (parseNumAnts fixtureText NewAntFarm (scanOf ["10"])).2.2 = none ∧
    (parseNumAnts fixtureText NewAntFarm (scanOf ["10"])).1.NumAnts = 10 ∧
    (parseNumAnts fixtureText NewAntFarm (scanOf ["0"])).2.2
      = some ⟨"number of ants must be positive"⟩ ∧
    (parseNumAnts fixtureText NewAntFarm (scanOf ["0"])).1.NumAnts = 0 ∧
    (parseNumAnts fixtureText NewAntFarm (scanOf ["-5"])).2.2
      = some ⟨"number of ants must be positive"⟩ ∧
    (parseNumAnts fixtureText NewAntFarm (scanOf ["-5"])).1.NumAnts = 0 ∧
    (parseNumAnts fixtureText NewAntFarm (scanOf ["10001"])).2.2
      = some ⟨"number of ants exceeds maximum limit"⟩ ∧
    (parseNumAnts fixtureText NewAntFarm (scanOf ["10001"])).1.NumAnts = 0 ∧
    (parseNumAnts fixtureText NewAntFarm (scanOf ["abc"])).2.2
      = some ⟨"invalid number of ants"⟩ ∧
    (parseNumAnts fixtureText NewAntFarm (scanOf ["abc"])).1.NumAnts = 0 ∧
    (parseNumAnts fixtureText NewAntFarm (scanOf [])).2.2 = some ⟨"empty file"⟩ := by
  decide

/-- The loop of `initializeAnts` after its first `k` iterations. -/
theorem initializeAnts_loop (start : Option Nat) (ants : Nat → Ant) (next n : Nat) :
    ∀ k, k ≤ n →
      (List.range k).foldl
        (fun (st : List (Option Nat) × (Nat → Ant)) (i : Nat) =>
          (st.1.set i (some (next + i)),
            setAnt st.2 (next + i)
              { Id := (i : Int) + 1, CurrentRoom := start, Path := [], PathIndex := 0,
                HasReached := false }))
        (List.replicate n none, ants)
      = ((List.range k).map (fun i => some (next + i)) ++ List.replicate (n - k) none,
          fun a => if next ≤ a ∧ a < next + k then
            { Id := ((a - next : Nat) : Int) + 1, CurrentRoom := start, Path := [],
              PathIndex := 0, HasReached := false }
          else ants a) := by
  intro k
  induction k with
  | zero =>
    intro _
    simp only [List.range_zero, List.foldl_nil, List.map_nil, List.nil_append, Nat.sub_zero]
    congr 1
    funext a
    have hno : ¬ (next ≤ a ∧ a < next + 0) := by omega
    rw [if_neg hno]
  | succ k ih =>
    intro hk
    rw [List.range_succ, List.foldl_append, ih (by omega)]
    simp only [List.foldl_cons, List.foldl_nil]
    congr 1
    · have hlen : ((List.range k).map (fun i => some (next + i))).length = k := by simp
      rw [List.set_append_right _ _ (by rw [hlen]), hlen, Nat.sub_self]
      have hrep : List.replicate (n - k) (none : Option Nat)
          = none :: List.replicate (n - (k + 1)) none := by
        rw [show n - k = (n - (k + 1)) + 1 by omega, List.replicate_succ]
      rw [hrep, List.set_cons_zero, List.map_append]
      simp
    · funext a
      unfold setAnt
      by_cases ha : a = next + k
      · subst ha
        simp
      · rw [if_neg ha]
        beta_reduce
        by_cases h1 : next ≤ a ∧ a < next + k
        · have h2 : next ≤ a ∧ a < next + (k + 1) := ⟨h1.1, by omega⟩
          rw [if_pos h1, if_pos h2]
        · have h2 : ¬ (next ≤ a ∧ a < next + (k + 1)) := by
            intro h
            exact h1 ⟨h.1, by omega⟩
          rw [if_neg h1, if_neg h2]

/-- C28: for `NumAnts = n ≥ 0`, `initializeAnts` returns; the new slice `Ants` has `n`
entries, whatever the old slice held, the entry at position `i` is a new ant with
`Id = i + 1`, `CurrentRoom = af.Start`, `PathIndex = 0` and `HasReached = false`;
`NumAnts`, `Rooms`, `Start` and `End` are as before, and so is every ant that existed. -/
theorem initializeAnts_spec (af : AntFarm) (ants : Nat → Ant) (next : Nat)
    (hn : 0 ≤ af.NumAnts) :
    ∃ af1 ants1, initializeAnts af ants next = some (af1, ants1) ∧
      (af1.Ants.length : Int) = af.NumAnts ∧
      (∀ (i : Nat), (i : Int) < af.NumAnts →
        af1.Ants[i]? = some (some (next + i)) ∧
        (ants1 (next + i)).Id = (i : Int) + 1 ∧
        (ants1 (next + i)).CurrentRoom = af.Start ∧
        (ants1 (next + i)).PathIndex = 0 ∧
        (ants1 (next + i)).HasReached = false) ∧
      af1.NumAnts = af.NumAnts ∧ af1.Rooms = af.Rooms ∧ af1.Start = af.Start ∧
      af1.End = af.End ∧
      (∀ a, a < next → ants1 a = ants a) := by
  have hneg : ¬ af.NumAnts < 0 := by omega
  have hloop := initializeAnts_loop af.Start ants next af.NumAnts.toNat af.NumAnts.toNat
    (le_refl _)
  have hinit : initializeAnts af ants next
      = some ({ af with Ants := (List.range af.NumAnts.toNat).map (fun i => some (next + i)) },
          fun a => if next ≤ a ∧ a < next + af.NumAnts.toNat then
            { Id := ((a - next : Nat) : Int) + 1, CurrentRoom := af.Start, Path := [],
              PathIndex := 0, HasReached := false }
          else ants a) := by
    unfold initializeAnts
    rw [if_neg hneg]
    simp only [hloop, Nat.sub_self, List.replicate_zero, List.append_nil]
  refine ⟨_, _, hinit, ?_, ?_, rfl, rfl, rfl, rfl, ?_⟩
  · simp only [List.length_map, List.length_range]
    omega
  · intro i hi
    have hi' : i < af.NumAnts.toNat := by omega
    have hin : next ≤ next + i ∧ next + i < next + af.NumAnts.toNat := ⟨by omega, by omega⟩
    refine ⟨?_, ?_, ?_, ?_, ?_⟩
    · simp only [List.getElem?_map, List.getElem?_range hi']
      rfl
    · simp only [hin, and_self, if_true]
      simp
    · simp only [hin, and_self, if_true]
    · simp only [hin, and_self, if_true]
    · simp only [hin, and_self, if_true]
  · intro a ha
    have hout : ¬ (next ≤ a ∧ a < next + af.NumAnts.toNat) := by
      intro h
      omega
    simp only [hout, if_false]

theorem initializeAnts_spec_witness :
    (0 : Int) ≤ (AntFarm.mk 3 [some 7] [] (some 0) (some 1)).NumAnts ∧
    ∃ af1 ants1,
      initializeAnts (AntFarm.mk 3 [some 7] [] (some 0) (some 1)) freshAnts 10
        = some (af1, ants1) ∧
      (af1.Ants.length : Int) = (AntFarm.mk 3 [some 7] [] (some 0) (some 1)).NumAnts ∧
      (∀ (i : Nat), (i : Int) < (AntFarm.mk 3 [some 7] [] (some 0) (some 1)).NumAnts →
        af1.Ants[i]? = some (some (10 + i)) ∧
        (ants1 (10 + i)).Id = (i : Int) + 1 ∧
        (ants1 (10 + i)).CurrentRoom = (AntFarm.mk 3 [some 7] [] (some 0) (some 1)).Start ∧
        (ants1 (10 + i)).PathIndex = 0 ∧
        (ants1 (10 + i)).HasReached = false) ∧
      af1.NumAnts = (AntFarm.mk 3 [some 7] [] (some 0) (some 1)).NumAnts ∧
      af1.Rooms = (AntFarm.mk 3 [some 7] [] (some 0) (some 1)).Rooms ∧
      af1.Start = (AntFarm.mk 3 [some 7] [] (some 0) (some 1)).Start ∧
      af1.End = (AntFarm.mk 3 [some 7] [] (some 0) (some 1)).End ∧
      (∀ a, a < 10 → ants1 a = freshAnts a) :=
  ⟨by decide, initializeAnts_spec (AntFarm.mk 3 [some 7] [] (some 0) (some 1)) freshAnts 10
    (by decide)⟩

/-! ## The loader: links -/

theorem roomAt_set (rooms : List Room) (r k : Nat) (v : Room) :
    roomAt (rooms.set r v) k = if k = r ∧ r < rooms.length then v else roomAt rooms k := by
  unfold roomAt
  rw [List.getD_eq_getElem?_getD, List.getD_eq_getElem?_getD, List.getElem?_set]
  by_cases hk : r = k
  · subst hk
    by_cases hlt : r < rooms.length
    · simp [hlt]
    · simp [hlt, List.getElem?_eq_none (by omega : rooms.length ≤ r)]
  · have hk' : ¬ k = r := fun h => hk h.symm
    simp [hk, hk']

theorem roomAt_appendConnected (rooms : List Room) (r c k : Nat) :
    roomAt (appendConnected rooms r c) k
      = if k = r ∧ r < rooms.length then
          { roomAt rooms r with Connected := (roomAt rooms r).Connected ++ [c] }
        else roomAt rooms k := by
  unfold appendConnected
  rw [roomAt_set]

theorem length_appendConnected (rooms : List Room) (r c : Nat) :
    (appendConnected rooms r c).length = rooms.length := by
  unfold appendConnected
  rw [List.length_set]

theorem parseLink_malformed (L : TextLib) (ld : Loader) (line : String)
    (h : (L.split line "-").length ≠ 2 ∨
      (L.split line "-").getD 0 "" = (L.split line "-").getD 1 "") :
    parseLink L ld line = (ld, some ⟨"invalid link format"⟩) := by
  unfold parseLink
  simp only [h, if_true]

theorem parseLink_unknown (L : TextLib) (ld : Loader) (line : String)
    (h : ¬ ((L.split line "-").length ≠ 2 ∨
      (L.split line "-").getD 0 "" = (L.split line "-").getD 1 ""))
    (hmiss : roomsLookup ld.af.Rooms ((L.split line "-").getD 0 "") = none ∨
      roomsLookup ld.af.Rooms ((L.split line "-").getD 1 "") = none) :
    parseLink L ld line = (ld, some ⟨"link references nonexistent room"⟩) := by
  unfold parseLink
  simp only [h, if_false]
  rcases hmiss with h0 | h1
  · rw [h0]
  · rw [h1]
    cases roomsLookup ld.af.Rooms ((L.split line "-").getD 0 "") <;> rfl

theorem parseLink_known (L : TextLib) (ld : Loader) (line : String) (room1 room2 : Nat)
    (h : ¬ ((L.split line "-").length ≠ 2 ∨
      (L.split line "-").getD 0 "" = (L.split line "-").getD 1 ""))
    (h1 : roomsLookup ld.af.Rooms ((L.split line "-").getD 0 "") = some room1)
    (h2 : roomsLookup ld.af.Rooms ((L.split line "-").getD 1 "") = some room2) :
    parseLink L ld line
      = if (roomAt ld.rooms room1).Connected.any
            (fun connected =>
              decide ((roomAt ld.rooms connected).Name = (roomAt ld.rooms room2).Name)) then
          (ld, some ⟨"duplicate link"⟩)
        else
          ({ ld with
              rooms := appendConnected (appendConnected ld.rooms room1 room2) room2 room1 },
            none) := by
  unfold parseLink
  simp only [h, if_false, h1, h2]

/-- C25: `parseLink` returns an error exactly when the line does not split on "-" into two
parts, or the two parts are equal, or one of them is not a key of `af.Rooms`, or the
`Connected` list of the first room holds a room with the name of the second room. With the
error the loader is unchanged. Without it the farm is unchanged, and of the arena only the
`Connected` lists of the two rooms change: the second room is appended to the list of the
first and the first to the list of the second. When no other room of the first list carries
the name of the second room, the last condition says that the second room is in the first
room's list. -/
theorem parseLink_spec (L : TextLib) (ld : Loader) (line : String) :
    ((parseLink L ld line).2 ≠ none ↔
      ((L.split line "-").length ≠ 2 ∨
        (L.split line "-").getD 0 "" = (L.split line "-").getD 1 "" ∨
        roomsLookup ld.af.Rooms ((L.split line "-").getD 0 "") = none ∨
        roomsLookup ld.af.Rooms ((L.split line "-").getD 1 "") = none ∨
        ∃ room1 room2 c,
          roomsLookup ld.af.Rooms ((L.split line "-").getD 0 "") = some room1 ∧
          roomsLookup ld.af.Rooms ((L.split line "-").getD 1 "") = some room2 ∧
          c ∈ (roomAt ld.rooms room1).Connected ∧
          (roomAt ld.rooms c).Name = (roomAt ld.rooms room2).Name)) ∧
    ((parseLink L ld line).2 ≠ none → (parseLink L ld line).1 = ld) ∧
    ((parseLink L ld line).2 = none →
      ∃ room1 room2,
        roomsLookup ld.af.Rooms ((L.split line "-").getD 0 "") = some room1 ∧
        roomsLookup ld.af.Rooms ((L.split line "-").getD 1 "") = some room2 ∧
        (parseLink L ld line).1.af = ld.af ∧
        (parseLink L ld line).1.rooms.length = ld.rooms.length ∧
        (room1 < ld.rooms.length → room2 < ld.rooms.length → room1 ≠ room2 →
          ∀ r, roomAt (parseLink L ld line).1.rooms r
            = if r = room1 then
                { roomAt ld.rooms r with
                  Connected := (roomAt ld.rooms r).Connected ++ [room2] }
              else if r = room2 then
                { roomAt ld.rooms r with
                  Connected := (roomAt ld.rooms r).Connected ++ [room1] }
              else roomAt ld.rooms r)) ∧
    (∀ room1 room2,
      (∀ c ∈ (roomAt ld.rooms room1).Connected,
        (roomAt ld.rooms c).Name = (roomAt ld.rooms room2).Name → c = room2) →
      ((∃ c ∈ (roomAt ld.rooms room1).Connected,
          (roomAt ld.rooms c).Name = (roomAt ld.rooms room2).Name)
        ↔ room2 ∈ (roomAt ld.rooms room1).Connected)) := by
  have hlast : ∀ room1 room2,
      (∀ c ∈ (roomAt ld.rooms room1).Connected,
        (roomAt ld.rooms c).Name = (roomAt ld.rooms room2).Name → c = room2) →
      ((∃ c ∈ (roomAt ld.rooms room1).Connected,
          (roomAt ld.rooms c).Name = (roomAt ld.rooms room2).Name)
        ↔ room2 ∈ (roomAt ld.rooms room1).Connected) := by
    intro room1 room2 huniq
    constructor
    · rintro ⟨c, hc, hname⟩
      rw [← huniq c hc hname]
      exact hc
    · intro hmem
      exact ⟨room2, hmem, rfl⟩
  by_cases hbad : (L.split line "-").length ≠ 2 ∨
      (L.split line "-").getD 0 "" = (L.split line "-").getD 1 ""
  · rw [parseLink_malformed L ld line hbad]
    refine ⟨?_, fun _ => rfl, (fun h => by cases h), hlast⟩
    constructor
    · intro _
      rcases hbad with h | h
      · exact Or.inl h
      · exact Or.inr (Or.inl h)
    · intro _ h
      cases h
  · cases h1 : roomsLookup ld.af.Rooms ((L.split line "-").getD 0 "") with
    | none =>
      rw [parseLink_unknown L ld line hbad (Or.inl h1)]
      refine ⟨?_, fun _ => rfl, (fun h => by cases h), hlast⟩
      exact ⟨fun _ => Or.inr (Or.inr (Or.inl rfl)), fun _ h => by cases h⟩
    | some room1 =>
      cases h2 : roomsLookup ld.af.Rooms ((L.split line "-").getD 1 "") with
      | none =>
        rw [parseLink_unknown L ld line hbad (Or.inr h2)]
        refine ⟨?_, fun _ => rfl, (fun h => by cases h), hlast⟩
        exact ⟨fun _ => Or.inr (Or.inr (Or.inr (Or.inl rfl))), fun _ h => by cases h⟩
      | some room2 =>
        rw [parseLink_known L ld line room1 room2 hbad h1 h2]
        by_cases hdup : (roomAt ld.rooms room1).Connected.any
            (fun connected =>
              decide ((roomAt ld.rooms connected).Name = (roomAt ld.rooms room2).Name)) = true
        · rw [if_pos hdup]
          refine ⟨?_, fun _ => rfl, (fun h => by cases h), hlast⟩
          constructor
          · intro _
            obtain ⟨c, hc, hname⟩ := List.any_eq_true.1 hdup
            exact Or.inr (Or.inr (Or.inr (Or.inr
              ⟨room1, room2, c, rfl, rfl, hc, of_decide_eq_true hname⟩)))
          · intro _ h
            cases h
        · rw [if_neg hdup]
          refine ⟨?_, fun h => absurd rfl h, ?_, hlast⟩
          · constructor
            · intro h
              exact absurd rfl h
            · intro h
              exfalso
              rcases h with h | h | h | h | ⟨r1, r2, c, e1, e2, hc, hname⟩
              · exact hbad (Or.inl h)
              · exact hbad (Or.inr h)
              · cases h
              · cases h
              · cases e1
                cases e2
                exact hdup (List.any_eq_true.2 ⟨c, hc, decide_eq_true hname⟩)
          · intro _
            refine ⟨room1, room2, rfl, rfl, rfl, ?_, ?_⟩
            · simp only [length_appendConnected]
            · intro hr1 hr2 hne r
              simp only [roomAt_appendConnected, length_appendConnected]
              have hne' : ¬ room2 = room1 := fun h => hne h.symm
              by_cases ha : r = room1
              · subst ha
                simp [hr1, hne]
              · by_cases hb : r = room2
                · subst hb
                  simp [hr2, hr1, ha, hne']
                · simp [ha, hb]

/-- The four cases of `TestParseLink`: the link of two unlinked rooms is accepted and puts
each room in the other's list; three parts are an invalid format; an unknown name is
refused; and the link is a duplicate when the list of Room1 holds a room named Room2, be
it another room than the one of the map. -/
theorem parseLink_tests :
    (parseLink fixtureText loaderTwoRooms "Room1-Room2").2 = none ∧
    (parseLink fixtureText loaderTwoRooms "Room1-Room2").1.rooms.map (fun r => r.Connected)
      = [[1], [0]] ∧
    (parseLink fixtureText loaderOneRoom "Room1-Room2-Room3").2
      = some ⟨"invalid link format"⟩ ∧
    (parseLink fixtureText loaderOneRoom "Room1-Room2").2
      = some ⟨"link references nonexistent room"⟩ ∧
    (parseLink fixtureText loaderNamesakes "Room1-Room2").2 = some ⟨"duplicate link"⟩ ∧
    (1 : Nat) ∉ (roomAt loaderNamesakes.rooms 0).Connected := by
  decide

/-- The arena after an accepted link between two different rooms of the arena. -/
theorem roomAt_linked (rooms : List Room) (room1 room2 : Nat) (hr1 : room1 < rooms.length)
    (hr2 : room2 < rooms.length) (hne : room1 ≠ room2) (r : Nat) :
    roomAt (appendConnected (appendConnected rooms room1 room2) room2 room1) r
      = if r = room1 then
          { roomAt rooms r with Connected := (roomAt rooms r).Connected ++ [room2] }
        else if r = room2 then
          { roomAt rooms r with Connected := (roomAt rooms r).Connected ++ [room1] }
        else roomAt rooms r := by
  simp only [roomAt_appendConnected, length_appendConnected]
  have hne' : ¬ room2 = room1 := fun h => hne h.symm
  by_cases ha : r = room1
  · subst ha
    simp [hr1, hne]
  · by_cases hb : r = room2
    · subst hb
      simp [hr2, hr1, ha, hne']
    · simp [ha, hb]

/-- What a call of `parseLink` does: it fails and leaves the loader, or it links the two
rooms its parts name, the name of the second being new in the list of the first. -/
theorem parseLink_cases (L : TextLib) (ld : Loader) (line : String) :
    (∃ e, parseLink L ld line = (ld, some e)) ∨
    (∃ room1 room2,
      (L.split line "-").length = 2 ∧
      (L.split line "-").getD 0 "" ≠ (L.split line "-").getD 1 "" ∧
      roomsLookup ld.af.Rooms ((L.split line "-").getD 0 "") = some room1 ∧
      roomsLookup ld.af.Rooms ((L.split line "-").getD 1 "") = some room2 ∧
      (∀ c ∈ (roomAt ld.rooms room1).Connected,
        (roomAt ld.rooms c).Name ≠ (roomAt ld.rooms room2).Name) ∧
      parseLink L ld line
        = ({ ld with
              rooms := appendConnected (appendConnected ld.rooms room1 room2) room2 room1 },
            none)) := by
  by_cases hbad : (L.split line "-").length ≠ 2 ∨
      (L.split line "-").getD 0 "" = (L.split line "-").getD 1 ""
  · exact Or.inl ⟨_, parseLink_malformed L ld line hbad⟩
  · cases h1 : roomsLookup ld.af.Rooms ((L.split line "-").getD 0 "") with
    | none => exact Or.inl ⟨_, parseLink_unknown L ld line hbad (Or.inl h1)⟩
    | some room1 =>
      cases h2 : roomsLookup ld.af.Rooms ((L.split line "-").getD 1 "") with
      | none => exact Or.inl ⟨_, parseLink_unknown L ld line hbad (Or.inr h2)⟩
      | some room2 =>
        have hk := parseLink_known L ld line room1 room2 hbad h1 h2
        by_cases hdup : (roomAt ld.rooms room1).Connected.any
            (fun connected =>
              decide ((roomAt ld.rooms connected).Name = (roomAt ld.rooms room2).Name)) = true
        · rw [if_pos hdup] at hk
          exact Or.inl ⟨_, hk⟩
        · rw [if_neg hdup] at hk
          right
          refine ⟨room1, room2, ?_, ?_, rfl, rfl, ?_, hk⟩
          · by_contra h
            exact hbad (Or.inl h)
          · intro h
            exact hbad (Or.inr h)
          · intro c hc hname
            exact hdup (List.any_eq_true.2 ⟨c, hc, decide_eq_true hname⟩)

/-- A call of `parseLink` keeps the graph of the loader, changes no farm field and removes
no room from a `Connected` list; when it is accepted, the second room is in the list of the
first. -/
theorem parseLink_linked (L : TextLib) (ld : Loader) (line : String)
    (h : LinkedRooms ld) :
    LinkedRooms (parseLink L ld line).1 ∧ (parseLink L ld line).1.af = ld.af ∧
    (∀ a b, b ∈ (roomAt ld.rooms a).Connected →
      b ∈ (roomAt (parseLink L ld line).1.rooms a).Connected) ∧
    ((parseLink L ld line).2 = none →
      ∃ room1 room2,
        (L.split line "-").length = 2 ∧
        (L.split line "-").getD 0 "" ≠ (L.split line "-").getD 1 "" ∧
        roomsLookup ld.af.Rooms ((L.split line "-").getD 0 "") = some room1 ∧
        roomsLookup ld.af.Rooms ((L.split line "-").getD 1 "") = some room2 ∧
        room2 ∈ (roomAt (parseLink L ld line).1.rooms room1).Connected) := by
  rcases parseLink_cases L ld line with ⟨e, he⟩ | ⟨room1, room2, hlen, hparts, h1, h2, hnew, hk⟩
  · rw [he]
    exact ⟨h, rfl, fun _ _ hb => hb, fun hn => by cases hn⟩
  · rw [hk]
    obtain ⟨hr1, hn1⟩ := h.registered _ _ h1
    obtain ⟨hr2, hn2⟩ := h.registered _ _ h2
    have hne : room1 ≠ room2 := by
      intro heq
      apply hparts
      rw [← hn1, ← hn2, heq]
    have hat := roomAt_linked ld.rooms room1 room2 hr1 hr2 hne
    have hmem : ∀ a b,
        b ∈ (roomAt (appendConnected (appendConnected ld.rooms room1 room2) room2 room1)
          a).Connected
          ↔ (b ∈ (roomAt ld.rooms a).Connected ∨ (a = room1 ∧ b = room2) ∨
              (a = room2 ∧ b = room1)) := by
      intro a b
      rw [hat a]
      by_cases ha : a = room1
      · subst ha
        simp [hne]
      · by_cases hb : a = room2
        · subst hb
          simp [ha]
        · simp [ha, hb]
    have hname : ∀ a,
        (roomAt (appendConnected (appendConnected ld.rooms room1 room2) room2 room1) a).Name
          = (roomAt ld.rooms a).Name := by
      intro a
      rw [hat a]
      by_cases ha : a = room1
      · simp [ha]
      · by_cases hb : a = room2
        · subst hb
          simp [ha]
        · simp [ha, hb]
    have hfresh : room2 ∉ (roomAt ld.rooms room1).Connected := by
      intro hin
      exact hnew room2 hin rfl
    have hfresh' : room1 ∉ (roomAt ld.rooms room2).Connected := by
      intro hin
      exact hfresh ((h.symmetric room1 room2).2 hin)
    refine ⟨⟨?_, ?_, ?_, ?_, ?_⟩, rfl, ?_, ?_⟩
    · intro k r hkr
      obtain ⟨hlt, hnm⟩ := h.registered k r hkr
      exact ⟨by simp only [length_appendConnected]; exact hlt, by rw [hname r]; exact hnm⟩
    · intro a b hb
      rcases (hmem a b).1 hb with hold | ⟨_, hb2⟩ | ⟨_, hb1⟩
      · exact h.known a b hold
      · exact ⟨_, hb2 ▸ h2⟩
      · exact ⟨_, hb1 ▸ h1⟩
    · intro a b
      rw [hmem a b, hmem b a, h.symmetric a b]
      constructor
      · rintro (hx | ⟨hx, hy⟩ | ⟨hx, hy⟩)
        · exact Or.inl hx
        · exact Or.inr (Or.inr ⟨hy, hx⟩)
        · exact Or.inr (Or.inl ⟨hy, hx⟩)
      · rintro (hx | ⟨hx, hy⟩ | ⟨hx, hy⟩)
        · exact Or.inl hx
        · exact Or.inr (Or.inr ⟨hy, hx⟩)
        · exact Or.inr (Or.inl ⟨hy, hx⟩)
    · intro a ha
      rcases (hmem a a).1 ha with hold | ⟨hx, hy⟩ | ⟨hx, hy⟩
      · exact h.loopless a hold
      · exact hne (hx.symm.trans hy)
      · exact hne (hy.symm.trans hx)
    · intro a
      rw [hat a]
      by_cases ha : a = room1
      · subst ha
        simp only [if_true]
        exact List.Nodup.append (h.simple a) (List.nodup_singleton _)
          (by
            intro x hx hx'
            rw [List.mem_singleton] at hx'
            exact hfresh (hx' ▸ hx))
      · by_cases hb : a = room2
        · subst hb
          simp only [ha, if_false, if_true]
          exact List.Nodup.append (h.simple a) (List.nodup_singleton _)
            (by
              intro x hx hx'
              rw [List.mem_singleton] at hx'
              exact hfresh' (hx' ▸ hx))
        · simp only [ha, hb, if_false]
          exact h.simple a
    · intro a b hb
      exact (hmem a b).2 (Or.inl hb)
    · intro _
      exact ⟨room1, room2, hlen, hparts, h1, h2, (hmem room1 room2).2 (Or.inr (Or.inl ⟨rfl, rfl⟩))⟩

/-- Any sequence of calls of `parseLink` keeps the graph of the loader. -/
theorem linkAll_linked (L : TextLib) :
    ∀ (lines : List String) (ld : Loader), LinkedRooms ld →
      LinkedRooms (linkAll L ld lines) ∧ (linkAll L ld lines).af = ld.af ∧
      (∀ a b, b ∈ (roomAt ld.rooms a).Connected →
        b ∈ (roomAt (linkAll L ld lines).rooms a).Connected) := by
  intro lines
  induction lines with
  | nil => intro ld h; exact ⟨h, rfl, fun _ _ hb => hb⟩
  | cons line rest ih =>
    intro ld h
    obtain ⟨h1, haf, hmono, _⟩ := parseLink_linked L ld line h
    obtain ⟨h2, haf2, hmono2⟩ := ih (parseLink L ld line).1 h1
    unfold linkAll at h2 haf2 hmono2 ⊢
    rw [List.foldl_cons]
    exact ⟨h2, haf2.trans haf, fun a b hb => hmono2 a b (hmono a b hb)⟩

/-- C26: from a loader whose map holds every room under its name and whose `Connected`
lists are empty, any sequence of calls of `parseLink`, accepted or not, leaves an adjacency
that is symmetric, without a room in its own list and without a room twice in a list; and
once a link of the parts `x`, `y` was accepted, a link of the parts `y`, `x` is refused as
"duplicate link", also after further calls. -/
theorem links_keep_graph (L : TextLib) (ld : Loader) (lines : List String)
    (hreg : ∀ k r, roomsLookup ld.af.Rooms k = some r →
      r < ld.rooms.length ∧ (roomAt ld.rooms r).Name = k)
    (hempty : ∀ r, (roomAt ld.rooms r).Connected = []) :
    (∀ a b, b ∈ (roomAt (linkAll L ld lines).rooms a).Connected
      ↔ a ∈ (roomAt (linkAll L ld lines).rooms b).Connected) ∧
    (∀ a, a ∉ (roomAt (linkAll L ld lines).rooms a).Connected) ∧
    (∀ a, (roomAt (linkAll L ld lines).rooms a).Connected.Nodup) ∧
    (∀ (ab ba x y : String) (more : List String),
      L.split ab "-" = [x, y] → L.split ba "-" = [y, x] →
      (parseLink L (linkAll L ld lines) ab).2 = none →
      (parseLink L (linkAll L (parseLink L (linkAll L ld lines) ab).1 more) ba).2
        = some ⟨"duplicate link"⟩) := by
  have h0 : LinkedRooms ld := by
    refine ⟨hreg, ?_, ?_, ?_, ?_⟩
    · intro a b hb
      rw [hempty a] at hb
      cases hb
    · intro a b
      rw [hempty a, hempty b]
      simp
    · intro a ha
      rw [hempty a] at ha
      cases ha
    · intro a
      rw [hempty a]
      exact List.nodup_nil
  obtain ⟨h1, haf1, _⟩ := linkAll_linked L lines ld h0
  refine ⟨h1.symmetric, h1.loopless, h1.simple, ?_⟩
  intro ab ba x y more hab hba hok
  obtain ⟨h2, haf2, _, hacc⟩ := parseLink_linked L (linkAll L ld lines) ab h1
  obtain ⟨room1, room2, _, hparts, hl1, hl2, hin⟩ := hacc hok
  obtain ⟨h3, haf3, hmono3⟩ := linkAll_linked L more _ h2
  have hin3 := hmono3 room1 room2 hin
  have hsym := (h3.symmetric room1 room2).1 hin3
  rw [hab] at hparts hl1 hl2
  simp only [List.getD_cons_zero, List.getD_cons_succ] at hparts hl1 hl2
  have hbad : ¬ ((L.split ba "-").length ≠ 2 ∨
      (L.split ba "-").getD 0 "" = (L.split ba "-").getD 1 "") := by
    rw [hba]
    simp only [List.length_cons, List.length_nil, List.getD_cons_zero, List.getD_cons_succ]
    intro h
    rcases h with h | h
    · exact h rfl
    · exact hparts h.symm
  have hk := parseLink_known L (linkAll L (parseLink L (linkAll L ld lines) ab).1 more) ba
    room2 room1 hbad
    (by rw [hba, haf3, haf2]; simpa using hl2)
    (by rw [hba, haf3, haf2]; simpa using hl1)
  rw [hk, if_pos (List.any_eq_true.2 ⟨room1, hsym, decide_eq_true rfl⟩)]

theorem loaderTwoRooms_registered :
    ∀ k r, roomsLookup loaderTwoRooms.af.Rooms k = some r →
      r < loaderTwoRooms.rooms.length ∧ (roomAt loaderTwoRooms.rooms r).Name = k := by
  intro k r h
  simp only [loaderTwoRooms, roomsLookup] at h
  by_cases h1 : "Room1" = k
  · rw [if_pos h1] at h
    cases h
    exact ⟨by decide, h1⟩
  · rw [if_neg h1] at h
    by_cases h2 : "Room2" = k
    · rw [if_pos h2] at h
      cases h
      exact ⟨by decide, h2⟩
    · rw [if_neg h2] at h
      cases h

theorem loaderTwoRooms_unlinked : ∀ r, (roomAt loaderTwoRooms.rooms r).Connected = [] := by
  intro r
  match r with
  | 0 => rfl
  | 1 => rfl
  | n + 2 => rfl

theorem links_keep_graph_witness :
    (∀ k r, roomsLookup loaderTwoRooms.af.Rooms k = some r →
      r < loaderTwoRooms.rooms.length ∧ (roomAt loaderTwoRooms.rooms r).Name = k) ∧
    (∀ r, (roomAt loaderTwoRooms.rooms r).Connected = []) ∧
    (∀ a b, b ∈ (roomAt (linkAll fixtureText loaderTwoRooms ["Room1-Room2"]).rooms
        a).Connected
      ↔ a ∈ (roomAt (linkAll fixtureText loaderTwoRooms ["Room1-Room2"]).rooms
        b).Connected) ∧
    (∀ a, a ∉ (roomAt (linkAll fixtureText loaderTwoRooms ["Room1-Room2"]).rooms
      a).Connected) ∧
    (∀ a, (roomAt (linkAll fixtureText loaderTwoRooms ["Room1-Room2"]).rooms
      a).Connected.Nodup) ∧
    (∀ (ab ba x y : String) (more : List String),
      fixtureText.split ab "-" = [x, y] → fixtureText.split ba "-" = [y, x] →
      (parseLink fixtureText (linkAll fixtureText loaderTwoRooms ["Room1-Room2"]) ab).2
        = none →
      (parseLink fixtureText
        (linkAll fixtureText
          (parseLink fixtureText (linkAll fixtureText loaderTwoRooms ["Room1-Room2"]) ab).1
          more) ba).2
        = some ⟨"duplicate link"⟩) :=
  ⟨loaderTwoRooms_registered, loaderTwoRooms_unlinked,
    links_keep_graph fixtureText loaderTwoRooms ["Room1-Room2"] loaderTwoRooms_registered
      loaderTwoRooms_unlinked⟩

/-- On the two rooms of `TestParseLink`, the link "Room1-Room2" is accepted and the link
"Room2-Room1" is then refused as a duplicate. -/
theorem reverse_link_refused :
    (parseLink fixtureText loaderTwoRooms "Room1-Room2").2 = none ∧
    (parseLink fixtureText (parseLink fixtureText loaderTwoRooms "Room1-Room2").1
      "Room2-Room1").2 = some ⟨"duplicate link"⟩ := by
  decide

/-! ## The loader: one start room and one end room -/

theorem roomsLookup_roomsStore (m : List (String × Nat)) (k : String) (v : Nat)
    (k' : String) :
    roomsLookup (roomsStore m k v) k' = if k = k' then some v else roomsLookup m k' := by
  induction m with
  | nil => simp [roomsStore, roomsLookup]
  | cons e t ih =>
    unfold roomsStore
    by_cases he : e.1 = k
    · rw [if_pos he]
      simp only [roomsLookup]
      by_cases hk : k = k'
      · simp [hk]
      · have : ¬ e.1 = k' := fun h => hk (he.symm.trans h)
        simp [hk, this]
    · rw [if_neg he]
      simp only [roomsLookup, ih]
      by_cases hk : k = k'
      · have : ¬ e.1 = k' := fun h => he (h.trans hk.symm)
        simp [hk, this]
      · simp [hk]

theorem roomAt_append_old (rooms : List Room) (x : Room) (r : Nat) (h : r < rooms.length) :
    roomAt (rooms ++ [x]) r = roomAt rooms r := by
  unfold roomAt
  rw [List.getD_eq_getElem?_getD, List.getD_eq_getElem?_getD, List.getElem?_append_left h]

theorem roomAt_append_new (rooms : List Room) (x : Room) :
    roomAt (rooms ++ [x]) rooms.length = x := by
  unfold roomAt
  rw [List.getD_eq_getElem?_getD]
  simp

/-- What `parseRoomDefinition` does: it fails and leaves the loader, or it allocates a room
whose name is not a key of the map and whose flags are those of the parser state. -/
theorem parseRoomDefinition_cases (L : TextLib) (ld : Loader) (line : String)
    (state : ParserState) :
    (∃ e, parseRoomDefinition L ld line state = (ld, .error e)) ∨
    (∃ name x y, roomsLookup ld.af.Rooms name = none ∧
      parseRoomDefinition L ld line state
        = ({ ld with rooms := ld.rooms ++
              [⟨name, x, y, state.expectStart, state.expectEnd, []⟩] },
            .ok ld.rooms.length)) := by
  unfold parseRoomDefinition
  by_cases h3 : (L.fields line).length ≠ 3
  · left
    rw [if_pos h3]
    exact ⟨_, rfl⟩
  · rw [if_neg h3]
    by_cases hsome : (roomsLookup ld.af.Rooms ((L.fields line).getD 0 "")).isSome = true
    · left
      rw [if_pos hsome]
      exact ⟨_, rfl⟩
    · rw [if_neg hsome]
      have hl : roomsLookup ld.af.Rooms ((L.fields line).getD 0 "") = none := by
        cases hl : roomsLookup ld.af.Rooms ((L.fields line).getD 0 "") with
        | none => rfl
        | some r => rw [hl] at hsome; exact absurd rfl hsome
      cases hx : L.atoi ((L.fields line).getD 1 "") with
      | none => exact Or.inl ⟨_, rfl⟩
      | some x =>
        cases hy : L.atoi ((L.fields line).getD 2 "") with
        | none => exact Or.inl ⟨_, rfl⟩
        | some y => exact Or.inr ⟨_, x, y, hl, rfl⟩

/-- What an accepted `addRoom` leaves, for a room allocated at the end of the arena. -/
theorem addRoom_new_form (ld : Loader) (x : Room)
    (hok : (addRoom { ld with rooms := ld.rooms ++ [x] } ld.rooms.length).2 = none) :
    (x.IsStart = true → ld.af.Start = none) ∧ (x.IsEnd = true → ld.af.End = none) ∧
    (addRoom { ld with rooms := ld.rooms ++ [x] } ld.rooms.length).1
      = { rooms := ld.rooms ++ [x]
          af := { NumAnts := ld.af.NumAnts, Ants := ld.af.Ants
                  Rooms := roomsStore ld.af.Rooms x.Name ld.rooms.length
                  Start := if x.IsStart = true then some ld.rooms.length else ld.af.Start
                  End := if x.IsEnd = true then some ld.rooms.length else ld.af.End } } := by
  unfold addRoom at hok ⊢
  simp only [roomAt_append_new] at hok ⊢
  by_cases hs : x.IsStart = true
  · by_cases hS : ld.af.Start = none
    · by_cases he : x.IsEnd = true
      · by_cases hE : ld.af.End = none
        · simp [hs, hS, he, hE]
        · simp [hs, hS, he, hE] at hok
      · simp [hs, hS, he]
    · simp [hs, hS] at hok
  · by_cases he : x.IsEnd = true
    · by_cases hE : ld.af.End = none
      · simp [hs, he, hE]
      · simp [hs, he, hE] at hok
    · simp [hs, he]

/-- An accepted `addRoom` of a newly allocated room with a new name keeps the flags of the
loader. -/
theorem addRoom_new_flagged (ld : Loader) (x : Room) (h : FlaggedRooms ld)
    (hname : roomsLookup ld.af.Rooms x.Name = none)
    (hok : (addRoom { ld with rooms := ld.rooms ++ [x] } ld.rooms.length).2 = none) :
    FlaggedRooms (addRoom { ld with rooms := ld.rooms ++ [x] } ld.rooms.length).1 := by
  obtain ⟨hS, hE, hform⟩ := addRoom_new_form ld x hok
  rw [hform]
  have hlook : ∀ k r, roomsLookup (roomsStore ld.af.Rooms x.Name ld.rooms.length) k = some r →
      (k = x.Name ∧ r = ld.rooms.length) ∨
        (roomsLookup ld.af.Rooms k = some r ∧ r < ld.rooms.length) := by
    intro k r hkr
    rw [roomsLookup_roomsStore] at hkr
    by_cases hk : x.Name = k
    · rw [if_pos hk] at hkr
      exact Or.inl ⟨hk.symm, (Option.some.inj hkr).symm⟩
    · rw [if_neg hk] at hkr
      exact Or.inr ⟨hkr, h.registered k r hkr⟩
  have hkeep : ∀ k r, roomsLookup ld.af.Rooms k = some r →
      roomsLookup (roomsStore ld.af.Rooms x.Name ld.rooms.length) k = some r := by
    intro k r hkr
    rw [roomsLookup_roomsStore]
    have hk : ¬ x.Name = k := by
      intro hk
      rw [← hk, hname] at hkr
      cases hkr
    rw [if_neg hk]
    exact hkr
  have hself : roomsLookup (roomsStore ld.af.Rooms x.Name ld.rooms.length) x.Name
      = some ld.rooms.length := by
    rw [roomsLookup_roomsStore, if_pos rfl]
  refine ⟨?_, ?_, ?_, ?_, ?_, ?_⟩
  · intro k r hkr
    simp only [List.length_append, List.length_singleton]
    rcases hlook k r hkr with ⟨_, hr⟩ | ⟨_, hr⟩
    · omega
    · omega
  · intro r hr
    simp only [List.length_append, List.length_singleton] at hr
    by_cases hlt : r < ld.rooms.length
    · obtain ⟨k, hk⟩ := h.all_known r hlt
      exact ⟨k, hkeep k r hk⟩
    · have : r = ld.rooms.length := by omega
      exact ⟨x.Name, this ▸ hself⟩
  · intro s hs
    simp only at hs
    by_cases hx : x.IsStart = true
    · rw [if_pos hx] at hs
      cases hs
      exact ⟨⟨x.Name, hself⟩, by rw [roomAt_append_new]; exact hx⟩
    · rw [if_neg hx] at hs
      obtain ⟨⟨k, hk⟩, hflag⟩ := h.start_known s hs
      refine ⟨⟨k, hkeep k s hk⟩, ?_⟩
      rw [roomAt_append_old _ _ _ (h.registered k s hk)]
      exact hflag
  · intro k r hkr hflag
    simp only at hkr hflag ⊢
    rcases hlook k r hkr with ⟨_, hr⟩ | ⟨hold, hr⟩
    · rw [hr, roomAt_append_new] at hflag
      rw [if_pos hflag, hr]
    · rw [roomAt_append_old _ _ _ hr] at hflag
      have hstart := h.start_only k r hold hflag
      by_cases hx : x.IsStart = true
      · rw [hS hx] at hstart
        cases hstart
      · rw [if_neg hx]
        exact hstart
  · intro e he
    simp only at he
    by_cases hx : x.IsEnd = true
    · rw [if_pos hx] at he
      cases he
      exact ⟨⟨x.Name, hself⟩, by rw [roomAt_append_new]; exact hx⟩
    · rw [if_neg hx] at he
      obtain ⟨⟨k, hk⟩, hflag⟩ := h.end_known e he
      refine ⟨⟨k, hkeep k e hk⟩, ?_⟩
      rw [roomAt_append_old _ _ _ (h.registered k e hk)]
      exact hflag
  · intro k r hkr hflag
    simp only at hkr hflag ⊢
    rcases hlook k r hkr with ⟨_, hr⟩ | ⟨hold, hr⟩
    · rw [hr, roomAt_append_new] at hflag
      rw [if_pos hflag, hr]
    · rw [roomAt_append_old _ _ _ hr] at hflag
      have hend := h.end_only k r hold hflag
      by_cases hx : x.IsEnd = true
      · rw [hE hx] at hend
        cases hend
      · rw [if_neg hx]
        exact hend

theorem parseRoom_flagged (L : TextLib) (ld : Loader) (line : String) (state : ParserState)
    (h : FlaggedRooms ld) (hok : (parseRoom L ld line state).2 = none) :
    FlaggedRooms (parseRoom L ld line state).1 := by
  unfold parseRoom at hok ⊢
  rcases parseRoomDefinition_cases L ld line state with ⟨e, he⟩ | ⟨name, x, y, hname, hdef⟩
  · rw [he] at hok
    cases hok
  · rw [hdef] at hok ⊢
    exact addRoom_new_flagged ld _ h hname hok

theorem parseLink_flagged (L : TextLib) (ld : Loader) (line : String)
    (h : FlaggedRooms ld) : FlaggedRooms (parseLink L ld line).1 := by
  rcases parseLink_cases L ld line with ⟨e, he⟩ | ⟨room1, room2, _, _, _, _, _, hk⟩
  · rw [he]
    exact h
  · rw [hk]
    have hflag : ∀ r,
        (roomAt (appendConnected (appendConnected ld.rooms room1 room2) room2 room1)
            r).IsStart = (roomAt ld.rooms r).IsStart ∧
        (roomAt (appendConnected (appendConnected ld.rooms room1 room2) room2 room1)
            r).IsEnd = (roomAt ld.rooms r).IsEnd := by
      intro r
      simp only [roomAt_appendConnected, length_appendConnected]
      by_cases h2 : r = room2 ∧ room2 < ld.rooms.length
      · rw [if_pos h2]
        by_cases h1 : room2 = room1 ∧ room1 < ld.rooms.length
        · rw [if_pos h1, h2.1, h1.1]
          exact ⟨rfl, rfl⟩
        · rw [if_neg h1, h2.1]
          exact ⟨rfl, rfl⟩
      · rw [if_neg h2]
        by_cases h1 : r = room1 ∧ room1 < ld.rooms.length
        · rw [if_pos h1, h1.1]
          exact ⟨rfl, rfl⟩
        · rw [if_neg h1]
          exact ⟨rfl, rfl⟩
    refine ⟨?_, ?_, ?_, ?_, ?_, ?_⟩
    · intro k r hkr
      simp only [length_appendConnected]
      exact h.registered k r hkr
    · intro r hr
      simp only [length_appendConnected] at hr
      exact h.all_known r hr
    · intro s hs
      exact ⟨(h.start_known s hs).1, by rw [(hflag s).1]; exact (h.start_known s hs).2⟩
    · intro k r hkr hf
      rw [(hflag r).1] at hf
      exact h.start_only k r hkr hf
    · intro e he
      exact ⟨(h.end_known e he).1, by rw [(hflag e).2]; exact (h.end_known e he).2⟩
    · intro k r hkr hf
      rw [(hflag r).2] at hf
      exact h.end_only k r hkr hf

theorem parseLine_flagged (L : TextLib) (ld : Loader) (line : String) (state : ParserState)
    (h : FlaggedRooms ld) (hok : (parseLine L ld line state).2.2 = none) :
    FlaggedRooms (parseLine L ld line state).1 := by
  unfold parseLine at hok ⊢
  by_cases hc : L.contains line "-" = true
  · rw [if_pos hc]
    exact parseLink_flagged L ld line h
  · rw [if_neg hc] at hok ⊢
    by_cases hp : (!state.parsingLinks) = true
    · rw [if_pos hp] at hok ⊢
      exact parseRoom_flagged L ld line state h hok
    · rw [if_neg hp]
      exact h

theorem scanLoop_flagged (L : TextLib) :
    ∀ (lines : List String) (ld : Loader) (state : ParserState), FlaggedRooms ld →
      (scanLoop L lines ld state).2.2 = none → FlaggedRooms (scanLoop L lines ld state).1 := by
  intro lines
  induction lines with
  | nil => intro ld state h _; exact h
  | cons raw rest ih =>
    intro ld state h hok
    unfold scanLoop at hok ⊢
    cases hsc : (scanStep state (raw :: rest)).1 with
    | none => exact h
    | some line =>
      rw [hsc] at hok
      dsimp only at hok ⊢
      by_cases hempty : line = ""
      · rw [if_pos hempty] at hok ⊢
        exact ih ld _ h hok
      · rw [if_neg hempty] at hok ⊢
        by_cases hcom : L.startsWith line "#" = true
        · rw [if_pos hcom] at hok ⊢
          exact ih ld _ h hok
        · rw [if_neg hcom] at hok ⊢
          cases hpl : parseLine L ld line (scanStep state (raw :: rest)).2 with
          | mk ld1 r1 =>
            cases r1 with
            | mk state1 e =>
              cases e with
              | some err =>
                rw [hpl] at hok
                cases hok
              | none =>
                rw [hpl] at hok
                have h1 : FlaggedRooms ld1 := by
                  have := parseLine_flagged L ld line (scanStep state (raw :: rest)).2 h
                    (by rw [hpl])
                  rw [hpl] at this
                  exact this
                exact ih ld1 _ h1 hok

theorem newLoader_flagged : FlaggedRooms newLoader :=
  ⟨fun k r h => by simp [newLoader, NewAntFarm, roomsLookup] at h,
    fun r h => by simp [newLoader] at h,
    fun s h => by simp [newLoader, NewAntFarm] at h,
    fun k r h => by simp [newLoader, NewAntFarm, roomsLookup] at h,
    fun e h => by simp [newLoader, NewAntFarm] at h,
    fun k r h => by simp [newLoader, NewAntFarm, roomsLookup] at h⟩

/-- C27: when `parseRoomsAndLinks`, run on the farm of `NewAntFarm`, and `validate` return
no error, `Start` and `End` are set, the start room is the one room of `af.Rooms` flagged
`IsStart` and the end room the one room flagged `IsEnd`, and no other room of the arena
carries either flag. For any loader, `addRoom` refuses a room flagged start when `Start` is
set and a room flagged end when `End` is set, and `validate` fails when `Start` or `End` is
nil. -/
theorem loader_flags (L : TextLib) (state : ParserState)
    (hok : (parseRoomsAndLinks L newLoader state).2.2 = none)
    (hval : validate (parseRoomsAndLinks L newLoader state).1.af = none) :
    (∃ s e, (parseRoomsAndLinks L newLoader state).1.af.Start = some s ∧
      (parseRoomsAndLinks L newLoader state).1.af.End = some e ∧
      (∀ r, ((∃ k, roomsLookup (parseRoomsAndLinks L newLoader state).1.af.Rooms k = some r) ∧
          (roomAt (parseRoomsAndLinks L newLoader state).1.rooms r).IsStart = true)
        ↔ r = s) ∧
      (∀ r, ((∃ k, roomsLookup (parseRoomsAndLinks L newLoader state).1.af.Rooms k = some r) ∧
          (roomAt (parseRoomsAndLinks L newLoader state).1.rooms r).IsEnd = true)
        ↔ r = e) ∧
      (∀ r, (roomAt (parseRoomsAndLinks L newLoader state).1.rooms r).IsStart = true
        ↔ r = s) ∧
      (∀ r, (roomAt (parseRoomsAndLinks L newLoader state).1.rooms r).IsEnd = true
        ↔ r = e)) ∧
    (∀ (ld : Loader) (room : Nat), (roomAt ld.rooms room).IsStart = true →
      ld.af.Start ≠ none → (addRoom ld room).2 = some ⟨"multiple start rooms defined"⟩) ∧
    (∀ (ld : Loader) (room : Nat), (roomAt ld.rooms room).IsEnd = true →
      ld.af.End ≠ none →
      (addRoom ld room).2 = some ⟨"multiple start rooms defined"⟩ ∨
        (addRoom ld room).2 = some ⟨"multiple end rooms defined"⟩) ∧
    (∀ af : AntFarm, af.Start = none ∨ af.End = none → validate af ≠ none) := by
  have hflag := scanLoop_flagged L state.scanner.lines newLoader state newLoader_flagged
    ((parseRoomsAndLinks_ok L newLoader state).1 hok).1
  refine ⟨?_, ?_, ?_, ?_⟩
  · unfold parseRoomsAndLinks at hval ⊢
    unfold validate at hval
    cases hs : (scanLoop L state.scanner.lines newLoader state).1.af.Start with
    | none => simp [hs] at hval
    | some s =>
      cases he : (scanLoop L state.scanner.lines newLoader state).1.af.End with
      | none => simp [hs, he] at hval
      | some e =>
        have harena : ∀ (flag : Room → Bool) (t : Nat),
            (∀ k r, roomsLookup (scanLoop L state.scanner.lines newLoader state).1.af.Rooms k
                = some r →
              flag (roomAt (scanLoop L state.scanner.lines newLoader state).1.rooms r) = true →
              r = t) →
            flag default = false →
            ∀ r, flag (roomAt (scanLoop L state.scanner.lines newLoader state).1.rooms r) = true →
              r = t := by
          intro flag t honly hdef r hr
          by_cases hlt : r < (scanLoop L state.scanner.lines newLoader state).1.rooms.length
          · obtain ⟨k, hk⟩ := hflag.all_known r hlt
            exact honly k r hk hr
          · have hd : roomAt (scanLoop L state.scanner.lines newLoader state).1.rooms r
                = default := by
              unfold roomAt
              rw [List.getD_eq_getElem?_getD, List.getElem?_eq_none (by omega)]
              rfl
            rw [hd, hdef] at hr
            cases hr
        have hsonly : ∀ k r,
            roomsLookup (scanLoop L state.scanner.lines newLoader state).1.af.Rooms k = some r →
            (roomAt (scanLoop L state.scanner.lines newLoader state).1.rooms r).IsStart = true →
            r = s := by
          intro k r hk hr
          have := hflag.start_only k r hk hr
          rw [hs] at this
          exact (Option.some.inj this).symm
        have heonly : ∀ k r,
            roomsLookup (scanLoop L state.scanner.lines newLoader state).1.af.Rooms k = some r →
            (roomAt (scanLoop L state.scanner.lines newLoader state).1.rooms r).IsEnd = true →
            r = e := by
          intro k r hk hr
          have := hflag.end_only k r hk hr
          rw [he] at this
          exact (Option.some.inj this).symm
        refine ⟨s, e, rfl, rfl, ?_, ?_, ?_, ?_⟩
        · intro r
          constructor
          · rintro ⟨⟨k, hk⟩, hr⟩
            exact hsonly k r hk hr
          · intro hr
            rw [hr]
            exact hflag.start_known s hs
        · intro r
          constructor
          · rintro ⟨⟨k, hk⟩, hr⟩
            exact heonly k r hk hr
          · intro hr
            rw [hr]
            exact hflag.end_known e he
        · intro r
          constructor
          · exact harena (fun x => x.IsStart) s hsonly rfl r
          · intro hr
            rw [hr]
            exact (hflag.start_known s hs).2
        · intro r
          constructor
          · exact harena (fun x => x.IsEnd) e heonly rfl r
          · intro hr
            rw [hr]
            exact (hflag.end_known e he).2
  · intro ld room hs hS
    unfold addRoom
    simp only [hs, hS, true_and, ne_eq, not_false_eq_true, if_true]
  · intro ld room he hE
    unfold addRoom
    by_cases hs : (roomAt ld.rooms room).IsStart = true ∧ ld.af.Start ≠ none
    · left
      rw [if_pos hs]
    · right
      rw [if_neg hs]
      by_cases hst : (roomAt ld.rooms room).IsStart = true
      · simp [hst, he, hE]
      · simp [hst, he, hE]
  · intro af h
    unfold validate
    rcases h with h | h
    · simp [h]
    · by_cases hs : af.Start = none
      · simp [hs]
      · simp [hs, h]

theorem loader_flags_witness :
    (parseRoomsAndLinks fixtureText newLoader
      (scanOf ["##start", "Room1 0 0", "##end", "Room2 1 1", "Room1-Room2"])).2.2 = none ∧
    validate (parseRoomsAndLinks fixtureText newLoader
      (scanOf ["##start", "Room1 0 0", "##end", "Room2 1 1", "Room1-Room2"])).1.af = none ∧
    ((∃ s e, (parseRoomsAndLinks fixtureText newLoader
        (scanOf ["##start", "Room1 0 0", "##end", "Room2 1 1", "Room1-Room2"])).1.af.Start
          = some s ∧
      (parseRoomsAndLinks fixtureText newLoader
        (scanOf ["##start", "Room1 0 0", "##end", "Room2 1 1", "Room1-Room2"])).1.af.End
          = some e ∧
      (∀ r, ((∃ k, roomsLookup (parseRoomsAndLinks fixtureText newLoader
            (scanOf ["##start", "Room1 0 0", "##end", "Room2 1 1",
              "Room1-Room2"])).1.af.Rooms k = some r) ∧
          (roomAt (parseRoomsAndLinks fixtureText newLoader
            (scanOf ["##start", "Room1 0 0", "##end", "Room2 1 1",
              "Room1-Room2"])).1.rooms r).IsStart = true)
        ↔ r = s) ∧
      (∀ r, ((∃ k, roomsLookup (parseRoomsAndLinks fixtureText newLoader
            (scanOf ["##start", "Room1 0 0", "##end", "Room2 1 1",
              "Room1-Room2"])).1.af.Rooms k = some r) ∧
          (roomAt (parseRoomsAndLinks fixtureText newLoader
            (scanOf ["##start", "Room1 0 0", "##end", "Room2 1 1",
              "Room1-Room2"])).1.rooms r).IsEnd = true)
        ↔ r = e) ∧
      (∀ r, (roomAt (parseRoomsAndLinks fixtureText newLoader
          (scanOf ["##start", "Room1 0 0", "##end", "Room2 1 1",
            "Room1-Room2"])).1.rooms r).IsStart = true
        ↔ r = s) ∧
      (∀ r, (roomAt (parseRoomsAndLinks fixtureText newLoader
          (scanOf ["##start", "Room1 0 0", "##end", "Room2 1 1",
            "Room1-Room2"])).1.rooms r).IsEnd = true
        ↔ r = e)) ∧
    (∀ (ld : Loader) (room : Nat), (roomAt ld.rooms room).IsStart = true →
      ld.af.Start ≠ none → (addRoom ld room).2 = some ⟨"multiple start rooms defined"⟩) ∧
    (∀ (ld : Loader) (room : Nat), (roomAt ld.rooms room).IsEnd = true →
      ld.af.End ≠ none →
      (addRoom ld room).2 = some ⟨"multiple start rooms defined"⟩ ∨
        (addRoom ld room).2 = some ⟨"multiple end rooms defined"⟩) ∧
    (∀ af : AntFarm, af.Start = none ∨ af.End = none → validate af ≠ none)) :=
  ⟨by decide, by decide,
    loader_flags fixtureText
      (scanOf ["##start", "Room1 0 0", "##end", "Room2 1 1", "Room1-Room2"])
      (by decide) (by decide)⟩

/-! ## The selection: not a maximum, but maximal -/

/-- C32: on the input `pathsBlocked`, which is in ascending `Length`,
`filterNonOverlappingPaths` returns two paths, although the three paths of `longRoutes` are
paths of the input, in input order, that share no interior room: the result has fewer
paths than the largest sub-collection without a shared interior room. -/
theorem filter_misses_maximum :
    pathsBlocked.Pairwise (fun a b => a.Length ≤ b.Length) ∧
    filterNonOverlappingPaths roomsBlocked pathsBlocked
      = [recordPath [0, 2, 5, 1], recordPath [0, 8, 9, 10, 1]] ∧
    List.Sublist longRoutes pathsBlocked ∧
    longRoutes.Pairwise
      (fun x y => ∀ nm ∈ middleNames roomsBlocked x, nm ∉ middleNames roomsBlocked y) ∧
    (filterNonOverlappingPaths roomsBlocked pathsBlocked).length < longRoutes.length ∧
    ∀ s, s < pathsBlocked.length → (cand roomsBlocked pathsBlocked s).length = 2 := by
  refine ⟨by decide, by decide, by decide, by decide, by decide, by decide⟩

/-- The loop over the seeds returns the first best, or the combination of a seed. -/
theorem best_fold_cases (rooms : List Room) (paths : List Path) :
    ∀ (l : List (Nat × Path)) (best : List Path × Nat),
      ((l.foldl
          (fun (best : List Path × Nat) (sp : Nat × Path) =>
            let currentCombination := growCombination rooms paths sp.1 sp.2
            if currentCombination.length > best.2 then
              (currentCombination, currentCombination.length)
            else best)
          best) = best ∧
        ∀ e ∈ l, (growCombination rooms paths e.1 e.2).length ≤ best.2) ∨
      ∃ e ∈ l, (l.foldl
          (fun (best : List Path × Nat) (sp : Nat × Path) =>
            let currentCombination := growCombination rooms paths sp.1 sp.2
            if currentCombination.length > best.2 then
              (currentCombination, currentCombination.length)
            else best)
          best).1 = growCombination rooms paths e.1 e.2 := by
  intro l
  induction l with
  | nil => intro best; exact Or.inl ⟨rfl, fun e he => by cases he⟩
  | cons e rest ih =>
    intro best
    rw [List.foldl_cons]
    by_cases hgt : (growCombination rooms paths e.1 e.2).length > best.2
    · simp only [hgt, if_true]
      rcases ih (growCombination rooms paths e.1 e.2,
          (growCombination rooms paths e.1 e.2).length) with ⟨h, _⟩ | ⟨e', he', h⟩
      · exact Or.inr ⟨e, List.mem_cons_self _ _, by rw [h]⟩
      · exact Or.inr ⟨e', List.mem_cons_of_mem _ he', h⟩
    · simp only [hgt, if_false]
      rcases ih best with ⟨h, hle⟩ | ⟨e', he', h⟩
      · refine Or.inl ⟨h, ?_⟩
        intro e' he'
        rcases List.mem_cons.1 he' with h1 | h1
        · rw [h1]; omega
        · exact hle e' h1
      · exact Or.inr ⟨e', List.mem_cons_of_mem _ he', h⟩

/-- The result of `filterNonOverlappingPaths` on a non-empty list is the candidate of one
of its seeds. -/
theorem filter_eq_cand (rooms : List Room) (paths : List Path) (hne : paths ≠ []) :
    ∃ s, s < paths.length ∧ filterNonOverlappingPaths rooms paths = cand rooms paths s := by
  cases paths with
  | nil => exact absurd rfl hne
  | cons first rest =>
    unfold filterNonOverlappingPaths findBestCombination
    rcases best_fold_cases rooms (first :: rest) (first :: rest).enum ([first], 1) with
      ⟨h, hle⟩ | ⟨e, he, h⟩
    · refine ⟨0, by simp, ?_⟩
      simp only
      rw [h]
      have h0 : ((0 : Nat), first) ∈ (first :: rest).enum := by
        simp [List.enum, List.enumFrom]
      have hl := hle _ h0
      have hf : (first :: rest)[0]? = some first := by simp
      rw [growCombination_eq_cand rooms (first :: rest) 0 first hf] at hl
      obtain ⟨ext, hext⟩ := cand_extends rooms (first :: rest) 0
      rw [hext] at hl ⊢
      cases ext with
      | nil => rfl
      | cons a b => simp at hl
    · obtain ⟨t, p⟩ := e
      have hp : (first :: rest)[t]? = some p := List.mem_enum_iff_getElem?.1 he
      refine ⟨t, (List.getElem?_eq_some.1 hp).1, ?_⟩
      simp only
      rw [h, growCombination_eq_cand rooms (first :: rest) t p hp]

/-- The scan of the seed-greedy search, with the indices it takes: an index it passes over
shares an interior room with an index taken before. -/
theorem candScan_index (rooms : List Room) (paths : List Path) :
    ∀ (l idxs : List Nat), l.Nodup → (∀ i ∈ l, i ∉ idxs) → idxs.Nodup →
      ∃ more, (idxs ++ more).Nodup ∧ (∀ i ∈ more, i ∈ l) ∧
        candScan rooms paths l (idxs.map (fun i => paths.getD i default))
          = (idxs ++ more).map (fun i => paths.getD i default) ∧
        ∀ i ∈ l, i ∉ more → ∃ j ∈ idxs ++ more, ∃ nm,
          nm ∈ interiorNames rooms (paths.getD i default) ∧
          nm ∈ interiorNames rooms (paths.getD j default) := by
  intro l
  induction l with
  | nil =>
    intro idxs _ _ hnd
    exact ⟨[], (by simpa using hnd), (fun i hi => by cases hi), (by simp [candScan]),
      (fun i hi => by cases hi)⟩
  | cons i rest ih =>
    intro idxs hl hnot hnd
    have hrest : rest.Nodup := (List.nodup_cons.1 hl).2
    have hi : i ∉ rest := (List.nodup_cons.1 hl).1
    unfold candScan
    by_cases hc : ∀ q ∈ idxs.map (fun i => paths.getD i default),
        ∀ nm ∈ interiorNames rooms (paths.getD i default), nm ∉ interiorNames rooms q
    · rw [if_pos hc]
      have hmap : idxs.map (fun i => paths.getD i default) ++ [paths.getD i default]
          = (idxs ++ [i]).map (fun i => paths.getD i default) := by simp
      rw [hmap]
      obtain ⟨more, h1, h2, h3, h4⟩ := ih (idxs ++ [i]) hrest
        (by
          intro x hx hmem
          rcases List.mem_append.1 hmem with h | h
          · exact hnot x (List.mem_cons_of_mem _ hx) h
          · rw [List.mem_singleton] at h
            exact hi (h ▸ hx))
        (by
          rw [List.nodup_append]
          refine ⟨hnd, List.nodup_singleton _, ?_⟩
          intro x hx hx'
          rw [List.mem_singleton] at hx'
          exact hnot i (List.mem_cons_self _ _) (hx' ▸ hx))
      refine ⟨i :: more, ?_, ?_, ?_, ?_⟩
      · rw [List.append_assoc] at h1
        exact h1
      · intro x hx
        rcases List.mem_cons.1 hx with h | h
        · rw [h]; exact List.mem_cons_self _ _
        · exact List.mem_cons_of_mem _ (h2 x h)
      · rw [h3, List.append_assoc]
        rfl
      · intro x hx hxm
        rcases List.mem_cons.1 hx with h | h
        · exact absurd (h ▸ List.mem_cons_self _ _) hxm
        · obtain ⟨j, hj, hnm⟩ := h4 x h (fun hm => hxm (List.mem_cons_of_mem _ hm))
          rw [List.append_assoc] at hj
          exact ⟨j, hj, hnm⟩
    · rw [if_neg hc]
      obtain ⟨more, h1, h2, h3, h4⟩ := ih idxs hrest
        (fun x hx => hnot x (List.mem_cons_of_mem _ hx)) hnd
      refine ⟨more, h1, fun x hx => List.mem_cons_of_mem _ (h2 x hx), h3, ?_⟩
      intro x hx hxm
      rcases List.mem_cons.1 hx with h | h
      · push_neg at hc
        obtain ⟨q, hq, nm, hnm1, hnm2⟩ := hc
        obtain ⟨j, hj, hjq⟩ := List.mem_map.1 hq
        refine ⟨j, List.mem_append_left _ hj, nm, ?_, ?_⟩
        · rw [h]; exact hnm1
        · rw [hjq]; exact hnm2
      · exact h4 x h hxm

/-- C35: the result of `filterNonOverlappingPaths` is the list of the paths at certain
indices of the input, each index once, and every index of the input that is not among them
holds a path that `pathsOverlap` reports to overlap a path of the result: a name of one of
its interior rooms is a name of an interior room of that path. -/
theorem filter_maximal_by_inclusion (rooms : List Room) (paths : List Path) :
    ∃ idxs : List Nat, idxs.Nodup ∧ (∀ i ∈ idxs, i < paths.length) ∧
      filterNonOverlappingPaths rooms paths = idxs.map (fun i => paths.getD i default) ∧
      ∀ i, i < paths.length → i ∉ idxs →
        ∃ j ∈ idxs,
          pathsOverlap rooms (paths.getD i default) (paths.getD j default) = true ∧
          ∃ nm, nm ∈ middleNames rooms (paths.getD i default) ∧
            nm ∈ middleNames rooms (paths.getD j default) := by
  by_cases hne : paths = []
  · subst hne
    exact ⟨[], List.nodup_nil, (fun i hi => by cases hi), rfl,
      (fun i hi => absurd hi (Nat.not_lt_zero _))⟩
  · obtain ⟨s, hs, hres⟩ := filter_eq_cand rooms paths hne
    obtain ⟨more, h1, h2, h3, h4⟩ := candScan_index rooms paths
      ((List.range paths.length).filter (fun i => i ≠ s)) [s]
      ((List.nodup_range _).filter _)
      (by
        intro i hi hmem
        rw [List.mem_singleton] at hmem
        have := (List.mem_filter.1 hi).2
        simp [hmem] at this)
      (List.nodup_singleton _)
    refine ⟨[s] ++ more, h1, ?_, ?_, ?_⟩
    · intro i hi
      rcases List.mem_append.1 hi with h | h
      · rw [List.mem_singleton] at h
        rw [h]; exact hs
      · exact List.mem_range.1 (List.mem_filter.1 (h2 i h)).1
    · rw [hres, ← h3]
      rfl
    · intro i hi hnot
      have his : i ≠ s := fun h => hnot (List.mem_append_left _ (by rw [h]; simp))
      have hmem : i ∈ (List.range paths.length).filter (fun i => i ≠ s) :=
        List.mem_filter.2 ⟨List.mem_range.2 hi, by simpa using his⟩
      obtain ⟨j, hj, nm, hnm1, hnm2⟩ := h4 i hmem
        (fun hm => hnot (List.mem_append_right _ hm))
      rw [interiorNames_eq_middleNames] at hnm1 hnm2
      refine ⟨j, hj, ?_, nm, hnm1, hnm2⟩
      unfold pathsOverlap
      rw [List.any_eq_true]
      exact ⟨nm, hnm2, by simpa using hnm1⟩

/-! ## The assignment balances the paths -/

/-- The path `assignAntsToPath` picks for the ant at position `i` has the least value of
`Length` plus earlier ants, and `bestTurns` is that value. -/
theorem choice_least (paths : List Path) (ants : List (Option Nat)) (hne : paths ≠ [])
    (B : Int) (hB : ∀ k, k < paths.length → (paths.getD k default).Length ≤ B)
    (hsize : B + (ants.length : Int) ≤ maxInt) (i : Nat) (hi : i < ants.length) :
    choice paths ants i < paths.length ∧
    (pickPath paths ((ants.take i).foldl (assignOne paths) (assignInit paths)).pathAnts).1
      = turnsOn paths ants i (choice paths ants i) ∧
    ∀ k, k < paths.length →
      turnsOn paths ants i (choice paths ants i) ≤ turnsOn paths ants i k := by
  have hcnt := assign_counter paths ants hne i (le_of_lt hi)
  have hj : choice paths ants i < paths.length := pickPath_index_lt paths _ hne
  have hb : ∀ k, k < paths.length →
      (paths.getD k default).Length
        + ((ants.take i).foldl (assignOne paths) (assignInit paths)).pathAnts.getD k 0
        < maxInt := by
    intro k hk
    rw [hcnt k hk]
    have h1 := hB k hk
    have h2 := earlierOn_le paths ants i k
    omega
  obtain ⟨h1, h2, _⟩ := pickPath_least paths _ hne hb
  have hturn : ∀ k, k < paths.length →
      turnsOn paths ants i k
        = (paths.getD k default).Length
          + ((ants.take i).foldl (assignOne paths) (assignInit paths)).pathAnts.getD k 0 := by
    intro k hk
    unfold turnsOn
    rw [hcnt k hk]
  have hbest : turnsOn paths ants i (choice paths ants i)
      = (pickPath paths
          ((ants.take i).foldl (assignOne paths) (assignInit paths)).pathAnts).1 := by
    rw [hturn _ hj, h1]
    rfl
  refine ⟨hj, hbest.symm, ?_⟩
  intro k hk
  rw [hbest, hturn k hk]
  exact h2 k hk

/-- After any number of ants, a path that was given an ant costs its last ant no more than
any path would cost a further ant. -/
theorem earlierOn_balanced (paths : List Path) (ants : List (Option Nat)) (hne : paths ≠ [])
    (B : Int) (hB : ∀ k, k < paths.length → (paths.getD k default).Length ≤ B)
    (hsize : B + (ants.length : Int) ≤ maxInt) :
    ∀ n, n ≤ ants.length → ∀ i j, i < paths.length → j < paths.length →
      0 < earlierOn paths ants n i →
      (paths.getD i default).Length + (earlierOn paths ants n i : Int) - 1
        ≤ (paths.getD j default).Length + (earlierOn paths ants n j : Int) := by
  intro n
  induction n with
  | zero =>
    intro _ i j _ _ hpos
    simp [earlierOn] at hpos
  | succ n ih =>
    intro hn i j hi hj hpos
    obtain ⟨_, _, hleast⟩ := choice_least paths ants hne B hB hsize n (by omega)
    rw [earlierOn_succ] at hpos ⊢
    rw [earlierOn_succ paths ants n j]
    have hjmono : (earlierOn paths ants n j : Int)
        ≤ ((earlierOn paths ants n j + (if choice paths ants n = j then 1 else 0) : Nat) : Int) := by
      push_cast
      split <;> omega
    by_cases hc : choice paths ants n = i
    · rw [if_pos hc]
      have h := hleast j hj
      unfold turnsOn at h
      rw [hc] at h
      push_cast at hjmono ⊢
      omega
    · rw [if_neg hc] at hpos ⊢
      have h := ih (by omega) i j hi hj (by simpa using hpos)
      push_cast at hjmono ⊢
      simp only [Nat.cast_zero, add_zero] at *
      omega

theorem sum_indicator (c : Nat) : ∀ m, c < m →
    ((List.range m).map (fun k => if c = k then 1 else 0)).sum = 1 := by
  intro m
  induction m with
  | zero => intro h; omega
  | succ m ih =>
    intro h
    rw [List.range_succ, List.map_append, List.sum_append]
    by_cases hc : c = m
    · subst hc
      have h0 : ((List.range c).map (fun k => if c = k then 1 else 0)).sum = 0 := by
        apply List.sum_eq_zero
        intro x hx
        obtain ⟨k, hk, hkx⟩ := List.mem_map.1 hx
        have := List.mem_range.1 hk
        rw [if_neg (by omega)] at hkx
        exact hkx.symm
      rw [h0]
      simp
    · rw [ih (by omega)]
      simp [hc]

/-- Every ant placed so far was given one of the paths. -/
theorem earlierOn_sum (paths : List Path) (ants : List (Option Nat)) (hne : paths ≠ []) :
    ∀ n, ((List.range paths.length).map (earlierOn paths ants n)).sum = n := by
  intro n
  induction n with
  | zero =>
    apply List.sum_eq_zero
    intro x hx
    obtain ⟨k, _, hkx⟩ := List.mem_map.1 hx
    rw [← hkx]
    simp [earlierOn]
  | succ n ih =>
    have hc : choice paths ants n < paths.length := pickPath_index_lt paths _ hne
    have hfun : (earlierOn paths ants (n + 1))
        = fun k => earlierOn paths ants n k + (if choice paths ants n = k then 1 else 0) := by
      funext k
      exact earlierOn_succ paths ants n k
    rw [hfun, List.sum_map_add, ih, sum_indicator _ _ hc]

/-- C36: with `n_j` the number of ants `assignAntsToPath` gives the path of index `j`, which
is the final value of its counter `pathAnts[j]`, the numbers `n_j` add up to the number of
ants, a path that was given an ant has `Length_i + n_i - 1 ≤ Length_j + n_j` for every path
`j`, and every bound that some distribution of the same number of ants over the paths
keeps on `Length_j + d_j - 1` for its used paths is kept by the assignment too. The farm is
taken to fit the machine: rooms and ants together number at most the largest `int`. -/
theorem assign_minimises_makespan (S : SliceSorter) (rooms : List Room) (af : AntFarm)
    (paths : List Path) (hpaths : findAllPaths S rooms af = some paths) (hne : paths ≠ [])
    (hsize : (rooms.length : Int) + (af.Ants.length : Int) ≤ maxInt) :
    assignAntsToPath S rooms af
      = some (some (af.Ants.foldl (assignOne paths) (assignInit paths)).antPaths) ∧
    (∀ j, j < paths.length →
      (af.Ants.foldl (assignOne paths) (assignInit paths)).pathAnts.getD j 0
        = (earlierOn paths af.Ants af.Ants.length j : Int)) ∧
    ((List.range paths.length).map (earlierOn paths af.Ants af.Ants.length)).sum
      = af.Ants.length ∧
    (∀ i j, i < paths.length → j < paths.length →
      0 < earlierOn paths af.Ants af.Ants.length i →
      (paths.getD i default).Length + (earlierOn paths af.Ants af.Ants.length i : Int) - 1
        ≤ (paths.getD j default).Length + (earlierOn paths af.Ants af.Ants.length j : Int)) ∧
    (∀ (d : Nat → Nat) (M : Int),
      ((List.range paths.length).map d).sum = af.Ants.length →
      (∀ j, j < paths.length → 0 < d j →
        (paths.getD j default).Length + (d j : Int) - 1 ≤ M) →
      ∀ i, i < paths.length → 0 < earlierOn paths af.Ants af.Ants.length i →
        (paths.getD i default).Length + (earlierOn paths af.Ants af.Ants.length i : Int) - 1
          ≤ M) := by
  have hB : ∀ k, k < paths.length → (paths.getD k default).Length ≤ (rooms.length : Int) := by
    intro k hk
    apply findAllPaths_length_le S rooms af paths hpaths
    rw [List.getD_eq_getElem _ _ hk]
    exact List.getElem_mem hk
  have hbal := earlierOn_balanced paths af.Ants hne _ hB hsize af.Ants.length (le_refl _)
  have hsum := earlierOn_sum paths af.Ants hne af.Ants.length
  refine ⟨assignAntsToPath_eq S rooms af paths hpaths hne, ?_, hsum, hbal, ?_⟩
  · intro j hj
    have h := assign_counter paths af.Ants hne af.Ants.length (le_refl _) j hj
    rw [List.take_length] at h
    exact h
  · intro d M hd hM i hi hpos
    by_cases hex : ∃ j, j < paths.length ∧ earlierOn paths af.Ants af.Ants.length j < d j
    · obtain ⟨j, hj, hlt⟩ := hex
      have h1 := hbal i j hi hj hpos
      have h2 := hM j hj (by omega)
      have h3 : (earlierOn paths af.Ants af.Ants.length j : Int) + 1 ≤ (d j : Int) := by
        exact_mod_cast hlt
      omega
    · push_neg at hex
      have hdi : d i = earlierOn paths af.Ants af.Ants.length i := by
        by_contra hne'
        have hlt : d i < earlierOn paths af.Ants af.Ants.length i :=
          lt_of_le_of_ne (hex i hi) hne'
        have := List.sum_lt_sum d (earlierOn paths af.Ants af.Ants.length)
          (fun k hk => hex k (List.mem_range.1 hk)) ⟨i, List.mem_range.2 hi, hlt⟩
        omega
      have h2 := hM i hi (by omega)
      rw [hdi] at h2
      exact h2

theorem assign_minimises_makespan_witness :
    findAllPaths insertionSorter roomsTwoRoutes farmTwoRoutes = some twoRoutePaths ∧
    twoRoutePaths ≠ [] ∧
    (roomsTwoRoutes.length : Int) + (farmTwoRoutes.Ants.length : Int) ≤ maxInt ∧
    assignAntsToPath insertionSorter roomsTwoRoutes farmTwoRoutes
      = some (some (farmTwoRoutes.Ants.foldl (assignOne twoRoutePaths)
          (assignInit twoRoutePaths)).antPaths) ∧
    (∀ j, j < twoRoutePaths.length →
      (farmTwoRoutes.Ants.foldl (assignOne twoRoutePaths)
          (assignInit twoRoutePaths)).pathAnts.getD j 0
        = (earlierOn twoRoutePaths farmTwoRoutes.Ants farmTwoRoutes.Ants.length j : Int)) ∧
    ((List.range twoRoutePaths.length).map
        (earlierOn twoRoutePaths farmTwoRoutes.Ants farmTwoRoutes.Ants.length)).sum
      = farmTwoRoutes.Ants.length ∧
    (∀ i j, i < twoRoutePaths.length → j < twoRoutePaths.length →
      0 < earlierOn twoRoutePaths farmTwoRoutes.Ants farmTwoRoutes.Ants.length i →
      (twoRoutePaths.getD i default).Length
          + (earlierOn twoRoutePaths farmTwoRoutes.Ants farmTwoRoutes.Ants.length i : Int) - 1
        ≤ (twoRoutePaths.getD j default).Length
          + (earlierOn twoRoutePaths farmTwoRoutes.Ants farmTwoRoutes.Ants.length j : Int)) ∧
    (∀ (d : Nat → Nat) (M : Int),
      ((List.range twoRoutePaths.length).map d).sum = farmTwoRoutes.Ants.length →
      (∀ j, j < twoRoutePaths.length → 0 < d j →
        (twoRoutePaths.getD j default).Length + (d j : Int) - 1 ≤ M) →
      ∀ i, i < twoRoutePaths.length →
        0 < earlierOn twoRoutePaths farmTwoRoutes.Ants farmTwoRoutes.Ants.length i →
        (twoRoutePaths.getD i default).Length
            + (earlierOn twoRoutePaths farmTwoRoutes.Ants farmTwoRoutes.Ants.length i : Int) - 1
          ≤ M) :=
  ⟨findAllPaths_twoRoutes, by decide, twoRoutes_fits,
    assign_minimises_makespan insertionSorter roomsTwoRoutes farmTwoRoutes twoRoutePaths
      findAllPaths_twoRoutes (by decide) twoRoutes_fits⟩

/-! ## The sort step of `findAllPaths` -/

theorem findAllPaths_eq_sorted (S : SliceSorter) (rooms : List Room) (af : AntFarm) :
    findAllPaths S rooms af
      = (sortedPaths S rooms af).map (filterNonOverlappingPaths rooms) := by
  unfold findAllPaths sortedPaths foundPaths
  cases af.Start with
  | none => rfl
  | some start =>
    cases af.End with
    | none => rfl
    | some finish =>
      dsimp only
      cases hd : dfs rooms (rooms.length + 1) start finish (fun _ => false) [] [] with
      | none => rfl
      | some r => rfl

/-- Insertion sort keeps the paths of one `Length` in their order. -/
theorem insertionSorter_stable (l : List Path) (k : Int) :
    (insertionSorter.sort l).filter (fun p => decide (p.Length = k))
      = l.filter (fun p => decide (p.Length = k)) := by
  have hpw : (l.filter (fun p => decide (p.Length = k))).Pairwise
      (fun a b => a.Length ≤ b.Length) := by
    rw [List.pairwise_iff_forall_sublist]
    intro a b hab
    have ha := hab.subset (List.mem_cons_self _ _)
    have hb := hab.subset (List.mem_cons_of_mem _ (List.mem_singleton_self _))
    have ha' := (List.mem_filter.1 ha).2
    have hb' := (List.mem_filter.1 hb).2
    simp only [decide_eq_true_eq] at ha' hb'
    omega
  have hsub : List.Sublist (l.filter (fun p => decide (p.Length = k)))
      (l.insertionSort (fun a b => a.Length ≤ b.Length)) :=
    List.sublist_insertionSort hpw (List.filter_sublist l)
  have hsub2 := hsub.filter (fun p => decide (p.Length = k))
  rw [List.filter_filter] at hsub2
  simp only [Bool.and_self] at hsub2
  have hperm : ((insertionSorter.sort l).filter (fun p => decide (p.Length = k))).Perm
      (l.filter (fun p => decide (p.Length = k))) :=
    (insertionSorter.perm l).filter _
  exact (hsub2.eq_of_length hperm.length_eq.symm).symm

/-! ## The farm whose start room is its end room -/

/-- An ant that has not arrived and stands in the only room of its path is visited without
effect other than on the two flags of the pass. -/
theorem moveAnt_still (rooms : List Room) (st : TurnState) (a cur : Nat)
    (hlen : (st.ants a).Path.length = 1) (hidx : (st.ants a).PathIndex = 0)
    (hnot : (st.ants a).HasReached = false) (hcur : (st.ants a).CurrentRoom = some cur) :
    moveAnt rooms st (some a) = .ok { st with move := st.move + 1, allReached := false } := by
  unfold moveAnt
  simp [hlen, hidx, hnot, hcur]

/-- A pass over ants that have not arrived and stand in the only room of their paths, begun
with no room marked: it returns, writes no record, changes no ant and no mark, and does not
find all ants arrived. -/
theorem runTurn_still_all (rooms : List Room) (antList : List (Option Nat))
    (ants0 : Nat → Ant) (hne : antList ≠ []) (hnil : ∀ p ∈ antList, p ≠ none)
    (hstill : ∀ a, some a ∈ antList →
      (ants0 a).Path.length = 1 ∧ (ants0 a).PathIndex = 0 ∧ (ants0 a).HasReached = false ∧
        (ants0 a).CurrentRoom ≠ none) :
    ∃ st, runTurn rooms antList ants0 (fun _ => none) = .ok st ∧ st.ants = ants0 ∧
      st.occupied = (fun _ => none) ∧ st.moves = [] ∧ st.allReached = false := by
  unfold runTurn
  simp only [ite_self]
  obtain ⟨st, hst, h1, h2, h3, h4⟩ := foldTurn_inv rooms antList
    (fun pre s => s.ants = ants0 ∧ s.occupied = (fun _ => none) ∧ s.moves = [] ∧
      (pre ≠ [] → s.allReached = false))
    (by
      intro pre p rest s hL hP
      cases p with
      | none => exact absurd rfl (hnil none (by rw [hL]; simp))
      | some a =>
        have ha : some a ∈ antList := by rw [hL]; simp
        obtain ⟨hlen, hidx, hnot, hcur⟩ := hstill a ha
        obtain ⟨cur, hcur'⟩ := Option.ne_none_iff_exists'.1 hcur
        rw [← hP.1] at hlen hidx hnot hcur'
        refine ⟨_, moveAnt_still rooms s a cur hlen hidx hnot hcur', hP.1, hP.2.1, hP.2.2.1,
          fun _ => rfl⟩)
    antList []
    { ants := ants0, occupied := fun _ => none, moves := [], allReached := true, move := 0 }
    rfl ⟨rfl, rfl, rfl, fun h => absurd rfl h⟩
  exact ⟨st, hst, h1, h2, h3, h4 hne⟩

/-- The turn loop over such ants never returns, and every unit of fuel is spent on a pass
that leaves everything as it was. -/
theorem turnLoop_still (rooms : List Room) (antList : List (Option Nat))
    (ants0 : Nat → Ant) (hne : antList ≠ []) (hnil : ∀ p ∈ antList, p ≠ none)
    (hstill : ∀ a, some a ∈ antList →
      (ants0 a).Path.length = 1 ∧ (ants0 a).PathIndex = 0 ∧ (ants0 a).HasReached = false ∧
        (ants0 a).CurrentRoom ≠ none) :
    ∀ (fuel : Nat) (allMoves : String),
      turnLoop rooms antList fuel ants0 (fun _ => none) allMoves = none ∧
      (passes rooms antList fuel ants0 (fun _ => none)).length = fuel ∧
      ∀ pass ∈ passes rooms antList fuel ants0 (fun _ => none),
        pass.1 = ants0 ∧ pass.2.ants = ants0 ∧ pass.2.moves = [] ∧
          pass.2.allReached = false := by
  obtain ⟨st, hst, h1, h2, h3, h4⟩ := runTurn_still_all rooms antList ants0 hne hnil hstill
  intro fuel
  induction fuel with
  | zero =>
    intro allMoves
    exact ⟨rfl, rfl, fun pass h => by simp [passes] at h⟩
  | succ fuel ih =>
    intro allMoves
    obtain ⟨ih1, ih2, ih3⟩ := ih allMoves
    refine ⟨?_, ?_, ?_⟩
    · unfold turnLoop
      rw [hst]
      simp only [h3, h4, h1, h2, List.length_nil, gt_iff_lt, lt_self_iff_false, if_false,
        Bool.false_eq_true]
      exact ih1
    · rw [passes_succ rooms antList fuel ants0 _ st hst, h4, h1, h2]
      simp only [Bool.false_eq_true, if_false, List.length_cons, ih2]
    · intro pass hpass
      rw [passes_succ rooms antList fuel ants0 _ st hst, h4, h1, h2] at hpass
      simp only [Bool.false_eq_true, if_false] at hpass
      rcases List.mem_cons.1 hpass with h | h
      · rw [h]
        exact ⟨rfl, h1, h3, h4⟩
      · exact ih3 pass h

/-- The search from a room to itself records the one-room path and nothing else. -/
theorem dfs_same_room (rooms : List Room) (s fuel : Nat) (hfuel : 0 < fuel) :
    dfs rooms fuel s s (fun _ => false) [] [] = some (fun _ => false, [recordPath [s]]) := by
  obtain ⟨n, hn⟩ : ∃ n, fuel = n + 1 := ⟨fuel - 1, by omega⟩
  subst hn
  unfold dfs
  simp only [if_true, List.nil_append]
  rw [setVisited_restore _ _ rfl]
  rfl

/-- The run of `SimulateMovement` on a loaded farm whose start room is its end room. -/
theorem same_room_run (S : SliceSorter) (rooms : List Room) (ants : Nat → Ant)
    (af : AntFarm) (s : Nat) (hfarm : LoadedFarm rooms af s s) (hants : af.Ants ≠ []) :
    findAllPaths S rooms af = some [recordPath [s]] ∧
    ∃ ants0, simStart S rooms ants af = some ants0 ∧
      (∀ a, some a ∈ af.Ants →
        ants0 a = { ants a with Path := [s], PathIndex := 0, CurrentRoom := some s,
                                HasReached := false }) ∧
      ∀ fuel, SimulateMovement S fuel rooms ants af = none ∧
        (passes rooms af.Ants fuel ants0 (fun _ => none)).length = fuel ∧
        ∀ pass ∈ passes rooms af.Ants fuel ants0 (fun _ => none),
          pass.1 = ants0 ∧ pass.2.ants = ants0 ∧ pass.2.moves = [] ∧
            pass.2.allReached = false := by
  have hpaths : findAllPaths S rooms af = some [recordPath [s]] :=
    findAllPaths_single S rooms af s s _ _ hfarm.start_set hfarm.end_set
      (dfs_same_room rooms s _ (Nat.succ_pos _))
  refine ⟨hpaths, ?_⟩
  obtain ⟨m, ants0, _, hstart, hloop, hspec, _⟩ :=
    simStart_spec S rooms ants af s s _ hfarm hpaths (by simp) hants
  have hant : ∀ a, some a ∈ af.Ants →
      ants0 a = { ants a with Path := [s], PathIndex := 0, CurrentRoom := some s,
                              HasReached := false } := by
    intro a ha
    obtain ⟨p, q, hp, _, hpq, hh, _, _, ha0⟩ := hspec a ha
    rw [List.mem_singleton] at hp
    have hq : q = [s] := by
      have h := congrArg Path.Rooms (hp.symm.trans hpq)
      exact h.symm
    rw [ha0, hq]
    rfl
  have hstill : ∀ a, some a ∈ af.Ants →
      (ants0 a).Path.length = 1 ∧ (ants0 a).PathIndex = 0 ∧ (ants0 a).HasReached = false ∧
        (ants0 a).CurrentRoom ≠ none := by
    intro a ha
    rw [hant a ha]
    exact ⟨rfl, rfl, rfl, by simp⟩
  refine ⟨ants0, hstart, hant, ?_⟩
  intro fuel
  rw [hloop fuel]
  exact turnLoop_still rooms af.Ants ants0 hants hfarm.ants_set hstill fuel ""

/-- C39: in a loaded farm whose start room is its end room, `dfs` records exactly one path,
the start room alone, of `Length` 0, and `findAllPaths` returns it; with at least one ant,
`SimulateMovement` gives every ant that path, and every turn writes no record, changes no
ant and does not find all ants arrived, so that the loop spends any number of turns without
returning. The loader builds such a farm from the lines `##start`, `##end` and one room. -/
theorem same_room_farm_never_exits (S : SliceSorter) (rooms : List Room) (ants : Nat → Ant)
    (af : AntFarm) (s : Nat) (hfarm : LoadedFarm rooms af s s) (hants : af.Ants ≠ []) :
    (∀ fuel, 0 < fuel →
      dfs rooms fuel s s (fun _ => false) [] [] = some (fun _ => false, [recordPath [s]])) ∧
    (recordPath [s]).Rooms = [s] ∧ (recordPath [s]).Length = 0 ∧
    findAllPaths S rooms af = some [recordPath [s]] ∧
    (∃ ants0, simStart S rooms ants af = some ants0 ∧
      (∀ a, some a ∈ af.Ants →
        ants0 a = { ants a with Path := [s], PathIndex := 0, CurrentRoom := some s,
                                HasReached := false }) ∧
      ∀ fuel, SimulateMovement S fuel rooms ants af = none ∧
        (passes rooms af.Ants fuel ants0 (fun _ => none)).length = fuel ∧
        ∀ pass ∈ passes rooms af.Ants fuel ants0 (fun _ => none),
          pass.1 = ants0 ∧ pass.2.ants = ants0 ∧ pass.2.moves = [] ∧
            pass.2.allReached = false) ∧
    ((parseRoomsAndLinks fixtureText newLoader
        (scanOf ["##start", "##end", "Room 0 0"])).2.2 = none ∧
      (parseRoomsAndLinks fixtureText newLoader
        (scanOf ["##start", "##end", "Room 0 0"])).1.af.Start = some 0 ∧
      (parseRoomsAndLinks fixtureText newLoader
        (scanOf ["##start", "##end", "Room 0 0"])).1.af.End = some 0 ∧
      validate (parseRoomsAndLinks fixtureText newLoader
        (scanOf ["##start", "##end", "Room 0 0"])).1.af = none) := by
  obtain ⟨hpaths, hrun⟩ := same_room_run S rooms ants af s hfarm hants
  exact ⟨fun fuel h => dfs_same_room rooms s fuel h, rfl, rfl, hpaths, hrun,
    by decide, by decide, by decide, by decide⟩

theorem loadedFarm_sameRoom : LoadedFarm roomsSameRoom farmSameRoom 0 0 where
  start_set := rfl
  end_set := rfl
  start_flag := by
    intro r
    match r with
    | 0 => decide
    | r + 1 =>
      constructor
      · intro h
        have : roomAt roomsSameRoom (r + 1) = default := by
          simp [roomAt, roomsSameRoom]
        rw [this] at h
        cases h
      · intro h
        omega
  end_flag := by
    intro r
    match r with
    | 0 => decide
    | r + 1 =>
      constructor
      · intro h
        have : roomAt roomsSameRoom (r + 1) = default := by
          simp [roomAt, roomsSameRoom]
        rw [this] at h
        cases h
      · intro h
        omega
  ants_set := by decide
  ants_once := by decide

theorem same_room_farm_never_exits_witness :
    LoadedFarm roomsSameRoom farmSameRoom 0 0 ∧ farmSameRoom.Ants ≠ [] ∧
    (∀ fuel, 0 < fuel →
      dfs roomsSameRoom fuel 0 0 (fun _ => false) [] []
        = some (fun _ => false, [recordPath [0]])) ∧
    (recordPath [0]).Rooms = [0] ∧ (recordPath [0]).Length = 0 ∧
    findAllPaths insertionSorter roomsSameRoom farmSameRoom = some [recordPath [0]] ∧
    (∃ ants0, simStart insertionSorter roomsSameRoom freshAnts farmSameRoom = some ants0 ∧
      (∀ a, some a ∈ farmSameRoom.Ants →
        ants0 a = { freshAnts a with Path := [0], PathIndex := 0, CurrentRoom := some 0,
                                     HasReached := false }) ∧
      ∀ fuel, SimulateMovement insertionSorter fuel roomsSameRoom freshAnts farmSameRoom
          = none ∧
        (passes roomsSameRoom farmSameRoom.Ants fuel ants0 (fun _ => none)).length = fuel ∧
        ∀ pass ∈ passes roomsSameRoom farmSameRoom.Ants fuel ants0 (fun _ => none),
          pass.1 = ants0 ∧ pass.2.ants = ants0 ∧ pass.2.moves = [] ∧
            pass.2.allReached = false) ∧
    ((parseRoomsAndLinks fixtureText newLoader
        (scanOf ["##start", "##end", "Room 0 0"])).2.2 = none ∧
      (parseRoomsAndLinks fixtureText newLoader
        (scanOf ["##start", "##end", "Room 0 0"])).1.af.Start = some 0 ∧
      (parseRoomsAndLinks fixtureText newLoader
        (scanOf ["##start", "##end", "Room 0 0"])).1.af.End = some 0 ∧
      validate (parseRoomsAndLinks fixtureText newLoader
        (scanOf ["##start", "##end", "Room 0 0"])).1.af = none) :=
  ⟨loadedFarm_sameRoom, by decide,
    same_room_farm_never_exits insertionSorter roomsSameRoom freshAnts farmSameRoom 0
      loadedFarm_sameRoom (by decide)⟩

/-- The arena the loader builds from the lines `##start`, `##end`, `Room 0 0` is that of
`roomsSameRoom`, one room flagged both start and end, and its map, start and end are those
of `farmSameRoom`. -/
theorem loader_builds_sameRoom :
    (parseRoomsAndLinks fixtureText newLoader
        (scanOf ["##start", "##end", "Room 0 0"])).1.rooms.map
      (fun r => (r.Name, r.IsStart, r.IsEnd, r.Connected))
      = roomsSameRoom.map (fun r => (r.Name, r.IsStart, r.IsEnd, r.Connected)) ∧
    (parseRoomsAndLinks fixtureText newLoader
        (scanOf ["##start", "##end", "Room 0 0"])).1.af.Rooms = farmSameRoom.Rooms ∧
    (parseRoomsAndLinks fixtureText newLoader
        (scanOf ["##start", "##end", "Room 0 0"])).1.af.Start = farmSameRoom.Start ∧
    (parseRoomsAndLinks fixtureText newLoader
        (scanOf ["##start", "##end", "Room 0 0"])).1.af.End = farmSameRoom.End := by
  refine ⟨by decide, by decide, by decide, by decide⟩

/-! ## The loop exits only when every ant has arrived -/

/-- A run of the loop that returns ends with a pass that found all ants arrived, and
returns the ants of that pass. -/
theorem turnLoop_ok_last (rooms : List Room) (antList : List (Option Nat)) :
    ∀ (fuel : Nat) (ants : Nat → Ant) (occupied : Nat → Option Nat) (allMoves : String)
      (ants1 : Nat → Ant) (t : String),
      turnLoop rooms antList fuel ants occupied allMoves = some (.ok ants1 t) →
      ∃ last, (passes rooms antList fuel ants occupied).getLast? = some last ∧
        last.2.allReached = true ∧ last.2.ants = ants1 := by
  intro fuel
  induction fuel with
  | zero => intro _ _ _ _ _ h; simp [turnLoop] at h
  | succ fuel ih =>
    intro ants occupied allMoves ants1 t h
    cases hturn : runTurn rooms antList ants occupied with
    | error f =>
      unfold turnLoop at h
      rw [hturn] at h
      cases f <;> simp at h
    | ok st =>
      rw [passes_succ rooms antList fuel ants occupied st hturn]
      unfold turnLoop at h
      rw [hturn] at h
      by_cases hall : st.allReached = true
      · simp only [hall, if_true, Option.some.injEq, SimResult.ok.injEq] at h
        refine ⟨(ants, st), by simp [hall], hall, h.1⟩
      · simp only [hall, if_false] at h
        obtain ⟨last, hlast, h1, h2⟩ := ih _ _ _ _ _ h
        refine ⟨last, ?_, h1, h2⟩
        have hb : st.allReached = false := by
          cases hc : st.allReached with
          | false => rfl
          | true => exact absurd hc hall
        rw [hb]
        simp only [Bool.false_eq_true, if_false]
        rw [List.getLast?_cons, hlast]
        rfl

/-- A run that returns a transcript had a path and an ant. -/
theorem run_has_paths (S : SliceSorter) (fuel : Nat) (rooms : List Room) (ants : Nat → Ant)
    (af : AntFarm) (ants1 : Nat → Ant) (t : String)
    (hrun : SimulateMovement S fuel rooms ants af = some (.ok ants1 t)) :
    ∃ paths, findAllPaths S rooms af = some paths ∧ paths ≠ [] ∧ af.Ants ≠ [] := by
  unfold SimulateMovement assignAntsToPath at hrun
  cases hp : findAllPaths S rooms af with
  | none => rw [hp] at hrun; simp at hrun
  | some paths =>
    rw [hp] at hrun
    refine ⟨paths, rfl, ?_, ?_⟩
    · intro h
      rw [h] at hrun
      simp at hrun
    · intro h
      by_cases hl : paths.length = 0
      · simp [hl] at hrun
      · simp [hl, h] at hrun

/-- The last room of the path of an ant that is on track and has arrived. -/
theorem OnTrack.arrived_room {rooms : List Room} {x : Ant} (h : OnTrack rooms x)
    (hr : x.HasReached = true) (finish : Nat) (hlast : x.Path.getLast? = some finish) :
    x.CurrentRoom = some finish ∧ x.PathIndex = (x.Path.length : Int) - 1 := by
  obtain ⟨_, _, hcur, hiff, _⟩ := h
  have hidx := hiff.1 hr
  have hlen : x.Path.length ≠ 0 := by
    intro h0
    rw [List.length_eq_zero.1 h0] at hlast
    cases hlast
  refine ⟨?_, hidx⟩
  rw [hcur, hidx]
  have hcast : (x.Path.length : Int) - 1 = ((x.Path.length - 1 : Nat) : Int) := by omega
  rw [hcast, indexInt_natCast, ← List.getLast?_eq_getElem?]
  exact hlast

/-- C37: on a loaded farm, when `SimulateMovement` returns a transcript, every ant of the
slice has `HasReached` set, stands in the end room and has `PathIndex = len(Path) - 1`. A
turn ends with `allReached` exactly when every ant had arrived before it; a turn in which
an ant that had not arrived stays as it was, skipped or blocked, does not end the loop: an
ant earlier in the slice had not arrived either and moved in that turn. -/
theorem loop_exits_when_all_arrived (S : SliceSorter) (fuel : Nat) (rooms : List Room)
    (ants : Nat → Ant) (af : AntFarm) (start finish : Nat) (t : String)
    (hfarm : LoadedFarm rooms af start finish)
    (hrun : okTranscript (SimulateMovement S fuel rooms ants af) = some t) :
    ∃ ants0 ants1, simStart S rooms ants af = some ants0 ∧
      SimulateMovement S fuel rooms ants af = some (.ok ants1 t) ∧
      (∀ a, some a ∈ af.Ants →
        (ants1 a).HasReached = true ∧ (ants1 a).CurrentRoom = some finish ∧
          (ants1 a).PathIndex = ((ants1 a).Path.length : Int) - 1) ∧
      ∀ pass ∈ passes rooms af.Ants fuel ants0 (fun _ => none),
        (pass.2.allReached = true ↔ ∀ a, some a ∈ af.Ants → (pass.1 a).HasReached = true) ∧
        ∀ a, some a ∈ af.Ants → (pass.1 a).HasReached = false → pass.2.ants a = pass.1 a →
          pass.2.allReached = false ∧
          ∃ p1 x p2, af.Ants = p1 ++ some x :: p2 ∧ some a ∈ p2 ∧
            (∀ y, some y ∈ p1 → (pass.1 y).HasReached = true) ∧
            (pass.1 x).HasReached = false ∧ Advanced rooms (pass.1 x) (pass.2.ants x) := by
  obtain ⟨ants1, hrun1⟩ := okTranscript_some _ t hrun
  obtain ⟨paths, hpaths, hne, hants⟩ := run_has_paths S fuel rooms ants af ants1 t hrun1
  by_cases hdist : start = finish
  · subst hdist
    obtain ⟨_, ants0, _, _, hnone⟩ := same_room_run S rooms ants af start hfarm hants
    rw [(hnone fuel).1] at hrun1
    cases hrun1
  · obtain ⟨ants0, hstart, hloop, htrack, hR, hline⟩ :=
      simStart_routed S rooms ants af start finish paths hfarm hdist hpaths hne hants
    have hocc : ∀ r, (fun _ : Nat => (none : Option Nat)) r ≠ none →
        isInterior rooms r = true := fun r h => absurd rfl h
    have hall := passes_line rooms start finish af.Ants hfarm.ants_once hfarm.ants_set fuel
      ants0 _ htrack hR hline hocc
    refine ⟨ants0, ants1, hstart, hrun1, ?_, ?_⟩
    · rw [hloop fuel] at hrun1
      obtain ⟨last, hlast, hreached, hants1⟩ :=
        turnLoop_ok_last rooms af.Ants fuel ants0 _ "" ants1 t hrun1
      obtain ⟨htr, hR1, _, hmid, _⟩ := hall last (List.mem_of_getLast?_eq_some hlast)
      intro a ha
      have hbefore := hmid.allReached_iff.1 hreached a ha
      have hsame := hmid.arrived_fixed a hbefore
      rw [← hants1]
      have hr : (last.2.ants a).HasReached = true := by rw [hsame]; exact hbefore
      exact ⟨hr, (htr a ha).arrived_room hr finish (hR1.last a ha)⟩
    · intro pass hpass
      obtain ⟨_, _, _, hmid, _⟩ := hall pass hpass
      refine ⟨hmid.allReached_iff, ?_⟩
      intro a ha hna hsame
      have hfalse : pass.2.allReached = false := by
        cases h : pass.2.allReached with
        | false => rfl
        | true =>
          rw [hmid.allReached_iff.1 h a ha] at hna
          cases hna
      obtain ⟨p1, x, p2, hsplit, hbefore, hx, hadv⟩ := hmid.first hfalse
      refine ⟨hfalse, p1, x, p2, hsplit, ?_, hbefore, hx, hadv⟩
      rw [hsplit] at ha
      rcases List.mem_append.1 ha with h | h
      · rw [hbefore a h] at hna
        cases hna
      · rcases List.mem_cons.1 h with h | h
        · cases h
          rw [hsame] at hadv
          exact (hadv.ne_self).elim
        · exact h

theorem loop_exits_when_all_arrived_witness :
    LoadedFarm roomsOnePath farmOnePath 0 2 ∧
    okTranscript (SimulateMovement insertionSorter 5 roomsOnePath freshAnts farmOnePath)
      = some "L1-mid\nL1-end L2-mid\nL2-end L3-mid\nL3-end\n" ∧
    ∃ ants0 ants1, simStart insertionSorter roomsOnePath freshAnts farmOnePath = some ants0 ∧
      SimulateMovement insertionSorter 5 roomsOnePath freshAnts farmOnePath
        = some (.ok ants1 "L1-mid\nL1-end L2-mid\nL2-end L3-mid\nL3-end\n") ∧
      (∀ a, some a ∈ farmOnePath.Ants →
        (ants1 a).HasReached = true ∧ (ants1 a).CurrentRoom = some 2 ∧
          (ants1 a).PathIndex = ((ants1 a).Path.length : Int) - 1) ∧
      ∀ pass ∈ passes roomsOnePath farmOnePath.Ants 5 ants0 (fun _ => none),
        (pass.2.allReached = true ↔
          ∀ a, some a ∈ farmOnePath.Ants → (pass.1 a).HasReached = true) ∧
        ∀ a, some a ∈ farmOnePath.Ants → (pass.1 a).HasReached = false →
          pass.2.ants a = pass.1 a →
          pass.2.allReached = false ∧
          ∃ p1 x p2, farmOnePath.Ants = p1 ++ some x :: p2 ∧ some a ∈ p2 ∧
            (∀ y, some y ∈ p1 → (pass.1 y).HasReached = true) ∧
            (pass.1 x).HasReached = false ∧
            Advanced roomsOnePath (pass.1 x) (pass.2.ants x) :=
  ⟨loadedFarm_onePath, onePath_run,
    loop_exits_when_all_arrived insertionSorter 5 roomsOnePath freshAnts farmOnePath 0 2 _
      loadedFarm_onePath onePath_run⟩

/-! ## The two-room rule -/

theorem leadsRun_concat (ants0 : Nat → Ant) (pre : List (Option Nat)) (a : Nat) :
    leadsRun ants0 (pre ++ [some a]) ↔ (ants0 a).HasReached = true := by
  unfold leadsRun
  constructor
  · rintro (h | ⟨b, hb, hr⟩)
    · simp at h
    · rw [List.getLast?_append_of_ne_nil _ (List.cons_ne_nil _ _)] at hb
      simp only [List.getLast?_singleton, Option.some.injEq] at hb
      rw [hb]
      exact hr
  · intro h
    refine Or.inr ⟨a, ?_, h⟩
    rw [List.getLast?_append_of_ne_nil _ (List.cons_ne_nil _ _)]
    rfl

/-- The body of the loop keeps the account of the counter `move`. -/
theorem counted_step (rooms : List Room) (antList : List (Option Nat)) (ants0 : Nat → Ant)
    (hnd : antList.Nodup) (htrack : ∀ a, some a ∈ antList → OnTrack rooms (ants0 a))
    (pre : List (Option Nat)) (p : Option Nat) (rest : List (Option Nat))
    (st st' : TurnState) (hL : antList = pre ++ p :: rest)
    (h : Stepping rooms ants0 pre st ∧ Counted rooms ants0 pre st)
    (hok : moveAnt rooms st p = .ok st') :
    Stepping rooms ants0 (pre ++ [p]) st' ∧ Counted rooms ants0 (pre ++ [p]) st' := by
  refine ⟨stepping_step rooms antList ants0 hnd pre p rest st st' hL h.1 hok, ?_⟩
  obtain ⟨hstep, hcnt⟩ := h
  cases p with
  | none =>
    unfold moveAnt at hok
    cases hok
  | some a =>
    have hp : some a ∈ antList := by rw [hL]; simp
    have hnew : some a ∉ pre := by
      rw [hL] at hnd
      have := (List.nodup_append.1 hnd).2.2
      intro hm
      exact this hm (List.mem_cons_self _ _)
    have hna : st.ants a = ants0 a := hstep.untouched a hnew
    have ht : OnTrack rooms (st.ants a) := by rw [hna]; exact htrack a hp
    obtain ⟨hpath, cur, hcur⟩ := ht.ready
    obtain ⟨h0, h1, h2, h3, h4⟩ := ht
    have hold : ∀ (st2 : TurnState), (∀ x, x ≠ a → st2.ants x = st.ants x) →
        ∀ (i x : Nat), i < pre.length → (pre ++ [some a])[i]? = some (some x) →
          (ants0 x).HasReached = false → (ants0 x).Path.length = 2 →
          (leadsRun ants0 ((pre ++ [some a]).take i) → Advanced rooms (ants0 x) (st2.ants x)) ∧
          (¬ leadsRun ants0 ((pre ++ [some a]).take i) → st2.ants x = ants0 x) := by
      intro st2 hsame i x hi hix hnr hlen
      rw [List.getElem?_append_left hi] at hix
      rw [List.take_append_of_le_length (le_of_lt hi)]
      have hxa : x ≠ a := by
        intro hxa
        rw [hxa] at hix
        exact hnew (List.getElem?_mem hix)
      rw [hsame x hxa]
      exact hcnt.direct i x hix hnr hlen
    have hnew_idx : ∀ (i x : Nat), ¬ i < pre.length →
        (pre ++ [some a])[i]? = some (some x) → x = a ∧ (pre ++ [some a]).take i = pre := by
      intro i x hi hix
      rw [List.getElem?_append_right (by omega)] at hix
      have hi0 : i - pre.length = 0 := by
        by_contra hne
        rw [List.getElem?_eq_none (by simp; omega)] at hix
        cases hix
      rw [hi0] at hix
      simp only [List.getElem?_cons_zero, Option.some.injEq] at hix
      have hi' : i = pre.length := by omega
      refine ⟨hix.symm, ?_⟩
      rw [hi', List.take_left']
      rfl
    rcases moveAnt_cases rooms st a cur hpath hcur h0 with
      ⟨hr, hm⟩ | ⟨hr, hskip, hm⟩ | ⟨hr, hskip, hstuck, hm⟩ | ⟨nr, hr, hskip, hlt, hnr, hfree, hm⟩
    · have hst' : st' = { st with move := 0 } := (Except.ok.inj (hok.symm.trans hm))
      rw [hst']
      refine ⟨le_refl _, ?_, ?_⟩
      · rw [leadsRun_concat, ← hna]
        exact ⟨fun _ => hr, fun _ => rfl⟩
      · intro i x hix hnr hlen
        by_cases hi : i < pre.length
        · exact hold _ (fun _ _ => rfl) i x hi hix hnr hlen
        · obtain ⟨hxa, _⟩ := hnew_idx i x hi hix
          rw [hxa, ← hna, hr] at hnr
          cases hnr
    · have hst' : st' = { st with move := st.move + 1 } := (Except.ok.inj (hok.symm.trans hm))
      rw [hst']
      have hnn := hcnt.nonneg
      refine ⟨by simp only; omega, ?_, ?_⟩
      · rw [leadsRun_concat, ← hna, hr]
        simp only [Bool.false_eq_true, iff_false]
        omega
      · intro i x hix hnr hlen
        by_cases hi : i < pre.length
        · exact hold _ (fun _ _ => rfl) i x hi hix hnr hlen
        · obtain ⟨hxa, htake⟩ := hnew_idx i x hi hix
          rw [hxa, htake]
          refine ⟨?_, fun _ => hna⟩
          intro hlead
          have := hcnt.counter.2 hlead
          have := hskip.2
          omega
    · have hst' : st' = { st with move := st.move + 1, allReached := false } :=
        (Except.ok.inj (hok.symm.trans hm))
      rw [hst']
      have hnn := hcnt.nonneg
      refine ⟨by simp only; omega, ?_, ?_⟩
      · rw [leadsRun_concat, ← hna, hr]
        simp only [Bool.false_eq_true, iff_false]
        omega
      · intro i x hix hnr hlen
        by_cases hi : i < pre.length
        · exact hold _ (fun _ _ => rfl) i x hi hix hnr hlen
        · obtain ⟨hxa, htake⟩ := hnew_idx i x hi hix
          exfalso
          rw [hxa, ← hna] at hlen
          rcases hstuck with hge | ⟨nr, hnr', _, hend⟩
          · have : (st.ants a).PathIndex = ((st.ants a).Path.length : Int) - 1 := by omega
            have := h3.2 this
            rw [hr] at this
            cases this
          · have hidx0 : (st.ants a).PathIndex = 0 := by
              by_contra hne
              have : (st.ants a).PathIndex = ((st.ants a).Path.length : Int) - 1 := by
                rw [hlen]
                push_cast
                rw [hlen] at h1
                push_cast at h1
                omega
              have := h3.2 this
              rw [hr] at this
              cases this
            rw [hidx0] at hnr'
            have h1' : indexInt (st.ants a).Path ((1 : Nat) : Int) = some nr := by
              simpa using hnr'
            rw [indexInt_natCast] at h1'
            have := (h4 1 nr (le_refl _) h1').2 (by omega)
            rw [hend] at this
            cases this
    · have hst' : st' = advanceState rooms st a cur nr := (Except.ok.inj (hok.symm.trans hm))
      rw [hst']
      have hnn := hcnt.nonneg
      refine ⟨by simp only [advanceState]; omega, ?_, ?_⟩
      · rw [leadsRun_concat, ← hna, hr]
        simp only [Bool.false_eq_true, iff_false, advanceState]
        omega
      · intro i x hix hnr' hlen
        by_cases hi : i < pre.length
        · exact hold _ (fun x hx => advanceState_ants_ne rooms st a cur nr x hx) i x hi hix
            hnr' hlen
        · obtain ⟨hxa, htake⟩ := hnew_idx i x hi hix
          rw [hxa, htake]
          have hadv : Advanced rooms (ants0 a) ((advanceState rooms st a cur nr).ants a) := by
            rw [advanceState_ants_self, hna]
            rw [hna] at hnr hr hlt
            exact ⟨nr, hnr, hr, hlt, rfl⟩
          refine ⟨fun _ => hadv, ?_⟩
          intro hnot
          exfalso
          apply hnot
          apply hcnt.counter.1
          rw [hxa, ← hna] at hlen
          have : ¬ (st.move + 1 ≥ 2) := fun hge => hskip ⟨hlen, hge⟩
          omega

/-- A pass that returns leaves the counter and the two-room ants as `Counted` says. -/
theorem runTurn_counted (rooms : List Room) (antList : List (Option Nat))
    (ants0 : Nat → Ant) (occupied : Nat → Option Nat) (st : TurnState)
    (hnd : antList.Nodup) (htrack : ∀ a, some a ∈ antList → OnTrack rooms (ants0 a))
    (hok : runTurn rooms antList ants0 occupied = .ok st) :
    Counted rooms ants0 antList st := by
  unfold runTurn at hok
  refine (foldTurn_ok_inv rooms antList
    (fun pre s => Stepping rooms ants0 pre s ∧ Counted rooms ants0 pre s)
    (counted_step rooms antList ants0 hnd htrack)
    antList [] _ st rfl ⟨?_, ?_⟩ hok).2
  · exact ⟨fun _ _ => rfl, fun x hx => by simp at hx, by simp [movers],
      fun p hp => by simp at hp⟩
  · refine ⟨le_refl _, ?_, ?_⟩
    · exact ⟨fun _ => Or.inl rfl, fun _ => rfl⟩
    · intro i x hix
      simp at hix

/-- The two-room rule on a loaded farm whose start and end rooms differ. -/
theorem skip_rule_apart (S : SliceSorter) (rooms : List Room) (ants : Nat → Ant)
    (af : AntFarm) (start finish : Nat) (paths : List Path)
    (hfarm : LoadedFarm rooms af start finish) (hdist : start ≠ finish)
    (hpaths : findAllPaths S rooms af = some paths) (hne : paths ≠ [])
    (hants : af.Ants ≠ []) :
    ∃ ants0, simStart S rooms ants af = some ants0 ∧
      (∀ fuel, SimulateMovement S fuel rooms ants af
        = turnLoop rooms af.Ants fuel ants0 (fun _ => none) "") ∧
      ∀ fuel, ∀ pass ∈ passes rooms af.Ants fuel ants0 (fun _ => none),
        (movers af.Ants pass.1 pass.2.ants).Nodup ∧
        pass.2.moves = (movers af.Ants pass.1 pass.2.ants).map (recordFor rooms pass.2.ants) ∧
        ∀ (i : Nat) (a : Nat), af.Ants[i]? = some (some a) →
          (pass.1 a).HasReached = false → (pass.1 a).Path.length = 2 →
          (leadsRun pass.1 (af.Ants.take i) ↔ Advanced rooms (pass.1 a) (pass.2.ants a)) ∧
          (leadsRun pass.1 (af.Ants.take i) →
            (pass.2.ants a).CurrentRoom = some finish ∧ (pass.2.ants a).HasReached = true ∧
            a ∈ movers af.Ants pass.1 pass.2.ants ∧
            recordFor rooms pass.2.ants a ∈ pass.2.moves) ∧
          (¬ leadsRun pass.1 (af.Ants.take i) →
            pass.2.ants a = pass.1 a ∧ a ∉ movers af.Ants pass.1 pass.2.ants ∧
            (pass.2.ants a).HasReached = false ∧ pass.2.allReached = false) := by
  obtain ⟨ants0, hstart, hloop, htrack, hR, hline⟩ :=
    simStart_routed S rooms ants af start finish paths hfarm hdist hpaths hne hants
  have hocc : ∀ r, (fun _ : Nat => (none : Option Nat)) r ≠ none →
      isInterior rooms r = true := fun r h => absurd rfl h
  refine ⟨ants0, hstart, hloop, ?_⟩
  intro fuel pass hpass
  obtain ⟨htr2, hR2, _, hmid, _⟩ := passes_line rooms start finish af.Ants hfarm.ants_once
    hfarm.ants_set fuel ants0 _ htrack hR hline hocc pass hpass
  obtain ⟨htr1, _⟩ := passes_inv rooms af.Ants hfarm.ants_once hfarm.ants_set fuel ants0 _
    htrack hocc pass hpass
  obtain ⟨occ, hok⟩ := passes_ok rooms af.Ants fuel ants0 _ pass hpass
  have hcnt := runTurn_counted rooms af.Ants pass.1 occ pass.2 hfarm.ants_once htr1 hok
  refine ⟨movers_nodup af.Ants hfarm.ants_once _ _, hmid.records, ?_⟩
  intro i a hia hnr hlen
  have ha : some a ∈ af.Ants := List.getElem?_mem hia
  obtain ⟨hadv, hstay⟩ := hcnt.direct i a hia hnr hlen
  refine ⟨⟨hadv, ?_⟩, ?_, ?_⟩
  · intro hmoved
    by_contra hnot
    rw [hstay hnot] at hmoved
    exact hmoved.ne_self
  · intro hlead
    have hmoved := hadv hlead
    obtain ⟨hidx, hpath, _⟩ := hmoved.index
    obtain ⟨h0, h1, _, h3, _⟩ := htr1 a ha
    have hzero : (pass.1 a).PathIndex = 0 := by
      by_contra hne0
      have : (pass.1 a).PathIndex = ((pass.1 a).Path.length : Int) - 1 := by
        rw [hlen] at h1 ⊢
        push_cast at h1 ⊢
        omega
      have := h3.2 this
      rw [hnr] at this
      cases this
    have hreached : (pass.2.ants a).HasReached = true := by
      apply (htr2 a ha).2.2.2.1.2
      rw [hidx, hpath, hlen, hzero]
      rfl
    have hmem : a ∈ movers af.Ants pass.1 pass.2.ants := by
      rw [mem_movers]
      refine ⟨ha, ?_⟩
      rw [hidx]
      omega
    refine ⟨((htr2 a ha).arrived_room hreached finish (hR2.last a ha)).1, hreached, hmem, ?_⟩
    rw [hmid.records]
    exact List.mem_map_of_mem _ hmem
  · intro hnot
    have hsame := hstay hnot
    refine ⟨hsame, ?_, by rw [hsame]; exact hnr, ?_⟩
    · rw [mem_movers]
      intro h
      exact h.2 (by rw [hsame])
    · cases h : pass.2.allReached with
      | false => rfl
      | true =>
        rw [hmid.allReached_iff.1 h a ha] at hnr
        cases hnr

/-- C34: on a loaded farm, in every turn an ant that has not arrived and whose path has two
rooms moves exactly when it is the first ant visited or the ant visited immediately before
it had arrived before the turn; then it stands in the end room, has arrived and its record
is among the records of the turn. Otherwise it is as it was, it is not among the ants that
have a record and the turn does not end the loop. The records of a turn are those of the
ants that moved, each ant once. -/
theorem direct_tunnel_skip_rule (S : SliceSorter) (rooms : List Room) (ants : Nat → Ant)
    (af : AntFarm) (start finish : Nat) (paths : List Path)
    (hfarm : LoadedFarm rooms af start finish)
    (hpaths : findAllPaths S rooms af = some paths) (hne : paths ≠ [])
    (hants : af.Ants ≠ []) :
    ∃ ants0, simStart S rooms ants af = some ants0 ∧
      (∀ fuel, SimulateMovement S fuel rooms ants af
        = turnLoop rooms af.Ants fuel ants0 (fun _ => none) "") ∧
      ∀ fuel, ∀ pass ∈ passes rooms af.Ants fuel ants0 (fun _ => none),
        (movers af.Ants pass.1 pass.2.ants).Nodup ∧
        pass.2.moves = (movers af.Ants pass.1 pass.2.ants).map (recordFor rooms pass.2.ants) ∧
        ∀ (i : Nat) (a : Nat), af.Ants[i]? = some (some a) →
          (pass.1 a).HasReached = false → (pass.1 a).Path.length = 2 →
          (leadsRun pass.1 (af.Ants.take i) ↔ Advanced rooms (pass.1 a) (pass.2.ants a)) ∧
          (leadsRun pass.1 (af.Ants.take i) →
            (pass.2.ants a).CurrentRoom = some finish ∧ (pass.2.ants a).HasReached = true ∧
            a ∈ movers af.Ants pass.1 pass.2.ants ∧
            recordFor rooms pass.2.ants a ∈ pass.2.moves) ∧
          (¬ leadsRun pass.1 (af.Ants.take i) →
            pass.2.ants a = pass.1 a ∧ a ∉ movers af.Ants pass.1 pass.2.ants ∧
            (pass.2.ants a).HasReached = false ∧ pass.2.allReached = false) := by
  by_cases hdist : start = finish
  · subst hdist
    obtain ⟨_, ants0, _, hstart, hloop, _, _⟩ :=
      simStart_spec S rooms ants af start start paths hfarm hpaths hne hants
    obtain ⟨_, ants0', hstart', hant, hrun⟩ := same_room_run S rooms ants af start hfarm hants
    rw [hstart] at hstart'
    cases hstart'
    refine ⟨ants0, hstart, hloop, ?_⟩
    intro fuel pass hpass
    obtain ⟨h1, h2, h3, _⟩ := (hrun fuel).2.2 pass hpass
    have hmov : movers af.Ants pass.1 pass.2.ants = [] := by
      rw [h1, h2]
      simp [movers]
    refine ⟨movers_nodup af.Ants hfarm.ants_once _ _, by rw [hmov, h3]; rfl, ?_⟩
    intro i a hia _ hlen
    rw [h1, hant a (List.getElem?_mem hia)] at hlen
    simp at hlen
  · exact skip_rule_apart S rooms ants af start finish paths hfarm hdist hpaths hne hants

theorem loadedFarm_directTwo : LoadedFarm roomsDirect farmDirectTwo 0 1 where
  start_set := rfl
  end_set := rfl
  start_flag := by
    intro r
    match r with
    | 0 => decide
    | 1 => decide
    | r + 2 =>
      constructor
      · intro h
        have : roomAt roomsDirect (r + 2) = default := by
          simp [roomAt, roomsDirect]
        rw [this] at h
        cases h
      · intro h
        omega
  end_flag := by
    intro r
    match r with
    | 0 => decide
    | 1 => decide
    | r + 2 =>
      constructor
      · intro h
        have : roomAt roomsDirect (r + 2) = default := by
          simp [roomAt, roomsDirect]
        rw [this] at h
        cases h
      · intro h
        omega
  ants_set := by decide
  ants_once := by decide

theorem direct_tunnel_skip_rule_witness :
    LoadedFarm roomsDirect farmDirectTwo 0 1 ∧
    findAllPaths insertionSorter roomsDirect farmDirectTwo = some [recordPath [0, 1]] ∧
    [recordPath [0, 1]] ≠ [] ∧ farmDirectTwo.Ants ≠ [] ∧
    ∃ ants0, simStart insertionSorter roomsDirect freshAnts farmDirectTwo = some ants0 ∧
      (∀ fuel, SimulateMovement insertionSorter fuel roomsDirect freshAnts farmDirectTwo
        = turnLoop roomsDirect farmDirectTwo.Ants fuel ants0 (fun _ => none) "") ∧
      ∀ fuel, ∀ pass ∈ passes roomsDirect farmDirectTwo.Ants fuel ants0 (fun _ => none),
        (movers farmDirectTwo.Ants pass.1 pass.2.ants).Nodup ∧
        pass.2.moves
          = (movers farmDirectTwo.Ants pass.1 pass.2.ants).map
              (recordFor roomsDirect pass.2.ants) ∧
        ∀ (i : Nat) (a : Nat), farmDirectTwo.Ants[i]? = some (some a) →
          (pass.1 a).HasReached = false → (pass.1 a).Path.length = 2 →
          (leadsRun pass.1 (farmDirectTwo.Ants.take i)
            ↔ Advanced roomsDirect (pass.1 a) (pass.2.ants a)) ∧
          (leadsRun pass.1 (farmDirectTwo.Ants.take i) →
            (pass.2.ants a).CurrentRoom = some 1 ∧ (pass.2.ants a).HasReached = true ∧
            a ∈ movers farmDirectTwo.Ants pass.1 pass.2.ants ∧
            recordFor roomsDirect pass.2.ants a ∈ pass.2.moves) ∧
          (¬ leadsRun pass.1 (farmDirectTwo.Ants.take i) →
            pass.2.ants a = pass.1 a ∧ a ∉ movers farmDirectTwo.Ants pass.1 pass.2.ants ∧
            (pass.2.ants a).HasReached = false ∧ pass.2.allReached = false) :=
  ⟨loadedFarm_directTwo, findAllPaths_direct insertionSorter farmDirectTwo rfl rfl,
    by simp, by decide,
    direct_tunnel_skip_rule insertionSorter roomsDirect freshAnts farmDirectTwo 0 1
      [recordPath [0, 1]] loadedFarm_directTwo
      (findAllPaths_direct insertionSorter farmDirectTwo rfl rfl) (by simp) (by decide)⟩

/-! ## The turn in which an ant arrives -/

theorem aheadOnRoute_succ (antList : List (Option Nat)) (ants : Nat → Ant) (i a : Nat) :
    aheadOnRoute antList ants (i + 1) a
      = aheadOnRoute antList ants i a +
        (match antList[i]? with
          | some (some b) => if (ants b).Path = (ants a).Path then 1 else 0
          | _ => 0) := by
  unfold aheadOnRoute
  rw [List.range_succ, List.filter_append, List.length_append]
  congr 1
  cases h : antList[i]? with
  | none => simp [h]
  | some p =>
    cases p with
    | none => simp [h]
    | some b =>
      by_cases hb : (ants b).Path = (ants a).Path
      · simp [h, hb]
      · simp [h, hb]

theorem aheadOnRoute_mono (antList : List (Option Nat)) (ants : Nat → Ant) (a : Nat) :
    ∀ (i j : Nat), j ≤ i → aheadOnRoute antList ants j a ≤ aheadOnRoute antList ants i a := by
  intro i
  induction i with
  | zero =>
    intro j hj
    have : j = 0 := by omega
    rw [this]
  | succ i ih =>
    intro j hj
    by_cases h : j = i + 1
    · rw [h]
    · have := ih j (by omega)
      rw [aheadOnRoute_succ]
      omega

theorem aheadOnRoute_same (antList : List (Option Nat)) (ants : Nat → Ant) (i a b : Nat)
    (h : (ants b).Path = (ants a).Path) :
    aheadOnRoute antList ants i b = aheadOnRoute antList ants i a := by
  unfold aheadOnRoute
  rw [h]

/-- An earlier ant of the same path has fewer ants ahead of it. -/
theorem aheadOnRoute_lt (antList : List (Option Nat)) (ants : Nat → Ant) (i j a b : Nat)
    (hji : j < i) (hb : antList[j]? = some (some b)) (h : (ants b).Path = (ants a).Path) :
    aheadOnRoute antList ants j b < aheadOnRoute antList ants i a := by
  rw [aheadOnRoute_same antList ants j a b h]
  have h1 := aheadOnRoute_succ antList ants j a
  rw [hb] at h1
  simp only [h, if_true] at h1
  have h2 := aheadOnRoute_mono antList ants a i (j + 1) (by omega)
  omega

/-- An ant with an ant ahead of it on its path: the nearest such ant has one ant fewer
ahead. -/
theorem aheadOnRoute_pred (antList : List (Option Nat)) (ants : Nat → Ant) (a : Nat) :
    ∀ (i : Nat), 1 ≤ aheadOnRoute antList ants i a →
      ∃ j b, j < i ∧ antList[j]? = some (some b) ∧ (ants b).Path = (ants a).Path ∧
        aheadOnRoute antList ants j b + 1 = aheadOnRoute antList ants i a := by
  intro i
  induction i with
  | zero =>
    intro h
    simp [aheadOnRoute] at h
  | succ i ih =>
    intro h
    rw [aheadOnRoute_succ] at h ⊢
    cases hp : antList[i]? with
    | none =>
      rw [hp] at h
      simp only [add_zero] at h ⊢
      obtain ⟨j, b, hj, hb, hpath, hcount⟩ := ih h
      exact ⟨j, b, by omega, hb, hpath, hcount⟩
    | some p =>
      cases p with
      | none =>
        rw [hp] at h
        simp only [add_zero] at h ⊢
        obtain ⟨j, b, hj, hb, hpath, hcount⟩ := ih h
        exact ⟨j, b, by omega, hb, hpath, hcount⟩
      | some b =>
        by_cases hb : (ants b).Path = (ants a).Path
        · refine ⟨i, b, by omega, hp, hb, ?_⟩
          simp only [hb, if_true]
          rw [aheadOnRoute_same antList ants i a b hb]
        · rw [hp] at h
          simp only [hb, if_false, add_zero] at h ⊢
          obtain ⟨j, c, hj, hc, hpath, hcount⟩ := ih h
          exact ⟨j, c, by omega, hc, hpath, hcount⟩

theorem aheadOnRoute_congr (antList : List (Option Nat)) (ants ants1 : Nat → Ant)
    (hpath : ∀ b, some b ∈ antList → (ants1 b).Path = (ants b).Path) (i a : Nat)
    (ha : some a ∈ antList) :
    aheadOnRoute antList ants1 i a = aheadOnRoute antList ants i a := by
  unfold aheadOnRoute
  congr 1
  apply List.filter_congr
  intro t _
  cases h : antList[t]? with
  | none => rfl
  | some p =>
    cases p with
    | none => rfl
    | some b =>
      simp only
      rw [hpath b (List.getElem?_mem h), hpath a ha]

/-- In a slice whose ants are in line, the ant at the earlier position is ahead. -/
theorem InLine.at_positions {antList : List (Option Nat)} {ants : Nat → Ant}
    (h : InLine antList ants) (j i b a : Nat) (hji : j < i)
    (hb : antList[j]? = some (some b)) (ha : antList[i]? = some (some a)) :
    Ahead (ants b) (ants a) := by
  unfold InLine at h
  rw [List.pairwise_iff_getElem] at h
  obtain ⟨hj, hbj⟩ := List.getElem?_eq_some.1 hb
  obtain ⟨hi, hai⟩ := List.getElem?_eq_some.1 ha
  exact h j i hj hi hji b a hbj hai

/-- One pass keeps the ants on schedule. -/
theorem pass_on_schedule (rooms : List Room) (start finish : Nat)
    (antList : List (Option Nat)) (ants0 : Nat → Ant) (st : TurnState)
    (htrack : ∀ a, some a ∈ antList → OnTrack rooms (ants0 a))
    (hR : Routed rooms start finish antList ants0)
    (hmid : MidTurn rooms ants0 antList st) (hml : MidLine rooms ants0 antList st)
    (T : Nat) (hT : OnSchedule antList T ants0) :
    OnSchedule antList (T + 1) st.ants := by
  have hpath : ∀ b, some b ∈ antList → (st.ants b).Path = (ants0 b).Path := by
    intro b hb
    rcases hmid.stepped b hb with h | h
    · rw [h]
    · exact h.index.2.1
  intro i a hia hlen
  have ha : some a ∈ antList := List.getElem?_mem hia
  rw [hpath a ha] at hlen ⊢
  rw [aheadOnRoute_congr antList ants0 st.ants hpath i a ha]
  have h0 := hT i a hia hlen
  obtain ⟨hge, hle, _, hiff, _⟩ := htrack a ha
  by_cases hA : (ants0 a).Path.length - 1 ≤ T - aheadOnRoute antList ants0 i a
  · -- the ant has arrived
    rw [Nat.min_eq_left hA] at h0
    have hreach : (ants0 a).HasReached = true := by
      apply hiff.2
      rw [h0]
      omega
    rw [hmid.arrived_fixed a hreach, h0, Nat.min_eq_left (by omega)]
  · rw [Nat.min_eq_right (by omega)] at h0
    have hnot : (ants0 a).HasReached = false := by
      cases hc : (ants0 a).HasReached with
      | false => rfl
      | true =>
        have := hiff.1 hc
        omega
    by_cases hB : 1 ≤ T - aheadOnRoute antList ants0 i a
    · -- the ant is past its first room
      have hadv := hml.moved a ha hnot (by omega)
      rw [hadv.index.1, h0, Nat.min_eq_right (by omega)]
      omega
    · -- the ant stands in its first room
      have hzero : (ants0 a).PathIndex = 0 := by omega
      by_cases hC : T = aheadOnRoute antList ants0 i a
      · -- no ant of its path stands there before it
        rcases hmid.stepped a ha with hsame | hadv
        · exfalso
          obtain ⟨_, nr, hnr, hocc⟩ := hml.blocked a ha hnot hsame hlen
          obtain ⟨e, he⟩ := Option.ne_none_iff_exists'.1 hocc
          obtain ⟨hepre, hepath, heidx, _, _, headv⟩ :=
            mark_spot hR (fun p hp => hp) hmid hml a ha 1 nr e hnr he
          obtain ⟨j, hj⟩ := List.mem_iff_getElem?.1 hepre
          have hlen_e : 3 ≤ (ants0 e).Path.length := by rw [hepath]; exact hlen
          have hidx_e := hT j e hj hlen_e
          have hne : e ≠ a := by
            intro hea
            rw [hea, hsame] at headv
            exact headv.ne_self
          have hji : j ≠ i := by
            intro h
            rw [h, hia] at hj
            exact hne (Option.some.inj (Option.some.inj hj)).symm
          rcases Nat.lt_or_gt_of_ne hji with hlt | hgt
          · have := aheadOnRoute_lt antList ants0 i j a e hlt hj hepath
            rw [hepath] at hidx_e
            have hmin : min ((ants0 a).Path.length - 1) (T - aheadOnRoute antList ants0 j e)
                = T - aheadOnRoute antList ants0 j e ∨
                min ((ants0 a).Path.length - 1) (T - aheadOnRoute antList ants0 j e)
                = (ants0 a).Path.length - 1 := by
              rcases Nat.le_total ((ants0 a).Path.length - 1)
                (T - aheadOnRoute antList ants0 j e) with h | h
              · exact Or.inr (Nat.min_eq_left h)
              · exact Or.inl (Nat.min_eq_right h)
            rcases hmin with h | h
            · rw [h] at hidx_e
              omega
            · rw [h] at hidx_e
              omega
          · have hah := hml.ordered.at_positions i j a e hgt hia hj
            have := (hah (by rw [hpath a ha, hpath e hepre, hepath])
              (by rw [hpath a ha]; exact hlen)).1
            rw [headv.index.1, hsame] at this
            omega
        · rw [hadv.index.1, hzero, Nat.min_eq_right (by omega)]
          omega
      · -- an ant of its path stands there before it
        rcases hmid.stepped a ha with hsame | hadv
        · rw [hsame, hzero, Nat.min_eq_right (by omega)]
          omega
        · exfalso
          obtain ⟨j, b, hji, hb, hbpath, hcount⟩ :=
            aheadOnRoute_pred antList ants0 a i (by omega)
          have hbm : some b ∈ antList := List.getElem?_mem hb
          have hlen_b : 3 ≤ (ants0 b).Path.length := by rw [hbpath]; exact hlen
          have hidx_b := hT j b hb hlen_b
          rw [Nat.min_eq_right (by omega)] at hidx_b
          have hbzero : (ants0 b).PathIndex = 0 := by omega
          have hah := hml.ordered.at_positions j i b a hji hb hia
          obtain ⟨hle', heq⟩ := hah (by rw [hpath a ha, hpath b hbm, hbpath])
            (by rw [hpath b hbm]; exact hlen_b)
          rw [hadv.index.1, hzero] at hle'
          rcases hmid.stepped b hbm with hbs | hba
          · rw [hbs, hbzero] at hle'
            omega
          · have hb1 : (st.ants b).PathIndex = 1 := by rw [hba.index.1, hbzero]; rfl
            have := heq (by rw [hb1, hadv.index.1, hzero]; rfl)
            rw [hb1, hpath b hbm] at this
            omega

/-- Every pass of a run keeps the ants on schedule, and the run goes on as long as an ant on
a path of three rooms or more is due to move. -/
theorem passes_on_schedule (rooms : List Room) (start finish : Nat)
    (antList : List (Option Nat)) (hnd : antList.Nodup) (hnil : ∀ p ∈ antList, p ≠ none) :
    ∀ (fuel T : Nat) (ants : Nat → Ant) (occupied : Nat → Option Nat),
      (∀ a, some a ∈ antList → OnTrack rooms (ants a)) →
      Routed rooms start finish antList ants → InLine antList ants →
      (∀ r, occupied r ≠ none → isInterior rooms r = true) →
      OnSchedule antList T ants →
      (∀ (n : Nat) (pass : (Nat → Ant) × TurnState),
        (passes rooms antList fuel ants occupied)[n]? = some pass →
        OnSchedule antList (T + n) pass.1 ∧ OnSchedule antList (T + n + 1) pass.2.ants) ∧
      (∀ (n i a : Nat), n < fuel → antList[i]? = some (some a) →
        3 ≤ (ants a).Path.length →
        T + n < (ants a).Path.length - 1 + aheadOnRoute antList ants i a →
        n < (passes rooms antList fuel ants occupied).length) := by
  intro fuel
  induction fuel with
  | zero =>
    intro T ants occupied _ _ _ _ _
    exact ⟨(fun n pass h => by simp [passes] at h), (fun n i a h => by omega)⟩
  | succ fuel ih =>
    intro T ants occupied htrack hR hline hocc hT
    obtain ⟨st, hturn, hmid, hml⟩ :=
      runTurn_midLine rooms start finish antList ants occupied hnd hnil htrack hR hline hocc
    have htrack1 := hmid.onTrack htrack
    have hpath : ∀ b, some b ∈ antList → (st.ants b).Path = (ants b).Path := by
      intro b hb
      rcases hmid.stepped b hb with h | h
      · rw [h]
      · exact h.index.2.1
    have hR1 : Routed rooms start finish antList st.ants := hR.congr hpath
    have hT1 := pass_on_schedule rooms start finish antList ants st htrack hR hmid hml T hT
    obtain ⟨ih1, ih2⟩ := ih (T + 1) st.ants st.occupied htrack1 hR1 hml.ordered hmid.marks hT1
    rw [passes_succ rooms antList fuel ants occupied st hturn]
    constructor
    · intro n pass hn
      cases n with
      | zero =>
        simp only [List.getElem?_cons_zero, Option.some.injEq] at hn
        rw [← hn]
        exact ⟨hT, hT1⟩
      | succ n =>
        rw [List.getElem?_cons_succ] at hn
        by_cases hst : st.allReached = true
        · rw [if_pos hst] at hn
          simp at hn
        · rw [if_neg hst] at hn
          have := ih1 n pass hn
          have e1 : T + (n + 1) = T + 1 + n := by omega
          rw [e1]
          exact this
    · intro n i a hn hia hlen hdue
      cases n with
      | zero => simp
      | succ n =>
        have ha : some a ∈ antList := List.getElem?_mem hia
        have hidx := hT i a hia hlen
        obtain ⟨_, _, _, hiff, _⟩ := htrack a ha
        have hnot : (ants a).HasReached = false := by
          cases hc : (ants a).HasReached with
          | false => rfl
          | true =>
            have h1 := hiff.1 hc
            rw [hidx, Nat.min_eq_right (by omega)] at h1
            omega
        have hst : ¬ st.allReached = true := by
          intro h
          rw [hmid.allReached_iff.1 h a ha] at hnot
          cases hnot
        rw [if_neg hst]
        have := ih2 n i a (by omega) hia (by rw [hpath a ha]; exact hlen)
          (by
            rw [hpath a ha, aheadOnRoute_congr antList ants st.ants hpath i a ha]
            omega)
        simp only [List.length_cons]
        omega

theorem nodup_getD_not_later (l : List (Option Nat)) (hnd : l.Nodup) (i : Nat)
    (hi : i < l.length) : l.getD i none ∉ l.drop (i + 1) := by
  have hdrop : (l.drop i).Nodup := hnd.sublist (List.drop_sublist i l)
  rw [List.drop_eq_getElem_cons hi] at hdrop
  rw [List.getD_eq_getElem _ _ hi]
  exact (List.nodup_cons.1 hdrop).1

/-- Among selected paths, a path of three rooms or more occurs at one index only. -/
theorem same_rooms_same_index (rooms : List Room) (paths : List Path)
    (hpair : paths.Pairwise
      (fun x y => ∀ nm ∈ middleNames rooms x, nm ∉ middleNames rooms y))
    (u v : Nat) (hu : u < paths.length) (hv : v < paths.length)
    (hrooms : (paths.getD u default).Rooms = (paths.getD v default).Rooms)
    (hlen : 3 ≤ (paths.getD u default).Rooms.length) : u = v := by
  have hmid : middleNames rooms (paths.getD u default)
      = middleNames rooms (paths.getD v default) := by
    unfold middleNames
    rw [hrooms]
  have hmem : (roomAt rooms ((paths.getD u default).Rooms.getD 1 0)).Name
      ∈ middleNames rooms (paths.getD u default) := by
    rw [mem_middleNames]
    exact ⟨1, le_refl _, by omega, rfl⟩
  rw [List.pairwise_iff_getElem] at hpair
  rw [List.getD_eq_getElem _ _ hu, List.getD_eq_getElem _ _ hv] at hmid
  rw [List.getD_eq_getElem _ _ hu] at hmem
  by_contra hne
  rcases Nat.lt_or_gt_of_ne hne with h | h
  · exact hpair u v hu hv h _ hmem (hmid ▸ hmem)
  · exact hpair v u hv hu h _ (hmid ▸ hmem) hmem

/-- C33: on a loaded farm whose start and end rooms differ, let the ant at position `i` of
the slice be the `k`-th ant that `assignAntsToPath` gives its path, of `Length` `L ≥ 2`.
The value `bestTurns` computed for it is `L + (k - 1)`. Before turn `n + 1` the ant has
made `min L (n + 1 - k)` moves and after it `min L (n + 2 - k)`: it stays in the start room
through the turns before turn `k`, moves in each of the turns `k` to `L + k - 1`, standing
after each in the room of its path at its number of moves, and has arrived exactly from
turn `L + k - 1` on; a run of at least `L + k - 1` turns of fuel makes these turns. -/
theorem arrival_turn_is_assigned_cost (S : SliceSorter) (rooms : List Room)
    (ants : Nat → Ant) (af : AntFarm) (start finish : Nat) (paths : List Path)
    (hfarm : LoadedFarm rooms af start finish) (hdist : start ≠ finish)
    (hpaths : findAllPaths S rooms af = some paths) (hne : paths ≠ [])
    (hants : af.Ants ≠ [])
    (hsize : (rooms.length : Int) + (af.Ants.length : Int) ≤ maxInt) :
    ∃ m ants0, assignAntsToPath S rooms af = some (some m) ∧
      simStart S rooms ants af = some ants0 ∧
      (∀ fuel, SimulateMovement S fuel rooms ants af
        = turnLoop rooms af.Ants fuel ants0 (fun _ => none) "") ∧
      ∀ (i a k L : Nat), af.Ants[i]? = some (some a) →
        earlierOn paths af.Ants i (choice paths af.Ants i) + 1 = k →
        (paths.getD (choice paths af.Ants i) default).Length = (L : Int) → 2 ≤ L →
        mapLookup m (some a) = some (paths.getD (choice paths af.Ants i) default) ∧
        (pickPath paths
            ((af.Ants.take i).foldl (assignOne paths) (assignInit paths)).pathAnts).1
          = (L : Int) + ((k : Int) - 1) ∧
        (∀ fuel, L + k - 1 ≤ fuel →
          L + k - 1 ≤ (passes rooms af.Ants fuel ants0 (fun _ => none)).length) ∧
        ∀ (fuel n : Nat) (pass : (Nat → Ant) × TurnState),
          (passes rooms af.Ants fuel ants0 (fun _ => none))[n]? = some pass →
          (pass.1 a).PathIndex = ((min L (n + 1 - k) : Nat) : Int) ∧
          (pass.2.ants a).PathIndex = ((min L (n + 2 - k) : Nat) : Int) ∧
          ((pass.2.ants a).HasReached = true ↔ L + k - 1 ≤ n + 1) ∧
          (a ∈ movers af.Ants pass.1 pass.2.ants ↔ k ≤ n + 1 ∧ n + 1 ≤ L + k - 1) ∧
          (pass.2.ants a).CurrentRoom
            = (paths.getD (choice paths af.Ants i) default).Rooms[min L (n + 2 - k)]? := by
  obtain ⟨m, ants0, hassign, hstart, hloop, hspec, _⟩ :=
    simStart_spec S rooms ants af start finish paths hfarm hpaths hne hants
  obtain ⟨ants0', hstart', _, htrack, hR, hline⟩ :=
    simStart_routed S rooms ants af start finish paths hfarm hdist hpaths hne hants
  rw [hstart] at hstart'
  cases hstart'
  have hm : m = (af.Ants.foldl (assignOne paths) (assignInit paths)).antPaths := by
    have h := assignAntsToPath_eq S rooms af paths hpaths hne
    rw [hassign] at h
    exact Option.some.inj (Option.some.inj h)
  have hpair := findAllPaths_pairwise S rooms af paths hpaths
  have hocc : ∀ r, (fun _ : Nat => (none : Option Nat)) r ≠ none →
      isInterior rooms r = true := fun r h => absurd rfl h
  -- the path and the first index of every ant of the slice
  have hat : ∀ (i a : Nat), af.Ants[i]? = some (some a) →
      mapLookup m (some a) = some (paths.getD (choice paths af.Ants i) default) ∧
      (ants0 a).Path = (paths.getD (choice paths af.Ants i) default).Rooms ∧
      (ants0 a).PathIndex = 0 ∧
      (paths.getD (choice paths af.Ants i) default).Length
        = ((ants0 a).Path.length : Int) - 1 := by
    intro i a hia
    obtain ⟨hi, hget⟩ := List.getElem?_eq_some.1 hia
    have hgetD : af.Ants.getD i none = some a := by
      rw [List.getD_eq_getElem _ _ hi, hget]
    have hlook := assign_lookup_at paths af.Ants i hi
      (nodup_getD_not_later af.Ants hfarm.ants_once i hi)
    rw [hgetD, ← hm] at hlook
    obtain ⟨p, q, _, hp, hpq, _, _, _, h0⟩ := hspec a (List.getElem?_mem hia)
    rw [hlook] at hp
    have hp' := Option.some.inj hp
    refine ⟨hlook, ?_, ?_, ?_⟩
    · rw [h0, hp', hpq]
      rfl
    · rw [h0]
    · rw [h0, hp', hpq]
      rfl
  have hchoice : ∀ t, choice paths af.Ants t < paths.length :=
    fun t => pickPath_index_lt paths _ hne
  -- the ants ahead on the path are the earlier ants given the path
  have hrank : ∀ (i a : Nat), af.Ants[i]? = some (some a) → 3 ≤ (ants0 a).Path.length →
      aheadOnRoute af.Ants ants0 i a
        = earlierOn paths af.Ants i (choice paths af.Ants i) := by
    intro i a hia hlen
    obtain ⟨hi, _⟩ := List.getElem?_eq_some.1 hia
    unfold aheadOnRoute earlierOn
    congr 1
    apply List.filter_congr
    intro t ht
    have hti : t < i := List.mem_range.1 ht
    have htl : t < af.Ants.length := by omega
    cases hb : af.Ants[t]? with
    | none =>
      rw [List.getElem?_eq_getElem htl] at hb
      cases hb
    | some pb =>
      cases pb with
      | none => exact absurd rfl (hfarm.ants_set none (List.getElem?_mem hb))
      | some b =>
        simp only
        have hpb := (hat t b hb).2.1
        have hpa := (hat i a hia).2.1
        by_cases hc : choice paths af.Ants t = choice paths af.Ants i
        · simp only [hc, decide_True, decide_eq_true_eq]
          rw [hpb, hpa, hc]
        · simp only [hc, decide_False, decide_eq_false_iff_not]
          intro hsame
          apply hc
          rw [hpb, hpa] at hsame
          exact same_rooms_same_index rooms paths hpair _ _ (hchoice t) (hchoice i) hsame
            (by rw [hsame, ← hpa]; exact hlen)
  have hsched0 : OnSchedule af.Ants 0 ants0 := by
    intro i a hia _
    rw [(hat i a hia).2.2.1]
    simp
  have hB : ∀ j, j < paths.length → (paths.getD j default).Length ≤ (rooms.length : Int) := by
    intro j hj
    apply findAllPaths_length_le S rooms af paths hpaths
    rw [List.getD_eq_getElem _ _ hj]
    exact List.getElem_mem hj
  refine ⟨m, ants0, hassign, hstart, hloop, ?_⟩
  intro i a k L hia hk hL hL2
  have ha : some a ∈ af.Ants := List.getElem?_mem hia
  obtain ⟨hi, _⟩ := List.getElem?_eq_some.1 hia
  obtain ⟨hlook, hpatha, _, hlength⟩ := hat i a hia
  rw [hL] at hlength
  have hlen3 : 3 ≤ (ants0 a).Path.length := by omega
  have hLlen : (ants0 a).Path.length - 1 = L := by omega
  have hr := hrank i a hia hlen3
  obtain ⟨_, hcost, _⟩ := choice_least paths af.Ants hne _ hB hsize i hi
  refine ⟨hlook, ?_, ?_, ?_⟩
  · rw [hcost]
    unfold turnsOn
    rw [hL, ← hk]
    push_cast
    omega
  · intro fuel hfuel
    have h2 := (passes_on_schedule rooms start finish af.Ants hfarm.ants_once hfarm.ants_set
      fuel 0 ants0 _ htrack hR hline hocc hsched0).2 (L + k - 2) i a (by omega) hia hlen3
      (by rw [hr, hLlen]; omega)
    omega
  · intro fuel n pass hn
    have hmem : pass ∈ passes rooms af.Ants fuel ants0 (fun _ => none) :=
      List.getElem?_mem hn
    obtain ⟨hs1, hs2⟩ := (passes_on_schedule rooms start finish af.Ants hfarm.ants_once
      hfarm.ants_set fuel 0 ants0 _ htrack hR hline hocc hsched0).1 n pass hn
    obtain ⟨⟨_, hp1⟩, ⟨_, hp2⟩, _⟩ := passes_fixed rooms af.Ants hfarm.ants_once
      hfarm.ants_set fuel ants0 _ htrack hocc pass hmem a ha
    have hpathfix1 : ∀ b, some b ∈ af.Ants → (pass.1 b).Path = (ants0 b).Path :=
      fun b hb => (passes_fixed rooms af.Ants hfarm.ants_once hfarm.ants_set fuel ants0 _
        htrack hocc pass hmem b hb).1.2
    have hpathfix2 : ∀ b, some b ∈ af.Ants → (pass.2.ants b).Path = (ants0 b).Path :=
      fun b hb => (passes_fixed rooms af.Ants hfarm.ants_once hfarm.ants_set fuel ants0 _
        htrack hocc pass hmem b hb).2.1.2
    have hi1 := hs1 i a hia (by rw [hp1]; exact hlen3)
    have hi2 := hs2 i a hia (by rw [hp2]; exact hlen3)
    rw [hp1, aheadOnRoute_congr af.Ants ants0 pass.1 hpathfix1 i a ha, hr, hLlen] at hi1
    rw [hp2, aheadOnRoute_congr af.Ants ants0 pass.2.ants hpathfix2 i a ha, hr, hLlen] at hi2
    have e1 : 0 + n - earlierOn paths af.Ants i (choice paths af.Ants i) = n + 1 - k := by
      omega
    have e2 : 0 + n + 1 - earlierOn paths af.Ants i (choice paths af.Ants i) = n + 2 - k := by
      omega
    rw [e1] at hi1
    rw [e2] at hi2
    obtain ⟨htr2, _, _, _, _⟩ := passes_line rooms start finish af.Ants hfarm.ants_once
      hfarm.ants_set fuel ants0 _ htrack hR hline hocc pass hmem
    obtain ⟨_, _, hcur, hiff, _⟩ := htr2 a ha
    have hcases : (min L (n + 1 - k) = n + 1 - k ∧ n + 1 - k ≤ L) ∨
        (min L (n + 1 - k) = L ∧ L ≤ n + 1 - k) := by
      rcases Nat.le_total L (n + 1 - k) with h | h
      · exact Or.inr ⟨Nat.min_eq_left h, h⟩
      · exact Or.inl ⟨Nat.min_eq_right h, h⟩
    have hcases2 : (min L (n + 2 - k) = n + 2 - k ∧ n + 2 - k ≤ L) ∨
        (min L (n + 2 - k) = L ∧ L ≤ n + 2 - k) := by
      rcases Nat.le_total L (n + 2 - k) with h | h
      · exact Or.inr ⟨Nat.min_eq_left h, h⟩
      · exact Or.inl ⟨Nat.min_eq_right h, h⟩
    refine ⟨hi1, hi2, ?_, ?_, ?_⟩
    · rw [hiff, hi2, hp2]
      rcases hcases2 with ⟨h, h'⟩ | ⟨h, h'⟩
      · rw [h]
        constructor
        · intro heq
          omega
        · intro hle
          omega
      · rw [h]
        constructor
        · intro _
          omega
        · intro _
          omega
    · rw [mem_movers, hi1, hi2]
      rcases hcases with ⟨h, h'⟩ | ⟨h, h'⟩ <;> rcases hcases2 with ⟨g, g'⟩ | ⟨g, g'⟩
      · rw [h, g]
        constructor
        · rintro ⟨_, hneq⟩
          have : n + 2 - k ≠ n + 1 - k := fun hh => hneq (by rw [hh])
          omega
        · intro hh
          refine ⟨ha, ?_⟩
          intro heq
          have : n + 2 - k = n + 1 - k := by exact_mod_cast heq
          omega
      · rw [h, g]
        constructor
        · rintro ⟨_, hneq⟩
          have : L ≠ n + 1 - k := fun hh => hneq (by rw [hh])
          omega
        · intro hh
          refine ⟨ha, ?_⟩
          intro heq
          have : L = n + 1 - k := by exact_mod_cast heq
          omega
      · rw [h, g]
        constructor
        · rintro ⟨_, hneq⟩
          have : n + 2 - k ≠ L := fun hh => hneq (by rw [hh])
          omega
        · intro hh
          omega
      · rw [h, g]
        constructor
        · rintro ⟨_, hneq⟩
          exact absurd rfl hneq
        · intro hh
          omega
    · rw [hcur, hi2, indexInt_natCast, hp2, hpatha]

theorem onePath_fits :
    (roomsOnePath.length : Int) + (farmOnePath.Ants.length : Int) ≤ maxInt := by
  unfold maxInt
  simp [roomsOnePath, farmOnePath]

theorem arrival_turn_is_assigned_cost_witness :
    LoadedFarm roomsOnePath farmOnePath 0 2 ∧ (0 : Nat) ≠ 2 ∧
    findAllPaths insertionSorter roomsOnePath farmOnePath = some [recordPath [0, 1, 2]] ∧
    [recordPath [0, 1, 2]] ≠ [] ∧ farmOnePath.Ants ≠ [] ∧
    (roomsOnePath.length : Int) + (farmOnePath.Ants.length : Int) ≤ maxInt ∧
    ∃ m ants0, assignAntsToPath insertionSorter roomsOnePath farmOnePath = some (some m) ∧
      simStart insertionSorter roomsOnePath freshAnts farmOnePath = some ants0 ∧
      (∀ fuel, SimulateMovement insertionSorter fuel roomsOnePath freshAnts farmOnePath
        = turnLoop roomsOnePath farmOnePath.Ants fuel ants0 (fun _ => none) "") ∧
      ∀ (i a k L : Nat), farmOnePath.Ants[i]? = some (some a) →
        earlierOn [recordPath [0, 1, 2]] farmOnePath.Ants i
            (choice [recordPath [0, 1, 2]] farmOnePath.Ants i) + 1 = k →
        ([recordPath [0, 1, 2]].getD (choice [recordPath [0, 1, 2]] farmOnePath.Ants i)
            default).Length = (L : Int) → 2 ≤ L →
        mapLookup m (some a)
          = some ([recordPath [0, 1, 2]].getD
              (choice [recordPath [0, 1, 2]] farmOnePath.Ants i) default) ∧
        (pickPath [recordPath [0, 1, 2]]
            ((farmOnePath.Ants.take i).foldl (assignOne [recordPath [0, 1, 2]])
              (assignInit [recordPath [0, 1, 2]])).pathAnts).1
          = (L : Int) + ((k : Int) - 1) ∧
        (∀ fuel, L + k - 1 ≤ fuel →
          L + k - 1
            ≤ (passes roomsOnePath farmOnePath.Ants fuel ants0 (fun _ => none)).length) ∧
        ∀ (fuel n : Nat) (pass : (Nat → Ant) × TurnState),
          (passes roomsOnePath farmOnePath.Ants fuel ants0 (fun _ => none))[n]? = some pass →
          (pass.1 a).PathIndex = ((min L (n + 1 - k) : Nat) : Int) ∧
          (pass.2.ants a).PathIndex = ((min L (n + 2 - k) : Nat) : Int) ∧
          ((pass.2.ants a).HasReached = true ↔ L + k - 1 ≤ n + 1) ∧
          (a ∈ movers farmOnePath.Ants pass.1 pass.2.ants ↔ k ≤ n + 1 ∧ n + 1 ≤ L + k - 1) ∧
          (pass.2.ants a).CurrentRoom
            = ([recordPath [0, 1, 2]].getD
                (choice [recordPath [0, 1, 2]] farmOnePath.Ants i) default).Rooms[
                  min L (n + 2 - k)]? :=
  ⟨loadedFarm_onePath, by decide, findAllPaths_onePath insertionSorter, by simp, by decide,
    onePath_fits,
    arrival_turn_is_assigned_cost insertionSorter roomsOnePath freshAnts farmOnePath 0 2
      [recordPath [0, 1, 2]] loadedFarm_onePath (by decide)
      (findAllPaths_onePath insertionSorter) (by simp) (by decide) onePath_fits⟩

/-- The schedule on the farm of the test with three ants on one path of `Length` 2: the
ant at position `i` is the ant number `i + 1` of the path and arrives in turn `i + 2`. -/
theorem onePath_schedule :
    (List.range 3).map (fun i =>
        (earlierOn [recordPath [0, 1, 2]] farmOnePath.Ants i
            (choice [recordPath [0, 1, 2]] farmOnePath.Ants i) + 1,
          (pickPath [recordPath [0, 1, 2]]
            ((farmOnePath.Ants.take i).foldl (assignOne [recordPath [0, 1, 2]])
              (assignInit [recordPath [0, 1, 2]])).pathAnts).1))
      = [(1, 2), (2, 3), (3, 4)] := by
  decide

/-! ## The loader: a line with a minus sign is read as a link -/

theorem minus_code : ("-".data.headD default).toNat = 45 := by decide

theorem char_of_minus_code (c : Char) (h : c.toNat = 45) : c = "-".data.headD default := by
  have hc : c = Char.ofNat c.toNat := (Char.ofNat_toNat c).symm
  rw [hc, h]
  rfl

/-- A negative number is read by `decimalAtoi` from a text that begins with the minus
sign. -/
theorem decimalAtoi_negative (s : String) (n : Int) (h : decimalAtoi s = some n)
    (hn : n < 0) : ∃ c cs, s.data = c :: cs ∧ c.toNat = 45 := by
  unfold decimalAtoi at h
  cases hd : s.data with
  | nil => rw [hd] at h; cases h
  | cons c cs =>
    rw [hd] at h
    simp only at h
    by_cases h45 : c.toNat = 45
    · exact ⟨c, cs, rfl, h45⟩
    · exfalso
      rw [if_neg h45] at h
      by_cases h43 : c.toNat = 43
      · rw [if_pos h43] at h
        obtain ⟨v, _, hv⟩ := Option.bind_eq_some.1 h
        split at hv
        · cases hv
          omega
        · cases hv
      · rw [if_neg h43] at h
        obtain ⟨v, _, hv⟩ := Option.bind_eq_some.1 h
        split at hv
        · cases hv
          omega
        · cases hv

/-- The characters of the fields of a line are its characters that are not white space, in
their order. -/
theorem fieldsFrom_flatten : ∀ (cs cur : List Char),
    ((fieldsFrom cur cs).map String.data).flatten
      = cur.reverse ++ cs.filter (fun c => !isSpaceCode c.toNat) := by
  intro cs
  induction cs with
  | nil =>
    intro cur
    unfold fieldsFrom
    by_cases hc : cur = []
    · simp [hc]
    · simp [hc]
  | cons c cs ih =>
    intro cur
    unfold fieldsFrom
    by_cases hs : isSpaceCode c.toNat = true
    · rw [if_pos hs]
      by_cases hc : cur = []
      · rw [if_pos hc, ih, hc]
        simp [hs]
      · rw [if_neg hc]
        simp only [List.map_cons, List.flatten_cons, ih]
        simp [hs]
    · rw [if_neg hs, ih]
      simp [hs]

/-- The first field continues the characters read so far up to the next white space. -/
theorem fieldsFrom_first : ∀ (cs cur : List Char), cur ≠ [] →
    ∃ rest, fieldsFrom cur cs
      = String.mk (cur.reverse ++ cs.takeWhile (fun c => !isSpaceCode c.toNat)) :: rest := by
  intro cs
  induction cs with
  | nil =>
    intro cur hc
    unfold fieldsFrom
    exact ⟨[], by simp [hc]⟩
  | cons c cs ih =>
    intro cur hc
    unfold fieldsFrom
    by_cases hs : isSpaceCode c.toNat = true
    · rw [if_pos hs, if_neg hc]
      refine ⟨fieldsFrom [] cs, ?_⟩
      simp [hs]
    · rw [if_neg hs]
      obtain ⟨rest, hrest⟩ := ih (c :: cur) (List.cons_ne_nil _ _)
      refine ⟨rest, ?_⟩
      rw [hrest]
      simp [hs]

/-- In a line of two fields or more whose first field has no minus sign, white space
stands before the first minus sign. -/
theorem fieldsFrom_gap : ∀ (cs cur : List Char) (f g : String) (rest : List String),
    fieldsFrom cur cs = f :: g :: rest → (∀ c ∈ f.data, c.toNat ≠ 45) →
    ∃ c ∈ cs.takeWhile (fun c => decide (c.toNat ≠ 45)), isSpaceCode c.toNat = true := by
  intro cs
  induction cs with
  | nil =>
    intro cur f g rest h _
    unfold fieldsFrom at h
    by_cases hc : cur = []
    · simp [hc] at h
    · simp [hc] at h
  | cons c cs ih =>
    intro cur f g rest h hf
    by_cases hs : isSpaceCode c.toNat = true
    · refine ⟨c, ?_, hs⟩
      have h45 : c.toNat ≠ 45 := by
        intro h45
        rw [h45] at hs
        exact absurd hs (by decide)
      rw [List.takeWhile_cons]
      simp [h45]
    · unfold fieldsFrom at h
      rw [if_neg hs] at h
      obtain ⟨rest1, hrest1⟩ := fieldsFrom_first cs (c :: cur) (List.cons_ne_nil _ _)
      have hfeq : f = String.mk ((c :: cur).reverse
          ++ cs.takeWhile (fun c => !isSpaceCode c.toNat)) := by
        rw [hrest1] at h
        exact (List.cons.inj h).1.symm
      have hc45 : c.toNat ≠ 45 := by
        apply hf c
        rw [hfeq]
        simp
      obtain ⟨c1, hc1, hs1⟩ := ih (c :: cur) f g rest h hf
      refine ⟨c1, ?_, hs1⟩
      rw [List.takeWhile_cons]
      simp only [hc45, ne_eq, not_false_eq_true, decide_True, if_true]
      exact List.mem_cons_of_mem _ hc1

theorem splitFrom_length (sep : Nat) : ∀ (cs cur : List Char),
    (splitFrom sep cur cs).length = cs.countP (fun c => decide (c.toNat = sep)) + 1 := by
  intro cs
  induction cs with
  | nil => intro cur; simp [splitFrom]
  | cons c cs ih =>
    intro cur
    unfold splitFrom
    by_cases hc : c.toNat = sep
    · rw [if_pos hc, List.length_cons, ih, List.countP_cons_of_pos _ _ (by simpa using hc)]
    · rw [if_neg hc, ih, List.countP_cons_of_neg _ _ (by simpa using hc)]

theorem splitFrom_head (sep : Nat) : ∀ (cs cur : List Char),
    (splitFrom sep cur cs).getD 0 ""
      = String.mk (cur.reverse ++ cs.takeWhile (fun c => decide (c.toNat ≠ sep))) := by
  intro cs
  induction cs with
  | nil => intro cur; simp [splitFrom]
  | cons c cs ih =>
    intro cur
    unfold splitFrom
    by_cases hc : c.toNat = sep
    · rw [if_pos hc]
      simp [hc]
    · rw [if_neg hc, ih]
      simp [hc]

/-- The minus signs of a line are those of its fields. -/
theorem minus_count_fields (cs : List Char) (name xs ys : String)
    (h : fieldsFrom [] cs = [name, xs, ys]) :
    cs.countP (fun c => decide (c.toNat = 45))
      = name.data.countP (fun c => decide (c.toNat = 45))
        + xs.data.countP (fun c => decide (c.toNat = 45))
        + ys.data.countP (fun c => decide (c.toNat = 45)) := by
  have hflat := fieldsFrom_flatten cs []
  rw [h] at hflat
  simp only [List.map_cons, List.map_nil, List.flatten_cons, List.flatten_nil,
    List.append_nil, List.reverse_nil, List.nil_append] at hflat
  have hcount : cs.countP (fun c => decide (c.toNat = 45))
      = (cs.filter (fun c => !isSpaceCode c.toNat)).countP
          (fun c => decide (c.toNat = 45)) := by
    rw [List.countP_filter]
    apply List.countP_congr
    intro c _
    by_cases h45 : c.toNat = 45
    · simp [h45]
      decide
    · simp [h45]
  rw [hcount, ← hflat, List.countP_append, List.countP_append]
  omega

/-- A line that `strings.Contains` finds a minus sign in goes to `parseLink`, which adds no
room. -/
theorem parseLine_minus (L : TextLib) (ld : Loader) (line : String) (state : ParserState)
    (h : L.contains line "-" = true) :
    parseLine L ld line state
      = ((parseLink L ld line).1, { state with parsingLinks := true },
          (parseLink L ld line).2) ∧
    (parseLine L ld line state).1.af = ld.af ∧
    (parseLine L ld line state).1.rooms.length = ld.rooms.length := by
  have hpl : parseLine L ld line state
      = ((parseLink L ld line).1, { state with parsingLinks := true },
          (parseLink L ld line).2) := by
    unfold parseLine
    rw [if_pos h]
  rw [hpl]
  refine ⟨rfl, ?_, ?_⟩
  · rcases parseLink_cases L ld line with ⟨e, he⟩ | ⟨room1, room2, _, _, _, _, _, hk⟩
    · rw [he]
    · rw [hk]
  · rcases parseLink_cases L ld line with ⟨e, he⟩ | ⟨room1, room2, _, _, _, _, _, hk⟩
    · rw [he]
    · rw [hk]
      simp only [length_appendConnected]

/-- C38: `parseLine` hands every line in which `strings.Contains` finds a minus sign to
`parseLink`, which adds no room. With the decimal reading of `Atoi` and the fields and
pieces of `Fields` and `Split`, a line of three fields whose second or third field reads as
a negative number has a minus sign, and `parseLine` returns an error for it and leaves the
loader as it was, when the keys of the map hold no white space, as the keys `parseRoom`
stores do; `parseRoomDefinition` on the same line returns the room with the coordinates
read, when the name is new. -/
theorem negative_coordinate_line_refused (ld : Loader) (state : ParserState)
    (line name xs ys : String) (x y : Int) (hkeys : UnspacedKeys ld)
    (hnew : roomsLookup ld.af.Rooms name = none)
    (hfields : fixtureText.fields line = [name, xs, ys])
    (hx : fixtureText.atoi xs = some x) (hy : fixtureText.atoi ys = some y)
    (hneg : x < 0 ∨ y < 0) :
    (∀ (L : TextLib) (ld1 : Loader) (l : String) (st : ParserState),
      L.contains l "-" = true →
      parseLine L ld1 l st
        = ((parseLink L ld1 l).1, { st with parsingLinks := true },
            (parseLink L ld1 l).2) ∧
      (parseLine L ld1 l st).1.af = ld1.af ∧
      (parseLine L ld1 l st).1.rooms.length = ld1.rooms.length) ∧
    fixtureText.contains line "-" = true ∧
    ((parseLine fixtureText ld line state).2.2 = some ⟨"invalid link format"⟩ ∨
      (parseLine fixtureText ld line state).2.2
        = some ⟨"link references nonexistent room"⟩) ∧
    (parseLine fixtureText ld line state).1 = ld ∧
    parseRoomDefinition fixtureText ld line state
      = ({ ld with rooms := ld.rooms ++
            [⟨name, x, y, state.expectStart, state.expectEnd, []⟩] },
          .ok ld.rooms.length) := by
  have hf : fieldsFrom [] line.data = [name, xs, ys] := hfields
  -- a field that reads as a negative number begins with the minus sign
  have hsign : 1 ≤ xs.data.countP (fun c => decide (c.toNat = 45))
      + ys.data.countP (fun c => decide (c.toNat = 45)) := by
    rcases hneg with h | h
    · obtain ⟨c, cs, hd, hc⟩ := decimalAtoi_negative xs x hx h
      rw [hd, List.countP_cons_of_pos _ _ (by simpa using hc)]
      omega
    · obtain ⟨c, cs, hd, hc⟩ := decimalAtoi_negative ys y hy h
      rw [hd, List.countP_cons_of_pos _ _ (by simpa using hc)]
      omega
  have hcount := minus_count_fields line.data name xs ys hf
  have hcontains : fixtureText.contains line "-" = true := by
    show line.data.any (fun c => decide (c = "-".data.headD default)) = true
    have hpos : 0 < line.data.countP (fun c => decide (c.toNat = 45)) := by omega
    obtain ⟨c, hc, h45⟩ := List.countP_pos_iff.1 hpos
    rw [List.any_eq_true]
    exact ⟨c, hc, by simpa using char_of_minus_code c (by simpa using h45)⟩
  have hsplit : fixtureText.split line "-" = splitFrom 45 [] line.data := by
    show splitFrom ("-".data.headD default).toNat [] line.data = splitFrom 45 [] line.data
    rw [minus_code]
  have hlink : parseLink fixtureText ld line = (ld, some ⟨"invalid link format"⟩) ∨
      parseLink fixtureText ld line = (ld, some ⟨"link references nonexistent room"⟩) := by
    by_cases hbad : (fixtureText.split line "-").length ≠ 2 ∨
        (fixtureText.split line "-").getD 0 "" = (fixtureText.split line "-").getD 1 ""
    · exact Or.inl (parseLink_malformed fixtureText ld line hbad)
    · right
      apply parseLink_unknown fixtureText ld line hbad
      left
      have hlen : (fixtureText.split line "-").length = 2 := by
        by_contra h
        exact hbad (Or.inl h)
      rw [hsplit, splitFrom_length] at hlen
      have hname : ∀ c ∈ name.data, c.toNat ≠ 45 := by
        intro c hc h45
        have hpos : 0 < name.data.countP (fun c => decide (c.toNat = 45)) :=
          List.countP_pos_iff.2 ⟨c, hc, by simpa using h45⟩
        omega
      obtain ⟨c, hc, hspace⟩ := fieldsFrom_gap line.data [] name xs [ys] hf hname
      cases hlook : roomsLookup ld.af.Rooms ((fixtureText.split line "-").getD 0 "") with
      | none => rfl
      | some r =>
        have hkey := hkeys _ r hlook c
          (by
            rw [hsplit, splitFrom_head]
            simpa using hc)
        rw [hspace] at hkey
        cases hkey
  have hline := (parseLine_minus fixtureText ld line state hcontains).1
  refine ⟨fun L ld1 l st h => parseLine_minus L ld1 l st h, hcontains, ?_, ?_, ?_⟩
  · rw [hline]
    rcases hlink with h | h
    · exact Or.inl (by rw [h])
    · exact Or.inr (by rw [h])
  · rw [hline]
    rcases hlink with h | h
    · rw [h]
    · rw [h]
  · unfold parseRoomDefinition
    have h3 : ¬ (fixtureText.fields line).length ≠ 3 := by rw [hfields]; simp
    rw [if_neg h3]
    have hn : (fixtureText.fields line).getD 0 "" = name := by rw [hfields]; rfl
    have h1 : (fixtureText.fields line).getD 1 "" = xs := by rw [hfields]; rfl
    have h2 : (fixtureText.fields line).getD 2 "" = ys := by rw [hfields]; rfl
    simp only [hn, h1, h2, hnew, hx, hy, Option.isSome_none, Bool.false_eq_true, if_false]

theorem loaderTwoRooms_unspaced : UnspacedKeys loaderTwoRooms := by
  intro k r h c hc
  unfold loaderTwoRooms roomsLookup at h
  simp only at h
  by_cases h1 : "Room1" = k
  · subst h1
    revert c
    decide
  · rw [if_neg h1] at h
    unfold roomsLookup at h
    simp only at h
    by_cases h2 : "Room2" = k
    · subst h2
      revert c
      decide
    · rw [if_neg h2] at h
      simp [roomsLookup] at h

theorem negative_coordinate_line_refused_witness :
    UnspacedKeys loaderTwoRooms ∧ roomsLookup loaderTwoRooms.af.Rooms "Room3" = none ∧
    fixtureText.fields "Room3 -1 2" = ["Room3", "-1", "2"] ∧
    fixtureText.atoi "-1" = some (-1) ∧ fixtureText.atoi "2" = some 2 ∧
    ((-1 : Int) < 0 ∨ (2 : Int) < 0) ∧
    (∀ (L : TextLib) (ld1 : Loader) (l : String) (st : ParserState),
      L.contains l "-" = true →
      parseLine L ld1 l st
        = ((parseLink L ld1 l).1, { st with parsingLinks := true },
            (parseLink L ld1 l).2) ∧
      (parseLine L ld1 l st).1.af = ld1.af ∧
      (parseLine L ld1 l st).1.rooms.length = ld1.rooms.length) ∧
    fixtureText.contains "Room3 -1 2" "-" = true ∧
    ((parseLine fixtureText loaderTwoRooms "Room3 -1 2" (scanOf [])).2.2
        = some ⟨"invalid link format"⟩ ∨
      (parseLine fixtureText loaderTwoRooms "Room3 -1 2" (scanOf [])).2.2
        = some ⟨"link references nonexistent room"⟩) ∧
    (parseLine fixtureText loaderTwoRooms "Room3 -1 2" (scanOf [])).1 = loaderTwoRooms ∧
    parseRoomDefinition fixtureText loaderTwoRooms "Room3 -1 2" (scanOf [])
      = ({ loaderTwoRooms with rooms := loaderTwoRooms.rooms ++
            [⟨"Room3", -1, 2, (scanOf []).expectStart, (scanOf []).expectEnd, []⟩] },
          .ok loaderTwoRooms.rooms.length) :=
  ⟨loaderTwoRooms_unspaced, by decide, by decide, by decide, by decide, by decide,
    negative_coordinate_line_refused loaderTwoRooms (scanOf []) "Room3 -1 2" "Room3" "-1" "2"
      (-1) 2 loaderTwoRooms_unspaced (by decide) (by decide) (by decide) (by decide)
      (by decide)⟩

/-- The three kinds of line with a negative coordinate on the arena of two rooms: one minus
sign gives "link references nonexistent room", two give "invalid link format". -/
theorem negative_coordinate_lines :
    (parseLine fixtureText loaderTwoRooms "Room3 -1 2" (scanOf [])).2.2
      = some ⟨"link references nonexistent room"⟩ ∧
    (parseLine fixtureText loaderTwoRooms "Room3 1 -2" (scanOf [])).2.2
      = some ⟨"link references nonexistent room"⟩ ∧
    (parseLine fixtureText loaderTwoRooms "Room3 -1 -2" (scanOf [])).2.2
      = some ⟨"invalid link format"⟩ ∧
    (parseLine fixtureText loaderTwoRooms "Room3 1 2" (scanOf [])).2.2 = none := by
  refine ⟨by decide, by decide, by decide, by decide⟩

/-- No field of a line holds white space. -/
theorem fieldsFrom_unspaced : ∀ (cs cur : List Char),
    (∀ c ∈ cur, isSpaceCode c.toNat = false) →
    ∀ f ∈ fieldsFrom cur cs, ∀ c ∈ f.data, isSpaceCode c.toNat = false := by
  intro cs
  induction cs with
  | nil =>
    intro cur hcur f hf c hc
    unfold fieldsFrom at hf
    by_cases hnil : cur = []
    · simp [hnil] at hf
    · simp only [hnil, if_false, List.mem_singleton] at hf
      rw [hf] at hc
      exact hcur c (by simpa using hc)
  | cons d cs ih =>
    intro cur hcur f hf c hc
    unfold fieldsFrom at hf
    by_cases hs : isSpaceCode d.toNat = true
    · rw [if_pos hs] at hf
      by_cases hnil : cur = []
      · rw [if_pos hnil] at hf
        exact ih [] (fun c hc => by cases hc) f hf c hc
      · rw [if_neg hnil] at hf
        rcases List.mem_cons.1 hf with h | h
        · rw [h] at hc
          exact hcur c (by simpa using hc)
        · exact ih [] (fun c hc => by cases hc) f h c hc
    · rw [if_neg hs] at hf
      refine ih (d :: cur) ?_ f hf c hc
      intro e he
      rcases List.mem_cons.1 he with h | h
      · rw [h]
        simpa using hs
      · exact hcur e h

/-- The map after `addRoom`: as before, or with the room stored under its name. -/
theorem addRoom_map (ld : Loader) (room : Nat) :
    (addRoom ld room).1.af.Rooms = ld.af.Rooms ∨
    (addRoom ld room).1.af.Rooms
      = roomsStore ld.af.Rooms (roomAt ld.rooms room).Name room := by
  unfold addRoom
  by_cases h1 : (roomAt ld.rooms room).IsStart = true ∧ ld.af.Start ≠ none
  · rw [if_pos h1]
    exact Or.inl rfl
  · rw [if_neg h1]
    by_cases hs : (roomAt ld.rooms room).IsStart = true
    · by_cases he : (roomAt ld.rooms room).IsEnd = true
      · by_cases hE : ld.af.End = none
        · right
          simp [hs, he, hE]
        · left
          simp [hs, he, hE]
      · right
        simp [hs, he]
    · by_cases he : (roomAt ld.rooms room).IsEnd = true
      · by_cases hE : ld.af.End = none
        · right
          simp [hs, he, hE]
        · left
          simp [hs, he, hE]
      · right
        simp [hs, he]

/-- The loader, reading with `fixtureText`, stores rooms under keys without white space. -/
theorem parseRoom_unspaced (ld : Loader) (line : String) (state : ParserState)
    (h : UnspacedKeys ld) : UnspacedKeys (parseRoom fixtureText ld line state).1 := by
  unfold parseRoom parseRoomDefinition
  by_cases h3 : (fixtureText.fields line).length ≠ 3
  · rw [if_pos h3]
    exact h
  · rw [if_neg h3]
    by_cases hsome : (roomsLookup ld.af.Rooms ((fixtureText.fields line).getD 0 "")).isSome
        = true
    · rw [if_pos hsome]
      exact h
    · rw [if_neg hsome]
      cases hx : fixtureText.atoi ((fixtureText.fields line).getD 1 "") with
      | none => exact h
      | some x =>
        cases hy : fixtureText.atoi ((fixtureText.fields line).getD 2 "") with
        | none => exact h
        | some y =>
          simp only
          have hname : ∀ c ∈ ((fixtureText.fields line).getD 0 "").data,
              isSpaceCode c.toNat = false := by
            have hlen : 0 < (fixtureText.fields line).length := by omega
            have hmem : (fixtureText.fields line).getD 0 "" ∈ fixtureText.fields line := by
              rw [List.getD_eq_getElem _ _ hlen]
              exact List.getElem_mem hlen
            exact fieldsFrom_unspaced line.data [] (fun c hc => by cases hc) _ hmem
          intro k r hk
          rcases addRoom_map
            { ld with rooms := ld.rooms ++
                [⟨(fixtureText.fields line).getD 0 "", x, y, state.expectStart,
                  state.expectEnd, []⟩] } ld.rooms.length with hmap | hmap
          · rw [hmap] at hk
            exact h k r hk
          · rw [hmap, roomsLookup_roomsStore, roomAt_append_new] at hk
            by_cases hkey : (fixtureText.fields line).getD 0 "" = k
            · rw [← hkey]
              exact hname
            · simp only at hk
              rw [if_neg hkey] at hk
              exact h k r hk

theorem scanLoop_unspaced : ∀ (lines : List String) (ld : Loader) (state : ParserState),
    UnspacedKeys ld → UnspacedKeys (scanLoop fixtureText lines ld state).1 := by
  intro lines
  induction lines with
  | nil => intro ld state h; exact h
  | cons raw rest ih =>
    intro ld state h
    unfold scanLoop
    cases hsc : (scanStep state (raw :: rest)).1 with
    | none => exact h
    | some line =>
      dsimp only
      by_cases hempty : line = ""
      · rw [if_pos hempty]
        exact ih ld _ h
      · rw [if_neg hempty]
        by_cases hcom : fixtureText.startsWith line "#" = true
        · rw [if_pos hcom]
          exact ih ld _ h
        · rw [if_neg hcom]
          have h1 : UnspacedKeys
              (parseLine fixtureText ld line (scanStep state (raw :: rest)).2).1 := by
            unfold parseLine
            by_cases hc : fixtureText.contains line "-" = true
            · rw [if_pos hc]
              rcases parseLink_cases fixtureText ld line with
                ⟨e, he⟩ | ⟨room1, room2, _, _, _, _, _, hk⟩
              · rw [he]
                exact h
              · rw [hk]
                exact h
            · rw [if_neg hc]
              by_cases hp : (!((scanStep state (raw :: rest)).2).parsingLinks) = true
              · rw [if_pos hp]
                exact parseRoom_unspaced ld line _ h
              · rw [if_neg hp]
                exact h
          cases hpl : parseLine fixtureText ld line (scanStep state (raw :: rest)).2 with
          | mk ld1 r1 =>
            cases r1 with
            | mk state1 e =>
              rw [hpl] at h1
              cases e with
              | some err => exact h1
              | none => exact ih ld1 _ h1

/-- Every loader state that `parseRoomsAndLinks` reaches from `NewAntFarm`, reading with
`fixtureText`, has keys without white space. -/
theorem loader_keys_unspaced (state : ParserState) :
    UnspacedKeys (parseRoomsAndLinks fixtureText newLoader state).1 := by
  unfold parseRoomsAndLinks
  apply scanLoop_unspaced
  intro k r h
  simp [newLoader, NewAntFarm, roomsLookup] at h
/-! ## The library routine `sort.Slice`: swaps -/

section SortBasics

variable {α : Type} [Inhabited α]

theorem length_swapAt (xs : List α) (i j : Nat) : (swapAt xs i j).length = xs.length := by
  unfold swapAt
  simp

theorem getD_swapAt (xs : List α) (i j k : Nat) (hi : i < xs.length) (hj : j < xs.length) :
    (swapAt xs i j).getD k default
      = if k = j then xs.getD i default else if k = i then xs.getD j default
        else xs.getD k default := by
  unfold swapAt
  simp only [List.getD_eq_getElem?_getD, List.getElem?_set, List.length_set]
  by_cases hkj : k = j
  · subst hkj
    simp [hj]
  · by_cases hki : k = i
    · subst hki
      have hjk : ¬ j = k := fun h => hkj h.symm
      simp [hjk, hkj, hi]
    · have hjk : ¬ j = k := fun h => hkj h.symm
      have hik : ¬ i = k := fun h => hki h.symm
      simp [hjk, hik, hkj, hki]

theorem keyAt_swapAt (key : α → Int) (xs : List α) (i j k : Nat) (hi : i < xs.length)
    (hj : j < xs.length) :
    keyAt key (swapAt xs i j) k
      = if k = j then keyAt key xs i else if k = i then keyAt key xs j
        else keyAt key xs k := by
  unfold keyAt
  rw [getD_swapAt xs i j k hi hj]
  split_ifs <;> rfl

theorem lessAt_keyLess (key : α → Int) (xs : List α) (i j : Nat) :
    lessAt (keyLess key) xs i j = decide (keyAt key xs i < keyAt key xs j) := rfl

theorem swapAt_self (xs : List α) (i : Nat) : swapAt xs i i = xs := by
  unfold swapAt
  by_cases h : i < xs.length
  · have hget : xs.getD i default = xs[i] := by simp [List.getD_eq_getElem?_getD, h]
    have hset : xs.set i xs[i] = xs := by
      apply List.ext_getElem?
      intro k
      rw [List.getElem?_set]
      by_cases hk : i = k
      · subst hk
        simp [h]
      · simp [hk]
    rw [hget, hset, hset]
  · rw [List.set_eq_of_length_le (by simp; omega), List.set_eq_of_length_le (by omega)]

theorem set_cons_perm (x : α) : ∀ (t : List α) (j : Nat), j < t.length →
    (t.getD j default :: t.set j x).Perm (x :: t) := by
  intro t
  induction t with
  | nil => intro j hj; simp at hj
  | cons y t ih =>
    intro j hj
    cases j with
    | zero =>
      simp only [List.getD_cons_zero, List.set_cons_zero]
      exact List.Perm.swap x y t
    | succ j =>
      simp only [List.getD_cons_succ, List.set_cons_succ]
      have h1 := ih j (by simpa using hj)
      exact (List.Perm.swap y (t.getD j default) (t.set j x)).trans
        ((h1.cons y).trans (List.Perm.swap x y t))

theorem swapAt_perm : ∀ (xs : List α) (i j : Nat), i < xs.length → j < xs.length →
    (swapAt xs i j).Perm xs := by
  intro xs
  induction xs with
  | nil => intro i j hi; simp at hi
  | cons x t ih =>
    intro i j hi hj
    cases i with
    | zero =>
      cases j with
      | zero => rw [swapAt_self]
      | succ j =>
        have hj' : j < t.length := by simpa using hj
        have : swapAt (x :: t) 0 (j + 1) = t.getD j default :: t.set j x := by
          unfold swapAt
          simp
        rw [this]
        exact set_cons_perm x t j hj'
    | succ i =>
      cases j with
      | zero =>
        have hi' : i < t.length := by simpa using hi
        have : swapAt (x :: t) (i + 1) 0 = t.getD i default :: t.set i x := by
          unfold swapAt
          simp
        rw [this]
        exact set_cons_perm x t i hi'
      | succ j =>
        have hi' : i < t.length := by simpa using hi
        have hj' : j < t.length := by simpa using hj
        have : swapAt (x :: t) (i + 1) (j + 1) = x :: swapAt t i j := by
          unfold swapAt
          simp
        rw [this]
        exact (ih i j hi' hj').cons x

theorem Shuffled.trans {a b : Nat} {xs ys zs : List α} (h1 : Shuffled a b xs ys)
    (h2 : Shuffled a b ys zs) : Shuffled a b xs zs := by
  induction h2 with
  | refl => exact h1
  | swap ws i j hai hib haj hjb _ ih => exact Shuffled.swap _ ws i j hai hib haj hjb ih

theorem Shuffled.mono {a b a1 b1 : Nat} {xs ys : List α} (h : Shuffled a b xs ys)
    (ha : a1 ≤ a) (hb : b ≤ b1) : Shuffled a1 b1 xs ys := by
  induction h with
  | refl => exact Shuffled.refl _
  | swap ws i j hai hib haj hjb _ ih =>
    exact Shuffled.swap _ ws i j (by omega) (by omega) (by omega) (by omega) ih

theorem Shuffled.one {a b : Nat} (xs : List α) (i j : Nat) (hai : a ≤ i) (hib : i < b)
    (haj : a ≤ j) (hjb : j < b) : Shuffled a b xs (swapAt xs i j) :=
  Shuffled.swap _ xs i j hai hib haj hjb (Shuffled.refl xs)

theorem Shuffled.length_eq {a b : Nat} {xs ys : List α} (h : Shuffled a b xs ys) :
    ys.length = xs.length := by
  induction h with
  | refl => rfl
  | swap ws i j _ _ _ _ _ ih => rw [length_swapAt, ih]

theorem Shuffled.perm {a b : Nat} {xs ys : List α} (h : Shuffled a b xs ys)
    (hb : b ≤ xs.length) : ys.Perm xs := by
  induction h with
  | refl => exact List.Perm.refl _
  | swap ws i j _ hib _ hjb hw ih =>
    have hl := hw.length_eq
    exact (swapAt_perm ws i j (by omega) (by omega)).trans ih

theorem Shuffled.getD_outside {a b : Nat} {xs ys : List α} (h : Shuffled a b xs ys)
    (hb : b ≤ xs.length) (k : Nat) (hk : k < a ∨ b ≤ k) :
    ys.getD k default = xs.getD k default := by
  induction h with
  | refl => rfl
  | swap ws i j hai hib haj hjb hw ih =>
    have hl := hw.length_eq
    rw [getD_swapAt ws i j k (by omega) (by omega)]
    have h1 : ¬ k = j := by omega
    have h2 : ¬ k = i := by omega
    rw [if_neg h1, if_neg h2]
    exact ih

theorem Shuffled.keyAt_outside {a b : Nat} {xs ys : List α} (h : Shuffled a b xs ys)
    (hb : b ≤ xs.length) (key : α → Int) (k : Nat) (hk : k < a ∨ b ≤ k) :
    keyAt key ys k = keyAt key xs k := by
  unfold keyAt
  rw [h.getD_outside hb k hk]

theorem Shuffled.forall_range {a b : Nat} {xs ys : List α} (h : Shuffled a b xs ys)
    (hb : b ≤ xs.length) (P : α → Prop)
    (hP : ∀ k, a ≤ k → k < b → P (xs.getD k default)) :
    ∀ k, a ≤ k → k < b → P (ys.getD k default) := by
  induction h with
  | refl => exact hP
  | swap ws i j hai hib haj hjb hw ih =>
    have hl := hw.length_eq
    intro k hak hkb
    rw [getD_swapAt ws i j k (by omega) (by omega)]
    split_ifs
    · exact ih i hai hib
    · exact ih j haj hjb
    · exact ih k hak hkb

theorem Shuffled.sortedOn_outside {a b : Nat} {xs ys : List α} (h : Shuffled a b xs ys)
    (hb : b ≤ xs.length) (key : α → Int) (c d : Nat) (hcd : d ≤ a ∨ b ≤ c)
    (hs : SortedOn key xs c d) : SortedOn key ys c d := by
  intro i j hci hij hjd
  rw [h.keyAt_outside hb key i (by omega), h.keyAt_outside hb key j (by omega)]
  exact hs i j hci hij hjd

theorem Shuffled.lowerBound {a b : Nat} {xs ys : List α} (h : Shuffled a b xs ys)
    (hb : b ≤ xs.length) (key : α → Int) (hlow : LowerBound key xs a b) :
    LowerBound key ys a b := by
  rcases hlow with h0 | hlow
  · exact Or.inl h0
  · by_cases ha : a = 0
    · exact Or.inl ha
    · right
      intro i hai hib
      rw [h.keyAt_outside hb key (a - 1) (by omega)]
      exact h.forall_range hb (fun x => keyAt key xs (a - 1) ≤ key x) hlow i hai hib

/-- The keys of a range ascend when neighbours ascend. -/
theorem sortedOn_of_adjacent (key : α → Int) (xs : List α) (a b : Nat)
    (h : ∀ i, a ≤ i → i + 1 < b → keyAt key xs i ≤ keyAt key xs (i + 1)) :
    SortedOn key xs a b := by
  intro i j hai hij hjb
  induction j with
  | zero =>
    have : i = 0 := by omega
    subst this
    exact le_refl _
  | succ j ih =>
    by_cases hij' : i = j + 1
    · subst hij'
      exact le_refl _
    · exact le_trans (ih (by omega) (by omega)) (h j (by omega) hjb)

theorem sortedOn_pairwise (key : α → Int) (xs : List α)
    (h : SortedOn key xs 0 xs.length) : xs.Pairwise (fun x y => key x ≤ key y) := by
  rw [List.pairwise_iff_getElem]
  intro i j hi hj hij
  have := h i j (Nat.zero_le _) (by omega) hj
  unfold keyAt at this
  simpa [List.getD_eq_getElem?_getD, hi, hj] using this

theorem pairwise_sortedOn (key : α → Int) (xs : List α)
    (h : xs.Pairwise (fun x y => key x ≤ key y)) : SortedOn key xs 0 xs.length := by
  rw [List.pairwise_iff_getElem] at h
  intro i j _ hij hj
  rcases Nat.eq_or_lt_of_le hij with heq | hlt
  · subst heq
    exact le_refl _
  · have := h i j (by omega) hj hlt
    unfold keyAt
    simpa [List.getD_eq_getElem?_getD, hj, (by omega : i < xs.length)] using this

end SortBasics
/-! ## The library routine `sort.Slice`: insertion sort -/

section SortInsertion

variable {α : Type} [Inhabited α]

theorem swapAt_cons_succ (x : α) (t : List α) (i j : Nat) :
    swapAt (x :: t) (i + 1) (j + 1) = x :: swapAt t i j := by
  unfold swapAt
  simp

/-- A swap of neighbours with different keys leaves the elements of each key in their
order. -/
theorem filter_swapAt_adjacent (key : α → Int) (k : Int) : ∀ (xs : List α) (j : Nat),
    j + 1 < xs.length → keyAt key xs j ≠ keyAt key xs (j + 1) →
    (swapAt xs (j + 1) j).filter (fun x => decide (key x = k))
      = xs.filter (fun x => decide (key x = k)) := by
  intro xs
  induction xs with
  | nil => intro j hj; simp at hj
  | cons x t ih =>
    intro j hj hne
    cases j with
    | zero =>
      cases t with
      | nil => simp at hj
      | cons y t =>
        have hsw : swapAt (x :: y :: t) (0 + 1) 0 = y :: x :: t := by
          unfold swapAt
          simp
        rw [hsw]
        have hxy : key x ≠ key y := by
          simpa [keyAt] using hne
        by_cases hx : key x = k
        · have hy : ¬ key y = k := fun h => hxy (hx.trans h.symm)
          simp [List.filter_cons, hx, hy]
        · simp [List.filter_cons, hx]
    | succ j =>
      rw [swapAt_cons_succ]
      simp only [List.filter_cons]
      have hj' : j + 1 < t.length := by simpa using hj
      have hne' : keyAt key t j ≠ keyAt key t (j + 1) := by
        simpa [keyAt] using hne
      rw [ih j hj' hne']

/-- The slice `ys` arises from `xs` by swaps of neighbours with different keys. -/
theorem insertionInner_spec (key : α → Int) (a i : Nat) : ∀ (j : Nat) (xs : List α),
    a ≤ j → j ≤ i → i < xs.length →
    (∀ p q, a ≤ p → p ≤ q → q ≤ i → p ≠ j → q ≠ j → keyAt key xs p ≤ keyAt key xs q) →
    (∀ q, j < q → q ≤ i → keyAt key xs j < keyAt key xs q) →
    Shuffled a (i + 1) xs (insertionInner (keyLess key) a j xs) ∧
    SortedOn key (insertionInner (keyLess key) a j xs) a (i + 1) ∧
    ∀ k : Int, (insertionInner (keyLess key) a j xs).filter (fun x => decide (key x = k))
      = xs.filter (fun x => decide (key x = k)) := by
  intro j
  induction j with
  | zero =>
    intro xs ha _ _ hsort hmove
    unfold insertionInner
    refine ⟨Shuffled.refl _, ?_, fun _ => rfl⟩
    intro p q hap hpq hq
    by_cases hp0 : p = 0
    · subst hp0
      by_cases hq0 : q = 0
      · subst hq0
        exact le_refl _
      · exact le_of_lt (hmove q (by omega) (by omega))
    · exact hsort p q hap hpq (by omega) hp0 (by omega)
  | succ j ih =>
    intro xs ha hji hi hsort hmove
    unfold insertionInner
    by_cases hcond : (decide (j + 1 > a) && lessAt (keyLess key) xs (j + 1) j) = true
    · rw [if_pos hcond]
      rw [Bool.and_eq_true, decide_eq_true_eq, lessAt_keyLess, decide_eq_true_eq] at hcond
      obtain ⟨haj, hless⟩ := hcond
      have hl1 : j + 1 < xs.length := by omega
      have hl0 : j < xs.length := by omega
      have hkey : ∀ k, keyAt key (swapAt xs (j + 1) j) k
          = if k = j then keyAt key xs (j + 1) else if k = j + 1 then keyAt key xs j
            else keyAt key xs k := fun k => keyAt_swapAt key xs (j + 1) j k hl1 hl0
      have hrec := ih (swapAt xs (j + 1) j) (by omega) (by omega)
        (by rw [length_swapAt]; exact hi)
        (by
          intro p q hap hpq hq hpj hqj
          rw [hkey p, hkey q, if_neg hpj, if_neg hqj]
          by_cases hp1 : p = j + 1
          · rw [if_pos hp1]
            by_cases hq1 : q = j + 1
            · rw [if_pos hq1]
            · rw [if_neg hq1]
              exact hsort j q (by omega) (by omega) hq (by omega) hq1
          · rw [if_neg hp1]
            by_cases hq1 : q = j + 1
            · rw [if_pos hq1]
              exact hsort p j hap (by omega) (by omega) hp1 (by omega)
            · rw [if_neg hq1]
              exact hsort p q hap hpq hq hp1 hq1)
        (by
          intro q hjq hq
          rw [hkey j, hkey q, if_pos rfl, if_neg (by omega)]
          by_cases hq1 : q = j + 1
          · rw [if_pos hq1]
            exact hless
          · rw [if_neg hq1]
            exact hmove q (by omega) hq)
      obtain ⟨hsh, hso, hfil⟩ := hrec
      refine ⟨(Shuffled.one xs (j + 1) j (by omega) (by omega) (by omega) (by omega)).trans hsh,
        hso, ?_⟩
      intro k
      rw [hfil k]
      exact filter_swapAt_adjacent key k xs j hl1 (by omega)
    · rw [if_neg hcond]
      refine ⟨Shuffled.refl _, ?_, fun _ => rfl⟩
      rw [Bool.and_eq_true, decide_eq_true_eq, lessAt_keyLess, decide_eq_true_eq] at hcond
      intro p q hap hpq hq
      by_cases hp1 : p = j + 1
      · subst hp1
        by_cases hq1 : q = j + 1
        · subst hq1
          exact le_refl _
        · exact le_of_lt (hmove q (by omega) (by omega))
      · by_cases hq1 : q = j + 1
        · subst hq1
          have hle : keyAt key xs j ≤ keyAt key xs (j + 1) := by
            by_contra hlt
            exact hcond ⟨by omega, by omega⟩
          by_cases hpj : p = j
          · subst hpj
            exact hle
          · exact le_trans
              (by
                have := hsort p j hap (by omega) (by omega) hp1 (by omega)
                exact this) hle
        · exact hsort p q hap hpq (by omega) hp1 hq1

theorem insertionOuter_spec (key : α → Int) (a : Nat) : ∀ (n i : Nat) (xs : List α),
    a + 1 ≤ i → i + n ≤ xs.length → SortedOn key xs a i →
    Shuffled a (i + n) xs
        ((List.range' i n).foldl (fun xs i => insertionInner (keyLess key) a i xs) xs) ∧
    SortedOn key
        ((List.range' i n).foldl (fun xs i => insertionInner (keyLess key) a i xs) xs)
        a (i + n) ∧
    ∀ k : Int,
      ((List.range' i n).foldl (fun xs i => insertionInner (keyLess key) a i xs) xs).filter
          (fun x => decide (key x = k))
        = xs.filter (fun x => decide (key x = k)) := by
  intro n
  induction n with
  | zero =>
    intro i xs _ _ hs
    exact ⟨Shuffled.refl _, hs, fun _ => rfl⟩
  | succ n ih =>
    intro i xs hai hlen hs
    rw [List.range'_succ, List.foldl_cons]
    have hone := insertionInner_spec key a i i xs (by omega) (le_refl _) (by omega)
      (by
        intro p q hap hpq hq _ hqi
        exact hs p q hap hpq (by omega))
      (by
        intro q hq1 hq2
        omega)
    obtain ⟨hsh, hso, hfil⟩ := hone
    have hl := hsh.length_eq
    have hrec := ih (i + 1) (insertionInner (keyLess key) a i xs) (by omega)
      (by rw [hl]; omega) hso
    obtain ⟨hsh2, hso2, hfil2⟩ := hrec
    have heq : i + 1 + n = i + (n + 1) := by omega
    rw [heq] at hsh2 hso2
    refine ⟨(hsh.mono (le_refl _) (by omega)).trans hsh2, hso2, ?_⟩
    intro k
    rw [hfil2 k, hfil k]

/-- The function `insertionSort_func` sorts `data[a:b]` by swaps inside the range and
keeps the elements of each key in their order. -/
theorem insertionSort_spec (key : α → Int) (xs : List α) (a b : Nat)
    (hb : b ≤ xs.length) :
    Shuffled a b xs (insertionSort_func (keyLess key) xs a b) ∧
    SortedOn key (insertionSort_func (keyLess key) xs a b) a b ∧
    ∀ k : Int, (insertionSort_func (keyLess key) xs a b).filter (fun x => decide (key x = k))
      = xs.filter (fun x => decide (key x = k)) := by
  unfold insertionSort_func
  by_cases hab : a + 1 ≤ b
  · have h := insertionOuter_spec key a (b - (a + 1)) (a + 1) xs (le_refl _) (by omega)
      (by
        intro p q hap hpq hq
        have : p = q := by omega
        subst this
        exact le_refl _)
    have heq : a + 1 + (b - (a + 1)) = b := by omega
    rw [heq] at h
    exact h
  · have h0 : b - (a + 1) = 0 := by omega
    rw [h0]
    refine ⟨Shuffled.refl _, ?_, fun _ => rfl⟩
    intro p q hap hpq hq
    omega

end SortInsertion
/-! ## The library routine `sort.Slice`: heap sort -/

section SortHeap

variable {α : Type} [Inhabited α]

theorem siftDown_spec (key : α → Int) (hi first lo : Nat) : ∀ (fuel root : Nat) (xs : List α),
    lo ≤ root → hi ≤ root + fuel → first + hi ≤ xs.length →
    (∀ p c, lo ≤ p → p ≠ root → (c = 2 * p + 1 ∨ c = 2 * p + 2) → c < hi →
      keyAt key xs (first + c) ≤ keyAt key xs (first + p)) →
    (∀ g c, lo ≤ g → (root = 2 * g + 1 ∨ root = 2 * g + 2) →
      (c = 2 * root + 1 ∨ c = 2 * root + 2) → c < hi →
      keyAt key xs (first + c) ≤ keyAt key xs (first + g)) →
    Shuffled first (first + hi) xs (siftDown_func (keyLess key) hi first fuel root xs) ∧
    HeapFrom key (siftDown_func (keyLess key) hi first fuel root xs) first hi lo := by
  intro fuel
  induction fuel with
  | zero =>
    intro root xs _ hfuel _ h1 _
    unfold siftDown_func
    refine ⟨Shuffled.refl _, ?_⟩
    intro p c hp hc hchi
    exact h1 p c hp (by omega) hc hchi
  | succ fuel ih =>
    intro root xs hlo hfuel hlen h1 h2
    unfold siftDown_func
    by_cases hleaf : 2 * root + 1 ≥ hi
    · rw [if_pos hleaf]
      refine ⟨Shuffled.refl _, ?_⟩
      intro p c hp hc hchi
      exact h1 p c hp (by omega) hc hchi
    · rw [if_neg hleaf]
      -- the selected child
      obtain ⟨s, hs, hsel, hshi, hmax⟩ : ∃ s,
          (if (decide (2 * root + 1 + 1 < hi) &&
              lessAt (keyLess key) xs (first + (2 * root + 1)) (first + (2 * root + 1) + 1))
              = true
            then 2 * root + 1 + 1 else 2 * root + 1) = s ∧
          (s = 2 * root + 1 ∨ s = 2 * root + 2) ∧ s < hi ∧
          ∀ c, (c = 2 * root + 1 ∨ c = 2 * root + 2) → c < hi →
            keyAt key xs (first + c) ≤ keyAt key xs (first + s) := by
        by_cases hc : (decide (2 * root + 1 + 1 < hi) &&
            lessAt (keyLess key) xs (first + (2 * root + 1)) (first + (2 * root + 1) + 1))
            = true
        · rw [if_pos hc]
          rw [Bool.and_eq_true, decide_eq_true_eq, lessAt_keyLess, decide_eq_true_eq] at hc
          refine ⟨_, rfl, Or.inr rfl, hc.1, ?_⟩
          intro c hcc _
          rcases hcc with hcc | hcc
          · subst hcc
            exact le_of_lt hc.2
          · subst hcc
            exact le_refl _
        · rw [if_neg hc]
          rw [Bool.and_eq_true, decide_eq_true_eq, lessAt_keyLess, decide_eq_true_eq] at hc
          refine ⟨_, rfl, Or.inl rfl, by omega, ?_⟩
          intro c hcc hchi
          rcases hcc with hcc | hcc
          · subst hcc
            exact le_refl _
          · subst hcc
            by_contra hlt
            exact hc ⟨by omega, by
              have : first + (2 * root + 1) + 1 = first + (2 * root + 2) := by omega
              rw [this]
              omega⟩
      simp only [hs]
      by_cases hstop : (!lessAt (keyLess key) xs (first + root) (first + s)) = true
      · rw [if_pos hstop]
        refine ⟨Shuffled.refl _, ?_⟩
        rw [Bool.not_eq_true', lessAt_keyLess, decide_eq_false_iff_not] at hstop
        intro p c hp hc hchi
        by_cases hpr : p = root
        · subst hpr
          exact le_trans (hmax c hc hchi) (by omega)
        · exact h1 p c hp hpr hc hchi
      · rw [if_neg hstop]
        rw [Bool.not_eq_true', Bool.not_eq_false, lessAt_keyLess, decide_eq_true_eq] at hstop
        have hl1 : first + root < xs.length := by omega
        have hl2 : first + s < xs.length := by omega
        have hkey : ∀ k, keyAt key (swapAt xs (first + root) (first + s)) k
            = if k = first + s then keyAt key xs (first + root)
              else if k = first + root then keyAt key xs (first + s)
              else keyAt key xs k := fun k => keyAt_swapAt key xs _ _ k hl1 hl2
        have hrec := ih s (swapAt xs (first + root) (first + s)) (by omega) (by omega)
          (by rw [length_swapAt]; exact hlen)
          (by
            intro p c hp hps hc hchi
            rw [hkey (first + c), hkey (first + p)]
            have hps' : ¬ first + p = first + s := by omega
            rw [if_neg hps']
            by_cases hpr : p = root
            · subst hpr
              rw [if_pos rfl]
              by_cases hcs : c = s
              · subst hcs
                rw [if_pos rfl]
                exact le_of_lt hstop
              · have h3 : ¬ first + c = first + s := by omega
                have h4 : ¬ first + c = first + p := by omega
                rw [if_neg h3, if_neg h4]
                exact hmax c hc hchi
            · have hpr' : ¬ first + p = first + root := by omega
              rw [if_neg hpr']
              have hcs : ¬ first + c = first + s := by omega
              rw [if_neg hcs]
              by_cases hcr : c = root
              · subst hcr
                rw [if_pos rfl]
                exact h2 p s hp hc hsel hshi
              · have hcr' : ¬ first + c = first + root := by omega
                rw [if_neg hcr']
                exact h1 p c hp hpr hc hchi)
          (by
            intro g c hg hgs hc hchi
            have hgr : g = root := by omega
            subst hgr
            rw [hkey (first + c), hkey (first + g)]
            have h3 : ¬ first + c = first + s := by omega
            have h4 : ¬ first + c = first + g := by omega
            have h5 : ¬ first + g = first + s := by omega
            rw [if_neg h3, if_neg h4, if_neg h5, if_pos rfl]
            exact h1 s c (by omega) (by omega) hc hchi)
        exact ⟨(Shuffled.one xs (first + root) (first + s) (by omega) (by omega) (by omega)
          (by omega)).trans hrec.1, hrec.2⟩

/-- The key at the root of a heap is the largest. -/
theorem heap_root_max (key : α → Int) (xs : List α) (first hi : Nat)
    (h : HeapFrom key xs first hi 0) :
    ∀ c, c < hi → keyAt key xs (first + c) ≤ keyAt key xs (first + 0) := by
  intro c
  induction c using Nat.strong_induction_on with
  | _ c ih =>
    intro hc
    by_cases hc0 : c = 0
    · subst hc0
      exact le_refl _
    · have hp := h ((c - 1) / 2) c (Nat.zero_le _) (by omega) hc
      exact le_trans hp (ih ((c - 1) / 2) (by omega) (by omega))

theorem heapBuild_spec (key : α → Int) (hi first : Nat) : ∀ (m : Nat) (xs : List α),
    first + hi ≤ xs.length → HeapFrom key xs first hi m →
    Shuffled first (first + hi) xs
      ((List.range m).reverse.foldl
        (fun xs i => siftDown_func (keyLess key) hi first hi i xs) xs) ∧
    HeapFrom key
      ((List.range m).reverse.foldl
        (fun xs i => siftDown_func (keyLess key) hi first hi i xs) xs) first hi 0 := by
  intro m
  induction m with
  | zero =>
    intro xs _ h
    exact ⟨Shuffled.refl _, h⟩
  | succ m ih =>
    intro xs hlen h
    rw [List.range_succ, List.reverse_append, List.reverse_singleton, List.singleton_append,
      List.foldl_cons]
    have hone := siftDown_spec key hi first m hi m xs (le_refl _) (by omega) hlen
      (by
        intro p c hp hpm hc hchi
        exact h p c (by omega) hc hchi)
      (by
        intro g c hg hgm _ _
        omega)
    have hl := hone.1.length_eq
    have hrec := ih _ (by rw [hl]; exact hlen) hone.2
    exact ⟨hone.1.trans hrec.1, hrec.2⟩

theorem heapPop_spec (key : α → Int) (hi first : Nat) : ∀ (m : Nat) (xs : List α),
    m ≤ hi → first + hi ≤ xs.length → HeapFrom key xs first m 0 →
    SortedOn key xs (first + m) (first + hi) →
    (∀ c d, c < m → m ≤ d → d < hi →
      keyAt key xs (first + c) ≤ keyAt key xs (first + d)) →
    Shuffled first (first + hi) xs
      ((List.range m).reverse.foldl
        (fun xs i => siftDown_func (keyLess key) i first i 0 (swapAt xs first (first + i)))
        xs) ∧
    SortedOn key
      ((List.range m).reverse.foldl
        (fun xs i => siftDown_func (keyLess key) i first i 0 (swapAt xs first (first + i)))
        xs) first (first + hi) := by
  intro m
  induction m with
  | zero =>
    intro xs _ _ _ hs _
    exact ⟨Shuffled.refl _, by simpa using hs⟩
  | succ m ih =>
    intro xs hm hlen hheap hsorted hdom
    rw [List.range_succ, List.reverse_append, List.reverse_singleton, List.singleton_append,
      List.foldl_cons]
    have hl1 : first < xs.length := by omega
    have hl2 : first + m < xs.length := by omega
    have hkey : ∀ k, keyAt key (swapAt xs first (first + m)) k
        = if k = first + m then keyAt key xs first
          else if k = first then keyAt key xs (first + m)
          else keyAt key xs k := fun k => keyAt_swapAt key xs _ _ k hl1 hl2
    have hroot := heap_root_max key xs first (m + 1) hheap
    have hone := siftDown_spec key m first 0 m 0 (swapAt xs first (first + m)) (le_refl _)
      (by omega) (by rw [length_swapAt]; omega)
      (by
        intro p c _ hp0 hc hcm
        rw [hkey (first + c), hkey (first + p)]
        have h3 : ¬ first + c = first + m := by omega
        have h4 : ¬ first + c = first := by omega
        have h5 : ¬ first + p = first + m := by omega
        have h6 : ¬ first + p = first := by omega
        rw [if_neg h3, if_neg h4, if_neg h5, if_neg h6]
        exact hheap p c (Nat.zero_le _) hc (by omega))
      (by
        intro g c _ hg _ _
        omega)
    obtain ⟨hsh, hhp⟩ := hone
    have hlsw : (swapAt xs first (first + m)).length = xs.length := length_swapAt _ _ _
    have hl := hsh.length_eq
    have hshm : Shuffled first (first + m)
        (swapAt xs first (first + m))
        (siftDown_func (keyLess key) m first m 0 (swapAt xs first (first + m))) := hsh
    have hout : ∀ k, first + m ≤ k →
        keyAt key (siftDown_func (keyLess key) m first m 0 (swapAt xs first (first + m))) k
          = keyAt key (swapAt xs first (first + m)) k := by
      intro k hk
      exact hshm.keyAt_outside (by rw [hlsw]; omega) key k (Or.inr hk)
    have hin : ∀ k, first ≤ k → k < first + m →
        keyAt key (siftDown_func (keyLess key) m first m 0 (swapAt xs first (first + m))) k
          ≤ keyAt key xs first := by
      intro k hk1 hk2
      refine hshm.forall_range (by rw [hlsw]; omega) (fun x => key x ≤ keyAt key xs first)
        ?_ k hk1 hk2
      intro k hk1 hk2
      show keyAt key (swapAt xs first (first + m)) k ≤ keyAt key xs first
      rw [hkey k]
      have h3 : ¬ k = first + m := by omega
      rw [if_neg h3]
      by_cases hkf : k = first
      · rw [if_pos hkf]
        exact hroot m (by omega)
      · rw [if_neg hkf]
        have := hroot (k - first) (by omega)
        have hk : first + (k - first) = k := by omega
        rw [hk] at this
        exact this
    have hrec := ih _ (by omega) (by rw [hl, hlsw]; exact hlen) hhp
      (by
        intro i j hi1 hij hj
        rw [hout i (by omega), hout j (by omega), hkey i, hkey j]
        by_cases hjm : j = first + m
        · have him : i = first + m := by omega
          rw [if_pos him, if_pos hjm]
        · have h6 : ¬ j = first := by omega
          rw [if_neg hjm, if_neg h6]
          by_cases him : i = first + m
          · rw [if_pos him]
            have := hdom 0 (j - first) (by omega) (by omega) (by omega)
            have hj' : first + (j - first) = j := by omega
            rw [hj'] at this
            exact this
          · have h4 : ¬ i = first := by omega
            rw [if_neg him, if_neg h4]
            exact hsorted i j (by omega) hij hj)
      (by
        intro c d hc hd hdhi
        rw [hout (first + d) (by omega), hkey (first + d)]
        by_cases hdm : d = m
        · subst hdm
          rw [if_pos rfl]
          exact hin (first + c) (by omega) (by omega)
        · have hdm' : ¬ first + d = first + m := by omega
          have h6 : ¬ first + d = first := by omega
          rw [if_neg hdm', if_neg h6]
          have hP := hshm.forall_range (by rw [hlsw]; omega)
            (fun x => key x ≤ keyAt key xs (first + d)) (by
              intro k hk1 hk2
              show keyAt key (swapAt xs first (first + m)) k ≤ keyAt key xs (first + d)
              rw [hkey k]
              have h3 : ¬ k = first + m := by omega
              rw [if_neg h3]
              by_cases hkf : k = first
              · rw [if_pos hkf]
                exact hdom m d (by omega) (by omega) hdhi
              · rw [if_neg hkf]
                have := hdom (k - first) d (by omega) (by omega) hdhi
                have hk : first + (k - first) = k := by omega
                rw [hk] at this
                exact this) (first + c) (by omega) (by omega)
          exact hP)
    refine ⟨((Shuffled.one xs first (first + m) (by omega) (by omega) (by omega)
      (by omega)).trans (hsh.mono (le_refl _) (by omega))).trans hrec.1, hrec.2⟩

/-- The function `heapSort_func` sorts `data[a:b]` by swaps inside the range. -/
theorem heapSort_spec (key : α → Int) (xs : List α) (a b : Nat) (hab : a ≤ b)
    (hb : b ≤ xs.length) :
    Shuffled a b xs (heapSort_func (keyLess key) xs a b) ∧
    SortedOn key (heapSort_func (keyLess key) xs a b) a b := by
  unfold heapSort_func
  simp only
  have hlen : a + (b - a) ≤ xs.length := by omega
  have hbuild := heapBuild_spec key (b - a) a ((b - a - 1) / 2 + 1) xs hlen
    (by
      intro p c hp hc hchi
      omega)
  obtain ⟨hsh1, hheap⟩ := hbuild
  have hl1 := hsh1.length_eq
  have hpop := heapPop_spec key (b - a) a (b - a) _ (le_refl _) (by rw [hl1]; exact hlen)
    hheap
    (by
      intro i j hi hij hj
      omega)
    (by
      intro c d hc hd hdhi
      omega)
  have heq : a + (b - a) = b := by omega
  rw [heq] at hsh1 hpop
  exact ⟨hsh1.trans hpop.1, hpop.2⟩

end SortHeap
/-! ## The library routine `sort.Slice`: partitions -/

section SortPartition

variable {α : Type} [Inhabited α]

theorem scanUp_spec (cond : Nat → Bool) (j : Nat) : ∀ (fuel i : Nat), j + 1 - i ≤ fuel →
    i ≤ scanUp cond j fuel i ∧ (i ≤ j + 1 → scanUp cond j fuel i ≤ j + 1) ∧
    (∀ k, i ≤ k → k < scanUp cond j fuel i → cond k = true) ∧
    (scanUp cond j fuel i ≤ j → cond (scanUp cond j fuel i) = false) := by
  intro fuel
  induction fuel with
  | zero =>
    intro i hf
    unfold scanUp
    exact ⟨le_refl _, fun h => h, fun k h1 h2 => by omega, fun h => by omega⟩
  | succ fuel ih =>
    intro i hf
    unfold scanUp
    by_cases hc : (decide (i ≤ j) && cond i) = true
    · rw [if_pos hc]
      rw [Bool.and_eq_true, decide_eq_true_eq] at hc
      obtain ⟨h1, h2, h3, h4⟩ := ih (i + 1) (by omega)
      refine ⟨by omega, fun _ => h2 (by omega), ?_, h4⟩
      intro k hk1 hk2
      by_cases hki : k = i
      · subst hki
        exact hc.2
      · exact h3 k (by omega) hk2
    · rw [if_neg hc]
      rw [Bool.and_eq_true, decide_eq_true_eq] at hc
      refine ⟨le_refl _, fun h => h, fun k h1 h2 => by omega, ?_⟩
      intro hij
      cases hci : cond i with
      | false => rfl
      | true => exact absurd ⟨hij, hci⟩ hc

theorem scanDown_spec (cond : Nat → Bool) (i : Nat) (hi : 1 ≤ i) : ∀ (fuel j : Nat),
    j + 1 - i ≤ fuel →
    scanDown cond i fuel j ≤ j ∧ (i ≤ j + 1 → i ≤ scanDown cond i fuel j + 1) ∧
    (∀ k, scanDown cond i fuel j < k → k ≤ j → cond k = true) ∧
    (i ≤ scanDown cond i fuel j → cond (scanDown cond i fuel j) = false) := by
  intro fuel
  induction fuel with
  | zero =>
    intro j hf
    unfold scanDown
    exact ⟨le_refl _, fun h => h, fun k h1 h2 => by omega, fun h => by omega⟩
  | succ fuel ih =>
    intro j hf
    unfold scanDown
    by_cases hc : (decide (i ≤ j) && cond j) = true
    · rw [if_pos hc]
      rw [Bool.and_eq_true, decide_eq_true_eq] at hc
      obtain ⟨h1, h2, h3, h4⟩ := ih (j - 1) (by omega)
      refine ⟨by omega, fun _ => h2 (by omega), ?_, h4⟩
      intro k hk1 hk2
      by_cases hkj : k = j
      · subst hkj
        exact hc.2
      · exact h3 k hk1 (by omega)
    · rw [if_neg hc]
      rw [Bool.and_eq_true, decide_eq_true_eq] at hc
      refine ⟨le_refl _, fun h => h, fun k h1 h2 => by omega, ?_⟩
      intro hij
      cases hcj : cond j with
      | false => rfl
      | true => exact absurd ⟨hij, hcj⟩ hc

theorem partitionLoop_spec (key : α → Int) (a b : Nat) (p : Int) :
    ∀ (fuel : Nat) (xs : List α) (i j : Nat), j + 1 - i ≤ fuel → a + 1 ≤ i → i ≤ j + 1 →
    j < b → b ≤ xs.length → keyAt key xs a = p →
    (∀ k, a + 1 ≤ k → k < i → keyAt key xs k < p) →
    (∀ k, j < k → k < b → p ≤ keyAt key xs k) →
    Shuffled (a + 1) b xs (partitionLoop (keyLess key) a fuel xs i j).1 ∧
    a ≤ (partitionLoop (keyLess key) a fuel xs i j).2.2 ∧
    (partitionLoop (keyLess key) a fuel xs i j).2.2 < b ∧
    (∀ k, a + 1 ≤ k → k ≤ (partitionLoop (keyLess key) a fuel xs i j).2.2 →
      keyAt key (partitionLoop (keyLess key) a fuel xs i j).1 k < p) ∧
    (∀ k, (partitionLoop (keyLess key) a fuel xs i j).2.2 < k → k < b →
      p ≤ keyAt key (partitionLoop (keyLess key) a fuel xs i j).1 k) := by
  intro fuel
  induction fuel with
  | zero =>
    intro xs i j hf hai hij hjb _ _ hleft hright
    unfold partitionLoop
    refine ⟨Shuffled.refl _, by show a ≤ j; omega, hjb, ?_, hright⟩
    intro k hk1 hk2
    exact hleft k hk1 (by show k < i; have : k ≤ j := hk2; omega)
  | succ fuel ih =>
    intro xs i j hf hai hij hjb hlen ha hleft hright
    unfold partitionLoop
    simp only
    obtain ⟨hu1, hu2, hu3, hu4⟩ :=
      scanUp_spec (fun i => lessAt (keyLess key) xs i a) j (j + 1 - i) i (le_refl _)
    generalize scanUp (fun i => lessAt (keyLess key) xs i a) j (j + 1 - i) i = i1
      at hu1 hu2 hu3 hu4 ⊢
    have hu2' := hu2 hij
    obtain ⟨hd1, hd2, hd3, hd4⟩ :=
      scanDown_spec (fun j => !lessAt (keyLess key) xs j a) i1 (by omega) (j + 1 - i1) j
        (le_refl _)
    generalize scanDown (fun j => !lessAt (keyLess key) xs j a) i1 (j + 1 - i1) j = j1
      at hd1 hd2 hd3 hd4 ⊢
    have hd2' := hd2 hu2'
    have hleft1 : ∀ k, a + 1 ≤ k → k < i1 → keyAt key xs k < p := by
      intro k hk1 hk2
      by_cases hki : k < i
      · exact hleft k hk1 hki
      · have := hu3 k (by omega) hk2
        simp only [lessAt_keyLess, decide_eq_true_eq] at this
        rw [ha] at this
        exact this
    have hright1 : ∀ k, j1 < k → k < b → p ≤ keyAt key xs k := by
      intro k hk1 hk2
      by_cases hkj : j < k
      · exact hright k hkj hk2
      · have := hd3 k hk1 (by omega)
        simp only [lessAt_keyLess, Bool.not_eq_true', decide_eq_false_iff_not] at this
        rw [ha] at this
        omega
    by_cases hbr : i1 > j1
    · rw [if_pos hbr]
      refine ⟨Shuffled.refl _, by show a ≤ j1; omega, by show j1 < b; omega, ?_, hright1⟩
      intro k hk1 hk2
      exact hleft1 k hk1 (by show k < i1; have : k ≤ j1 := hk2; omega)
    · rw [if_neg hbr]
      have hi1 : ¬ keyAt key xs i1 < p := by
        have := hu4 (by omega)
        simp only [lessAt_keyLess, decide_eq_false_iff_not] at this
        rw [ha] at this
        exact this
      have hj1 : keyAt key xs j1 < p := by
        have := hd4 (by omega)
        simp only [lessAt_keyLess, Bool.not_eq_false', decide_eq_true_eq] at this
        rw [ha] at this
        exact this
      have hne : i1 ≠ j1 := by
        intro h
        rw [h] at hi1
        exact hi1 hj1
      have hl1 : i1 < xs.length := by omega
      have hl2 : j1 < xs.length := by omega
      have hkey : ∀ k, keyAt key (swapAt xs i1 j1) k
          = if k = j1 then keyAt key xs i1 else if k = i1 then keyAt key xs j1
            else keyAt key xs k := fun k => keyAt_swapAt key xs i1 j1 k hl1 hl2
      have hrec := ih (swapAt xs i1 j1) (i1 + 1) (j1 - 1) (by omega) (by omega) (by omega)
        (by omega) (by rw [length_swapAt]; exact hlen)
        (by
          rw [hkey a, if_neg (by omega), if_neg (by omega)]
          exact ha)
        (by
          intro k hk1 hk2
          rw [hkey k, if_neg (by omega)]
          by_cases hki : k = i1
          · rw [if_pos hki]
            exact hj1
          · rw [if_neg hki]
            exact hleft1 k hk1 (by omega))
        (by
          intro k hk1 hk2
          rw [hkey k]
          by_cases hkj : k = j1
          · rw [if_pos hkj]
            omega
          · rw [if_neg hkj, if_neg (by omega)]
            exact hright1 k (by omega) hk2)
      obtain ⟨hsh, hr1, hr2, hr3, hr4⟩ := hrec
      exact ⟨(Shuffled.one xs i1 j1 (by omega) (by omega) (by omega) (by omega)).trans hsh,
        hr1, hr2, hr3, hr4⟩

/-- The function `partition_func` puts the pivot at `newpivot`, the smaller keys before it
and the others after it, by swaps inside `data[a:b]`. -/
theorem partition_spec (key : α → Int) (xs : List α) (a b pivot : Nat) (hap : a ≤ pivot)
    (hpb : pivot < b) (hb : b ≤ xs.length) :
    Shuffled a b xs (partition_func (keyLess key) xs a b pivot).1 ∧
    a ≤ (partition_func (keyLess key) xs a b pivot).2.1 ∧
    (partition_func (keyLess key) xs a b pivot).2.1 < b ∧
    keyAt key (partition_func (keyLess key) xs a b pivot).1
        (partition_func (keyLess key) xs a b pivot).2.1 = keyAt key xs pivot ∧
    (∀ k, a ≤ k → k < (partition_func (keyLess key) xs a b pivot).2.1 →
      keyAt key (partition_func (keyLess key) xs a b pivot).1 k < keyAt key xs pivot) ∧
    (∀ k, (partition_func (keyLess key) xs a b pivot).2.1 < k → k < b →
      keyAt key xs pivot ≤ keyAt key (partition_func (keyLess key) xs a b pivot).1 k) := by
  have hla : a < xs.length := by omega
  have hlp : pivot < xs.length := by omega
  have hkey0 : ∀ k, keyAt key (swapAt xs a pivot) k
      = if k = pivot then keyAt key xs a else if k = a then keyAt key xs pivot
        else keyAt key xs k := fun k => keyAt_swapAt key xs a pivot k hla hlp
  have hl0 : (swapAt xs a pivot).length = xs.length := length_swapAt _ _ _
  have ha0 : keyAt key (swapAt xs a pivot) a = keyAt key xs pivot := by
    rw [hkey0 a]
    by_cases h : a = pivot
    · rw [if_pos h, h]
    · rw [if_neg h, if_pos rfl]
  have hsh0 : Shuffled a b xs (swapAt xs a pivot) :=
    Shuffled.one xs a pivot (le_refl _) (by omega) hap hpb
  -- the loop from any state that meets the invariant, followed by the last swap
  have hfinish : ∀ (ys : List α) (j1 : Nat), Shuffled a b xs ys → a ≤ j1 → j1 < b →
      keyAt key ys a = keyAt key xs pivot →
      (∀ k, a + 1 ≤ k → k ≤ j1 → keyAt key ys k < keyAt key xs pivot) →
      (∀ k, j1 < k → k < b → keyAt key xs pivot ≤ keyAt key ys k) →
      Shuffled a b xs (swapAt ys j1 a) ∧
      keyAt key (swapAt ys j1 a) j1 = keyAt key xs pivot ∧
      (∀ k, a ≤ k → k < j1 → keyAt key (swapAt ys j1 a) k < keyAt key xs pivot) ∧
      (∀ k, j1 < k → k < b → keyAt key xs pivot ≤ keyAt key (swapAt ys j1 a) k) := by
    intro ys j1 hsh haj hjb hya hleft hright
    have hly := hsh.length_eq
    have hkey : ∀ k, keyAt key (swapAt ys j1 a) k
        = if k = a then keyAt key ys j1 else if k = j1 then keyAt key ys a
          else keyAt key ys k :=
      fun k => keyAt_swapAt key ys j1 a k (by omega) (by omega)
    refine ⟨hsh.trans (Shuffled.one ys j1 a haj hjb (le_refl _) (by omega)), ?_, ?_, ?_⟩
    · rw [hkey j1]
      by_cases h : j1 = a
      · rw [if_pos h, h]
        exact hya
      · rw [if_neg h, if_pos rfl]
        exact hya
    · intro k hk1 hk2
      rw [hkey k]
      by_cases h : k = a
      · rw [if_pos h]
        exact hleft j1 (by omega) (le_refl _)
      · rw [if_neg h, if_neg (by omega)]
        exact hleft k (by omega) (by omega)
    · intro k hk1 hk2
      rw [hkey k, if_neg (by omega), if_neg (by omega)]
      exact hright k hk1 hk2
  unfold partition_func
  simp only
  obtain ⟨hu1, hu2, hu3, hu4⟩ :=
    scanUp_spec (fun i => lessAt (keyLess key) (swapAt xs a pivot) i a) (b - 1)
      (b - 1 + 1 - (a + 1)) (a + 1) (le_refl _)
  generalize scanUp (fun i => lessAt (keyLess key) (swapAt xs a pivot) i a) (b - 1)
      (b - 1 + 1 - (a + 1)) (a + 1) = i1 at hu1 hu2 hu3 hu4 ⊢
  have hu2' := hu2 (by omega)
  obtain ⟨hd1, hd2, hd3, hd4⟩ :=
    scanDown_spec (fun j => !lessAt (keyLess key) (swapAt xs a pivot) j a) i1 (by omega)
      (b - 1 + 1 - i1) (b - 1) (le_refl _)
  generalize scanDown (fun j => !lessAt (keyLess key) (swapAt xs a pivot) j a) i1
      (b - 1 + 1 - i1) (b - 1) = j1 at hd1 hd2 hd3 hd4 ⊢
  have hd2' := hd2 hu2'
  have hleft1 : ∀ k, a + 1 ≤ k → k < i1 →
      keyAt key (swapAt xs a pivot) k < keyAt key xs pivot := by
    intro k hk1 hk2
    have := hu3 k hk1 hk2
    simp only [lessAt_keyLess, decide_eq_true_eq] at this
    rw [ha0] at this
    exact this
  have hright1 : ∀ k, j1 < k → k < b →
      keyAt key xs pivot ≤ keyAt key (swapAt xs a pivot) k := by
    intro k hk1 hk2
    have := hd3 k hk1 (by omega)
    simp only [lessAt_keyLess, Bool.not_eq_true', decide_eq_false_iff_not] at this
    rw [ha0] at this
    omega
  by_cases hbr : i1 > j1
  · rw [if_pos hbr]
    have hfin := hfinish (swapAt xs a pivot) j1 hsh0 (by omega) (by omega) ha0
      (fun k hk1 hk2 => hleft1 k hk1 (by omega)) hright1
    exact ⟨hfin.1, by show a ≤ j1; omega, by show j1 < b; omega, hfin.2.1, hfin.2.2.1,
      hfin.2.2.2⟩
  · rw [if_neg hbr]
    have hi1 : ¬ keyAt key (swapAt xs a pivot) i1 < keyAt key xs pivot := by
      have := hu4 (by omega)
      simp only [lessAt_keyLess, decide_eq_false_iff_not] at this
      rw [ha0] at this
      exact this
    have hj1 : keyAt key (swapAt xs a pivot) j1 < keyAt key xs pivot := by
      have := hd4 (by omega)
      simp only [lessAt_keyLess, Bool.not_eq_false', decide_eq_true_eq] at this
      rw [ha0] at this
      exact this
    have hne : i1 ≠ j1 := by
      intro h
      rw [h] at hi1
      exact hi1 hj1
    have hl1 : i1 < (swapAt xs a pivot).length := by omega
    have hl2 : j1 < (swapAt xs a pivot).length := by omega
    have hkey : ∀ k, keyAt key (swapAt (swapAt xs a pivot) i1 j1) k
        = if k = j1 then keyAt key (swapAt xs a pivot) i1
          else if k = i1 then keyAt key (swapAt xs a pivot) j1
          else keyAt key (swapAt xs a pivot) k :=
      fun k => keyAt_swapAt key _ i1 j1 k hl1 hl2
    have hloop := partitionLoop_spec key a b (keyAt key xs pivot) (j1 + 1 - i1)
      (swapAt (swapAt xs a pivot) i1 j1) (i1 + 1) (j1 - 1) (by omega) (by omega) (by omega)
      (by omega) (by rw [length_swapAt, hl0]; exact hb)
      (by
        rw [hkey a, if_neg (by omega), if_neg (by omega)]
        exact ha0)
      (by
        intro k hk1 hk2
        rw [hkey k, if_neg (by omega)]
        by_cases hki : k = i1
        · rw [if_pos hki]
          exact hj1
        · rw [if_neg hki]
          exact hleft1 k hk1 (by omega))
      (by
        intro k hk1 hk2
        rw [hkey k]
        by_cases hkj : k = j1
        · rw [if_pos hkj]
          omega
        · rw [if_neg hkj, if_neg (by omega)]
          exact hright1 k (by omega) hk2)
    obtain ⟨hsh, hr1, hr2, hr3, hr4⟩ := hloop
    have hsh1 : Shuffled a b xs
        (partitionLoop (keyLess key) a (j1 + 1 - i1) (swapAt (swapAt xs a pivot) i1 j1)
          (i1 + 1) (j1 - 1)).1 :=
      (hsh0.trans (Shuffled.one _ i1 j1 (by omega) (by omega) (by omega) (by omega))).trans
        (hsh.mono (by omega) (le_refl _))
    have hya : keyAt key
        (partitionLoop (keyLess key) a (j1 + 1 - i1) (swapAt (swapAt xs a pivot) i1 j1)
          (i1 + 1) (j1 - 1)).1 a = keyAt key xs pivot := by
      rw [hsh.keyAt_outside (by rw [length_swapAt, hl0]; exact hb) key a (Or.inl (by omega)),
        hkey a, if_neg (by omega), if_neg (by omega)]
      exact ha0
    have hfin := hfinish _ _ hsh1 hr1 hr2 hya hr3 hr4
    exact ⟨hfin.1, hr1, hr2, hfin.2.1, hfin.2.2.1, hfin.2.2.2⟩

theorem partitionEqualLoop_spec (key : α → Int) (a b : Nat) (p : Int) :
    ∀ (fuel : Nat) (xs : List α) (i j : Nat), j + 1 - i ≤ fuel → a + 1 ≤ i → i ≤ j + 1 →
    j < b → b ≤ xs.length → keyAt key xs a = p →
    (∀ k, a + 1 ≤ k → k < i → ¬ p < keyAt key xs k) →
    (∀ k, j < k → k < b → p < keyAt key xs k) →
    Shuffled (a + 1) b xs (partitionEqualLoop (keyLess key) a fuel xs i j).1 ∧
    a + 1 ≤ (partitionEqualLoop (keyLess key) a fuel xs i j).2 ∧
    (partitionEqualLoop (keyLess key) a fuel xs i j).2 ≤ b ∧
    (∀ k, a + 1 ≤ k → k < (partitionEqualLoop (keyLess key) a fuel xs i j).2 →
      ¬ p < keyAt key (partitionEqualLoop (keyLess key) a fuel xs i j).1 k) ∧
    (∀ k, (partitionEqualLoop (keyLess key) a fuel xs i j).2 ≤ k → k < b →
      p < keyAt key (partitionEqualLoop (keyLess key) a fuel xs i j).1 k) := by
  intro fuel
  induction fuel with
  | zero =>
    intro xs i j hf hai hij hjb _ _ hleft hright
    unfold partitionEqualLoop
    exact ⟨Shuffled.refl _, hai, by show i ≤ b; omega, hleft,
      fun k hk1 hk2 => hright k (by have : i ≤ k := hk1; omega) hk2⟩
  | succ fuel ih =>
    intro xs i j hf hai hij hjb hlen ha hleft hright
    unfold partitionEqualLoop
    simp only
    obtain ⟨hu1, hu2, hu3, hu4⟩ :=
      scanUp_spec (fun i => !lessAt (keyLess key) xs a i) j (j + 1 - i) i (le_refl _)
    generalize scanUp (fun i => !lessAt (keyLess key) xs a i) j (j + 1 - i) i = i1
      at hu1 hu2 hu3 hu4 ⊢
    have hu2' := hu2 hij
    obtain ⟨hd1, hd2, hd3, hd4⟩ :=
      scanDown_spec (fun j => lessAt (keyLess key) xs a j) i1 (by omega) (j + 1 - i1) j
        (le_refl _)
    generalize scanDown (fun j => lessAt (keyLess key) xs a j) i1 (j + 1 - i1) j = j1
      at hd1 hd2 hd3 hd4 ⊢
    have hd2' := hd2 hu2'
    have hleft1 : ∀ k, a + 1 ≤ k → k < i1 → ¬ p < keyAt key xs k := by
      intro k hk1 hk2
      by_cases hki : k < i
      · exact hleft k hk1 hki
      · have := hu3 k (by omega) hk2
        simp only [lessAt_keyLess, Bool.not_eq_true', decide_eq_false_iff_not] at this
        rw [ha] at this
        exact this
    have hright1 : ∀ k, j1 < k → k < b → p < keyAt key xs k := by
      intro k hk1 hk2
      by_cases hkj : j < k
      · exact hright k hkj hk2
      · have := hd3 k hk1 (by omega)
        simp only [lessAt_keyLess, decide_eq_true_eq] at this
        rw [ha] at this
        exact this
    by_cases hbr : i1 > j1
    · rw [if_pos hbr]
      exact ⟨Shuffled.refl _, by show a + 1 ≤ i1; omega, by show i1 ≤ b; omega, hleft1,
        fun k hk1 hk2 => hright1 k (by have : i1 ≤ k := hk1; omega) hk2⟩
    · rw [if_neg hbr]
      have hi1 : p < keyAt key xs i1 := by
        have := hu4 (by omega)
        simp only [lessAt_keyLess, Bool.not_eq_false', decide_eq_true_eq] at this
        rw [ha] at this
        exact this
      have hj1 : ¬ p < keyAt key xs j1 := by
        have := hd4 (by omega)
        simp only [lessAt_keyLess, decide_eq_false_iff_not] at this
        rw [ha] at this
        exact this
      have hne : i1 ≠ j1 := by
        intro h
        rw [h] at hi1
        exact hj1 hi1
      have hl1 : i1 < xs.length := by omega
      have hl2 : j1 < xs.length := by omega
      have hkey : ∀ k, keyAt key (swapAt xs i1 j1) k
          = if k = j1 then keyAt key xs i1 else if k = i1 then keyAt key xs j1
            else keyAt key xs k := fun k => keyAt_swapAt key xs i1 j1 k hl1 hl2
      have hrec := ih (swapAt xs i1 j1) (i1 + 1) (j1 - 1) (by omega) (by omega) (by omega)
        (by omega) (by rw [length_swapAt]; exact hlen)
        (by
          rw [hkey a, if_neg (by omega), if_neg (by omega)]
          exact ha)
        (by
          intro k hk1 hk2
          rw [hkey k, if_neg (by omega)]
          by_cases hki : k = i1
          · rw [if_pos hki]
            exact hj1
          · rw [if_neg hki]
            exact hleft1 k hk1 (by omega))
        (by
          intro k hk1 hk2
          rw [hkey k]
          by_cases hkj : k = j1
          · rw [if_pos hkj]
            exact hi1
          · rw [if_neg hkj, if_neg (by omega)]
            exact hright1 k (by omega) hk2)
      obtain ⟨hsh, hr1, hr2, hr3, hr4⟩ := hrec
      exact ⟨(Shuffled.one xs i1 j1 (by omega) (by omega) (by omega) (by omega)).trans hsh,
        hr1, hr2, hr3, hr4⟩

/-- The function `partitionEqual_func`, on a range without a key below the pivot, puts the
keys equal to the pivot before `newpivot` and the larger ones from `newpivot` on, by swaps
inside `data[a:b]`. -/
theorem partitionEqual_spec (key : α → Int) (xs : List α) (a b pivot : Nat) (hap : a ≤ pivot)
    (hpb : pivot < b) (hb : b ≤ xs.length)
    (hmin : ∀ k, a ≤ k → k < b → keyAt key xs pivot ≤ keyAt key xs k) :
    Shuffled a b xs (partitionEqual_func (keyLess key) xs a b pivot).1 ∧
    a + 1 ≤ (partitionEqual_func (keyLess key) xs a b pivot).2 ∧
    (partitionEqual_func (keyLess key) xs a b pivot).2 ≤ b ∧
    (∀ k, a ≤ k → k < (partitionEqual_func (keyLess key) xs a b pivot).2 →
      keyAt key (partitionEqual_func (keyLess key) xs a b pivot).1 k = keyAt key xs pivot) ∧
    (∀ k, (partitionEqual_func (keyLess key) xs a b pivot).2 ≤ k → k < b →
      keyAt key xs pivot < keyAt key (partitionEqual_func (keyLess key) xs a b pivot).1 k) := by
  have hla : a < xs.length := by omega
  have hlp : pivot < xs.length := by omega
  have hkey0 : ∀ k, keyAt key (swapAt xs a pivot) k
      = if k = pivot then keyAt key xs a else if k = a then keyAt key xs pivot
        else keyAt key xs k := fun k => keyAt_swapAt key xs a pivot k hla hlp
  have hl0 : (swapAt xs a pivot).length = xs.length := length_swapAt _ _ _
  have ha0 : keyAt key (swapAt xs a pivot) a = keyAt key xs pivot := by
    rw [hkey0 a]
    by_cases h : a = pivot
    · rw [if_pos h, h]
    · rw [if_neg h, if_pos rfl]
  have hsh0 : Shuffled a b xs (swapAt xs a pivot) :=
    Shuffled.one xs a pivot (le_refl _) (by omega) hap hpb
  unfold partitionEqual_func
  have hloop := partitionEqualLoop_spec key a b (keyAt key xs pivot) (b - a)
    (swapAt xs a pivot) (a + 1) (b - 1) (by omega) (le_refl _) (by omega) (by omega)
    (by rw [hl0]; exact hb) ha0
    (by
      intro k hk1 hk2
      omega)
    (by
      intro k hk1 hk2
      omega)
  obtain ⟨hsh, hr1, hr2, hr3, hr4⟩ := hloop
  have hsh1 : Shuffled a b xs
      (partitionEqualLoop (keyLess key) a (b - a) (swapAt xs a pivot) (a + 1) (b - 1)).1 :=
    hsh0.trans (hsh.mono (by omega) (le_refl _))
  have hge := hsh1.forall_range hb (fun x => keyAt key xs pivot ≤ key x) hmin
  refine ⟨hsh1, hr1, hr2, ?_, hr4⟩
  intro k hk1 hk2
  by_cases hka : k = a
  · subst hka
    rw [hsh.keyAt_outside (by rw [hl0]; exact hb) key k (Or.inl (by omega))]
    exact ha0
  · have h1 := hr3 k (by omega) hk2
    have h2 : keyAt key xs pivot ≤ keyAt key
        (partitionEqualLoop (keyLess key) a (b - a) (swapAt xs a pivot) (a + 1) (b - 1)).1 k :=
      hge k hk1 (by omega)
    omega

end SortPartition
/-! ## The library routine `sort.Slice`: the helpers of `pdqsort_func` -/

section SortHelpers

variable {α : Type} [Inhabited α]

theorem sortedOn_extend (key : α → Int) (xs : List α) (a i i1 : Nat)
    (hs : SortedOn key xs a i)
    (hstep : ∀ k, i ≤ k → k < i1 → keyAt key xs (k - 1) ≤ keyAt key xs k) :
    SortedOn key xs a i1 := by
  apply sortedOn_of_adjacent
  intro k hak hk
  by_cases hki : k + 1 < i
  · exact hs k (k + 1) hak (by omega) hki
  · have := hstep (k + 1) (by omega) hk
    simpa using this

/-- The loop `for j := i - 1; j >= 1; j--` does what the inner loop of the insertion sort
does when no key of the range is below the key before the range. -/
theorem shiftLeft_eq_insertionInner (key : α → Int) (a : Nat) : ∀ (j : Nat) (xs : List α),
    a ≤ j → j + 1 < xs.length → (a = 0 ∨ keyAt key xs (a - 1) ≤ keyAt key xs j) →
    shiftLeft (keyLess key) j xs = insertionInner (keyLess key) a j xs := by
  intro j
  induction j with
  | zero =>
    intro xs _ _ _
    unfold shiftLeft insertionInner
    rfl
  | succ j ih =>
    intro xs haj hlen hlow
    unfold shiftLeft insertionInner
    by_cases hless : lessAt (keyLess key) xs (j + 1) j = true
    · have hgt : j + 1 > a := by
        by_contra hle
        have haeq : a = j + 1 := by omega
        rcases hlow with h0 | hlow
        · omega
        · rw [lessAt_keyLess, decide_eq_true_eq] at hless
          rw [haeq] at hlow
          simp only [Nat.add_sub_cancel] at hlow
          omega
      simp only [hless, Bool.not_true, Bool.false_eq_true, if_false, hgt, decide_True,
        Bool.and_self, if_true]
      apply ih (swapAt xs (j + 1) j) (by omega) (by rw [length_swapAt]; omega)
      rcases hlow with h0 | hlow
      · exact Or.inl h0
      · by_cases ha0 : a = 0
        · exact Or.inl ha0
        · right
          rw [keyAt_swapAt key xs (j + 1) j (a - 1) (by omega) (by omega),
            keyAt_swapAt key xs (j + 1) j j (by omega) (by omega)]
          rw [if_neg (by omega), if_neg (by omega), if_pos rfl]
          exact hlow
    · simp only [hless, Bool.not_false, if_true, Bool.and_false, Bool.false_eq_true, if_false]

theorem shiftRight_shuffled (key : α → Int) (b : Nat) : ∀ (fuel j : Nat) (xs : List α),
    1 ≤ j → Shuffled (j - 1) b xs (shiftRight (keyLess key) b fuel j xs) := by
  intro fuel
  induction fuel with
  | zero =>
    intro j xs _
    unfold shiftRight
    exact Shuffled.refl _
  | succ fuel ih =>
    intro j xs hj
    unfold shiftRight
    by_cases hjb : j < b
    · rw [if_pos hjb]
      by_cases hstop : (!lessAt (keyLess key) xs j (j - 1)) = true
      · rw [if_pos hstop]
        exact Shuffled.refl _
      · rw [if_neg hstop]
        have h1 := ih (j + 1) (swapAt xs j (j - 1)) (by omega)
        exact (Shuffled.one xs j (j - 1) (by omega) hjb (le_refl _) (by omega)).trans
          (h1.mono (by omega) (le_refl _))
    · rw [if_neg hjb]
      exact Shuffled.refl _

theorem partialInsertionLoop_spec (key : α → Int) (a b : Nat) :
    ∀ (steps : Nat) (xs : List α) (i : Nat), a + 1 ≤ i → i ≤ b → b ≤ xs.length →
    SortedOn key xs a i → LowerBound key xs a b →
    Shuffled a b xs (partialInsertionLoop (keyLess key) a b steps xs i).1 ∧
    ((partialInsertionLoop (keyLess key) a b steps xs i).2 = true →
      SortedOn key (partialInsertionLoop (keyLess key) a b steps xs i).1 a b) := by
  intro steps
  induction steps with
  | zero =>
    intro xs i _ _ _ _ _
    unfold partialInsertionLoop
    exact ⟨Shuffled.refl _, fun h => by cases h⟩
  | succ steps ih =>
    intro xs i hai hib hlen hsorted hlow
    unfold partialInsertionLoop
    simp only
    obtain ⟨hu1, hu2, hu3, hu4⟩ :=
      scanUp_spec (fun i => !lessAt (keyLess key) xs i (i - 1)) (b - 1) (b - i) i
        (by omega)
    generalize scanUp (fun i => !lessAt (keyLess key) xs i (i - 1)) (b - 1) (b - i) i = i1
      at hu1 hu2 hu3 hu4 ⊢
    have hu2' : i1 ≤ b := by
      have := hu2 (by omega)
      omega
    have hsorted1 : SortedOn key xs a i1 := by
      apply sortedOn_extend key xs a i i1 hsorted
      intro k hk1 hk2
      have := hu3 k hk1 hk2
      simp only [lessAt_keyLess, Bool.not_eq_true', decide_eq_false_iff_not] at this
      omega
    by_cases hend : i1 = b
    · rw [if_pos hend]
      refine ⟨Shuffled.refl _, fun _ => ?_⟩
      rw [← hend]
      exact hsorted1
    · rw [if_neg hend]
      by_cases hshort : b - a < 50
      · rw [if_pos hshort]
        exact ⟨Shuffled.refl _, fun h => by cases h⟩
      · rw [if_neg hshort]
        have hi1b : i1 < b := by omega
        have hl1 : i1 < xs.length := by omega
        have hl0 : i1 - 1 < xs.length := by omega
        have hkey : ∀ k, keyAt key (swapAt xs i1 (i1 - 1)) k
            = if k = i1 - 1 then keyAt key xs i1 else if k = i1 then keyAt key xs (i1 - 1)
              else keyAt key xs k := fun k => keyAt_swapAt key xs i1 (i1 - 1) k hl1 hl0
        have hsh1 : Shuffled a b xs (swapAt xs i1 (i1 - 1)) :=
          Shuffled.one xs i1 (i1 - 1) (by omega) hi1b (by omega) (by omega)
        have hlen1 : (swapAt xs i1 (i1 - 1)).length = xs.length := length_swapAt _ _ _
        -- the shift to the left
        have hleft : Shuffled a i1 (swapAt xs i1 (i1 - 1))
              (if i1 - a ≥ 2 then shiftLeft (keyLess key) (i1 - 1) (swapAt xs i1 (i1 - 1))
                else swapAt xs i1 (i1 - 1)) ∧
            SortedOn key
              (if i1 - a ≥ 2 then shiftLeft (keyLess key) (i1 - 1) (swapAt xs i1 (i1 - 1))
                else swapAt xs i1 (i1 - 1)) a i1 := by
          by_cases hfar : i1 - a ≥ 2
          · rw [if_pos hfar]
            rw [shiftLeft_eq_insertionInner key a (i1 - 1) _ (by omega)
              (by rw [hlen1]; omega)
              (by
                rcases hlow with h0 | hlow
                · exact Or.inl h0
                · by_cases ha0 : a = 0
                  · exact Or.inl ha0
                  · right
                    rw [hkey (a - 1), hkey (i1 - 1), if_neg (by omega), if_neg (by omega),
                      if_pos rfl]
                    exact hlow i1 (by omega) hi1b)]
            have h := insertionInner_spec key a (i1 - 1) (i1 - 1) (swapAt xs i1 (i1 - 1))
              (by omega) (le_refl _) (by rw [hlen1]; omega)
              (by
                intro p q hap hpq hq hp hq'
                rw [hkey p, hkey q, if_neg hp, if_neg hq', if_neg (by omega),
                  if_neg (by omega)]
                exact hsorted1 p q hap hpq (by omega))
              (by
                intro q hq1 hq2
                omega)
            have heq : i1 - 1 + 1 = i1 := by omega
            rw [heq] at h
            exact ⟨h.1, h.2.1⟩
          · rw [if_neg hfar]
            refine ⟨Shuffled.refl _, ?_⟩
            intro p q hap hpq hq
            have : p = q := by omega
            subst this
            exact le_refl _
        generalize (if i1 - a ≥ 2 then shiftLeft (keyLess key) (i1 - 1) (swapAt xs i1 (i1 - 1))
          else swapAt xs i1 (i1 - 1)) = xs2 at hleft ⊢
        obtain ⟨hsh2, hsorted2⟩ := hleft
        have hlen2 : xs2.length = xs.length := by rw [hsh2.length_eq, hlen1]
        -- the shift to the right
        have hright : Shuffled i1 b xs2
            (if b - i1 ≥ 2 then shiftRight (keyLess key) b (b - (i1 + 1)) (i1 + 1) xs2
              else xs2) := by
          by_cases hfar : b - i1 ≥ 2
          · rw [if_pos hfar]
            have := shiftRight_shuffled key b (b - (i1 + 1)) (i1 + 1) xs2 (by omega)
            simpa using this
          · rw [if_neg hfar]
            exact Shuffled.refl _
        generalize (if b - i1 ≥ 2 then shiftRight (keyLess key) b (b - (i1 + 1)) (i1 + 1) xs2
          else xs2) = xs3 at hright ⊢
        have hlen3 : xs3.length = xs.length := by rw [hright.length_eq, hlen2]
        have hsorted3 : SortedOn key xs3 a i1 :=
          hright.sortedOn_outside (by rw [hlen2]; exact hlen) key a i1 (Or.inl (le_refl _))
            hsorted2
        have hall : Shuffled a b xs xs3 :=
          (hsh1.trans (hsh2.mono (le_refl _) (by omega))).trans
            (hright.mono (by omega) (le_refl _))
        have hrec := ih xs3 i1 (by omega) hu2' (by rw [hlen3]; exact hlen) hsorted3
          (hall.lowerBound hlen key hlow)
        exact ⟨hall.trans hrec.1, hrec.2⟩

/-- The function `partialInsertionSort_func` swaps inside `data[a:b]`, and when it returns
true the range is sorted. -/
theorem partialInsertionSort_spec (key : α → Int) (xs : List α) (a b : Nat)
    (hab : a + 1 ≤ b) (hb : b ≤ xs.length) (hlow : LowerBound key xs a b) :
    Shuffled a b xs (partialInsertionSort_func (keyLess key) xs a b).1 ∧
    ((partialInsertionSort_func (keyLess key) xs a b).2 = true →
      SortedOn key (partialInsertionSort_func (keyLess key) xs a b).1 a b) := by
  unfold partialInsertionSort_func
  apply partialInsertionLoop_spec key a b 5 xs (a + 1) (le_refl _) hab hb _ hlow
  intro p q hap hpq hq
  have : p = q := by omega
  subst this
  exact le_refl _

theorem order2_mem (lt : α → α → Bool) (xs : List α) (a b s : Nat) :
    ((order2_func lt xs a b s).1 = a ∧ (order2_func lt xs a b s).2.1 = b) ∨
    ((order2_func lt xs a b s).1 = b ∧ (order2_func lt xs a b s).2.1 = a) := by
  unfold order2_func
  by_cases h : lessAt lt xs b a = true
  · rw [if_pos h]
    exact Or.inr ⟨rfl, rfl⟩
  · rw [if_neg h]
    exact Or.inl ⟨rfl, rfl⟩

theorem median_mem (lt : α → α → Bool) (xs : List α) (a b c s : Nat) :
    (median_func lt xs a b c s).1 = a ∨ (median_func lt xs a b c s).1 = b ∨
      (median_func lt xs a b c s).1 = c := by
  unfold median_func
  simp only
  have m1 := order2_mem lt xs a b s
  generalize order2_func lt xs a b s = r1 at m1 ⊢
  have m2 := order2_mem lt xs r1.2.1 c r1.2.2
  generalize order2_func lt xs r1.2.1 c r1.2.2 = r2 at m2 ⊢
  have m3 := order2_mem lt xs r1.1 r2.1 r2.2.2
  generalize order2_func lt xs r1.1 r2.1 r2.2.2 = r3 at m3 ⊢
  omega

theorem medianAdjacent_near (lt : α → α → Bool) (xs : List α) (a s : Nat) :
    a - 1 ≤ (medianAdjacent_func lt xs a s).1 ∧ (medianAdjacent_func lt xs a s).1 ≤ a + 1 := by
  unfold medianAdjacent_func
  rcases median_mem lt xs (a - 1) a (a + 1) s with h | h | h <;> rw [h] <;> omega

/-- The pivot `choosePivot_func` chooses lies in `data[a:b]`. -/
theorem choosePivot_range (lt : α → α → Bool) (xs : List α) (a b : Nat) (hab : a + 8 ≤ b) :
    a ≤ (choosePivot_func lt xs a b).1 ∧ (choosePivot_func lt xs a b).1 < b := by
  have hl : b - a ≥ 8 := by omega
  have hfst : ∀ (r : Nat × Nat),
      (if r.2 = 0 then (r.1, SortedHint.increasingHint)
        else if r.2 = 4 * 3 then (r.1, SortedHint.decreasingHint)
        else (r.1, SortedHint.unknownHint)).1 = r.1 := by
    intro r
    split_ifs <;> rfl
  unfold choosePivot_func
  simp only
  rw [hfst, if_pos hl]
  by_cases hbig : b - a ≥ 50
  · rw [if_pos hbig]
    have hi := medianAdjacent_near lt xs (a + (b - a) / 4 * 1) 0
    have hj := medianAdjacent_near lt xs (a + (b - a) / 4 * 2)
      (medianAdjacent_func lt xs (a + (b - a) / 4 * 1) 0).2
    have hk := medianAdjacent_near lt xs (a + (b - a) / 4 * 3)
      (medianAdjacent_func lt xs (a + (b - a) / 4 * 2)
        (medianAdjacent_func lt xs (a + (b - a) / 4 * 1) 0).2).2
    rcases median_mem lt xs (medianAdjacent_func lt xs (a + (b - a) / 4 * 1) 0).1
      (medianAdjacent_func lt xs (a + (b - a) / 4 * 2)
        (medianAdjacent_func lt xs (a + (b - a) / 4 * 1) 0).2).1
      (medianAdjacent_func lt xs (a + (b - a) / 4 * 3)
        (medianAdjacent_func lt xs (a + (b - a) / 4 * 2)
          (medianAdjacent_func lt xs (a + (b - a) / 4 * 1) 0).2).2).1
      (medianAdjacent_func lt xs (a + (b - a) / 4 * 3)
        (medianAdjacent_func lt xs (a + (b - a) / 4 * 2)
          (medianAdjacent_func lt xs (a + (b - a) / 4 * 1) 0).2).2).2 with h | h | h <;>
    rw [h] <;> omega
  · rw [if_neg hbig]
    rcases median_mem lt xs (a + (b - a) / 4 * 1) (a + (b - a) / 4 * 2)
      (a + (b - a) / 4 * 3) 0 with h | h | h <;>
    rw [h] <;> omega

theorem reverseLoop_shuffled (a b : Nat) : ∀ (fuel : Nat) (xs : List α) (i j : Nat),
    a ≤ i → j < b → Shuffled a b xs (reverseLoop fuel xs i j) := by
  intro fuel
  induction fuel with
  | zero =>
    intro xs i j _ _
    unfold reverseLoop
    exact Shuffled.refl _
  | succ fuel ih =>
    intro xs i j hai hjb
    unfold reverseLoop
    by_cases hij : i < j
    · rw [if_pos hij]
      exact (Shuffled.one xs i j hai (by omega) (by omega) hjb).trans
        (ih (swapAt xs i j) (i + 1) (j - 1) (by omega) (by omega))
    · rw [if_neg hij]
      exact Shuffled.refl _

/-- The function `reverseRange_func` swaps inside `data[a:b]`. -/
theorem reverseRange_shuffled (xs : List α) (a b : Nat) (hab : a + 1 ≤ b) :
    Shuffled a b xs (reverseRange_func xs a b) := by
  unfold reverseRange_func
  exact reverseLoop_shuffled a b (b - a) xs a (b - 1) (le_refl _) (by omega)

theorem bitsLenFrom_le : ∀ (fuel n : Nat), n ≤ fuel → 1 ≤ n →
    2 ^ bitsLenFrom fuel n ≤ 2 * n := by
  intro fuel
  induction fuel with
  | zero => intro n h1 h2; omega
  | succ fuel ih =>
    intro n hn h1
    unfold bitsLenFrom
    rw [if_neg (by omega)]
    by_cases hhalf : n / 2 = 0
    · rw [hhalf]
      have h0 : bitsLenFrom fuel 0 = 0 := by
        cases fuel with
        | zero => rfl
        | succ f => unfold bitsLenFrom; rw [if_pos rfl]
      rw [h0]
      simp
      omega
    · have := ih (n / 2) (by omega) (by omega)
      rw [pow_succ]
      omega

theorem nextPowerOfTwo_le (length : Nat) (h : 1 ≤ length) :
    nextPowerOfTwo length ≤ 2 * length := by
  unfold nextPowerOfTwo bitsLen
  exact bitsLenFrom_le length length (le_refl _) h

theorem swapLoop_shuffled (a b : Nat) (f g : Nat → Nat) : ∀ (l : List Nat) (xs : List α),
    (∀ i ∈ l, a ≤ f i ∧ f i < b ∧ a ≤ g i ∧ g i < b) →
    Shuffled a b xs (l.foldl (fun xs i => swapAt xs (f i) (g i)) xs) := by
  intro l
  induction l with
  | nil => intro xs _; exact Shuffled.refl _
  | cons i l ih =>
    intro xs h
    rw [List.foldl_cons]
    obtain ⟨h1, h2, h3, h4⟩ := h i (List.mem_cons_self _ _)
    exact (Shuffled.one xs (f i) (g i) h1 h2 h3 h4).trans
      (ih _ (fun k hk => h k (List.mem_cons_of_mem _ hk)))

/-- The function `breakPatterns_func` swaps inside `data[a:b]`, whatever the numbers
drawn. -/
theorem breakPatterns_shuffled (rnd : Nat → Nat → Nat) (xs : List α) (a b : Nat) :
    Shuffled a b xs (breakPatterns_func rnd xs a b) := by
  unfold breakPatterns_func
  simp only
  by_cases hl : b - a ≥ 8
  · rw [if_pos hl]
    apply swapLoop_shuffled a b
      (fun i => a + (b - a) / 4 * 2 - 1 - 1 + i)
      (fun i => a + (if rnd (b - a) i % nextPowerOfTwo (b - a) ≥ b - a
        then rnd (b - a) i % nextPowerOfTwo (b - a) - (b - a)
        else rnd (b - a) i % nextPowerOfTwo (b - a)))
    intro i hi
    have hi3 : i < 3 := by simpa using hi
    have hmod := nextPowerOfTwo_le (b - a) (by omega)
    have hlt : rnd (b - a) i % nextPowerOfTwo (b - a) < nextPowerOfTwo (b - a) := by
      apply Nat.mod_lt
      unfold nextPowerOfTwo
      exact Nat.pos_pow_of_pos _ (by decide)
    refine ⟨by omega, by omega, by omega, ?_⟩
    split_ifs with hge
    · omega
    · omega
  · rw [if_neg hl]
    exact Shuffled.refl _

end SortHelpers
/-! ## The library routine `sort.Slice`: `pdqsort_func` -/

section SortMain

variable {α : Type} [Inhabited α]

theorem sortedOn_glue (key : α → Int) (ys : List α) (a mid b : Nat) (p : Int)
    (hleft : SortedOn key ys a mid) (hright : SortedOn key ys (mid + 1) b)
    (hmid : keyAt key ys mid = p)
    (hlow : ∀ k, a ≤ k → k < mid → keyAt key ys k ≤ p)
    (hhigh : ∀ k, mid < k → k < b → p ≤ keyAt key ys k) : SortedOn key ys a b := by
  intro i j hai hij hjb
  by_cases hjm : j < mid
  · exact hleft i j hai hij hjm
  · by_cases him : mid < i
    · exact hright i j (by omega) hij hjb
    · have hi : keyAt key ys i ≤ p := by
        by_cases hieq : i = mid
        · rw [hieq, hmid]
        · exact hlow i hai (by omega)
      have hj : p ≤ keyAt key ys j := by
        by_cases hjeq : j = mid
        · rw [hjeq, hmid]
        · exact hhigh j (by omega) hjb
      exact le_trans hi hj

theorem LowerBound.sub {key : α → Int} {xs : List α} {a b : Nat}
    (h : LowerBound key xs a b) (c : Nat) (hc : c ≤ b) : LowerBound key xs a c := by
  rcases h with h0 | h
  · exact Or.inl h0
  · exact Or.inr (fun i hai hic => h i hai (by omega))

/-- The function `pdqsort_func` returns, and it sorts `data[a:b]` by swaps inside the
range, for every limit, both flags and all numbers drawn; the range starts the slice or
has no key below the key before it. -/
theorem pdqsort_spec (rnd : Nat → Nat → Nat) (key : α → Int) :
    ∀ (fuel : Nat) (xs : List α) (a b limit : Nat) (wb wp : Bool),
    b - a < fuel → a ≤ b → b ≤ xs.length → LowerBound key xs a b →
    ∃ ys, pdqsort_func rnd (keyLess key) fuel xs a b limit wb wp = some ys ∧
      Shuffled a b xs ys ∧ SortedOn key ys a b := by
  intro fuel
  induction fuel with
  | zero => intro xs a b limit wb wp h; omega
  | succ fuel ih =>
    intro xs a b limit wb wp hfuel hab hb hlow
    unfold pdqsort_func
    lift_lets
    extract_lets length xs1 limit1 ph xs2 pivot hint ps re rp mid leftLen rightLen bthr
    by_cases hshort : length ≤ 12
    · rw [if_pos hshort]
      exact ⟨_, rfl, (insertionSort_spec key xs a b hb).1,
        (insertionSort_spec key xs a b hb).2.1⟩
    · rw [if_neg hshort]
      have hlong : a + 13 ≤ b := by
        have : ¬ b - a ≤ 12 := hshort
        omega
      by_cases hlim : limit = 0
      · rw [if_pos hlim]
        exact ⟨_, rfl, heapSort_spec key xs a b hab hb⟩
      · rw [if_neg hlim]
        have h1 : Shuffled a b xs xs1 := by
          show Shuffled a b xs (if (!wb) = true then breakPatterns_func rnd xs a b else xs)
          split_ifs
          · exact breakPatterns_shuffled rnd xs a b
          · exact Shuffled.refl _
        have hl1 : xs1.length = xs.length := h1.length_eq
        have hpr : a ≤ ph.1 ∧ ph.1 < b :=
          choosePivot_range (keyLess key) xs1 a b (by omega)
        have h2 : Shuffled a b xs1 xs2 := by
          show Shuffled a b xs1
            (if ph.2 = SortedHint.decreasingHint then reverseRange_func xs1 a b else xs1)
          split_ifs
          · exact reverseRange_shuffled xs1 a b (by omega)
          · exact Shuffled.refl _
        have hl2 : xs2.length = xs.length := by rw [h2.length_eq, hl1]
        have hpiv : a ≤ pivot ∧ pivot < b := by
          show a ≤ (if ph.2 = SortedHint.decreasingHint then b - 1 - (ph.1 - a) else ph.1) ∧
            (if ph.2 = SortedHint.decreasingHint then b - 1 - (ph.1 - a) else ph.1) < b
          split_ifs
          · omega
          · exact hpr
        have hlow2 : LowerBound key xs2 a b :=
          (h1.trans h2).lowerBound hb key hlow
        have h3 : Shuffled a b xs2 ps.1 ∧ (ps.2 = true → SortedOn key ps.1 a b) := by
          show Shuffled a b xs2
              (if (wb && wp && decide (hint = SortedHint.increasingHint)) = true then
                partialInsertionSort_func (keyLess key) xs2 a b else (xs2, false)).1 ∧
            ((if (wb && wp && decide (hint = SortedHint.increasingHint)) = true then
                partialInsertionSort_func (keyLess key) xs2 a b else (xs2, false)).2 = true →
              SortedOn key
                (if (wb && wp && decide (hint = SortedHint.increasingHint)) = true then
                  partialInsertionSort_func (keyLess key) xs2 a b else (xs2, false)).1 a b)
          split_ifs
          · exact partialInsertionSort_spec key xs2 a b (by omega) (by rw [hl2]; exact hb)
              hlow2
          · exact ⟨Shuffled.refl _, fun h => by cases h⟩
        have hall : Shuffled a b xs ps.1 := (h1.trans h2).trans h3.1
        have hl3 : ps.1.length = xs.length := hall.length_eq
        have hlow3 : LowerBound key ps.1 a b := hall.lowerBound hb key hlow
        by_cases hdone : ps.2 = true
        · rw [if_pos hdone]
          exact ⟨_, rfl, hall, h3.2 hdone⟩
        · rw [if_neg hdone]
          by_cases heq : (decide (a > 0) && !lessAt (keyLess key) ps.1 (a - 1) pivot) = true
          · rw [if_pos heq]
            rw [Bool.and_eq_true, decide_eq_true_eq, Bool.not_eq_true', lessAt_keyLess,
              decide_eq_false_iff_not] at heq
            have hmin : ∀ k, a ≤ k → k < b → keyAt key ps.1 pivot ≤ keyAt key ps.1 k := by
              intro k hk1 hk2
              rcases hlow3 with h0 | hlow3
              · omega
              · have hk := hlow3 k hk1 hk2
                have := heq.2
                omega
            have hE : Shuffled a b ps.1 re.1 ∧ a + 1 ≤ re.2 ∧ re.2 ≤ b ∧
                (∀ k, a ≤ k → k < re.2 → keyAt key re.1 k = keyAt key ps.1 pivot) ∧
                (∀ k, re.2 ≤ k → k < b → keyAt key ps.1 pivot < keyAt key re.1 k) :=
              partitionEqual_spec key ps.1 a b pivot hpiv.1 hpiv.2 (by rw [hl3]; exact hb)
                hmin
            obtain ⟨he1, he2, he3, he4, he5⟩ := hE
            have hle : re.1.length = xs.length := by
              rw [he1.length_eq, hl3]
            obtain ⟨ys, hys, hsh, hso⟩ := ih re.1 re.2 b limit1 wb wp
              (by
                have : a + 1 ≤ re.2 := he2
                omega)
              he3 (by rw [hle]; exact hb)
              (by
                right
                intro k hk1 hk2
                have hm : keyAt key re.1 (re.2 - 1) = keyAt key ps.1 pivot :=
                  he4 (re.2 - 1) (by have : a + 1 ≤ re.2 := he2; omega)
                    (by have : a + 1 ≤ re.2 := he2; omega)
                rw [hm]
                exact le_of_lt (he5 k hk1 hk2))
            refine ⟨ys, hys, (hall.trans he1).trans (hsh.mono (by
              have : a + 1 ≤ re.2 := he2
              omega) (le_refl _)), ?_⟩
            have hout : ∀ k, k < re.2 → keyAt key ys k = keyAt key re.1 k :=
              fun k hk => hsh.keyAt_outside (by rw [hle]; exact hb) key k (Or.inl hk)
            have hbig := hsh.forall_range (by rw [hle]; exact hb)
              (fun x => keyAt key ps.1 pivot < key x) he5
            intro i j hai hij hjb
            by_cases hjm : j < re.2
            · rw [hout i (by omega), hout j hjm, he4 i hai (by omega), he4 j (by omega) hjm]
            · by_cases him : i < re.2
              · rw [hout i him, he4 i hai him]
                exact le_of_lt (hbig j (by omega) hjb)
              · exact hso i j (by omega) hij hjb
          · rw [if_neg heq]
            have hP : Shuffled a b ps.1 rp.1 ∧ a ≤ mid ∧ mid < b ∧
                keyAt key rp.1 mid = keyAt key ps.1 pivot ∧
                (∀ k, a ≤ k → k < mid → keyAt key rp.1 k < keyAt key ps.1 pivot) ∧
                (∀ k, mid < k → k < b → keyAt key ps.1 pivot ≤ keyAt key rp.1 k) :=
              partition_spec key ps.1 a b pivot hpiv.1 hpiv.2 (by rw [hl3]; exact hb)
            obtain ⟨hp1, hp2, hp3, hp4, hp5, hp6⟩ := hP
            have hlp : rp.1.length = xs.length := by
              rw [hp1.length_eq, hl3]
            have hmid1 : a ≤ mid := hp2
            have hmid2 : mid < b := hp3
            have hlowp : LowerBound key rp.1 a b := (hall.trans hp1).lowerBound hb key hlow
            have hkm : keyAt key rp.1 mid = keyAt key ps.1 pivot := hp4
            have hkl : ∀ k, a ≤ k → k < mid → keyAt key rp.1 k < keyAt key ps.1 pivot := hp5
            have hkr : ∀ k, mid < k → k < b → keyAt key ps.1 pivot ≤ keyAt key rp.1 k := hp6
            by_cases hside : leftLen < rightLen
            · rw [if_pos hside]
              obtain ⟨xs3, hx3, hsh3, hso3⟩ := ih rp.1 a mid limit1 true true (by omega)
                hmid1 (by rw [hlp]; omega) (hlowp.sub mid (by omega))
              rw [hx3]
              simp only
              have hl4 : xs3.length = xs.length := by rw [hsh3.length_eq, hlp]
              have hout3 : ∀ k, mid ≤ k → keyAt key xs3 k = keyAt key rp.1 k :=
                fun k hk => hsh3.keyAt_outside (by rw [hlp]; omega) key k (Or.inr hk)
              obtain ⟨ys, hys, hsh, hso⟩ := ih xs3 (mid + 1) b limit1
                (decide (leftLen ≥ bthr)) rp.2.2 (by omega) (by omega)
                (by rw [hl4]; exact hb)
                (by
                  right
                  intro k hk1 hk2
                  simp only [Nat.add_sub_cancel]
                  rw [hout3 mid (le_refl _), hout3 k (by omega), hkm]
                  exact hkr k (by omega) hk2)
              refine ⟨ys, hys, ((hall.trans hp1).trans (hsh3.mono (le_refl _) (by omega))).trans
                (hsh.mono (by omega) (le_refl _)), ?_⟩
              have hout : ∀ k, k < mid + 1 → keyAt key ys k = keyAt key xs3 k :=
                fun k hk => hsh.keyAt_outside (by rw [hl4]; exact hb) key k (Or.inl hk)
              have hsmall := hsh3.forall_range (by rw [hlp]; omega)
                (fun x => key x < keyAt key ps.1 pivot) hkl
              have hbig := hsh.forall_range (by rw [hl4]; exact hb)
                (fun x => keyAt key ps.1 pivot ≤ key x) (by
                  intro k hk1 hk2
                  show keyAt key ps.1 pivot ≤ keyAt key xs3 k
                  rw [hout3 k (by omega)]
                  exact hkr k (by omega) hk2)
              apply sortedOn_glue key ys a mid b (keyAt key ps.1 pivot)
              · exact hsh.sortedOn_outside (by rw [hl4]; exact hb) key a mid
                  (Or.inl (by omega)) hso3
              · exact hso
              · rw [hout mid (by omega), hout3 mid (le_refl _), hkm]
              · intro k hk1 hk2
                rw [hout k (by omega)]
                exact le_of_lt (hsmall k hk1 hk2)
              · intro k hk1 hk2
                exact hbig k (by omega) hk2
            · rw [if_neg hside]
              obtain ⟨xs3, hx3, hsh3, hso3⟩ := ih rp.1 (mid + 1) b limit1 true true (by omega)
                (by omega) (by rw [hlp]; exact hb)
                (by
                  right
                  intro k hk1 hk2
                  simp only [Nat.add_sub_cancel]
                  rw [hkm]
                  exact hkr k (by omega) hk2)
              rw [hx3]
              simp only
              have hl4 : xs3.length = xs.length := by rw [hsh3.length_eq, hlp]
              have hout3 : ∀ k, k < mid + 1 → keyAt key xs3 k = keyAt key rp.1 k :=
                fun k hk => hsh3.keyAt_outside (by rw [hlp]; exact hb) key k (Or.inl hk)
              obtain ⟨ys, hys, hsh, hso⟩ := ih xs3 a mid limit1
                (decide (rightLen ≥ bthr)) rp.2.2 (by omega) hmid1
                (by rw [hl4]; omega)
                (by
                  rcases hlowp with h0 | hlowp
                  · exact Or.inl h0
                  · by_cases ha0 : a = 0
                    · exact Or.inl ha0
                    · right
                      intro k hk1 hk2
                      rw [hout3 (a - 1) (by omega), hout3 k (by omega)]
                      exact hlowp k hk1 (by omega))
              refine ⟨ys, hys, ((hall.trans hp1).trans (hsh3.mono (by omega) (le_refl _))).trans
                (hsh.mono (le_refl _) (by omega)), ?_⟩
              have hout : ∀ k, mid ≤ k → keyAt key ys k = keyAt key xs3 k :=
                fun k hk => hsh.keyAt_outside (by rw [hl4]; omega) key k (Or.inr hk)
              have hbig := hsh3.forall_range (by rw [hlp]; exact hb)
                (fun x => keyAt key ps.1 pivot ≤ key x) (fun k hk1 hk2 => hkr k (by omega) hk2)
              have hsmall := hsh.forall_range (by rw [hl4]; omega)
                (fun x => key x < keyAt key ps.1 pivot) (by
                  intro k hk1 hk2
                  show keyAt key xs3 k < keyAt key ps.1 pivot
                  rw [hout3 k (by omega)]
                  exact hkl k hk1 hk2)
              apply sortedOn_glue key ys a mid b (keyAt key ps.1 pivot)
              · exact hso
              · exact hsh.sortedOn_outside (by rw [hl4]; omega) key (mid + 1) b
                  (Or.inr (by omega)) hso3
              · rw [hout mid (le_refl _), hout3 mid (by omega), hkm]
              · intro k hk1 hk2
                exact le_of_lt (hsmall k hk1 hk2)
              · intro k hk1 hk2
                rw [hout k (by omega)]
                exact hbig k (by omega) hk2

/-- The function `Slice` returns a permutation of the slice in ascending order of the
keys, whatever numbers `breakPatterns_func` draws. -/
theorem slice_sorts (rnd : Nat → Nat → Nat) (key : α → Int) (xs : List α) :
    ∃ ys, Slice rnd (keyLess key) xs = some ys ∧ ys.Perm xs ∧
      ys.Pairwise (fun x y => key x ≤ key y) := by
  obtain ⟨ys, hys, hsh, hso⟩ := pdqsort_spec rnd key (xs.length + 1) xs 0 xs.length
    (bitsLen xs.length) true true (by omega) (Nat.zero_le _) (le_refl _) (Or.inl rfl)
  refine ⟨ys, hys, hsh.perm (le_refl _), ?_⟩
  apply sortedOn_pairwise
  rw [hsh.length_eq]
  exact hso

end SortMain
/-! ## The library routine `sort.Slice`: short slices and sorted slices -/

section SortStable

variable {α : Type} [Inhabited α]

theorem bitsLen_pos (n : Nat) (h : 1 ≤ n) : bitsLen n ≠ 0 := by
  unfold bitsLen
  cases n with
  | zero => omega
  | succ n =>
    unfold bitsLenFrom
    rw [if_neg (by omega)]
    omega

/-- A slice of at most 12 elements is sorted by `insertionSort_func` alone, which keeps the
elements of each key in their order. -/
theorem slice_short (rnd : Nat → Nat → Nat) (key : α → Int) (xs : List α)
    (h : xs.length ≤ 12) :
    Slice rnd (keyLess key) xs = some (insertionSort_func (keyLess key) xs 0 xs.length) ∧
    ∀ k : Int, (insertionSort_func (keyLess key) xs 0 xs.length).filter
        (fun x => decide (key x = k))
      = xs.filter (fun x => decide (key x = k)) := by
  refine ⟨?_, (insertionSort_spec key xs 0 xs.length (le_refl _)).2.2⟩
  unfold Slice pdqsort_func
  simp only [Nat.sub_zero, h, if_true]

theorem insertionInner_sorted (key : α → Int) (xs : List α) (a b i : Nat)
    (hs : SortedOn key xs a b) (hi : i < b) :
    insertionInner (keyLess key) a i xs = xs := by
  cases i with
  | zero => rfl
  | succ j =>
    unfold insertionInner
    by_cases hc : (decide (j + 1 > a) && lessAt (keyLess key) xs (j + 1) j) = true
    · rw [Bool.and_eq_true, decide_eq_true_eq, lessAt_keyLess, decide_eq_true_eq] at hc
      have := hs j (j + 1) (by omega) (by omega) hi
      omega
    · rw [if_neg hc]

theorem insertionSort_sorted (key : α → Int) (xs : List α) (a b : Nat)
    (hs : SortedOn key xs a b) : insertionSort_func (keyLess key) xs a b = xs := by
  unfold insertionSort_func
  have hloop : ∀ (n i : Nat), i + n ≤ b →
      (List.range' i n).foldl (fun xs i => insertionInner (keyLess key) a i xs) xs = xs := by
    intro n
    induction n with
    | zero => intro i _; rfl
    | succ n ih =>
      intro i hi
      rw [List.range'_succ, List.foldl_cons, insertionInner_sorted key xs a b i hs (by omega)]
      exact ih (i + 1) (by omega)
  by_cases hab : a + 1 ≤ b
  · exact hloop _ _ (by omega)
  · have h0 : b - (a + 1) = 0 := by omega
    rw [h0]
    rfl

theorem order2_sorted (key : α → Int) (xs : List α) (a b i j s : Nat)
    (hs : SortedOn key xs a b) (hai : a ≤ i) (hij : i ≤ j) (hjb : j < b) :
    order2_func (keyLess key) xs i j s = (i, j, s) := by
  unfold order2_func
  have := hs i j hai hij hjb
  have hless : lessAt (keyLess key) xs j i = false := by
    rw [lessAt_keyLess, decide_eq_false_iff_not]
    omega
  rw [hless]
  rfl

theorem median_sorted (key : α → Int) (xs : List α) (a b i j k s : Nat)
    (hs : SortedOn key xs a b) (hai : a ≤ i) (hij : i ≤ j) (hjk : j ≤ k) (hkb : k < b) :
    median_func (keyLess key) xs i j k s = (j, s) := by
  unfold median_func
  simp only
  rw [order2_sorted key xs a b i j s hs hai hij (by omega)]
  simp only
  rw [order2_sorted key xs a b j k s hs (by omega) hjk hkb]
  simp only
  rw [order2_sorted key xs a b i j s hs hai hij (by omega)]

theorem choosePivot_sorted (key : α → Int) (xs : List α) (a b : Nat)
    (hs : SortedOn key xs a b) (hab : a + 8 ≤ b) :
    (choosePivot_func (keyLess key) xs a b).2 = SortedHint.increasingHint := by
  have hl : b - a ≥ 8 := by omega
  unfold choosePivot_func
  simp only
  rw [if_pos hl]
  by_cases hbig : b - a ≥ 50
  · rw [if_pos hbig]
    unfold medianAdjacent_func
    rw [median_sorted key xs a b _ _ _ 0 hs (by omega) (by omega) (by omega) (by omega)]
    simp only
    rw [median_sorted key xs a b _ _ _ 0 hs (by omega) (by omega) (by omega) (by omega)]
    simp only
    rw [median_sorted key xs a b _ _ _ 0 hs (by omega) (by omega) (by omega) (by omega)]
    simp only
    rw [median_sorted key xs a b _ _ _ 0 hs (by omega) (by omega) (by omega) (by omega)]
    simp
  · rw [if_neg hbig]
    rw [median_sorted key xs a b _ _ _ 0 hs (by omega) (by omega) (by omega) (by omega)]
    simp

theorem partialInsertionSort_sorted (key : α → Int) (xs : List α) (a b : Nat)
    (hs : SortedOn key xs a b) (hab : a + 1 ≤ b) :
    partialInsertionSort_func (keyLess key) xs a b = (xs, true) := by
  unfold partialInsertionSort_func partialInsertionLoop
  simp only
  obtain ⟨hu1, hu2, _, hu4⟩ :=
    scanUp_spec (fun i => !lessAt (keyLess key) xs i (i - 1)) (b - 1) (b - (a + 1)) (a + 1)
      (by omega)
  generalize scanUp (fun i => !lessAt (keyLess key) xs i (i - 1)) (b - 1) (b - (a + 1))
    (a + 1) = i1 at hu1 hu2 hu4 ⊢
  have hi1 : i1 = b := by
    have h2 := hu2 (by omega)
    by_contra hne
    have h4 := hu4 (by omega)
    simp only [lessAt_keyLess, Bool.not_eq_false', decide_eq_true_eq] at h4
    have := hs (i1 - 1) i1 (by omega) (by omega) (by omega)
    omega
  rw [if_pos hi1]

/-- A slice whose keys ascend is returned as it is. -/
theorem slice_sorted_fixed (rnd : Nat → Nat → Nat) (key : α → Int) (xs : List α)
    (h : xs.Pairwise (fun x y => key x ≤ key y)) : Slice rnd (keyLess key) xs = some xs := by
  have hs : SortedOn key xs 0 xs.length := pairwise_sortedOn key xs h
  by_cases hshort : xs.length ≤ 12
  · rw [(slice_short rnd key xs hshort).1, insertionSort_sorted key xs 0 xs.length hs]
  · unfold Slice pdqsort_func
    have hlim := bitsLen_pos xs.length (by omega)
    simp only [Nat.sub_zero, hshort, if_false, hlim, Bool.not_true, Bool.false_eq_true]
    rw [choosePivot_sorted key xs 0 xs.length hs (by omega)]
    simp only [Bool.and_self, decide_True, if_true, reduceCtorEq, if_false]
    rw [partialInsertionSort_sorted key xs 0 xs.length hs (by omega)]
    simp

end SortStable
/-! ## The sort step of `findAllPaths` with the routine of the Go library -/

theorem lengthLess_eq : lengthLess = keyLess (fun p : Path => p.Length) := rfl

/-- On a range of at most 12 elements `pdqsort_func` calls `insertionSort_func` and
returns. -/
theorem pdqsort_short {α : Type} [Inhabited α] (rnd : Nat → Nat → Nat) (lt : α → α → Bool)
    (fuel : Nat) (xs : List α) (a b limit : Nat) (wb wp : Bool) (h : b - a ≤ 12) :
    pdqsort_func rnd lt (fuel + 1) xs a b limit wb wp
      = some (insertionSort_func lt xs a b) := by
  unfold pdqsort_func
  simp only [h, if_true]

/-- One iteration of the loop of `pdqsort_func` on a longer range, entered with
`wasBalanced` true, in which the hint is not `decreasingHint`, the partial insertion sort
does not finish, the keys are partitioned by `partition_func` and the left part is the
shorter one: the left part is sorted by the recursive call and the loop goes on with the
right part. -/
theorem pdqsort_step {α : Type} [Inhabited α] (rnd : Nat → Nat → Nat) (lt : α → α → Bool)
    (fuel : Nat) (xs : List α) (a b limit : Nat) (wp : Bool) (pivot : Nat) (hint : SortedHint)
    (xs1 ys : List α) (mid : Nat) (ap : Bool) (hlong : ¬ b - a ≤ 12) (hlim : limit ≠ 0)
    (hpivot : choosePivot_func lt xs a b = (pivot, hint))
    (hhint : hint ≠ SortedHint.decreasingHint)
    (hpart : (if (true && wp && decide (hint = SortedHint.increasingHint)) = true then
      partialInsertionSort_func lt xs a b else (xs, false)) = (xs1, false))
    (hless : (decide (a > 0) && !lessAt lt xs1 (a - 1) pivot) = false)
    (hpartition : partition_func lt xs1 a b pivot = (ys, mid, ap))
    (hside : mid - a < b - mid) :
    pdqsort_func rnd lt (fuel + 1) xs a b limit true wp
      = (pdqsort_func rnd lt fuel ys a mid limit true true).bind
          (fun xs3 => pdqsort_func rnd lt fuel xs3 (mid + 1) b limit
            (decide (mid - a ≥ (b - a) / 8)) ap) := by
  rw [pdqsort_func]
  simp only [hlong, if_false, hlim, Bool.not_true, Bool.false_eq_true, hpivot, hhint, hpart,
    hless, hpartition, hside, if_true]
  cases pdqsort_func rnd lt fuel ys a mid limit true true <;> rfl

set_option maxRecDepth 100000 in
theorem thirteen_found : foundPaths roomsThirteen farmThirteen = some thirteenPaths := by
  decide

set_option maxRecDepth 100000 in
theorem thirteen_slice (rnd : Nat → Nat → Nat) :
    Slice rnd lengthLess thirteenPaths = some thirteenSorted := by
  have hstep := pdqsort_step rnd lengthLess 13 thirteenPaths 0 13 (bitsLen 13) true 6
    SortedHint.increasingHint thirteenPaths (swapAt thirteenPaths 0 6) 0 true (by decide)
    (by decide) (by decide) (by decide) (by decide) (by decide) (by decide) (by decide)
  have hleft := pdqsort_short rnd lengthLess 12 (swapAt thirteenPaths 0 6) 0 0 (bitsLen 13)
    true true (by decide)
  have hright := pdqsort_short rnd lengthLess 12
    (insertionSort_func lengthLess (swapAt thirteenPaths 0 6) 0 0) (0 + 1) 13 (bitsLen 13)
    (decide (0 - 0 ≥ (13 - 0) / 8)) true (by decide)
  have hsorted : insertionSort_func lengthLess
      (insertionSort_func lengthLess (swapAt thirteenPaths 0 6) 0 0) (0 + 1) 13
      = thirteenSorted := by decide
  show pdqsort_func rnd lengthLess (13 + 1) thirteenPaths 0 13 (bitsLen 13) true true = _
  rw [hstep, hleft, Option.some_bind]
  exact hright.trans (congrArg some hsorted)

set_option maxRecDepth 100000 in
theorem thirteen_filter :
    filterNonOverlappingPaths roomsThirteen thirteenSorted = thirteenSorted := by
  decide

theorem thirteen_ties :
    thirteenPaths.filter (fun p => decide (p.Length = 2))
      = [3, 4, 5, 6, 7, 8, 9, 10, 11, 12, 13, 14].map (fun m => recordPath [0, m, 15]) ∧
    thirteenSorted.filter (fun p => decide (p.Length = 2))
      = [8, 3, 4, 5, 6, 7, 9, 10, 11, 12, 13, 14].map (fun m => recordPath [0, m, 15]) ∧
    thirteenSorted.filter (fun p => decide (p.Length = 2))
      ≠ thirteenPaths.filter (fun p => decide (p.Length = 2)) := by
  decide

/-- The routine `Slice` with the comparison of `findAllPaths` meets the contract
`SliceSorter`, whatever numbers `breakPatterns_func` draws. -/
theorem slice_is_sorter (rnd : Nat → Nat → Nat) :
    ∃ S : SliceSorter, ∀ l, Slice rnd lengthLess l = some (S.sort l) := by
  have hall : ∀ l : List Path, ∃ ys, Slice rnd lengthLess l = some ys ∧ ys.Perm l ∧
      ys.Pairwise (fun a b => a.Length ≤ b.Length) := by
    intro l
    rw [lengthLess_eq]
    exact slice_sorts rnd (fun p : Path => p.Length) l
  refine ⟨{ sort := fun l => (Slice rnd lengthLess l).getD l, perm := ?_, sorted := ?_ }, ?_⟩
  · intro l
    obtain ⟨ys, hys, hperm, _⟩ := hall l
    simp only [hys, Option.getD_some]
    exact hperm
  · intro l
    obtain ⟨ys, hys, _, hpw⟩ := hall l
    simp only [hys, Option.getD_some]
    exact hpw
  · intro l
    obtain ⟨ys, hys, _, _⟩ := hall l
    simp only [hys, Option.getD_some]

/-- C31 (amended): the call of `sort.Slice` in `findAllPaths`, with the routine of the Go
library and the comparison `paths[i].Length < paths[j].Length`, returns for every number of
enumerated paths and leaves them in ascending `Length`: the sorted slice is a permutation
of the enumerated paths, and for every `Length` the paths of that `Length` are the same
before and after. Paths of equal `Length` keep the order in which `dfs` discovered them
when at most 12 paths were enumerated, and the slice is unchanged when `dfs` found the
paths in ascending `Length`. The routine meets the contract `SliceSorter`, and
`findAllPaths` with it returns the selection from the sorted slice. -/
theorem sort_step_ascending (rnd : Nat → Nat → Nat) (rooms : List Room) (af : AntFarm)
    (found : List Path) (hfound : foundPaths rooms af = some found) :
    ∃ sorted, Slice rnd lengthLess found = some sorted ∧
      sortedBySlice rnd rooms af = some sorted ∧
      sorted.Perm found ∧
      sorted.Pairwise (fun a b => a.Length ≤ b.Length) ∧
      (∀ k : Int, (sorted.filter (fun p => decide (p.Length = k))).Perm
        (found.filter (fun p => decide (p.Length = k)))) ∧
      (found.length ≤ 12 → ∀ k : Int, sorted.filter (fun p => decide (p.Length = k))
        = found.filter (fun p => decide (p.Length = k))) ∧
      (found.Pairwise (fun a b => a.Length ≤ b.Length) → sorted = found) ∧
      ∃ S : SliceSorter, (∀ l, Slice rnd lengthLess l = some (S.sort l)) ∧
        sortedPaths S rooms af = some sorted ∧
        findAllPaths S rooms af = some (filterNonOverlappingPaths rooms sorted) := by
  obtain ⟨sorted, hs, hperm, hpw⟩ := slice_sorts rnd (fun p : Path => p.Length) found
  rw [← lengthLess_eq] at hs
  refine ⟨sorted, hs, ?_, hperm, hpw, fun k => hperm.filter _, ?_, ?_, ?_⟩
  · unfold sortedBySlice
    rw [hfound]
    exact hs
  · intro hshort k
    have h := slice_short rnd (fun p : Path => p.Length) found hshort
    rw [← lengthLess_eq] at h
    rw [h.1] at hs
    cases hs
    exact h.2 k
  · intro hasc
    have h := slice_sorted_fixed rnd (fun p : Path => p.Length) found hasc
    rw [← lengthLess_eq] at h
    rw [h] at hs
    cases hs
    rfl
  · obtain ⟨S, hS⟩ := slice_is_sorter rnd
    have hsort : S.sort found = sorted := by
      have := hS found
      rw [hs] at this
      cases this
      rfl
    have hsp : sortedPaths S rooms af = some sorted := by
      unfold sortedPaths
      rw [hfound, ← hsort]
      rfl
    refine ⟨S, hS, hsp, ?_⟩
    rw [findAllPaths_eq_sorted, hsp]
    rfl

theorem sort_step_ascending_witness :
    foundPaths roomsTwoRoutes farmTwoRoutes = some twoRoutePaths ∧
    ∃ sorted, Slice (fun _ _ => 0) lengthLess twoRoutePaths = some sorted ∧
      sortedBySlice (fun _ _ => 0) roomsTwoRoutes farmTwoRoutes = some sorted ∧
      sorted.Perm twoRoutePaths ∧
      sorted.Pairwise (fun a b => a.Length ≤ b.Length) ∧
      (∀ k : Int, (sorted.filter (fun p => decide (p.Length = k))).Perm
        (twoRoutePaths.filter (fun p => decide (p.Length = k)))) ∧
      (twoRoutePaths.length ≤ 12 → ∀ k : Int, sorted.filter (fun p => decide (p.Length = k))
        = twoRoutePaths.filter (fun p => decide (p.Length = k))) ∧
      (twoRoutePaths.Pairwise (fun a b => a.Length ≤ b.Length) → sorted = twoRoutePaths) ∧
      ∃ S : SliceSorter, (∀ l, Slice (fun _ _ => 0) lengthLess l = some (S.sort l)) ∧
        sortedPaths S roomsTwoRoutes farmTwoRoutes = some sorted ∧
        findAllPaths S roomsTwoRoutes farmTwoRoutes
          = some (filterNonOverlappingPaths roomsTwoRoutes sorted) :=
  ⟨by decide,
    sort_step_ascending (fun _ _ => 0) roomsTwoRoutes farmTwoRoutes twoRoutePaths
      (by decide)⟩

theorem thirteen_findAllPaths (rnd : Nat → Nat → Nat) (S : SliceSorter)
    (hS : ∀ l, Slice rnd lengthLess l = some (S.sort l)) :
    findAllPaths S roomsThirteen farmThirteen = some thirteenSorted := by
  have hsort : S.sort thirteenPaths = thirteenSorted := by
    have := hS thirteenPaths
    rw [thirteen_slice rnd] at this
    exact (Option.some.inj this).symm
  have hsp : sortedPaths S roomsThirteen farmThirteen = some thirteenSorted := by
    unfold sortedPaths
    rw [thirteen_found, Option.map_some', hsort]
  rw [findAllPaths_eq_sorted, hsp, Option.map_some', thirteen_filter]

set_option maxRecDepth 100000 in
/-- The run on the farm with the thirteen routes and one ant: with `sort.Slice` the ant
walks over m6, with a stable sort it would walk over m1. -/
theorem thirteen_transcript (rnd : Nat → Nat → Nat) (S : SliceSorter)
    (hS : ∀ l, Slice rnd lengthLess l = some (S.sort l)) (fuel : Nat) (hfuel : 3 ≤ fuel) :
    okTranscript (SimulateMovement S fuel roomsThirteen freshAnts farmThirteen)
      = some "L1-m6\nL1-end\n" ∧
    okTranscript (SimulateMovement insertionSorter 3 roomsThirteen freshAnts farmThirteen)
      = some "L1-m1\nL1-end\n" := by
  constructor
  · apply okTranscript_mono S roomsThirteen freshAnts farmThirteen 3 fuel _ hfuel
    unfold SimulateMovement assignAntsToPath
    rw [thirteen_findAllPaths rnd S hS]
    decide
  · decide

/-- C31 (counterexample): the farm with the thirteen routes. `dfs` finds the route of
`Length` 3 over x and y first and then the routes of `Length` 2 over m1, m2, ..., m12.
`sort.Slice`, whatever numbers it draws, leaves the route over m6 first, then the routes
over m1 to m5 and m7 to m12, then the route over x and y: the route over m6, discovered
after the routes over m1 to m5 and of their `Length`, stands before them. `findAllPaths`
returns the thirteen routes in that order, and the one ant walks over m6. -/
theorem sort_step_reorders_equal_paths :
    foundPaths roomsThirteen farmThirteen = some thirteenPaths ∧
    thirteenPaths.length = 13 ∧
    (∀ rnd, Slice rnd lengthLess thirteenPaths = some thirteenSorted) ∧
    (∀ rnd, sortedBySlice rnd roomsThirteen farmThirteen = some thirteenSorted) ∧
    thirteenPaths.filter (fun p => decide (p.Length = 2))
      = [3, 4, 5, 6, 7, 8, 9, 10, 11, 12, 13, 14].map (fun m => recordPath [0, m, 15]) ∧
    thirteenSorted.filter (fun p => decide (p.Length = 2))
      = [8, 3, 4, 5, 6, 7, 9, 10, 11, 12, 13, 14].map (fun m => recordPath [0, m, 15]) ∧
    thirteenSorted.filter (fun p => decide (p.Length = 2))
      ≠ thirteenPaths.filter (fun p => decide (p.Length = 2)) ∧
    (∀ (rnd : Nat → Nat → Nat) (S : SliceSorter),
      (∀ l, Slice rnd lengthLess l = some (S.sort l)) →
      findAllPaths S roomsThirteen farmThirteen = some thirteenSorted ∧
      okTranscript (SimulateMovement S 3 roomsThirteen freshAnts farmThirteen)
        = some "L1-m6\nL1-end\n") := by
  refine ⟨thirteen_found, rfl, thirteen_slice, ?_, thirteen_ties.1, thirteen_ties.2.1,
    thirteen_ties.2.2, ?_⟩
  · intro rnd
    unfold sortedBySlice
    rw [thirteen_found, Option.some_bind]
    exact thirteen_slice rnd
  · intro rnd S hS
    exact ⟨thirteen_findAllPaths rnd S hS,
      (thirteen_transcript rnd S hS 3 (le_refl 3)).1⟩

set_option maxRecDepth 1000000 in
set_option maxHeartbeats 2000000 in
/-- The loader builds the arena `roomsThirteen` from the lines `linesThirteen`: the rooms
with their names, flags and `Connected` lists, `Start` and `End`, without an error, and
`validate` accepts the farm. -/
theorem loader_builds_thirteen :
    (parseRoomsAndLinks fixtureText newLoader (scanOf linesThirteen)).2.2 = none ∧
    (parseRoomsAndLinks fixtureText newLoader (scanOf linesThirteen)).1.rooms.map
      (fun r => (r.Name, r.IsStart, r.IsEnd, r.Connected))
      = roomsThirteen.map (fun r => (r.Name, r.IsStart, r.IsEnd, r.Connected)) ∧
    (parseRoomsAndLinks fixtureText newLoader (scanOf linesThirteen)).1.af.Start
      = farmThirteen.Start ∧
    (parseRoomsAndLinks fixtureText newLoader (scanOf linesThirteen)).1.af.End
      = farmThirteen.End ∧
    validate (parseRoomsAndLinks fixtureText newLoader (scanOf linesThirteen)).1.af = none := by
  refine ⟨by decide, by decide, by decide, by decide, by decide⟩

end Antfarm
